import Mathlib

set_option autoImplicit false

/-!
# Bitmap allocator (libstdc++-v3/include/ext/bitmap_allocator.h)

A shallow embedding of `__gnu_cxx::bitmap_allocator` and of the helper classes
of namespace `balloc`, followed by theorems about the embedding.

Conventions of the embedding.

* Data model: `unsigned int` and `int` are 32 bits wide, `size_t` and
  `ptrdiff_t` are 64 bits wide.  Values of these types are `Nat`/`Int`, reduced
  explicitly where the C++ type wraps.
* Pointers are byte addresses (`Nat`), the null pointer is `0`.  Memory is a map
  from the byte address of an `unsigned int` object to its value.  Only the words
  read or written by the allocator are tracked.
* `S` is `sizeof(_Alloc_block)`, the size of one slot in bytes.
* A call either completes (`Outcome.ok`), propagates `std::bad_alloc`
  (`Outcome.bad_alloc`, with the state at the throw), or does not complete in a
  defined way (`Outcome.fault`: a read outside a vector, `__builtin_ctz(0)`,
  an exception leaving a `throw()` function).
* The static members of `bitmap_allocator<_Tp>` and of `free_list` form the
  record `State`.
-/

namespace BitmapAlloc

/-! ## Machine integers and memory -/

/-- The value of `sizeof(unsigned int)`. -/
def word_size : Nat := 4

/-- The enumerator `balloc::bits_per_byte`. -/
def bits_per_byte : Nat := 8

/-- The enumerator `balloc::bits_per_block`. -/
def bits_per_block : Nat := word_size * bits_per_byte

/-- Conversion to `unsigned int`. -/
def to_uint (z : Int) : Nat := (z % (2 ^ 32 : Int)).toNat

/-- Conversion to `size_t`. -/
def to_size_t (z : Int) : Nat := (z % (2 ^ 64 : Int)).toNat

/-- Conversion to `int` (two's complement truncation). -/
def to_int (z : Int) : Int := (z + 2 ^ 31) % (2 ^ 32 : Int) - 2 ^ 31

/-- Memory: the `unsigned int` stored at a byte address. -/
abbrev Memory := Nat → Nat

/-- The assignment `*a = v`. -/
def store (m : Memory) (a v : Nat) : Memory := fun x => if x = a then v else m x

/-- A pair `(first, second)` of `_Alloc_block*`: the first and the last slot of a chunk. -/
abbrev Block_pair := Nat × Nat

/-! ## `balloc::__mini_vector` -/

/-- The vector `[_M_start, _M_finish)` with `cap = _M_end_of_storage - _M_start`. -/
structure __mini_vector (α : Type) where
  elems : List α
  cap : Nat

namespace __mini_vector

variable {α : Type}

/-- The default constructor: all three pointers null. -/
def empty : __mini_vector α := { elems := [], cap := 0 }

/-- The member `size()`. -/
def size (v : __mini_vector α) : Nat := v.elems.length

/-- The member `_M_space_left()`. -/
def _M_space_left (v : __mini_vector α) : Nat := v.cap - v.elems.length

/-- The member `back()`, `*(end() - 1)`. -/
def back (v : __mini_vector α) : Option α := v.elems.getLast?

/-- The member `pop_back()`. -/
def pop_back (v : __mini_vector α) : __mini_vector α :=
  { v with elems := v.elems.dropLast }

/-- The loop `while (__to_move) { *__dest = *__src; --__dest; --__src; --__to_move; }`
of `insert`. -/
def insert_shift : List α → Nat → Nat → Nat → List α
  | xs, 0, _, _ => xs
  | xs, to_move + 1, dest, src =>
    match xs[src]? with
    | some y => insert_shift (xs.set dest y) to_move (dest - 1) (src - 1)
    | none => xs

/-- The member `insert(__pos, __x)`; `pos` is `__pos - begin()`.  `grow` tells whether
`::operator new` succeeds when new storage is needed; `none` is the `std::bad_alloc`
it throws otherwise.  In the first branch the slot at the old `end()` is raw storage:
it is written before it is read. -/
def insert (v : __mini_vector α) (pos : Nat) (x : α) (grow : Bool) :
    Option (__mini_vector α) :=
  if v._M_space_left ≠ 0 then
    some { elems := (insert_shift (v.elems ++ [x]) (v.size - pos) v.size (v.size - 1)).set pos x
           cap := v.cap }
  else
    if grow then
      some { elems := v.elems.take pos ++ x :: v.elems.drop pos
             cap := if v.size ≠ 0 then v.size * 2 else 1 }
    else none

/-- The member `push_back(__x)`. -/
def push_back (v : __mini_vector α) (x : α) (grow : Bool) : Option (__mini_vector α) :=
  if v._M_space_left ≠ 0 then
    some { elems := v.elems ++ [x], cap := v.cap }
  else v.insert v.size x grow

/-- The loop `while (__pos + 1 != end()) { *__pos = __pos[1]; ++__pos; }` of `erase`;
the first argument bounds the number of iterations. -/
def erase_loop : Nat → List α → Nat → List α
  | 0, xs, _ => xs
  | fuel + 1, xs, pos =>
    if pos + 1 ≠ xs.length then
      match xs[pos + 1]? with
      | some y => erase_loop fuel (xs.set pos y) (pos + 1)
      | none => xs
    else xs

/-- The member `erase(__pos)`; `pos` is `__pos - begin()`. -/
def erase (v : __mini_vector α) (pos : Nat) : __mini_vector α :=
  { v with elems := (erase_loop v.elems.length v.elems pos).dropLast }

end __mini_vector

/-! ## Algorithms of namespace `balloc` -/

/-- The loop of `balloc::__lower_bound` over the positions of `xs`; the first argument
bounds the number of iterations (`__len` decreases in each). -/
def __lower_bound_loop {α β : Type} (comp : α → β → Bool) (xs : List α) (val : β) :
    Nat → Nat → Nat → Nat
  | 0, first, _ => first
  | fuel + 1, first, len =>
    if 0 < len then
      match xs[first + len / 2]? with
      | some m =>
        if comp m val then
          __lower_bound_loop comp xs val fuel (first + len / 2 + 1) (len - len / 2 - 1)
        else __lower_bound_loop comp xs val fuel first (len / 2)
      | none => first
    else first

/-- The function `balloc::__lower_bound(__first, __last, __val, __comp)` on positions. -/
def __lower_bound {α β : Type} (comp : α → β → Bool) (xs : List α) (first last : Nat)
    (val : β) : Nat :=
  __lower_bound_loop comp xs val (last - first) first (last - first)

/-- The function `balloc::__find_if(__first, __last, __p)` for a functor `p` with state
`σ`: the position of the first hit (the length of the range when there is none) and
the functor's final state.  The second argument is the position of the head. -/
def __find_if {α σ : Type} (p : σ → α → Bool × σ) : List α → Nat → σ → Nat × σ
  | [], first, st => (first, st)
  | x :: xs, first, st =>
    if (p st x).1 then (first, (p st x).2) else __find_if p xs (first + 1) (p st x).2

/-- The function `balloc::__num_blocks`: `(second - first) + 1` on `_Alloc_block*`,
returned as `size_t`. -/
def __num_blocks (S : Nat) (ap : Block_pair) : Nat :=
  to_size_t (((ap.2 : Int) - (ap.1 : Int)) / (S : Int) + 1)

/-- The function `balloc::__num_bitmaps`. -/
def __num_bitmaps (S : Nat) (ap : Block_pair) : Nat :=
  __num_blocks S ap / bits_per_block

/-- The functor `balloc::_Inclusive_between(__ptr)` applied to a pair. -/
def _Inclusive_between (ptr : Nat) (bp : Block_pair) : Bool :=
  if ptr ≤ bp.2 ∧ ptr ≥ bp.1 then true else false

/-- The data members of `balloc::_Ffit_finder`. -/
structure _Ffit_finder where
  _M_pbitmap : Nat
  _M_data_offset : Nat

/-- The `for` loop of `_Ffit_finder::operator()`: `n` iterations remain, `i` is
`__i` and `rover` is `__rover`. -/
def _Ffit_finder.scan (mem : Memory) : Nat → Nat → Nat → _Ffit_finder → Bool × _Ffit_finder
  | 0, _, _, f => (false, f)
  | n + 1, i, rover, f =>
    if mem rover ≠ 0 then (true, { _M_pbitmap := rover, _M_data_offset := i % 2 ^ 32 })
    else _Ffit_finder.scan mem n (i + 1) (rover - word_size)
      { f with _M_data_offset := i % 2 ^ 32 }

/-- The member `_Ffit_finder::operator()(__bp)`. -/
def _Ffit_finder.call (S : Nat) (mem : Memory) (f : _Ffit_finder) (bp : Block_pair) :
    Bool × _Ffit_finder :=
  if mem (bp.1 - word_size * (__num_bitmaps S bp + 1)) = __num_blocks S bp then (false, f)
  else _Ffit_finder.scan mem (__num_bitmaps S bp) 0 (bp.1 - word_size) f

/-- The member `_Ffit_finder::_M_offset()`. -/
def _Ffit_finder._M_offset (f : _Ffit_finder) : Nat :=
  (f._M_data_offset * bits_per_block) % 2 ^ 32

/-- The data members of `balloc::_Bitmap_counter` (the vector it refers to is passed
to its members). -/
structure _Bitmap_counter where
  _M_curr_bmap : Nat
  _M_last_bmap_in_block : Nat
  _M_curr_index : Nat

namespace _Bitmap_counter

/-- The member `_M_reset(__index)`. -/
def _M_reset (S : Nat) (vbp : List Block_pair) (c : _Bitmap_counter) (index : Int) :
    Option _Bitmap_counter :=
  if index = -1 then
    some { c with _M_curr_bmap := 0, _M_curr_index := to_size_t (-1) }
  else
    match vbp[to_size_t index]? with
    | none => none
    | some bp =>
      some { _M_curr_bmap := bp.1 - word_size
             _M_last_bmap_in_block :=
               (((bp.1 - word_size : Nat) : Int) - (word_size : Int) *
                 (((((bp.2 : Int) - (bp.1 : Int)) / (S : Int) + 1).tdiv
                   (bits_per_block : Int)) - 1)).toNat
             _M_curr_index := to_size_t index }

/-- The member `_M_finished()`. -/
def _M_finished (c : _Bitmap_counter) : Bool := c._M_curr_bmap == 0

/-- The member `operator++()`. -/
def incr (S : Nat) (vbp : List Block_pair) (c : _Bitmap_counter) : Option _Bitmap_counter :=
  if c._M_curr_bmap = c._M_last_bmap_in_block then
    if (c._M_curr_index + 1) % 2 ^ 64 = vbp.length then
      some { c with _M_curr_bmap := 0, _M_curr_index := (c._M_curr_index + 1) % 2 ^ 64 }
    else
      _M_reset S vbp { c with _M_curr_index := (c._M_curr_index + 1) % 2 ^ 64 }
        (to_int (((c._M_curr_index + 1) % 2 ^ 64 : Nat) : Int))
  else some { c with _M_curr_bmap := c._M_curr_bmap - word_size }

/-- The member `_M_base()`. -/
def _M_base (vbp : List Block_pair) (c : _Bitmap_counter) : Option Nat :=
  (vbp[c._M_curr_index]?).map Prod.fst

/-- The member `_M_offset()`. -/
def _M_offset (vbp : List Block_pair) (c : _Bitmap_counter) : Option Nat :=
  (_M_base vbp c).map fun base =>
    to_uint ((bits_per_block : Int) *
      (((base : Int) - (c._M_curr_bmap : Int)) / (word_size : Int) - 1))

/-- The member `_M_where()`. -/
def _M_where (c : _Bitmap_counter) : Nat := c._M_curr_index % 2 ^ 32

end _Bitmap_counter

/-- The function `balloc::__bit_allocate(__pbmap, __pos)`. -/
def __bit_allocate (mem : Memory) (pbmap pos : Nat) : Memory :=
  store mem pbmap (mem pbmap &&& (((1 <<< pos) % 2 ^ 32) ^^^ (2 ^ 32 - 1)))

/-- The function `balloc::__bit_free(__pbmap, __pos)`. -/
def __bit_free (mem : Memory) (pbmap pos : Nat) : Memory :=
  store mem pbmap (mem pbmap ||| ((1 <<< pos) % 2 ^ 32))

/-- The function `_Bit_scan_forward(__num)`, `__builtin_ctz`: the index of the least
significant set bit; `none` for `0`, where the builtin is undefined. -/
def _Bit_scan_forward (num : Nat) : Option Nat :=
  (List.range 32).find? fun i => num.testBit i

/-! ## `free_list` -/

/-- The functor `free_list::_LT_pointer_compare`. -/
def _LT_pointer_compare (mem : Memory) (pui cui : Nat) : Bool := mem pui < cui

/-- The member `free_list::_M_validate(__addr)` on the vector `_S_free_list`: the new
vector and the pointers passed to `::operator delete`.  `none`: `insert` threw inside
this `throw()` function. -/
def _M_validate (mem : Memory) (fl : __mini_vector Nat) (addr : Nat) (grow : Bool) :
    Option (__mini_vector Nat × List Nat) :=
  if fl.size ≥ 64 then
    match fl.back with
    | none => none
    | some bk =>
      if mem addr ≥ mem bk then some (fl, [addr])
      else
        (fl.pop_back.insert
          (__lower_bound (_LT_pointer_compare mem) fl.pop_back.elems 0 fl.pop_back.size
            (mem addr))
          addr grow).map fun fl2 => (fl2, [bk])
  else
    (fl.insert (__lower_bound (_LT_pointer_compare mem) fl.elems 0 fl.size (mem addr))
      addr grow).map fun fl2 => (fl2, [])

/-- The member `free_list::_M_should_i_give(__block_size, __required_size)`. -/
def _M_should_i_give (block_size required_size : Nat) : Bool :=
  if block_size ≥ required_size ∧
      ((block_size - required_size) * 100 % 2 ^ 32) / block_size < 36 then true
  else false

/-- The member `free_list::_M_insert(__addr)`. -/
def _M_insert (mem : Memory) (fl : __mini_vector Nat) (addr : Nat) (grow : Bool) :
    Option (__mini_vector Nat × List Nat) :=
  _M_validate mem fl (addr - word_size) grow

/-- Modelled from the spec: `free_list::_M_get` is declared in the header and defined
outside it.  The cache is searched with `__lower_bound` for the first entry whose key
`*entry` is not less than the required size `sz`; an entry found that passes
`_M_should_i_give` is removed and returned; otherwise `raw sz`, the result of the raw
allocator for exactly `sz` bytes, is returned; `none` is its failure (`OutOfMemory`). -/
def _M_get (mem : Memory) (fl : __mini_vector Nat) (sz : Nat) (raw : Nat → Option Nat) :
    Option (Nat × __mini_vector Nat) :=
  match fl.elems[__lower_bound (_LT_pointer_compare mem) fl.elems 0 fl.size sz]? with
  | some e =>
    if _M_should_i_give (mem e) sz then
      some (e, fl.erase (__lower_bound (_LT_pointer_compare mem) fl.elems 0 fl.size sz))
    else (raw sz).map fun p => (p, fl)
  | none => (raw sz).map fun p => (p, fl)

/-! ## `bitmap_allocator` -/

/-- The member `aligned_size<_BSize, _AlignSize>::value`. -/
def aligned_size (bsize align : Nat) : Nat :=
  bsize + (if bsize % align ≠ 0 then align - bsize % align else 0)

/-- The value of `sizeof(_Alloc_block)` for `sizeof(value_type) = szT`. -/
def sizeof_Alloc_block (szT : Nat) : Nat := aligned_size szT 8

/-- The static data of `bitmap_allocator<_Tp>` and of `free_list`, with the memory
they point into.  The field `released` lists the pointers passed to
`::operator delete`, the latest first. -/
structure State where
  mem : Memory
  _S_mem_blocks : __mini_vector Block_pair
  _S_block_size : Nat
  _S_last_request : _Bitmap_counter
  _S_last_dealloc_index : Nat
  _S_free_list : __mini_vector Nat
  released : List Nat

/-- The state after static initialisation, over the memory `m`: `_S_block_size` is
`bits_per_block`, `_S_last_request` is constructed with index `-1` over zeroed
storage, both vectors are empty. -/
def State.fresh (m : Memory) : State :=
  { mem := m
    _S_mem_blocks := __mini_vector.empty
    _S_block_size := bits_per_block
    _S_last_request :=
      { _M_curr_bmap := 0, _M_last_bmap_in_block := 0, _M_curr_index := to_size_t (-1) }
    _S_last_dealloc_index := 0
    _S_free_list := __mini_vector.empty
    released := [] }

/-- What the environment answers during one call: `raw sz` is the result of
`::operator new(sz)` inside `free_list::_M_get` (`none`: it throws), `grow` tells
whether `::operator new` succeeds for the storage of a `__mini_vector`. -/
structure Env where
  raw : Nat → Option Nat
  grow : Bool

/-- The outcome of a call. -/
inductive Outcome (α : Type) where
  | ok (a : α) : Outcome α
  | bad_alloc (s : State) : Outcome α
  | fault : Outcome α

/-- The loop `for (__i = 0; __i < __num_bitmaps; ++__i) __temp[__i] = __bit_mask;`:
`n` iterations remain. -/
def fill_bitmaps (temp mask : Nat) : Nat → Nat → Memory → Memory
  | 0, _, mem => mem
  | n + 1, i, mem => fill_bitmaps temp mask n (i + 1) (store mem (temp + word_size * i) mask)

/-- The address `__puse_count` of the use-count word of a chunk, as `_Ffit_finder`,
`_M_allocate_single_object` and `_M_deallocate_single_object` compute it from the pair:
`(char*)first - sizeof(unsigned int) * (__num_bitmaps(pair) + 1)`. -/
def use_count_addr (S : Nat) (bp : Block_pair) : Nat :=
  bp.1 - word_size * (__num_bitmaps S bp + 1)

/-- The statement `++(*__puse_count)` for the chunk `bp`. -/
def incr_use_count (S : Nat) (mem : Memory) (bp : Block_pair) : Memory :=
  store mem (use_count_addr S bp) ((mem (use_count_addr S bp) + 1) % 2 ^ 32)

/-- The statement `--(*__puse_count)` for the chunk `bp`. -/
def decr_use_count (S : Nat) (mem : Memory) (bp : Block_pair) : Memory :=
  store mem (use_count_addr S bp) (to_uint ((mem (use_count_addr S bp) : Int) - 1))

/-- The value `__size_to_allocate` of `_S_refill_pool` in state `s`. -/
def refill_size (S : Nat) (s : State) : Nat :=
  (word_size + s._S_block_size * S + s._S_block_size / bits_per_block * word_size) % 2 ^ 32

/-- The pair `__bp` that `_S_refill_pool` builds in a block at address `b` when
`_S_block_size` is `G`: `__temp` is `b + sizeof(unsigned int)`, the first slot is
`__temp + __num_bitmaps`, the last is `first + _S_block_size - 1`. -/
def refill_pair (S G b : Nat) : Block_pair :=
  (b + word_size + word_size * (G / bits_per_block),
    b + word_size + word_size * (G / bits_per_block) + G * S - S)

/-- The member `bitmap_allocator::_S_refill_pool()`. -/
def _S_refill_pool (S : Nat) (env : Env) (s : State) : Outcome State :=
  match _M_get s.mem s._S_free_list (refill_size S s) env.raw with
  | none => Outcome.bad_alloc s
  | some (temp, fl) =>
    match s._S_mem_blocks.push_back (refill_pair S s._S_block_size temp) env.grow with
    | none => Outcome.bad_alloc { s with mem := store s.mem temp 0, _S_free_list := fl }
    | some vbp =>
      Outcome.ok
        { s with
          mem := fill_bitmaps (temp + word_size) (2 ^ 32 - 1)
            (s._S_block_size / bits_per_block) 0 (store s.mem temp 0)
          _S_mem_blocks := vbp
          _S_block_size := (s._S_block_size * 2) % 2 ^ 32
          _S_free_list := fl }

/-- The loop `while (_S_last_request._M_finished() == false
&& *_S_last_request._M_get() == 0) _S_last_request.operator++();`.  The first
argument bounds the number of iterations; `none` when it is exceeded or `operator++`
reads outside the vector. -/
def advance_request (S : Nat) (mem : Memory) (vbp : List Block_pair) :
    Nat → _Bitmap_counter → Option _Bitmap_counter
  | 0, c => if c._M_finished = false ∧ mem c._M_curr_bmap = 0 then none else some c
  | fuel + 1, c =>
    if c._M_finished = false ∧ mem c._M_curr_bmap = 0 then
      match c.incr S vbp with
      | none => none
      | some c1 => advance_request S mem vbp fuel c1
    else some c

/-- The number of bitmap words of all registered chunks: the loop of
`_M_allocate_single_object` visits each of them at most once. -/
def request_fuel (S : Nat) (vbp : List Block_pair) : Nat :=
  (vbp.map (__num_bitmaps S)).sum

/-- The end of `_M_allocate_single_object` (from the comment "_S_last_request holds a
pointer to a valid bit map"): the lowest set bit of the word under `_S_last_request` is
cleared, the use-count of the chunk `_S_mem_blocks[_M_where()]` is incremented and
`_M_base() + _M_offset() + __nz_bit` is returned. -/
def allocate_from_request (S : Nat) (s : State) : Outcome (State × Nat) :=
  match _Bit_scan_forward (s.mem s._S_last_request._M_curr_bmap),
      s._S_last_request._M_base s._S_mem_blocks.elems,
      s._S_last_request._M_offset s._S_mem_blocks.elems,
      s._S_mem_blocks.elems[s._S_last_request._M_where]? with
  | some nz_bit, some base, some off, some bp =>
    Outcome.ok
      ({ s with
         mem := incr_use_count S
           (__bit_allocate s.mem s._S_last_request._M_curr_bmap nz_bit) bp },
        base + (off + nz_bit) * S)
  | _, _, _, _ => Outcome.fault

/-- The branch "Search was successful" of `_M_allocate_single_object`: `bpi` is
`__bpi - _S_mem_blocks.begin()` and `fff` the finder after the search. -/
def allocate_first_fit (S : Nat) (s : State) (bpi : Nat) (fff : _Ffit_finder) :
    Outcome (State × Nat) :=
  match _Bit_scan_forward (s.mem fff._M_pbitmap), s._S_mem_blocks.elems[bpi]?,
      s._S_last_request._M_reset S s._S_mem_blocks.elems (to_int (bpi : Int)) with
  | some nz_bit, some bp, some c =>
    Outcome.ok
      ({ s with
         mem := incr_use_count S (__bit_allocate s.mem fff._M_pbitmap nz_bit) bp
         _S_last_request := c },
        bp.1 + (fff._M_offset + nz_bit) * S)
  | _, _, _ => Outcome.fault

/-- The statements after `_S_refill_pool()` in the branch "Search was unsuccessful":
`_S_last_request._M_reset(_S_mem_blocks.size() - 1)`, then the end of the function. -/
def allocate_in_new_chunk (S : Nat) (s : State) : Outcome (State × Nat) :=
  match s._S_last_request._M_reset S s._S_mem_blocks.elems
      (to_int ((s._S_mem_blocks.size : Int) - 1)) with
  | none => Outcome.fault
  | some c => allocate_from_request S { s with _S_last_request := c }

/-- The branch "Search was unsuccessful" of `_M_allocate_single_object`. -/
def allocate_refill (S : Nat) (env : Env) (s : State) : Outcome (State × Nat) :=
  match _S_refill_pool S env s with
  | Outcome.bad_alloc s2 => Outcome.bad_alloc s2
  | Outcome.fault => Outcome.fault
  | Outcome.ok s2 => allocate_in_new_chunk S s2

/-- The part of `_M_allocate_single_object` after the loop, in a state whose cursor the
loop has advanced: `r` is the result of the first-fit search, used when the cursor is
finished. -/
def allocate_after_loop (S : Nat) (env : Env) (s : State) (r : Nat × _Ffit_finder) :
    Outcome (State × Nat) :=
  if s._S_last_request._M_finished = true then
    if r.1 ≠ s._S_mem_blocks.elems.length then allocate_first_fit S s r.1 r.2
    else allocate_refill S env s
  else allocate_from_request S s

/-- The member `bitmap_allocator::_M_allocate_single_object()`. -/
def _M_allocate_single_object (S : Nat) (env : Env) (s : State) : Outcome (State × Nat) :=
  match advance_request S s.mem s._S_mem_blocks.elems
      (request_fuel S s._S_mem_blocks.elems) s._S_last_request with
  | none => Outcome.fault
  | some c =>
    allocate_after_loop S env { s with _S_last_request := c }
      (__find_if (_Ffit_finder.call S s.mem) s._S_mem_blocks.elems 0
        { _M_pbitmap := 0, _M_data_offset := 0 })

/-- The memory after `__bit_free(__bitmapC, __rotate)` and `--(*__puse_count)` in
`_M_deallocate_single_object`, for the chunk `bp` and `__displacement`:
`__rotate = __displacement % bits_per_block` and
`__bitmapC = (unsigned int*)first - 1 - __displacement / bits_per_block`. -/
def release_mem (S : Nat) (mem : Memory) (bp : Block_pair) (displacement : Int) : Memory :=
  decr_use_count S
    (__bit_free mem
      ((((bp.1 - word_size : Nat) : Int)
        - (word_size : Int) * displacement.tdiv (bits_per_block : Int)).toNat)
      (to_uint (displacement.tmod (bits_per_block : Int)))) bp

/-- The branch `*__puse_count == 0` of `_M_deallocate_single_object` for the chunk `bp`
at index `diff`: `_S_block_size /= 2`, `_M_insert(__puse_count)`, `erase`, the reset of
`_S_last_request` when `_M_where() >= __diff--`, the repair of
`_S_last_dealloc_index`. -/
def reclaim_chunk (S : Nat) (grow : Bool) (s : State) (diff : Nat) (bp : Block_pair) :
    Outcome State :=
  match _M_insert s.mem s._S_free_list (use_count_addr S bp) grow,
      (if (s._S_last_request._M_where : Int) ≥ (diff : Int) then
        s._S_last_request._M_reset S (s._S_mem_blocks.erase diff).elems
          (to_int ((diff : Int) - 1))
      else some s._S_last_request) with
  | some r, some c =>
    Outcome.ok
      { mem := s.mem
        _S_mem_blocks := s._S_mem_blocks.erase diff
        _S_block_size := s._S_block_size / 2
        _S_last_request := c
        _S_last_dealloc_index :=
          if s._S_last_dealloc_index ≥ (s._S_mem_blocks.erase diff).size then
            (if (diff : Int) - 1 ≠ -1 then to_size_t ((diff : Int) - 1) else 0)
          else s._S_last_dealloc_index
        _S_free_list := r.1
        released := r.2 ++ s.released }
  | _, _ => Outcome.fault

/-- The part of `_M_deallocate_single_object` that follows the search: `diff` is
`__diff`, `displacement` is `__displacement`. -/
def deallocate_at (S : Nat) (grow : Bool) (s : State) (diff : Nat) (displacement : Int) :
    Outcome State :=
  match s._S_mem_blocks.elems[diff]? with
  | none => Outcome.fault
  | some bp =>
    if release_mem S s.mem bp displacement (use_count_addr S bp) = 0 then
      reclaim_chunk S grow { s with mem := release_mem S s.mem bp displacement } diff bp
    else Outcome.ok { s with mem := release_mem S s.mem bp displacement }

/-- The member `bitmap_allocator::_M_deallocate_single_object(__p)`. -/
def _M_deallocate_single_object (S : Nat) (grow : Bool) (s : State) (p : Nat) :
    Outcome State :=
  match s._S_mem_blocks.elems[s._S_last_dealloc_index]? with
  | none => Outcome.fault
  | some bp0 =>
    if _Inclusive_between p bp0 = true then
      deallocate_at S grow s s._S_last_dealloc_index
        (to_int (((p : Int) - (bp0.1 : Int)) / (S : Int)))
    else
      match s._S_mem_blocks.elems[(__find_if
          (fun (u : Unit) bp => (_Inclusive_between p bp, u)) s._S_mem_blocks.elems 0 ()).1]? with
      | none => Outcome.fault
      | some bp =>
        deallocate_at S grow
          { s with _S_last_dealloc_index :=
              (__find_if (fun (u : Unit) bp => (_Inclusive_between p bp, u))
                s._S_mem_blocks.elems 0 ()).1 }
          (__find_if (fun (u : Unit) bp => (_Inclusive_between p bp, u))
            s._S_mem_blocks.elems 0 ()).1
          (to_int (((p : Int) - (bp.1 : Int)) / (S : Int)))

/-- The member `bitmap_allocator::allocate(__n)` for `sizeof(value_type) = szT`: the
sizes that the member itself passes to `::operator new` (the requests of the
single-object path are made inside `free_list::_M_get`), and the outcome.  `__n` is a
`size_t`, the product wraps modulo `2 ^ 64`, and `env.raw b` is the result of
`::operator new(b)`. -/
def allocate (szT : Nat) (env : Env) (s : State) (n : Nat) :
    List Nat × Outcome (State × Nat) :=
  if n = 1 then ([], _M_allocate_single_object (sizeof_Alloc_block szT) env s)
  else
    ([(n * szT) % 2 ^ 64],
      match env.raw ((n * szT) % 2 ^ 64) with
      | some p => Outcome.ok (s, p)
      | none => Outcome.bad_alloc s)

/-- The member `bitmap_allocator::deallocate(__p, __n)`. -/
def deallocate (szT : Nat) (grow : Bool) (s : State) (p n : Nat) : Outcome State :=
  if p ≠ 0 then
    if n = 1 then _M_deallocate_single_object (sizeof_Alloc_block szT) grow s p
    else Outcome.ok { s with released := p :: s.released }
  else Outcome.ok s

/-! ## Vocabulary of the statements -/

/-- The address of bitmap word `k` of a chunk, counted backwards from the slot base. -/
def bitmap_addr (bp : Block_pair) (k : Nat) : Nat := bp.1 - word_size * (k + 1)

/-- The use-count of a chunk. -/
def use_count (S : Nat) (mem : Memory) (bp : Block_pair) : Nat := mem (use_count_addr S bp)

/-- The number of set bits among the 32 bits of a word. -/
def popcount (w : Nat) : Nat := (List.range 32).countP fun i => w.testBit i

/-- The number of set bits in the bitmap of a chunk. -/
def free_slots (S : Nat) (mem : Memory) (bp : Block_pair) : Nat :=
  ((List.range (__num_bitmaps S bp)).map fun k => popcount (mem (bitmap_addr bp k))).sum

/-- The address of slot `d` of a chunk. -/
def slot_addr (S : Nat) (bp : Block_pair) (d : Nat) : Nat := bp.1 + d * S

/-- The bitmap bit of slot `d` of a chunk: bit `d mod 32` of word `d / 32`. -/
def slot_bit (mem : Memory) (bp : Block_pair) (d : Nat) : Bool :=
  (mem (bitmap_addr bp (d / 32))).testBit (d % 32)

/-- The pair describes a chunk of `32 * n` slots, `1 ≤ n ≤ 2 ^ 26`, whose header
(use-count and `n` bitmap words) lies below the slot base at a non-null address. -/
def WfChunk (S : Nat) (bp : Block_pair) : Prop :=
  ∃ n, 1 ≤ n ∧ n ≤ 2 ^ 26 ∧ bp.2 = bp.1 + (32 * n - 1) * S ∧ word_size * (n + 1) < bp.1

/-- The first byte after the last slot of a chunk. -/
def chunk_end (S : Nat) (bp : Block_pair) : Nat := bp.2 + S

/-- Two chunks, from use-count word to last slot, do not overlap. -/
def chunks_disjoint (S : Nat) (a b : Block_pair) : Prop :=
  chunk_end S a ≤ use_count_addr S b ∨ chunk_end S b ≤ use_count_addr S a

/-- The cursor is finished, or it is on a bitmap word of the registered chunk
`_M_curr_index` and `_M_last_bmap_in_block` is the last bitmap word of that chunk. -/
def RequestOK (S : Nat) (vbp : List Block_pair) (c : _Bitmap_counter) : Prop :=
  c._M_curr_bmap = 0 ∨
    ∃ bp k, vbp[c._M_curr_index]? = some bp ∧ k < __num_bitmaps S bp ∧
      c._M_curr_bmap = bitmap_addr bp k ∧
      c._M_last_bmap_in_block = bitmap_addr bp (__num_bitmaps S bp - 1)

/-- The assumption on the environment of one `allocate(1)` call in state `s`: a block
handed to `_S_refill_pool` is not null, holds the chunk laid out in it, and overlaps
no registered chunk. -/
def EnvOK (S : Nat) (s : State) (env : Env) : Prop :=
  ∀ b fl, _M_get s.mem s._S_free_list (refill_size S s) env.raw = some (b, fl) →
    0 < b ∧ ∀ bp ∈ s._S_mem_blocks.elems,
      b + word_size * (s._S_block_size / bits_per_block + 1) + s._S_block_size * S
          ≤ use_count_addr S bp ∨
        chunk_end S bp ≤ b

/-- The states reachable from a fresh allocator by `allocate(1)` calls (completed, or
failed with `std::bad_alloc`) and by `deallocate(p, 1)` calls on pointers that are
currently allocated; the list holds the currently allocated pointers. -/
inductive Reach (S : Nat) : State → List Nat → Prop
  | fresh (m : Memory) : Reach S (State.fresh m) []
  | alloc {s s1 : State} {live : List Nat} {env : Env} {p : Nat} :
      Reach S s live → EnvOK S s env →
      _M_allocate_single_object S env s = Outcome.ok (s1, p) → Reach S s1 (p :: live)
  | alloc_failed {s s1 : State} {live : List Nat} {env : Env} :
      Reach S s live → EnvOK S s env →
      _M_allocate_single_object S env s = Outcome.bad_alloc s1 → Reach S s1 live
  | dealloc {s s1 : State} {live : List Nat} {grow : Bool} {p : Nat} :
      Reach S s live → p ∈ live →
      _M_deallocate_single_object S grow s p = Outcome.ok s1 → Reach S s1 (live.erase p)

/-- The states reachable as in `Reach` by runs in which the registry holds fewer than
`n` chunks after every call. -/
inductive ReachBelow (S n : Nat) : State → List Nat → Prop
  | fresh (m : Memory) : ReachBelow S n (State.fresh m) []
  | alloc {s s1 : State} {live : List Nat} {env : Env} {p : Nat} :
      ReachBelow S n s live → EnvOK S s env →
      _M_allocate_single_object S env s = Outcome.ok (s1, p) →
      s1._S_mem_blocks.elems.length < n → ReachBelow S n s1 (p :: live)
  | alloc_failed {s s1 : State} {live : List Nat} {env : Env} :
      ReachBelow S n s live → EnvOK S s env →
      _M_allocate_single_object S env s = Outcome.bad_alloc s1 →
      s1._S_mem_blocks.elems.length < n → ReachBelow S n s1 live
  | dealloc {s s1 : State} {live : List Nat} {grow : Bool} {p : Nat} :
      ReachBelow S n s live → p ∈ live →
      _M_deallocate_single_object S grow s p = Outcome.ok s1 →
      s1._S_mem_blocks.elems.length < n → ReachBelow S n s1 (live.erase p)

/-- The invariant of the reachable states. -/
structure Inv (S : Nat) (s : State) (live : List Nat) : Prop where
  wf : ∀ bp ∈ s._S_mem_blocks.elems, WfChunk S bp
  disj : s._S_mem_blocks.elems.Pairwise (chunks_disjoint S)
  words : ∀ bp ∈ s._S_mem_blocks.elems, ∀ k < __num_bitmaps S bp,
    s.mem (bitmap_addr bp k) < 2 ^ 32
  count : ∀ bp ∈ s._S_mem_blocks.elems,
    use_count S s.mem bp + free_slots S s.mem bp = __num_blocks S bp
  request : RequestOK S s._S_mem_blocks.elems s._S_last_request
  hint : s._S_last_dealloc_index < s._S_mem_blocks.elems.length ∨
    (s._S_mem_blocks.elems.length = 0 ∧ s._S_last_dealloc_index = 0)
  growth : (s._S_block_size = 0 ∧ s._S_mem_blocks.elems.length ≤ 27) ∨
    (s._S_block_size = 32 * 2 ^ s._S_mem_blocks.elems.length ∧
      s._S_mem_blocks.elems.length ≤ 26)
  live_nodup : live.Nodup
  live_iff : ∀ p, p ∈ live ↔ ∃ bp ∈ s._S_mem_blocks.elems, ∃ d < __num_blocks S bp,
    p = slot_addr S bp d ∧ slot_bit s.mem bp d = false

/-- The assumption on the environment of one `allocate(1)` call in state `s` that a
block handed to `_S_refill_pool` is not null.  Nothing is assumed about its size or
about where it lies. -/
def BlockOK (S : Nat) (s : State) (env : Env) : Prop :=
  ∀ b fl, _M_get s.mem s._S_free_list (refill_size S s) env.raw = some (b, fl) → 0 < b

/-- The runs of the single-object interface: `allocate(1)` calls (completed, or failed
with `std::bad_alloc`) in environments whose blocks are not null, `deallocate(p, 1)`
calls on pointers that are currently allocated, and stores of the program into the slot
of a pointer that is currently allocated.  The list holds the pointers returned and not
yet deallocated. -/
inductive Run (S : Nat) : State → List Nat → Prop
  | fresh (m : Memory) : Run S (State.fresh m) []
  | alloc {s s1 : State} {live : List Nat} {env : Env} {p : Nat} :
      Run S s live → BlockOK S s env →
      _M_allocate_single_object S env s = Outcome.ok (s1, p) → Run S s1 (p :: live)
  | alloc_failed {s s1 : State} {live : List Nat} {env : Env} :
      Run S s live → BlockOK S s env →
      _M_allocate_single_object S env s = Outcome.bad_alloc s1 → Run S s1 live
  | dealloc {s s1 : State} {live : List Nat} {grow : Bool} {p : Nat} :
      Run S s live → p ∈ live →
      _M_deallocate_single_object S grow s p = Outcome.ok s1 → Run S s1 (live.erase p)
  | store {s : State} {live : List Nat} {p : Nat} (a v : Nat) :
      Run S s live → p ∈ live → p ≤ a → a < p + S →
      Run S { s with mem := BitmapAlloc.store s.mem a v } live

/-- The part of the invariant that does not mention the memory: the registered pairs
are well formed, the cursor is finished or on a bitmap word of the chunk at its index,
`_S_last_dealloc_index` is an index of the registry, and `_S_block_size` follows the
size of the registry. -/
structure CursorInv (S : Nat) (s : State) : Prop where
  wf : ∀ bp ∈ s._S_mem_blocks.elems, WfChunk S bp
  request : RequestOK S s._S_mem_blocks.elems s._S_last_request
  hint : s._S_last_dealloc_index < s._S_mem_blocks.elems.length ∨
    (s._S_mem_blocks.elems.length = 0 ∧ s._S_last_dealloc_index = 0)
  growth : (s._S_block_size = 0 ∧ s._S_mem_blocks.elems.length ≤ 27) ∨
    (s._S_block_size = 32 * 2 ^ s._S_mem_blocks.elems.length ∧
      s._S_mem_blocks.elems.length ≤ 26)

/-- The memory `mem1` agrees with `mem` on the header of a chunk: its use-count word
and its bitmap words. -/
def header_agree (S : Nat) (mem mem1 : Memory) (bp : Block_pair) : Prop :=
  ∀ a, use_count_addr S bp ≤ a → a < bp.1 → mem1 a = mem a

/-- The state after the last step of `_M_allocate_single_object` on `s`: bit `b` of
bitmap word `k` of the chunk `bp` is cleared, the use-count of `bp` is incremented and
the cursor is `c`. -/
def claim_state (S : Nat) (s : State) (bp : Block_pair) (k b : Nat) (c : _Bitmap_counter) :
    State :=
  { s with
    mem := incr_use_count S (__bit_allocate s.mem (bitmap_addr bp k) b) bp
    _S_last_request := c }

/-- The state after a completed `_S_refill_pool` that obtained the block at `b`, with
the cursor `c`. -/
def refill_state (s : State) (b : Nat) (fl : __mini_vector Nat)
    (vbp : __mini_vector Block_pair) (c : _Bitmap_counter) : State :=
  { s with
    mem := fill_bitmaps (b + word_size) (2 ^ 32 - 1) (s._S_block_size / bits_per_block) 0
      (store s.mem b 0)
    _S_mem_blocks := vbp
    _S_block_size := (s._S_block_size * 2) % 2 ^ 32
    _S_last_request := c
    _S_free_list := fl }

/-- The state after the bit of slot `d` of the chunk `bp` is set and the use-count of
`bp` is decremented, as `_M_deallocate_single_object` does before it tests the
use-count. -/
def release_state (S : Nat) (s : State) (bp : Block_pair) (d : Nat) : State :=
  { s with mem := decr_use_count S (__bit_free s.mem (bitmap_addr bp (d / 32)) (d % 32)) bp }

/-- Every registered chunk is full: its use-count equals its number of slots. -/
def AllFull (S : Nat) (s : State) : Prop :=
  ∀ bp ∈ s._S_mem_blocks.elems, use_count S s.mem bp = __num_blocks S bp

/-- The cursor that `_M_reset` produces for a registered chunk `bp` at index `i`. -/
def request_at (S : Nat) (bp : Block_pair) (i : Nat) : _Bitmap_counter :=
  { _M_curr_bmap := bitmap_addr bp 0
    _M_last_bmap_in_block := bitmap_addr bp (__num_bitmaps S bp - 1)
    _M_curr_index := i }

/-- Every registered chunk holds at least one allocated slot. -/
def AllUsed (S : Nat) (s : State) : Prop :=
  ∀ bp ∈ s._S_mem_blocks.elems, 1 ≤ use_count S s.mem bp

/-- The number of free slots of all registered chunks. -/
def free_total (S : Nat) (s : State) : Nat :=
  (s._S_mem_blocks.elems.map (free_slots S s.mem)).sum

/-! ## Runs of calls -/

/-- The call completed. -/
def Outcome.completed {α : Type} : Outcome α → Bool
  | Outcome.ok _ => true
  | _ => false

/-- The result of a completed call, `d` for the other outcomes. -/
def Outcome.result {α : Type} (d : α) : Outcome α → α
  | Outcome.ok a => a
  | _ => d

/-- The memory that holds `0` at every address. -/
def zero_mem : Memory := fun _ => 0

/-- The environment in which the raw allocator answers with the block at `b` and the
storage of a vector can grow. -/
def env_at (b : Nat) : Env := { raw := fun _ => some b, grow := true }

/-- One call of the single-object interface, with what the environment answers. -/
inductive Call where
  | allocate (env : Env) : Call
  | deallocate (p : Nat) (grow : Bool) : Call

/-- The test of `EnvOK` by evaluation. -/
def env_ok (S : Nat) (s : State) (env : Env) : Bool :=
  match _M_get s.mem s._S_free_list (refill_size S s) env.raw with
  | none => true
  | some r =>
    decide (0 < r.1) && s._S_mem_blocks.elems.all fun bp =>
      decide (r.1 + word_size * (s._S_block_size / bits_per_block + 1)
          + s._S_block_size * S ≤ use_count_addr S bp) ||
        decide (chunk_end S bp ≤ r.1)

/-- The state and the allocated pointers after one call.  A call outside the reachable
runs (the environment fails `env_ok`, the pointer is not allocated) or one that ends
in a fault is skipped. -/
def run_call (S : Nat) (st : State × List Nat) : Call → State × List Nat
  | Call.allocate env =>
    if env_ok S st.1 env = true then
      match _M_allocate_single_object S env st.1 with
      | Outcome.ok r => (r.1, r.2 :: st.2)
      | Outcome.bad_alloc s1 => (s1, st.2)
      | Outcome.fault => st
    else st
  | Call.deallocate p grow =>
    if p ∈ st.2 then
      match _M_deallocate_single_object S grow st.1 p with
      | Outcome.ok s1 => (s1, st.2.erase p)
      | _ => st
    else st

/-- The state and the allocated pointers after a sequence of calls on a fresh allocator
whose memory is `m`. -/
def run_calls (S : Nat) (m : Memory) (calls : List Call) : State × List Nat :=
  calls.foldl (run_call S) (State.fresh m, [])

/-- The run of one `allocate(1)` call on a fresh allocator whose memory is `zero_mem`,
for slots of 8 bytes and a raw allocator that answers with the block at 1000. -/
def one_alloc : State × List Nat := run_calls 8 zero_mem [Call.allocate (env_at 1000)]

/-- The state and the pointer after a second `allocate(1)`, on `one_alloc`. -/
def second_alloc : State × Nat :=
  (_M_allocate_single_object 8 (env_at 5000) one_alloc.1).result (State.fresh zero_mem, 0)

/-- The state after the pointer of `second_alloc` is deallocated. -/
def second_alloc_undone : State :=
  (_M_deallocate_single_object 8 true second_alloc.1 second_alloc.2).result
    (State.fresh zero_mem)

/-! ## Runs of refills -/

/-- The states in which `k` calls of `_S_refill_pool` have completed since the fresh
allocator and no chunk was reclaimed: between the refills any steps may happen that
leave the registry and `_S_block_size` as they are (allocations from registered chunks,
deallocations that reclaim no chunk). -/
inductive RefillRun (S : Nat) : Nat → State → Prop
  | fresh (m : Memory) : RefillRun S 0 (State.fresh m)
  | refill {k : Nat} {s s1 : State} {env : Env} :
      RefillRun S k s → _S_refill_pool S env s = Outcome.ok s1 → RefillRun S (k + 1) s1
  | other {k : Nat} {s s1 : State} :
      RefillRun S k s → s1._S_mem_blocks = s._S_mem_blocks →
      s1._S_block_size = s._S_block_size → RefillRun S k s1

/-- The state after calls of `_S_refill_pool`, one for each environment of the list;
`none` when one of them does not complete. -/
def refill_run (S : Nat) : List Env → State → Option State
  | [], s => some s
  | env :: envs, s =>
    match _S_refill_pool S env s with
    | Outcome.ok s1 => refill_run S envs s1
    | _ => none

/-- Environments for `k` refills whose blocks lie `2 ^ 40` bytes apart. -/
def far_envs (k : Nat) : List Env := (List.range k).map fun i => env_at (2 ^ 40 * (i + 1))

/-- The state after `k` refills on a fresh allocator whose memory is `zero_mem`, for
slots of 8 bytes and the environments `far_envs k`. -/
def after_refills (k : Nat) : State :=
  (refill_run 8 (far_envs k) (State.fresh zero_mem)).getD (State.fresh zero_mem)

/-- An address past the end of every chunk of the list. -/
def past_chunks (S : Nat) (vbp : List Block_pair) : Nat := (vbp.map (chunk_end S)).sum + 1

/-! ## Runs of cache insertions -/

/-- The cache after the calls `_M_validate(addr)` of the list, one after the other; each
call comes with the memory at its time and with whether the storage of the vector can
grow.  `none` when one of the calls does not complete. -/
def validate_run : List (Memory × Nat × Bool) → __mini_vector Nat → Option (__mini_vector Nat)
  | [], fl => some fl
  | step :: rest, fl =>
    match _M_validate step.1 fl step.2.1 step.2.2 with
    | some r => validate_run rest r.1
    | none => none

/-- The `n` donations of the addresses `8, 16, ..`, in the memory `zero_mem`. -/
def donations (n : Nat) : List (Memory × Nat × Bool) :=
  (List.range n).map fun i => (zero_mem, 8 * i + 8, true)

/-- The cache after `n` donations to the empty cache. -/
def cache_after (n : Nat) : __mini_vector Nat :=
  (validate_run (donations n) __mini_vector.empty).getD __mini_vector.empty

/-- A memory with the keys `5` at address 100, `7` at 200 and `8` at 300. -/
def keys_mem : Memory := fun a => if a = 100 then 5 else if a = 200 then 7 else if a = 300 then 8 else 0

/-- The memory `keys_mem` after the key at address 100 is overwritten with `9`. -/
def keys_changed : Memory := fun a => if a = 100 then 9 else keys_mem a

/-- The calls `_M_validate(addr)` for the addresses of the list, all in the memory
`mem`. -/
def donate_all (mem : Memory) (calls : List (Nat × Bool)) : List (Memory × Nat × Bool) :=
  calls.map fun c => (mem, c.1, c.2)

/-- The cache after the donations of 300, 100 and 200 in the memory `keys_mem`. -/
def sorted_cache : __mini_vector Nat :=
  (validate_run (donate_all keys_mem [(300, true), (100, true), (200, true)])
    __mini_vector.empty).getD __mini_vector.empty

/-- The state after the pointer of `one_alloc` is deallocated. -/
def one_alloc_undone : State :=
  (_M_deallocate_single_object 8 true one_alloc.1 1008).result (State.fresh zero_mem)

/-- The state and the pointer after `allocate(1)` on a fresh allocator whose memory is
`zero_mem`, for slots of 8 bytes and a raw allocator that answers with the block at
1000. -/
def first_alloc : State × Nat :=
  (_M_allocate_single_object 8 (env_at 1000) (State.fresh zero_mem)).result
    (State.fresh zero_mem, 0)

/-- The state after the pointer of `first_alloc` is deallocated. -/
def first_alloc_undone : State :=
  (_M_deallocate_single_object 8 true first_alloc.1 first_alloc.2).result
    (State.fresh zero_mem)

/-! ## Runs of allocations -/

/-- The states after `n` completed `allocate(1)` calls on the state `s0`, each in an
environment that satisfies `EnvOK`. -/
inductive AllocRun (S : Nat) (s0 : State) : Nat → State → Prop
  | zero : AllocRun S s0 0 s0
  | succ {n : Nat} {s s1 : State} {env : Env} {p : Nat} :
      AllocRun S s0 n s → EnvOK S s env →
      _M_allocate_single_object S env s = Outcome.ok (s1, p) → AllocRun S s0 (n + 1) s1

/-- The state after one `allocate(1)` call for each environment of the list; `none`
when an environment fails `env_ok` or a call does not complete. -/
def alloc_all (S : Nat) : List Env → State → Option State
  | [], s => some s
  | env :: envs, s =>
    if env_ok S s env = true then
      match _M_allocate_single_object S env s with
      | Outcome.ok r => alloc_all S envs r.1
      | _ => none
    else none

/-- Environments for 32 `allocate(1)` calls: the raw allocator answers the first with
the block at 1000 and would answer the others with the block at 5000. -/
def chunk_envs : List Env := env_at 1000 :: List.replicate 31 (env_at 5000)

/-- The state after 32 `allocate(1)` calls in the environments `chunk_envs` on a fresh
allocator whose memory is `zero_mem`, for slots of 8 bytes. -/
def full_chunk : State :=
  (alloc_all 8 chunk_envs (State.fresh zero_mem)).getD (State.fresh zero_mem)

/-- A memory with the keys `1, .., 64` at the addresses `8, 16, .., 512`, the key `100`
at address 1000 and the key `0` elsewhere. -/
def seeded_mem : Memory := fun a =>
  if a = 1000 then 100 else if a % 8 = 0 ∧ a ≤ 512 then a / 8 else 0

/-- The cache after the addresses `8, 16, .., 512` are donated to the empty cache in the
memory `seeded_mem`: 64 entries with the keys `1, .., 64`. -/
def seeded_cache : __mini_vector Nat :=
  (validate_run (donate_all seeded_mem ((List.range 64).map fun i => (8 * i + 8, true)))
    __mini_vector.empty).getD __mini_vector.empty

/-- The call ended with `std::bad_alloc`. -/
def Outcome.failed {α : Type} : Outcome α → Bool
  | Outcome.bad_alloc _ => true
  | _ => false

/-- The state at the throw of a call that ended with `std::bad_alloc`, `d` for the
other outcomes. -/
def Outcome.thrown {α : Type} (d : State) : Outcome α → State
  | Outcome.bad_alloc s => s
  | _ => d

/-- The environment in which the raw allocator fails. -/
def env_none : Env := { raw := fun _ => none, grow := true }

/-- The run of 32 `allocate(1)` calls in the environments `chunk_envs` on a fresh
allocator whose memory is `zero_mem`, for slots of 8 bytes: the state and the pointers
returned, the latest first. -/
def full_run : State × List Nat := run_calls 8 zero_mem (chunk_envs.map Call.allocate)

/-- A memory that holds `7` in the word at address 996 and `5` in the word at address
200. -/
def tag_mem : Memory := fun a => if a = 996 then 7 else if a = 200 then 5 else 0

/-- The run of one `allocate(1)` call on a fresh allocator whose memory is `tag_mem`,
for slots of 8 bytes and a raw allocator that answers with the block at 1000. -/
def tagged_alloc : State × List Nat := run_calls 8 tag_mem [Call.allocate (env_at 1000)]

/-- The state after the pointer of `tagged_alloc` is deallocated. -/
def tagged_undone : State :=
  (_M_deallocate_single_object 8 true tagged_alloc.1 1008).result (State.fresh tag_mem)

/-- The run of two `allocate(1)` calls on a fresh allocator whose memory is `zero_mem`,
for slots of 8 bytes: the pointers returned are 1008 and 1016. -/
def two_allocs : State × List Nat :=
  run_calls 8 zero_mem [Call.allocate (env_at 1000), Call.allocate (env_at 5000)]

/-- The chunk has a free slot: some bit of one of its bitmap words is set. -/
def has_free_bit (S : Nat) (mem : Memory) (bp : Block_pair) : Prop :=
  ∃ k, k < __num_bitmaps S bp ∧ ∃ i, i < 32 ∧ (mem (bitmap_addr bp k)).testBit i = true

/-- A registry of two chunks for slots of 8 bytes: 32 slots in the block at 1000 and 64
slots in the block at 5000. -/
def two_chunks : List Block_pair := [(1008, 1256), (5012, 5516)]

/-- A memory in which the first chunk of `two_chunks` is full (use-count 32, bitmap word
`0`) and the second has use-count 33: its bitmap word 0 is `0` and only bit 0 of its
bitmap word 1 is clear. -/
def two_chunks_mem : Memory := fun a =>
  if a = 1000 then 32 else if a = 5000 then 33 else if a = 5004 then 2 ^ 32 - 2 else 0

/-- The states after completed `allocate(1)` calls on the state `s0`, each in an
environment that satisfies `EnvOK`, with the pointers returned, the latest first. -/
inductive AllocPtrs (S : Nat) (s0 : State) : List Nat → State → Prop
  | nil : AllocPtrs S s0 [] s0
  | cons {ps : List Nat} {s s1 : State} {env : Env} {p : Nat} :
      AllocPtrs S s0 ps s → EnvOK S s env →
      _M_allocate_single_object S env s = Outcome.ok (s1, p) → AllocPtrs S s0 (p :: ps) s1

/-- The state and the pointers returned after one `allocate(1)` call for each
environment of the list; `none` when an environment fails `env_ok` or a call does not
complete. -/
def alloc_each (S : Nat) : List Env → State × List Nat → Option (State × List Nat)
  | [], st => some st
  | env :: envs, st =>
    if env_ok S st.1 env = true then
      match _M_allocate_single_object S env st.1 with
      | Outcome.ok r => alloc_each S envs (r.1, r.2 :: st.2)
      | _ => none
    else none

/-- The state after `deallocate(p, 1)` for each pointer of the list in turn; `none`
when one of the calls does not complete. -/
def dealloc_all (S : Nat) (grow : Bool) : List Nat → State → Option State
  | [], s => some s
  | p :: ps, s =>
    match _M_deallocate_single_object S grow s p with
    | Outcome.ok s1 => dealloc_all S grow ps s1
    | _ => none

/-- The state and the pointers after 32 `allocate(1)` calls in the environments
`chunk_envs` on a fresh allocator whose memory is `zero_mem`, for slots of 8 bytes. -/
def filled : State × List Nat :=
  (alloc_each 8 chunk_envs (State.fresh zero_mem, [])).getD (State.fresh zero_mem, [])

/-- The state after the 17th, the 31st and the 1st pointer of `filled` (1136, 1248 and
1008) are deallocated, in this order. -/
def three_freed : State :=
  (dealloc_all 8 true [1136, 1248, 1008] filled.1).getD (State.fresh zero_mem)

/-- A memory with the keys `5`, `7`, `8` and `7` at the addresses 100, 200, 300 and
400. -/
def ties_mem : Memory := fun a =>
  if a = 100 then 5 else if a = 200 then 7 else if a = 300 then 8 else if a = 400 then 7 else 0

/-- A cache with the entries 100, 200 and 300 and room for a fourth. -/
def ties_cache : __mini_vector Nat := { elems := [100, 200, 300], cap := 4 }

/-- The state of `one_alloc` with `_S_block_size` set to `1`. -/
def low_growth : State := { one_alloc.1 with _S_block_size := 1 }

/-- The state after the pointer 1008 is deallocated in `low_growth`. -/
def low_growth_undone : State :=
  (_M_deallocate_single_object 8 true low_growth 1008).result (State.fresh zero_mem)

/-- The run of 33 `allocate(1)` calls on a fresh allocator whose memory is `zero_mem`,
for slots of 8 bytes: the first 32 fill the chunk in the block at 1000, the last one
refills with the block at 5000 and returns 5012. -/
def spilled : State × List Nat :=
  run_calls 8 zero_mem ((chunk_envs ++ [env_at 5000]).map Call.allocate)

/-- The state after the pointer 5012 is deallocated in `spilled`. -/
def spilled_undone : State :=
  (_M_deallocate_single_object 8 true spilled.1 5012).result (State.fresh zero_mem)

/-! ## Runs with program stores -/

/-- One step of a run: a call of the single-object interface with what the environment
answers, or a store of the value `v` by the program at the address `a` inside the slot
of the allocated pointer `p`. -/
inductive Step where
  | allocate (env : Env) : Step
  | deallocate (p : Nat) (grow : Bool) : Step
  | store (p a v : Nat) : Step

/-- The test of `BlockOK` by evaluation. -/
def block_ok (S : Nat) (s : State) (env : Env) : Bool :=
  match _M_get s.mem s._S_free_list (refill_size S s) env.raw with
  | none => true
  | some r => decide (0 < r.1)

/-- The state and the allocated pointers after one step.  A step outside the runs (the
block is null, the pointer is not allocated, the address is outside the slot) or a call
that ends in a fault is skipped. -/
def run_step (S : Nat) (st : State × List Nat) : Step → State × List Nat
  | Step.allocate env =>
    if block_ok S st.1 env = true then
      match _M_allocate_single_object S env st.1 with
      | Outcome.ok r => (r.1, r.2 :: st.2)
      | Outcome.bad_alloc s1 => (s1, st.2)
      | Outcome.fault => st
    else st
  | Step.deallocate p grow =>
    if p ∈ st.2 then
      match _M_deallocate_single_object S grow st.1 p with
      | Outcome.ok s1 => (s1, st.2.erase p)
      | _ => st
    else st
  | Step.store p a v =>
    if p ∈ st.2 ∧ p ≤ a ∧ a < p + S then ({ st.1 with mem := store st.1.mem a v }, st.2)
    else st

/-- The state and the allocated pointers after a sequence of steps on a fresh allocator
whose memory is `m`. -/
def run_steps (S : Nat) (m : Memory) (steps : List Step) : State × List Nat :=
  steps.foldl (run_step S) (State.fresh m, [])

/-- The slot size of an allocator for objects of `2 ^ 27` bytes. -/
def wide : Nat := sizeof_Alloc_block (2 ^ 27)

/-- The steps of 32 `allocate(1)` calls: the raw allocator answers the first with the
block at 1000 and is not asked by the others. -/
def wide_fill : List Step :=
  Step.allocate (env_at 1000) :: List.replicate 31 (Step.allocate env_none)

/-- The steps `wide_fill` followed by a 33rd `allocate(1)`, which the raw allocator
answers with the block at 1008, right behind the 8 bytes requested for the block at
1000. -/
def wide_spill : List Step := wide_fill ++ [Step.allocate (env_at 1008)]

/-- The pointers of the slots 1 to 31 of the chunk in the block at 1000, for slots of
`wide` bytes. -/
def wide_rest : List Nat := (List.range 31).map fun d => 1008 + (d + 1) * wide

/-- The run of 32 `allocate(1)` calls for slots of `wide` bytes on a fresh allocator
whose memory is `zero_mem`: the first call refills with the block at 1000, for which 8
bytes are requested, and the chunk `(1008, 4160750576)` is full afterwards. -/
def wide_full : State × List Nat :=
  run_calls wide zero_mem ((env_at 1000 :: List.replicate 31 env_none).map Call.allocate)

/-- The run of the steps `wide_spill`: the 33rd `allocate(1)` refills with the block at
1008, registers the chunk `(1020, 8455717884)` and returns 1020. -/
def overlap_run : State × List Nat := run_steps wide zero_mem wide_spill

/-- The run `overlap_run` followed by `deallocate(1020, 1)`. -/
def overlap_freed : State × List Nat :=
  run_steps wide zero_mem (wide_spill ++ [Step.deallocate 1020 true])

/-- The run `overlap_freed` followed by `deallocate(1008, 1)`. -/
def overlap_freed_twice : State × List Nat :=
  run_steps wide zero_mem
    (wide_spill ++ [Step.deallocate 1020 true, Step.deallocate 1008 true])

/-- The run `overlap_freed` followed by 63 `allocate(1)` calls, which take the free
slots of the chunk `(1020, 8455717884)`. -/
def overlap_refilled : State × List Nat :=
  run_steps wide zero_mem
    (wide_spill ++ [Step.deallocate 1020 true] ++ List.replicate 63 (Step.allocate env_none))

/-- The run `overlap_refilled` followed by one more `allocate(1)`. -/
def overlap_reused : State × List Nat :=
  run_steps wide zero_mem
    (wide_spill ++ [Step.deallocate 1020 true] ++ List.replicate 64 (Step.allocate env_none))

/-- The run `overlap_run` followed by the deallocation of the pointers `wide_rest`: the
pointers 1008 and 1020 stay allocated, one in each chunk. -/
def overlap_single : State × List Nat :=
  run_steps wide zero_mem (wide_spill ++ wide_rest.map fun p => Step.deallocate p true)

/-- The run `overlap_single` followed by `deallocate(1020, 1)`. -/
def overlap_reclaimed : State × List Nat :=
  run_steps wide zero_mem
    ((wide_spill ++ wide_rest.map fun p => Step.deallocate p true) ++
      [Step.deallocate 1020 true])

/-- The run `overlap_run` followed by a store of the program, which writes 0 into the
first word of its object at 1008, and by `deallocate(1008 + wide, 1)`. -/
def overlap_stored : State × List Nat :=
  run_steps wide zero_mem
    (wide_spill ++ [Step.store 1008 1008 0, Step.deallocate (1008 + wide) true])

/-- The run `overlap_run` followed by a store of the program, which writes 0 at 1016,
inside its object at 1008. -/
def overlap_cursor : State × List Nat :=
  run_steps wide zero_mem (wide_spill ++ [Step.store 1008 1016 0])

/-! ## Theorems -/

/-! ### Machine integers -/

theorem to_size_t_of_nat (n : Nat) (h : n < 2 ^ 64) : to_size_t (n : Int) = n := by
  unfold to_size_t
  have : (n : Int) % (2 ^ 64 : Int) = n := Int.emod_eq_of_lt (by omega) (by omega)
  rw [this]; simp

theorem to_uint_of_nat (n : Nat) (h : n < 2 ^ 32) : to_uint (n : Int) = n := by
  unfold to_uint
  have : (n : Int) % (2 ^ 32 : Int) = n := Int.emod_eq_of_lt (by omega) (by omega)
  rw [this]; simp

theorem to_int_of_nat (n : Nat) (h : n < 2 ^ 31) : to_int (n : Int) = n := by
  unfold to_int
  omega

/-! ### Chunk geometry -/

theorem slot_diff {S : Nat} (hS : 0 < S) (f d : Nat) :
    (((f + d * S : Nat) : Int) - (f : Int)) / (S : Int) = d := by
  have h : (((f + d * S : Nat) : Int) - (f : Int)) = (d : Int) * (S : Int) := by
    push_cast; ring
  rw [h]
  exact Int.mul_ediv_cancel _ (by omega)

theorem num_blocks_eq {S : Nat} (hS : 0 < S) {bp : Block_pair} {n : Nat} (h1 : 1 ≤ n)
    (h2 : n ≤ 2 ^ 26) (h3 : bp.2 = bp.1 + (32 * n - 1) * S) : __num_blocks S bp = 32 * n := by
  unfold __num_blocks
  rw [h3, slot_diff hS]
  have : ((32 * n - 1 : Nat) : Int) + 1 = ((32 * n : Nat) : Int) := by omega
  rw [this]
  exact to_size_t_of_nat _ (by omega)

theorem num_bitmaps_eq {S : Nat} (hS : 0 < S) {bp : Block_pair} {n : Nat} (h1 : 1 ≤ n)
    (h2 : n ≤ 2 ^ 26) (h3 : bp.2 = bp.1 + (32 * n - 1) * S) : __num_bitmaps S bp = n := by
  unfold __num_bitmaps
  rw [num_blocks_eq hS h1 h2 h3]
  simp [bits_per_block, word_size, bits_per_byte]

theorem countP_flip {l : List Nat} (hl : l.Nodup) {b : Nat} (hb : b ∈ l) {p q : Nat → Bool}
    (hpq : ∀ i ∈ l, i ≠ b → p i = q i) (hp : p b = true) (hq : q b = false) :
    l.countP p = l.countP q + 1 := by
  induction l with
  | nil => simp at hb
  | cons a t ih =>
    rw [List.nodup_cons] at hl
    by_cases hab : a = b
    · subst hab
      have ht : t.countP p = t.countP q := by
        apply List.countP_congr
        intro i hi
        have hne : i ≠ a := fun h => hl.1 (h ▸ hi)
        rw [hpq i (List.mem_cons_of_mem _ hi) hne]
      simp [List.countP_cons, hp, hq, ht]
    · have hbt : b ∈ t := by
        rcases List.mem_cons.1 hb with h | h
        · exact absurd h.symm hab
        · exact h
      have := ih hl.2 hbt (fun i hi hne => hpq i (List.mem_cons_of_mem _ hi) hne)
      have ha := hpq a (List.mem_cons_self _ _) hab
      simp only [List.countP_cons, ha, this]
      omega

theorem clear_testBit (w b i : Nat) (hb : b < 32) (hi : i < 32) :
    (w &&& (((1 <<< b) % 2 ^ 32) ^^^ (2 ^ 32 - 1))).testBit i
      = (w.testBit i && decide (i ≠ b)) := by
  have h1 : (1 <<< b) % 2 ^ 32 = 2 ^ b := by
    rw [Nat.one_shiftLeft]
    exact Nat.mod_eq_of_lt (Nat.pow_lt_pow_right (by omega) hb)
  rw [h1, Nat.testBit_and, Nat.testBit_xor, Nat.testBit_two_pow, Nat.testBit_two_pow_sub_one]
  by_cases h : b = i
  · subst h; simp [hi]
  · have h' : i ≠ b := fun e => h e.symm
    simp [h, h', hi]

theorem set_testBit (w b i : Nat) (hb : b < 32) :
    (w ||| ((1 <<< b) % 2 ^ 32)).testBit i = (w.testBit i || decide (i = b)) := by
  have h1 : (1 <<< b) % 2 ^ 32 = 2 ^ b := by
    rw [Nat.one_shiftLeft]
    exact Nat.mod_eq_of_lt (Nat.pow_lt_pow_right (by omega) hb)
  rw [h1, Nat.testBit_or, Nat.testBit_two_pow]
  by_cases h : b = i
  · subst h; simp
  · have h' : i ≠ b := fun e => h e.symm
    simp [h, h']

theorem clear_lt (w b : Nat) (hw : w < 2 ^ 32) :
    w &&& (((1 <<< b) % 2 ^ 32) ^^^ (2 ^ 32 - 1)) < 2 ^ 32 :=
  lt_of_le_of_lt Nat.and_le_left hw

theorem set_lt (w b : Nat) (hw : w < 2 ^ 32) : w ||| ((1 <<< b) % 2 ^ 32) < 2 ^ 32 :=
  Nat.or_lt_two_pow hw (Nat.mod_lt _ (by norm_num))

theorem popcount_clear (w b : Nat) (hb : b < 32) (hw : w.testBit b = true) :
    popcount w = popcount (w &&& (((1 <<< b) % 2 ^ 32) ^^^ (2 ^ 32 - 1))) + 1 := by
  unfold popcount
  apply countP_flip (List.nodup_range 32) (List.mem_range.2 hb)
  · intro i hi hne
    rw [clear_testBit w b i hb (List.mem_range.1 hi)]
    simp [hne]
  · exact hw
  · rw [clear_testBit w b b hb hb]; simp

theorem popcount_set (w b : Nat) (hb : b < 32) (hw : w.testBit b = false) :
    popcount (w ||| ((1 <<< b) % 2 ^ 32)) = popcount w + 1 := by
  unfold popcount
  apply countP_flip (List.nodup_range 32) (List.mem_range.2 hb)
  · intro i _ hne
    rw [set_testBit w b i hb]
    simp [hne]
  · rw [set_testBit w b b hb]; simp
  · exact hw

theorem popcount_le (w : Nat) : popcount w ≤ 32 := by
  unfold popcount
  have := List.countP_le_length (fun i => w.testBit i) (l := List.range 32)
  simpa using this

theorem popcount_full {w : Nat} (h : popcount w = 32) (i : Nat) (hi : i < 32) :
    w.testBit i = true := by
  unfold popcount at h
  have h2 : (List.range 32).countP (fun i => w.testBit i) = (List.range 32).length := by
    simpa using h
  rw [List.countP_eq_length] at h2
  exact h2 i (List.mem_range.2 hi)

theorem bit_scan_some {w : Nat} (hw : w ≠ 0) (hlt : w < 2 ^ 32) :
    ∃ b, _Bit_scan_forward w = some b ∧ b < 32 ∧ w.testBit b = true := by
  unfold _Bit_scan_forward
  obtain ⟨i, hi⟩ := Nat.ne_zero_implies_bit_true hw
  have hi32 : i < 32 := by
    by_contra hge
    have : w < 2 ^ i := lt_of_lt_of_le hlt (Nat.pow_le_pow_right (by omega) (by omega))
    rw [Nat.testBit_lt_two_pow this] at hi
    exact Bool.noConfusion hi
  cases hf : (List.range 32).find? (fun i => w.testBit i) with
  | none =>
    rw [List.find?_eq_none] at hf
    exact absurd hi (by simpa using hf i (List.mem_range.2 hi32))
  | some b =>
    refine ⟨b, rfl, ?_, ?_⟩
    · exact List.mem_range.1 (List.mem_of_find?_eq_some hf)
    · exact List.find?_some hf

theorem bit_scan_zero : _Bit_scan_forward 0 = none := by decide

theorem wf_facts {S : Nat} (hS : 0 < S) {bp : Block_pair} (h : WfChunk S bp) :
    ∃ n, 1 ≤ n ∧ n ≤ 2 ^ 26 ∧ __num_bitmaps S bp = n ∧ __num_blocks S bp = 32 * n ∧
      use_count_addr S bp = bp.1 - 4 * (n + 1) ∧ 4 * (n + 1) < bp.1 ∧
      bp.2 = bp.1 + (32 * n - 1) * S ∧ chunk_end S bp = bp.1 + 32 * n * S := by
  obtain ⟨n, h1, h2, h3, h4⟩ := h
  have hb := num_bitmaps_eq hS h1 h2 h3
  refine ⟨n, h1, h2, hb, num_blocks_eq hS h1 h2 h3, ?_, ?_, h3, ?_⟩
  · unfold use_count_addr; rw [hb]; rfl
  · simpa [word_size] using h4
  · unfold chunk_end
    rw [h3, Nat.sub_mul]
    have : 1 * S ≤ 32 * n * S := Nat.mul_le_mul_right S (by omega)
    omega

theorem slot_lt {S : Nat} {d n : Nat} (h : d < 32 * n) :
    d * S + S ≤ 32 * n * S := by
  have : (d + 1) * S ≤ 32 * n * S := Nat.mul_le_mul_right S (by omega)
  rw [Nat.add_mul] at this
  omega

theorem slot_addr_inj {S : Nat} (hS : 0 < S) {bp : Block_pair} {d e : Nat}
    (h : slot_addr S bp d = slot_addr S bp e) : d = e := by
  unfold slot_addr at h
  exact Nat.eq_of_mul_eq_mul_right hS (by omega)

theorem use_count_agree {S : Nat} (hS : 0 < S) {mem mem1 : Memory} {bp : Block_pair}
    (hwf : WfChunk S bp) (h : header_agree S mem mem1 bp) :
    use_count S mem1 bp = use_count S mem bp := by
  obtain ⟨n, h1, _, _, _, h5, h6, _, _⟩ := wf_facts hS hwf
  exact h _ (le_refl _) (by omega)

theorem word_agree {S : Nat} (hS : 0 < S) {mem mem1 : Memory} {bp : Block_pair}
    (hwf : WfChunk S bp) (h : header_agree S mem mem1 bp) {k : Nat}
    (hk : k < __num_bitmaps S bp) : mem1 (bitmap_addr bp k) = mem (bitmap_addr bp k) := by
  obtain ⟨n, h1, _, h3, _, h5, h6, _, _⟩ := wf_facts hS hwf
  apply h
  · unfold bitmap_addr word_size; omega
  · unfold bitmap_addr word_size; omega

theorem free_slots_agree {S : Nat} (hS : 0 < S) {mem mem1 : Memory} {bp : Block_pair}
    (hwf : WfChunk S bp) (h : header_agree S mem mem1 bp) :
    free_slots S mem1 bp = free_slots S mem bp := by
  unfold free_slots
  congr 1
  apply List.map_congr_left
  intro k hk
  rw [word_agree hS hwf h (List.mem_range.1 hk)]

theorem slot_bit_agree {S : Nat} (hS : 0 < S) {mem mem1 : Memory} {bp : Block_pair}
    (hwf : WfChunk S bp) (h : header_agree S mem mem1 bp) {d : Nat}
    (hd : d < __num_blocks S bp) : slot_bit mem1 bp d = slot_bit mem bp d := by
  obtain ⟨n, h1, _, h3, h4, _, _, _, _⟩ := wf_facts hS hwf
  unfold slot_bit
  rw [word_agree hS hwf h (by omega)]

theorem header_agree_store {S : Nat} {mem : Memory} {bp : Block_pair} {a v : Nat}
    (h : a < use_count_addr S bp ∨ bp.1 ≤ a) : header_agree S mem (store mem a v) bp := by
  intro x hx1 hx2
  unfold store
  rw [if_neg (by omega)]

theorem header_agree_trans {S : Nat} {m0 m1 m2 : Memory} {bp : Block_pair}
    (h1 : header_agree S m0 m1 bp) (h2 : header_agree S m1 m2 bp) :
    header_agree S m0 m2 bp := by
  intro x hx1 hx2
  rw [h2 x hx1 hx2, h1 x hx1 hx2]

theorem header_agree_refl {S : Nat} (m : Memory) (bp : Block_pair) :
    header_agree S m m bp := fun _ _ _ => rfl

theorem sum_range_flip (f g : Nat → Nat) (n k0 : Nat) (hk : k0 < n)
    (h : ∀ k < n, k ≠ k0 → f k = g k) (h0 : f k0 = g k0 + 1) :
    ((List.range n).map f).sum = ((List.range n).map g).sum + 1 := by
  induction n with
  | zero => omega
  | succ n ih =>
    rw [List.range_succ, List.map_append, List.map_append, List.sum_append, List.sum_append]
    by_cases hkn : k0 = n
    · subst hkn
      have : (List.range k0).map f = (List.range k0).map g := by
        apply List.map_congr_left
        intro k hk'
        have := List.mem_range.1 hk'
        exact h k (by omega) (by omega)
      rw [this]
      simp [h0]
      omega
    · have := ih (by omega) (fun k hk' hne => h k (by omega) hne)
      have hn := h n (by omega) (fun e => hkn e.symm)
      simp only [List.map_cons, List.map_nil, List.sum_cons, List.sum_nil, hn, this]
      omega

/-- Distinct registered chunks do not overlap. -/
theorem disjoint_of_ne {S : Nat} {vbp : List Block_pair}
    (hd : vbp.Pairwise (chunks_disjoint S)) {a b : Block_pair} (ha : a ∈ vbp) (hb : b ∈ vbp)
    (hne : a ≠ b) : chunks_disjoint S a b := by
  refine List.Pairwise.forall ?_ hd ha hb hne
  intro x y hxy
  unfold chunks_disjoint at *
  omega

theorem header_agree_of_confined {S : Nat} (hS : 0 < S) {mem mem1 : Memory}
    {bp bp' : Block_pair} (hwf : WfChunk S bp) (hwf' : WfChunk S bp')
    (hd : chunks_disjoint S bp bp')
    (hc : ∀ a, (a < use_count_addr S bp ∨ bp.1 ≤ a) → mem1 a = mem a) :
    header_agree S mem mem1 bp' := by
  obtain ⟨n, _, _, _, _, h5, h6, _, h8⟩ := wf_facts hS hwf
  obtain ⟨n', _, _, _, _, h5', h6', _, h8'⟩ := wf_facts hS hwf'
  intro a ha1 ha2
  apply hc
  unfold chunks_disjoint at hd
  omega

/-- The slots of distinct registered chunks are distinct addresses. -/
theorem slot_chunk_unique {S : Nat} (hS : 0 < S) {vbp : List Block_pair}
    (hwf : ∀ bp ∈ vbp, WfChunk S bp) (hd : vbp.Pairwise (chunks_disjoint S))
    {a b : Block_pair} (ha : a ∈ vbp) (hb : b ∈ vbp) {d : Nat}
    (hd1 : d < __num_blocks S a) (he : b.1 ≤ slot_addr S a d ∧ slot_addr S a d ≤ b.2) :
    a = b := by
  by_contra hne
  have hdj := disjoint_of_ne hd ha hb hne
  obtain ⟨n, _, _, _, h4, h5, h6, h7, h8⟩ := wf_facts hS (hwf a ha)
  obtain ⟨n', _, _, _, h4', h5', h6', h7', h8'⟩ := wf_facts hS (hwf b hb)
  unfold chunks_disjoint at hdj
  unfold slot_addr at he
  have := slot_lt (S := S) (d := d) (n := n) (by omega)
  have h9 : chunk_end S b = b.2 + S := rfl
  omega

theorem slot_in_chunk {S : Nat} (hS : 0 < S) {bp : Block_pair} (hwf : WfChunk S bp) {d : Nat}
    (hd : d < __num_blocks S bp) : bp.1 ≤ slot_addr S bp d ∧ slot_addr S bp d ≤ bp.2 := by
  obtain ⟨n, _, _, _, h4, _, _, h7, h8⟩ := wf_facts hS hwf
  have := slot_lt (S := S) (d := d) (n := n) (by omega)
  have h9 : chunk_end S bp = bp.2 + S := rfl
  unfold slot_addr
  omega

/-- Two descriptions of one live slot name the same chunk and the same index. -/
theorem slot_unique {S : Nat} (hS : 0 < S) {vbp : List Block_pair}
    (hwf : ∀ bp ∈ vbp, WfChunk S bp) (hd : vbp.Pairwise (chunks_disjoint S))
    {a b : Block_pair} (ha : a ∈ vbp) (hb : b ∈ vbp) {d e : Nat}
    (hd1 : d < __num_blocks S a) (he1 : e < __num_blocks S b)
    (h : slot_addr S a d = slot_addr S b e) : a = b ∧ d = e := by
  have hab : a = b := by
    apply slot_chunk_unique hS hwf hd ha hb hd1
    rw [h]
    exact slot_in_chunk hS (hwf b hb) he1
  subst hab
  exact ⟨rfl, slot_addr_inj hS h⟩

theorem Inv.claim {S : Nat} (hS : 0 < S) {s : State} {live : List Nat} (hI : Inv S s live)
    {bp : Block_pair} (hbp : bp ∈ s._S_mem_blocks.elems) {k b : Nat}
    (hk : k < __num_bitmaps S bp) (hb : b < 32)
    (hbit : (s.mem (bitmap_addr bp k)).testBit b = true) {c : _Bitmap_counter}
    (hc : RequestOK S s._S_mem_blocks.elems c) :
    Inv S (claim_state S s bp k b c) (slot_addr S bp (32 * k + b) :: live) := by
  unfold claim_state incr_use_count
  obtain ⟨n, h1, h2, h3, h4, h5, h6, h7, h8⟩ := wf_facts hS (hI.wf bp hbp)
  have hw := hI.words bp hbp k hk
  have hcnt := hI.count bp hbp
  -- abbreviations
  generalize hmem' : store (__bit_allocate s.mem (bitmap_addr bp k) b) (use_count_addr S bp)
          ((__bit_allocate s.mem (bitmap_addr bp k) b (use_count_addr S bp) + 1) % 2 ^ 32)
      = mem'
  have hA : bitmap_addr bp k = bp.1 - 4 * (k + 1) := rfl
  have hne : use_count_addr S bp ≠ bitmap_addr bp k := by omega
  -- reads of the new memory
  have r_use : mem' (use_count_addr S bp) = (s.mem (use_count_addr S bp) + 1) % 2 ^ 32 := by
    rw [← hmem']
    simp [store, __bit_allocate, hne]
  have r_word : mem' (bitmap_addr bp k)
      = s.mem (bitmap_addr bp k) &&& (((1 <<< b) % 2 ^ 32) ^^^ (2 ^ 32 - 1)) := by
    rw [← hmem']
    simp [store, __bit_allocate, hne.symm]
  have r_other : ∀ a, a ≠ use_count_addr S bp → a ≠ bitmap_addr bp k → mem' a = s.mem a := by
    intro a ha1 ha2
    rw [← hmem']
    simp [store, __bit_allocate, ha1, ha2]
  have r_words : ∀ j < n, j ≠ k → mem' (bitmap_addr bp j) = s.mem (bitmap_addr bp j) := by
    intro j hj hjk
    apply r_other
    · unfold bitmap_addr word_size; omega
    · unfold bitmap_addr word_size; omega
  have hconf : ∀ a, (a < use_count_addr S bp ∨ bp.1 ≤ a) → mem' a = s.mem a := by
    intro a ha
    apply r_other <;> omega
  have hagree : ∀ bp' ∈ s._S_mem_blocks.elems, bp' ≠ bp → header_agree S s.mem mem' bp' := by
    intro bp' hbp' hne'
    exact header_agree_of_confined hS (hI.wf bp hbp) (hI.wf bp' hbp')
      (disjoint_of_ne hI.disj hbp hbp' (fun e => hne' e.symm)) hconf
  -- the count of the chunk
  have hfree : free_slots S s.mem bp = free_slots S mem' bp + 1 := by
    unfold free_slots
    rw [h3]
    apply sum_range_flip _ _ n k (by omega)
    · intro j hj hjk
      rw [r_words j hj hjk]
    · rw [r_word]
      exact popcount_clear _ b hb hbit
  have huse : (s.mem (use_count_addr S bp) + 1) % 2 ^ 32 = s.mem (use_count_addr S bp) + 1 := by
    unfold use_count at hcnt
    apply Nat.mod_eq_of_lt
    omega
  have hslot : ∀ d, d < 32 * n → slot_bit mem' bp d
      = (slot_bit s.mem bp d && decide (d ≠ 32 * k + b)) := by
    intro d hd
    unfold slot_bit
    by_cases hdk : d / 32 = k
    · rw [hdk, r_word, clear_testBit _ b _ hb (Nat.mod_lt _ (by omega))]
      congr 1
      have : (d % 32 ≠ b) ↔ (d ≠ 32 * k + b) := by omega
      simp [this]
    · rw [r_words (d / 32) (by omega) hdk]
      have : d ≠ 32 * k + b := by omega
      simp [this]
  have hpbit : slot_bit s.mem bp (32 * k + b) = true := by
    unfold slot_bit
    have e1 : (32 * k + b) / 32 = k := by omega
    have e2 : (32 * k + b) % 32 = b := by omega
    rw [e1, e2]; exact hbit
  have hpN : 32 * k + b < __num_blocks S bp := by omega
  constructor
  · exact hI.wf
  · exact hI.disj
  · intro bp' hbp' j hj
    show mem' (bitmap_addr bp' j) < 2 ^ 32
    by_cases e : bp' = bp
    · subst e
      by_cases hjk : j = k
      · subst hjk; rw [r_word]; exact clear_lt _ _ hw
      · rw [r_words j (by omega) hjk]; exact hI.words _ hbp' j hj
    · rw [word_agree hS (hI.wf bp' hbp') (hagree bp' hbp' e) hj]
      exact hI.words _ hbp' j hj
  · intro bp' hbp'
    show use_count S mem' bp' + free_slots S mem' bp' = __num_blocks S bp'
    by_cases e : bp' = bp
    · subst e
      unfold use_count at hcnt ⊢
      rw [r_use, huse]
      omega
    · rw [use_count_agree hS (hI.wf bp' hbp') (hagree bp' hbp' e),
        free_slots_agree hS (hI.wf bp' hbp') (hagree bp' hbp' e)]
      exact hI.count bp' hbp'
  · exact hc
  · exact hI.hint
  · exact hI.growth
  · rw [List.nodup_cons]
    refine ⟨?_, hI.live_nodup⟩
    intro hin
    obtain ⟨bp', hbp', d, hd, hpd, hbit'⟩ := (hI.live_iff _).1 hin
    obtain ⟨e1, e2⟩ := slot_unique hS hI.wf hI.disj hbp hbp' hpN hd hpd
    subst e1; subst e2
    rw [hpbit] at hbit'
    exact Bool.noConfusion hbit'
  · intro q
    show q ∈ slot_addr S bp (32 * k + b) :: live ↔
      ∃ bp' ∈ s._S_mem_blocks.elems, ∃ d < __num_blocks S bp',
        q = slot_addr S bp' d ∧ slot_bit mem' bp' d = false
    constructor
    · intro hq
      rcases List.mem_cons.1 hq with hq | hq
      · refine ⟨bp, hbp, 32 * k + b, hpN, hq, ?_⟩
        rw [hslot _ (by omega)]
        simp
      · obtain ⟨bp', hbp', d, hd, hpd, hbit'⟩ := (hI.live_iff _).1 hq
        refine ⟨bp', hbp', d, hd, hpd, ?_⟩
        by_cases e : bp' = bp
        · subst e
          rw [hslot d (by omega), hbit']
          simp
        · rw [slot_bit_agree hS (hI.wf bp' hbp') (hagree bp' hbp' e) hd]
          exact hbit'
    · rintro ⟨bp', hbp', d, hd, hpd, hbit'⟩
      by_cases e : bp' = bp
      · subst e
        by_cases hdp : d = 32 * k + b
        · subst hdp; rw [hpd]; exact List.mem_cons_self _ _
        · apply List.mem_cons_of_mem
          rw [hslot d (by omega)] at hbit'
          simp [hdp] at hbit'
          exact (hI.live_iff _).2 ⟨bp', hbp', d, hd, hpd, hbit'⟩
      · apply List.mem_cons_of_mem
        rw [slot_bit_agree hS (hI.wf bp' hbp') (hagree bp' hbp' e) hd] at hbit'
        exact (hI.live_iff _).2 ⟨bp', hbp', d, hd, hpd, hbit'⟩

theorem erase_loop_spec {α : Type} (fuel : Nat) (xs : List α) (pos : Nat)
    (hfuel : xs.length ≤ pos + 1 + fuel) (hpos : pos < xs.length) :
    (__mini_vector.erase_loop fuel xs pos).length = xs.length ∧
    ∀ j, (__mini_vector.erase_loop fuel xs pos)[j]? =
      if j < pos ∨ xs.length ≤ j + 1 then xs[j]? else xs[j + 1]? := by
  induction fuel generalizing xs pos with
  | zero =>
    have : pos + 1 = xs.length := by omega
    refine ⟨rfl, fun j => ?_⟩
    simp only [__mini_vector.erase_loop]
    have : j < pos ∨ xs.length ≤ j + 1 := by omega
    rw [if_pos this]
  | succ fuel ih =>
    unfold __mini_vector.erase_loop
    by_cases hend : pos + 1 = xs.length
    · rw [if_neg (by simpa using hend)]
      refine ⟨rfl, fun j => ?_⟩
      have : j < pos ∨ xs.length ≤ j + 1 := by omega
      rw [if_pos this]
    · rw [if_pos hend]
      have hlt : pos + 1 < xs.length := by omega
      rw [List.getElem?_eq_getElem hlt]
      simp only []
      have hlen : (xs.set pos xs[pos + 1]).length = xs.length := List.length_set _ _ _
      obtain ⟨h1, h2⟩ := ih (xs.set pos xs[pos + 1]) (pos + 1) (by omega) (by omega)
      refine ⟨by omega, fun j => ?_⟩
      rw [h2 j, hlen]
      by_cases hj : j < pos
      · rw [if_pos (by omega), if_pos (Or.inl hj), List.getElem?_set_ne (by omega)]
      · by_cases hjp : j = pos
        · subst hjp
          rw [if_pos (by omega), if_neg (by omega), List.getElem?_set_self,
            List.getElem?_eq_getElem hlt]
          simp [hpos]
        · by_cases hjl : xs.length ≤ j + 1
          · rw [if_pos (Or.inr hjl), if_pos (Or.inr hjl), List.getElem?_set_ne (by omega)]
          · rw [if_neg (by omega), if_neg (by omega), List.getElem?_set_ne (by omega)]

theorem erase_elems {α : Type} (v : __mini_vector α) (pos : Nat) (hpos : pos < v.elems.length) :
    (v.erase pos).elems = v.elems.eraseIdx pos := by
  unfold __mini_vector.erase
  simp only []
  obtain ⟨h1, h2⟩ := erase_loop_spec v.elems.length v.elems pos (by omega) hpos
  apply List.ext_getElem?
  intro j
  rw [List.dropLast_eq_take, List.getElem?_take, h1, List.getElem?_eraseIdx, h2]
  by_cases hj : j < v.elems.length - 1
  · rw [if_pos hj]
    by_cases hjp : j < pos
    · rw [if_pos (Or.inl hjp), if_pos hjp]
    · rw [if_neg (by omega), if_neg hjp]
  · rw [if_neg hj]
    rw [if_neg (by omega)]
    exact (List.getElem?_eq_none (by omega)).symm

theorem erase_cap {α : Type} (v : __mini_vector α) (pos : Nat) : (v.erase pos).cap = v.cap := rfl

theorem push_back_elems {α : Type} {v w : __mini_vector α} {x : α} {grow : Bool}
    (h : v.push_back x grow = some w) : w.elems = v.elems ++ [x] := by
  unfold __mini_vector.push_back at h
  by_cases hs : v._M_space_left ≠ 0
  · rw [if_pos hs] at h
    injection h with h
    rw [← h]
  · rw [if_neg hs] at h
    unfold __mini_vector.insert at h
    rw [if_neg hs] at h
    by_cases hg : grow = true
    · simp only [hg, if_true] at h
      injection h with h
      rw [← h]
      simp [__mini_vector.size]
    · simp [hg] at h

theorem push_back_grow {α : Type} (v : __mini_vector α) (x : α) :
    ∃ w, v.push_back x true = some w := by
  unfold __mini_vector.push_back __mini_vector.insert
  by_cases hs : v._M_space_left ≠ 0
  · rw [if_pos hs]; exact ⟨_, rfl⟩
  · rw [if_neg hs, if_neg hs]; exact ⟨_, rfl⟩

theorem sum_range_le (f : Nat → Nat) (n c : Nat) (h : ∀ k < n, f k ≤ c) :
    ((List.range n).map f).sum ≤ c * n := by
  induction n with
  | zero => simp
  | succ n ih =>
    rw [List.range_succ, List.map_append, List.sum_append]
    have := ih (fun k hk => h k (by omega))
    have := h n (by omega)
    simp only [List.map_cons, List.map_nil, List.sum_cons, List.sum_nil]
    rw [Nat.mul_succ]
    omega

theorem sum_range_full (f : Nat → Nat) (n c : Nat) (h : ∀ k < n, f k ≤ c)
    (hs : ((List.range n).map f).sum = c * n) : ∀ k < n, f k = c := by
  induction n with
  | zero => intro k hk; omega
  | succ n ih =>
    rw [List.range_succ, List.map_append, List.sum_append] at hs
    simp only [List.map_cons, List.map_nil, List.sum_cons, List.sum_nil] at hs
    rw [Nat.mul_succ] at hs
    have h1 := sum_range_le f n c (fun k hk => h k (by omega))
    have h2 := h n (by omega)
    intro k hk
    by_cases hkn : k = n
    · subst hkn; omega
    · exact ih (fun k hk => h k (by omega)) (by omega) k (by omega)

theorem free_slots_le (S : Nat) (mem : Memory) (bp : Block_pair) :
    free_slots S mem bp ≤ 32 * __num_bitmaps S bp :=
  sum_range_le _ _ 32 (fun _ _ => popcount_le _)

theorem Inv.release {S : Nat} (hS : 0 < S) {s : State} {live : List Nat} (hI : Inv S s live)
    {bp : Block_pair} (hbp : bp ∈ s._S_mem_blocks.elems) {d : Nat}
    (hd : d < __num_blocks S bp) (hbit : slot_bit s.mem bp d = false) :
    1 ≤ use_count S s.mem bp ∧
    use_count S (release_state S s bp d).mem bp + 1 = use_count S s.mem bp ∧
    Inv S (release_state S s bp d) (live.erase (slot_addr S bp d)) := by
  unfold release_state decr_use_count
  obtain ⟨n, h1, h2, h3, h4, h5, h6, h7, h8⟩ := wf_facts hS (hI.wf bp hbp)
  have hk : d / 32 < n := by omega
  have hb : d % 32 < 32 := Nat.mod_lt _ (by omega)
  have hw := hI.words bp hbp (d / 32) (by omega)
  have hcnt := hI.count bp hbp
  generalize hmem' : store (__bit_free s.mem (bitmap_addr bp (d / 32)) (d % 32))
      (use_count_addr S bp)
      (to_uint ((__bit_free s.mem (bitmap_addr bp (d / 32)) (d % 32)
            (use_count_addr S bp) : Int) - 1)) = mem'
  have hA : bitmap_addr bp (d / 32) = bp.1 - 4 * (d / 32 + 1) := rfl
  have hne : use_count_addr S bp ≠ bitmap_addr bp (d / 32) := by omega
  have r_use : mem' (use_count_addr S bp)
      = to_uint ((s.mem (use_count_addr S bp) : Int) - 1) := by
    rw [← hmem']
    simp [store, __bit_free, hne]
  have r_word : mem' (bitmap_addr bp (d / 32))
      = s.mem (bitmap_addr bp (d / 32)) ||| ((1 <<< (d % 32)) % 2 ^ 32) := by
    rw [← hmem']
    simp [store, __bit_free, hne.symm]
  have r_other : ∀ a, a ≠ use_count_addr S bp → a ≠ bitmap_addr bp (d / 32) →
      mem' a = s.mem a := by
    intro a ha1 ha2
    rw [← hmem']
    simp [store, __bit_free, ha1, ha2]
  have r_words : ∀ j < n, j ≠ d / 32 → mem' (bitmap_addr bp j) = s.mem (bitmap_addr bp j) := by
    intro j hj hjk
    apply r_other
    · unfold bitmap_addr word_size; omega
    · unfold bitmap_addr word_size; omega
  have hconf : ∀ a, (a < use_count_addr S bp ∨ bp.1 ≤ a) → mem' a = s.mem a := by
    intro a ha
    apply r_other <;> omega
  have hagree : ∀ bp' ∈ s._S_mem_blocks.elems, bp' ≠ bp → header_agree S s.mem mem' bp' := by
    intro bp' hbp' hne'
    exact header_agree_of_confined hS (hI.wf bp hbp) (hI.wf bp' hbp')
      (disjoint_of_ne hI.disj hbp hbp' (fun e => hne' e.symm)) hconf
  have hfree : free_slots S mem' bp = free_slots S s.mem bp + 1 := by
    unfold free_slots
    rw [h3]
    apply sum_range_flip _ _ n (d / 32) (by omega)
    · intro j hj hjk
      rw [r_words j hj hjk]
    · rw [r_word]
      exact popcount_set _ _ hb hbit
  have hfle := free_slots_le S mem' bp
  have hpos : 1 ≤ use_count S s.mem bp := by omega
  have huse : to_uint ((s.mem (use_count_addr S bp) : Int) - 1)
      = s.mem (use_count_addr S bp) - 1 := by
    unfold use_count at hpos hcnt
    have : ((s.mem (use_count_addr S bp) : Int) - 1)
        = ((s.mem (use_count_addr S bp) - 1 : Nat) : Int) := by omega
    rw [this]
    exact to_uint_of_nat _ (by omega)
  have hslot : ∀ e, e < 32 * n → slot_bit mem' bp e = (slot_bit s.mem bp e || decide (e = d)) := by
    intro e he
    unfold slot_bit
    by_cases hek : e / 32 = d / 32
    · rw [hek, r_word, set_testBit _ _ _ hb]
      congr 1
      have : (e % 32 = d % 32) ↔ (e = d) := by omega
      simp [this]
    · rw [r_words (e / 32) (by omega) hek]
      have : e ≠ d := fun h => hek (by rw [h])
      simp [this]
  refine ⟨hpos, ?_, ?_⟩
  · show mem' (use_count_addr S bp) + 1 = s.mem (use_count_addr S bp)
    unfold use_count at hpos
    rw [r_use, huse]
    omega
  constructor
  · exact hI.wf
  · exact hI.disj
  · intro bp' hbp' j hj
    show mem' (bitmap_addr bp' j) < 2 ^ 32
    by_cases e : bp' = bp
    · subst e
      by_cases hjk : j = d / 32
      · subst hjk; rw [r_word]; exact set_lt _ _ hw
      · rw [r_words j (by omega) hjk]; exact hI.words _ hbp' j hj
    · rw [word_agree hS (hI.wf bp' hbp') (hagree bp' hbp' e) hj]
      exact hI.words _ hbp' j hj
  · intro bp' hbp'
    show use_count S mem' bp' + free_slots S mem' bp' = __num_blocks S bp'
    by_cases e : bp' = bp
    · subst e
      unfold use_count at hcnt hpos ⊢
      rw [r_use, huse]
      omega
    · rw [use_count_agree hS (hI.wf bp' hbp') (hagree bp' hbp' e),
        free_slots_agree hS (hI.wf bp' hbp') (hagree bp' hbp' e)]
      exact hI.count bp' hbp'
  · exact hI.request
  · exact hI.hint
  · exact hI.growth
  · exact hI.live_nodup.erase _
  · intro q
    show q ∈ live.erase (slot_addr S bp d) ↔
      ∃ bp' ∈ s._S_mem_blocks.elems, ∃ e < __num_blocks S bp',
        q = slot_addr S bp' e ∧ slot_bit mem' bp' e = false
    rw [hI.live_nodup.mem_erase_iff]
    constructor
    · rintro ⟨hqp, hq⟩
      obtain ⟨bp', hbp', e, he, hpe, hbit'⟩ := (hI.live_iff _).1 hq
      refine ⟨bp', hbp', e, he, hpe, ?_⟩
      by_cases hb' : bp' = bp
      · subst hb'
        have : e ≠ d := fun h => hqp (by rw [hpe, h])
        rw [hslot e (by omega), hbit']
        simp [this]
      · rw [slot_bit_agree hS (hI.wf bp' hbp') (hagree bp' hbp' hb') he]
        exact hbit'
    · rintro ⟨bp', hbp', e, he, hpe, hbit'⟩
      by_cases hb' : bp' = bp
      · subst hb'
        rw [hslot e (by omega)] at hbit'
        simp at hbit'
        refine ⟨?_, (hI.live_iff _).2 ⟨bp', hbp', e, he, hpe, hbit'.1⟩⟩
        intro h
        rw [hpe] at h
        exact hbit'.2 (slot_addr_inj hS h)
      · rw [slot_bit_agree hS (hI.wf bp' hbp') (hagree bp' hbp' hb') he] at hbit'
        refine ⟨?_, (hI.live_iff _).2 ⟨bp', hbp', e, he, hpe, hbit'⟩⟩
        intro h
        rw [hpe] at h
        exact hb' (slot_unique hS hI.wf hI.disj hbp' hbp he hd h).1

theorem all_bits_of_unused {S : Nat} (hS : 0 < S) {s : State} {live : List Nat}
    (hI : Inv S s live) {bp : Block_pair} (hbp : bp ∈ s._S_mem_blocks.elems)
    (huse : use_count S s.mem bp = 0) {d : Nat} (hd : d < __num_blocks S bp) :
    slot_bit s.mem bp d = true := by
  obtain ⟨n, h1, h2, h3, h4, h5, h6, h7, h8⟩ := wf_facts hS (hI.wf bp hbp)
  have hcnt := hI.count bp hbp
  rw [huse, h4] at hcnt
  unfold free_slots at hcnt
  rw [h3] at hcnt
  have := sum_range_full (fun k => popcount (s.mem (bitmap_addr bp k))) n 32
    (fun _ _ => popcount_le _) (by omega) (d / 32) (by omega)
  exact popcount_full this _ (Nat.mod_lt _ (by omega))

theorem Inv.reclaim {S : Nat} (hS : 0 < S) {s : State} {live : List Nat} (hI : Inv S s live)
    {i : Nat} {bp : Block_pair} (hi : s._S_mem_blocks.elems[i]? = some bp)
    (huse : use_count S s.mem bp = 0) {c : _Bitmap_counter} {ldi : Nat}
    {fl : __mini_vector Nat} {rel : List Nat}
    (hc : RequestOK S (s._S_mem_blocks.erase i).elems c)
    (hh : ldi < s._S_mem_blocks.elems.length - 1 ∨
      (s._S_mem_blocks.elems.length - 1 = 0 ∧ ldi = 0)) :
    Inv S
      { mem := s.mem
        _S_mem_blocks := s._S_mem_blocks.erase i
        _S_block_size := s._S_block_size / 2
        _S_last_request := c
        _S_last_dealloc_index := ldi
        _S_free_list := fl
        released := rel } live := by
  obtain ⟨hil, hib⟩ := List.getElem?_eq_some.1 hi
  have hbp : bp ∈ s._S_mem_blocks.elems := List.mem_iff_getElem?.2 ⟨i, hi⟩
  have hel : (s._S_mem_blocks.erase i).elems = s._S_mem_blocks.elems.eraseIdx i :=
    erase_elems _ _ hil
  have hsub : ∀ x ∈ (s._S_mem_blocks.erase i).elems, x ∈ s._S_mem_blocks.elems := by
    intro x hx
    rw [hel] at hx
    exact (List.eraseIdx_sublist _ _).subset hx
  have hlen : (s._S_mem_blocks.erase i).elems.length = s._S_mem_blocks.elems.length - 1 := by
    rw [hel, List.length_eraseIdx, if_pos hil]
  constructor
  · exact fun x hx => hI.wf x (hsub x hx)
  · show ((s._S_mem_blocks.erase i).elems).Pairwise (chunks_disjoint S)
    rw [hel]
    exact hI.disj.sublist (List.eraseIdx_sublist _ _)
  · exact fun x hx => hI.words x (hsub x hx)
  · exact fun x hx => hI.count x (hsub x hx)
  · exact hc
  · show ldi < (s._S_mem_blocks.erase i).elems.length ∨
      ((s._S_mem_blocks.erase i).elems.length = 0 ∧ ldi = 0)
    rw [hlen]; exact hh
  · show (s._S_block_size / 2 = 0 ∧ (s._S_mem_blocks.erase i).elems.length ≤ 27) ∨
      (s._S_block_size / 2 = 32 * 2 ^ (s._S_mem_blocks.erase i).elems.length ∧
        (s._S_mem_blocks.erase i).elems.length ≤ 26)
    rw [hlen]
    rcases hI.growth with ⟨h1, h2⟩ | ⟨h1, h2⟩
    · left; rw [h1]; omega
    · right
      refine ⟨?_, by omega⟩
      rw [h1]
      have : s._S_mem_blocks.elems.length = (s._S_mem_blocks.elems.length - 1) + 1 := by omega
      rw [this, pow_succ]
      simp only [Nat.add_sub_cancel]
      omega
  · exact hI.live_nodup
  · intro q
    show q ∈ live ↔ ∃ bp' ∈ (s._S_mem_blocks.erase i).elems, ∃ d < __num_blocks S bp',
      q = slot_addr S bp' d ∧ slot_bit s.mem bp' d = false
    rw [hI.live_iff q]
    constructor
    · rintro ⟨bp', hbp', d, hd, hq, hbit⟩
      refine ⟨bp', ?_, d, hd, hq, hbit⟩
      rw [hel, List.mem_eraseIdx_iff_getElem?]
      obtain ⟨j, hj⟩ := List.mem_iff_getElem?.1 hbp'
      refine ⟨j, ?_, hj⟩
      intro hji
      subst hji
      rw [hi] at hj
      injection hj with hj
      subst hj
      rw [all_bits_of_unused hS hI hbp huse hd] at hbit
      exact Bool.noConfusion hbit
    · rintro ⟨bp', hbp', d, hd, hq, hbit⟩
      exact ⟨bp', hsub bp' hbp', d, hd, hq, hbit⟩

theorem fill_bitmaps_other (temp mask : Nat) (n i : Nat) (mem : Memory) (a : Nat)
    (h : ∀ j, i ≤ j → j < i + n → a ≠ temp + 4 * j) :
    fill_bitmaps temp mask n i mem a = mem a := by
  induction n generalizing i mem with
  | zero => rfl
  | succ n ih =>
    simp only [fill_bitmaps]
    rw [ih (i + 1) _ (fun j h1 h2 => h j (by omega) (by omega))]
    unfold store word_size
    rw [if_neg (h i (by omega) (by omega))]

theorem fill_bitmaps_word (temp mask : Nat) (n i : Nat) (mem : Memory) (j : Nat)
    (h1 : i ≤ j) (h2 : j < i + n) : fill_bitmaps temp mask n i mem (temp + 4 * j) = mask := by
  induction n generalizing i mem with
  | zero => omega
  | succ n ih =>
    simp only [fill_bitmaps]
    by_cases hji : j = i
    · subst hji
      rw [fill_bitmaps_other _ _ _ _ _ _ (fun k h1 _ => by omega)]
      simp [store, word_size]
    · exact ih (i + 1) _ (by omega) (by omega)

theorem sum_range_const (n c : Nat) (f : Nat → Nat) (h : ∀ k < n, f k = c) :
    ((List.range n).map f).sum = c * n := by
  induction n with
  | zero => simp
  | succ n ih =>
    rw [List.range_succ, List.map_append, List.sum_append, ih (fun k hk => h k (by omega))]
    simp only [List.map_cons, List.map_nil, List.sum_cons, List.sum_nil]
    rw [h n (by omega), Nat.mul_succ]
    omega

theorem popcount_ones : popcount (2 ^ 32 - 1) = 32 := by decide

/-- The pair and the memory that `_S_refill_pool` produces in a block at `b` describe
a well-formed chunk with use-count `0` and all bitmap bits set. -/
theorem refill_chunk {S : Nat} (hS : 0 < S) {n b : Nat} (h1 : 1 ≤ n) (h2 : n ≤ 2 ^ 26)
    (hb : 0 < b) (mem : Memory) :
    let bp : Block_pair := (b + 4 + 4 * n, b + 4 + 4 * n + 32 * n * S - S)
    let mem1 := fill_bitmaps (b + 4) (2 ^ 32 - 1) n 0 (store mem b 0)
    WfChunk S bp ∧ __num_bitmaps S bp = n ∧ __num_blocks S bp = 32 * n ∧
      use_count_addr S bp = b ∧ chunk_end S bp = b + 4 + 4 * n + 32 * n * S ∧
      mem1 b = 0 ∧ (∀ k < n, mem1 (bitmap_addr bp k) = 2 ^ 32 - 1) ∧
      (∀ a, (a < b ∨ b + 4 + 4 * n ≤ a) → mem1 a = mem a) := by
  intro bp mem1
  have hle : 1 * S ≤ 32 * n * S := Nat.mul_le_mul_right S (by omega)
  have hsec : bp.2 = bp.1 + (32 * n - 1) * S := by
    show b + 4 + 4 * n + 32 * n * S - S = b + 4 + 4 * n + (32 * n - 1) * S
    rw [Nat.sub_mul]
    omega
  have hwf : WfChunk S bp := ⟨n, h1, h2, hsec, by show word_size * (n + 1) < b + 4 + 4 * n; unfold word_size; omega⟩
  obtain ⟨n', _, _, h3', h4', h5', h6', _, h8'⟩ := wf_facts hS hwf
  have hn : __num_bitmaps S bp = n := num_bitmaps_eq hS h1 h2 hsec
  have hnn : n' = n := by omega
  subst hnn
  have hfst : bp.1 = b + 4 + 4 * n' := rfl
  refine ⟨hwf, hn, h4', by omega, by omega, ?_, ?_, ?_⟩
  · show fill_bitmaps (b + 4) (2 ^ 32 - 1) n' 0 (store mem b 0) b = 0
    rw [fill_bitmaps_other _ _ _ _ _ _ (fun j _ _ => by omega)]
    simp [store]
  · intro k hk
    have : bitmap_addr bp k = b + 4 + 4 * (n' - 1 - k) := by
      unfold bitmap_addr word_size; omega
    rw [this]
    exact fill_bitmaps_word _ _ _ _ _ _ (by omega) (by omega)
  · intro a ha
    show fill_bitmaps (b + 4) (2 ^ 32 - 1) n' 0 (store mem b 0) a = mem a
    rw [fill_bitmaps_other _ _ _ _ _ _ (fun j _ _ => by omega)]
    unfold store
    rw [if_neg (by omega)]

theorem Inv.refill {S : Nat} (hS : 0 < S) {s : State} {live : List Nat} (hI : Inv S s live)
    {n b : Nat} (hG : s._S_block_size = 32 * n) (hn : n = 2 ^ s._S_mem_blocks.elems.length)
    (hlen : s._S_mem_blocks.elems.length ≤ 26) (hb : 0 < b)
    (henv : ∀ bp ∈ s._S_mem_blocks.elems,
      b + 4 + 4 * n + 32 * n * S ≤ use_count_addr S bp ∨ chunk_end S bp ≤ b)
    {vbp : __mini_vector Block_pair}
    (hv : vbp.elems = s._S_mem_blocks.elems ++ [(b + 4 + 4 * n, b + 4 + 4 * n + 32 * n * S - S)])
    {c : _Bitmap_counter} (hc : RequestOK S vbp.elems c) (fl : __mini_vector Nat) :
    Inv S
      { s with
        mem := fill_bitmaps (b + 4) (2 ^ 32 - 1) n 0 (store s.mem b 0)
        _S_mem_blocks := vbp
        _S_block_size := (s._S_block_size * 2) % 2 ^ 32
        _S_last_request := c
        _S_free_list := fl } live := by
  have h1 : 1 ≤ n := by rw [hn]; exact Nat.one_le_two_pow
  have h2 : n ≤ 2 ^ 26 := by rw [hn]; exact Nat.pow_le_pow_right (by omega) hlen
  obtain ⟨hwf, hnb, hN, hua, hend, huse, hwords, hframe⟩ := refill_chunk hS h1 h2 hb s.mem
  generalize hbp : ((b + 4 + 4 * n, b + 4 + 4 * n + 32 * n * S - S) : Block_pair) = bp at *
  generalize hmem : fill_bitmaps (b + 4) (2 ^ 32 - 1) n 0 (store s.mem b 0) = mem' at *
  have hfst : bp.1 = b + 4 + 4 * n := by rw [← hbp]
  have hagree : ∀ x ∈ s._S_mem_blocks.elems, header_agree S s.mem mem' x := by
    intro x hx a ha1 ha2
    apply hframe
    obtain ⟨m, _, _, _, _, h5, h6, _, h8⟩ := wf_facts hS (hI.wf x hx)
    have := henv x hx
    omega
  have hmem_or : ∀ x, x ∈ vbp.elems ↔ x ∈ s._S_mem_blocks.elems ∨ x = bp := by
    intro x; rw [hv]; simp
  have hbits : ∀ d, d < __num_blocks S bp → slot_bit mem' bp d = true := by
    intro d hd
    unfold slot_bit
    rw [hwords (d / 32) (by omega), Nat.testBit_two_pow_sub_one]
    simp
    exact Nat.mod_lt _ (by omega)
  constructor
  · intro x hx
    rcases (hmem_or x).1 hx with hx | hx
    · exact hI.wf x hx
    · rw [hx]; exact hwf
  · show vbp.elems.Pairwise (chunks_disjoint S)
    rw [hv, List.pairwise_append]
    refine ⟨hI.disj, List.pairwise_singleton _ _, ?_⟩
    intro x hx y hy
    rw [List.mem_singleton] at hy
    subst hy
    unfold chunks_disjoint
    have := henv x hx
    omega
  · intro x hx k hk
    show mem' (bitmap_addr x k) < 2 ^ 32
    rcases (hmem_or x).1 hx with hx | hx
    · rw [word_agree hS (hI.wf x hx) (hagree x hx) hk]
      exact hI.words x hx k hk
    · subst hx
      rw [hwords k (by omega)]
      omega
  · intro x hx
    show use_count S mem' x + free_slots S mem' x = __num_blocks S x
    rcases (hmem_or x).1 hx with hx | hx
    · rw [use_count_agree hS (hI.wf x hx) (hagree x hx),
        free_slots_agree hS (hI.wf x hx) (hagree x hx)]
      exact hI.count x hx
    · subst hx
      unfold use_count free_slots
      rw [hua, huse, hnb, hN,
        sum_range_const n 32 _ (fun k hk => by rw [hwords k hk]; exact popcount_ones)]
      omega
  · exact hc
  · show s._S_last_dealloc_index < vbp.elems.length ∨ _
    left
    rw [hv, List.length_append]
    have := hI.hint
    simp only [List.length_singleton]
    omega
  · show ((s._S_block_size * 2) % 2 ^ 32 = 0 ∧ vbp.elems.length ≤ 27) ∨
      ((s._S_block_size * 2) % 2 ^ 32 = 32 * 2 ^ vbp.elems.length ∧ vbp.elems.length ≤ 26)
    have hl : vbp.elems.length = s._S_mem_blocks.elems.length + 1 := by
      rw [hv, List.length_append]; rfl
    rw [hl, hG, hn]
    by_cases h26 : s._S_mem_blocks.elems.length = 26
    · left
      rw [h26]
      exact ⟨by norm_num, by omega⟩
    · right
      refine ⟨?_, by omega⟩
      rw [pow_succ]
      have : 2 ^ s._S_mem_blocks.elems.length ≤ 2 ^ 25 :=
        Nat.pow_le_pow_right (by omega) (by omega)
      omega
  · exact hI.live_nodup
  · intro q
    show q ∈ live ↔ ∃ bp' ∈ vbp.elems, ∃ d < __num_blocks S bp',
      q = slot_addr S bp' d ∧ slot_bit mem' bp' d = false
    rw [hI.live_iff q]
    constructor
    · rintro ⟨x, hx, d, hd, hq, hbit⟩
      refine ⟨x, (hmem_or x).2 (Or.inl hx), d, hd, hq, ?_⟩
      rw [slot_bit_agree hS (hI.wf x hx) (hagree x hx) hd]
      exact hbit
    · rintro ⟨x, hx, d, hd, hq, hbit⟩
      rcases (hmem_or x).1 hx with hx | hx
      · refine ⟨x, hx, d, hd, hq, ?_⟩
        rw [slot_bit_agree hS (hI.wf x hx) (hagree x hx) hd] at hbit
        exact hbit
      · subst hx
        rw [hbits d hd] at hbit
        exact Bool.noConfusion hbit

theorem to_int_ne_neg_one (i : Nat) (h : i < 2 ^ 31) : to_int (i : Int) ≠ -1 := by
  rw [to_int_of_nat i h]; omega

/-- Resetting the cursor to a registered chunk puts it on word 0 of that chunk. -/
theorem reset_valid {S : Nat} (hS : 0 < S) {vbp : List Block_pair} {i : Nat} {bp : Block_pair}
    (hi : vbp[i]? = some bp) (hwf : WfChunk S bp) (hlt : i < 2 ^ 31) (c : _Bitmap_counter) :
    _Bitmap_counter._M_reset S vbp c (to_int (i : Int)) =
      some { _M_curr_bmap := bitmap_addr bp 0
             _M_last_bmap_in_block := bitmap_addr bp (__num_bitmaps S bp - 1)
             _M_curr_index := i } := by
  obtain ⟨n, h1, h2, h3, h4, h5, h6, h7, h8⟩ := wf_facts hS hwf
  unfold _Bitmap_counter._M_reset
  rw [if_neg (to_int_ne_neg_one i hlt), to_int_of_nat i hlt, to_size_t_of_nat i (by omega)]
  simp only [hi]
  have hdiv : (((bp.2 : Int) - (bp.1 : Int)) / (S : Int) + 1) = ((32 * n : Nat) : Int) := by
    rw [h7, slot_diff hS]; omega
  rw [hdiv]
  have htd : ((32 * n : Nat) : Int).tdiv (bits_per_block : Int) = (n : Int) := by
    have e : (bits_per_block : Int) = 32 := rfl
    rw [e, Int.tdiv_eq_ediv (by omega) (by omega)]
    omega
  rw [htd, h3]
  congr 1
  simp only [_Bitmap_counter.mk.injEq, true_and, and_true]
  refine ⟨rfl, ?_⟩
  unfold bitmap_addr word_size
  omega

theorem requestOK_reset {S : Nat} (hS : 0 < S) {vbp : List Block_pair} {i : Nat}
    {bp : Block_pair} (hi : vbp[i]? = some bp) (hwf : WfChunk S bp) :
    RequestOK S vbp
      { _M_curr_bmap := bitmap_addr bp 0
        _M_last_bmap_in_block := bitmap_addr bp (__num_bitmaps S bp - 1)
        _M_curr_index := i } := by
  obtain ⟨n, h1, h2, h3, h4, h5, h6, h7, h8⟩ := wf_facts hS hwf
  exact Or.inr ⟨bp, 0, hi, by omega, rfl, rfl⟩

theorem reset_finished (S : Nat) (vbp : List Block_pair) (c : _Bitmap_counter) :
    _Bitmap_counter._M_reset S vbp c (-1) =
      some { c with _M_curr_bmap := 0, _M_curr_index := to_size_t (-1) } := by
  unfold _Bitmap_counter._M_reset
  rw [if_pos rfl]

theorem sum_drop_le (l : List Nat) (i : Nat) : (l.drop i).sum ≤ l.sum :=
  List.Sublist.sum_le_sum (List.drop_sublist i l) (fun _ _ => Nat.zero_le _)

/-- The loop of `_M_allocate_single_object` ends within the given number of iterations
when that number covers the bitmap words from the cursor to the end of the registry; it
leaves the cursor finished or on a non-zero bitmap word. -/
theorem advance_request_spec {S : Nat} (hS : 0 < S) (mem : Memory) {vbp : List Block_pair}
    (hwf : ∀ bp ∈ vbp, WfChunk S bp) (hlen : vbp.length ≤ 27) (fuel : Nat)
    (c : _Bitmap_counter) (hc : RequestOK S vbp c)
    (hfuel : c._M_curr_bmap = 0 ∨ ∃ bp k, vbp[c._M_curr_index]? = some bp ∧
      c._M_curr_bmap = bitmap_addr bp k ∧ k < __num_bitmaps S bp ∧
      (((vbp.drop c._M_curr_index).map (__num_bitmaps S)).sum ≤ fuel + k)) :
    ∃ c1, advance_request S mem vbp fuel c = some c1 ∧ RequestOK S vbp c1 ∧
      (c1._M_curr_bmap = 0 ∨ mem c1._M_curr_bmap ≠ 0) := by
  induction fuel generalizing c with
  | zero =>
    unfold advance_request
    by_cases hcond : c._M_finished = false ∧ mem c._M_curr_bmap = 0
    · exfalso
      rcases hfuel with h0 | ⟨bp, k, hi, hcur, hk, hsum⟩
      · simp [_Bitmap_counter._M_finished, h0] at hcond
      · obtain ⟨hil, hib⟩ := List.getElem?_eq_some.1 hi
        rw [List.drop_eq_getElem_cons hil, List.map_cons, List.sum_cons, hib] at hsum
        omega
    · rw [if_neg hcond]
      refine ⟨c, rfl, hc, ?_⟩
      by_cases h0 : c._M_curr_bmap = 0
      · exact Or.inl h0
      · right
        intro hm
        exact hcond ⟨by simp [_Bitmap_counter._M_finished, h0], hm⟩
  | succ fuel ih =>
    unfold advance_request
    by_cases hcond : c._M_finished = false ∧ mem c._M_curr_bmap = 0
    · rw [if_pos hcond]
      have hnz : c._M_curr_bmap ≠ 0 := by
        intro h0; simp [_Bitmap_counter._M_finished, h0] at hcond
      rcases hfuel with h0 | ⟨bp, k, hi, hcur, hk, hsum⟩
      · exact absurd h0 hnz
      rcases hc with h0 | ⟨bp', k', hi', hk', hcur', hlast'⟩
      · exact absurd h0 hnz
      rw [hi] at hi'
      injection hi' with hi'
      subst hi'
      obtain ⟨hil, hib⟩ := List.getElem?_eq_some.1 hi
      obtain ⟨n, h1, h2, h3, h4, h5, h6, h7, h8⟩ := wf_facts hS (hwf bp (List.mem_iff_getElem?.2 ⟨_, hi⟩))
      have hkk : k' = k := by
        rw [hcur] at hcur'
        unfold bitmap_addr word_size at hcur'
        omega
      subst hkk
      rw [List.drop_eq_getElem_cons hil, List.map_cons, List.sum_cons, hib] at hsum
      unfold _Bitmap_counter.incr
      by_cases hlastk : c._M_curr_bmap = c._M_last_bmap_in_block
      · rw [if_pos hlastk]
        have hkn : k' = n - 1 := by
          rw [hcur, hlast'] at hlastk
          unfold bitmap_addr word_size at hlastk
          omega
        have hidx : (c._M_curr_index + 1) % 2 ^ 64 = c._M_curr_index + 1 :=
          Nat.mod_eq_of_lt (by omega)
        simp only [hidx]
        by_cases hend : c._M_curr_index + 1 = vbp.length
        · rw [if_pos hend]
          simp only []
          apply ih
          · exact Or.inl rfl
          · exact Or.inl rfl
        · rw [if_neg hend]
          have hil2 : c._M_curr_index + 1 < vbp.length := by omega
          have hi2 : vbp[c._M_curr_index + 1]? = some vbp[c._M_curr_index + 1] :=
            List.getElem?_eq_getElem hil2
          have hwf2 := hwf _ (List.mem_iff_getElem?.2 ⟨_, hi2⟩)
          obtain ⟨n2, g1, g2, g3, g4, g5, g6, g7, g8⟩ := wf_facts hS hwf2
          have hcast : ((c._M_curr_index + 1 : Nat) : Int) = (c._M_curr_index : Int) + 1 := by
            omega
          have := reset_valid hS hi2 hwf2 (by omega) { c with _M_curr_index := c._M_curr_index + 1 }
          rw [this]
          simp only []
          apply ih
          · exact requestOK_reset hS hi2 hwf2
          · right
            refine ⟨_, 0, hi2, rfl, by omega, ?_⟩
            show ((vbp.drop (c._M_curr_index + 1)).map (__num_bitmaps S)).sum ≤ fuel + 0
            omega
      · rw [if_neg hlastk]
        have hkn : k' ≠ n - 1 := by
          intro e
          apply hlastk
          rw [hcur, hlast', h3, e]
        have hnext : c._M_curr_bmap - word_size = bitmap_addr bp (k' + 1) := by
          rw [hcur]; unfold bitmap_addr word_size; omega
        simp only []
        apply ih
        · right
          exact ⟨bp, k' + 1, hi, by omega, hnext, hlast'⟩
        · right
          refine ⟨bp, k' + 1, hi, hnext, by omega, ?_⟩
          show ((vbp.drop c._M_curr_index).map (__num_bitmaps S)).sum ≤ fuel + (k' + 1)
          rw [List.drop_eq_getElem_cons hil, List.map_cons, List.sum_cons, hib]
          omega
    · rw [if_neg hcond]
      refine ⟨c, rfl, hc, ?_⟩
      by_cases h0 : c._M_curr_bmap = 0
      · exact Or.inl h0
      · right
        intro hm
        exact hcond ⟨by simp [_Bitmap_counter._M_finished, h0], hm⟩

theorem scan_spec (mem : Memory) (bp : Block_pair) (n : Nat) (h6 : 4 * (n + 1) < bp.1)
    (m i : Nat) (f : _Ffit_finder) (him : i + m = n) (r : Bool × _Ffit_finder)
    (hr : _Ffit_finder.scan mem m i (bitmap_addr bp i) f = r) :
    (r.1 = true → ∃ k, i ≤ k ∧ k < n ∧ r.2._M_pbitmap = bitmap_addr bp k ∧
        mem (bitmap_addr bp k) ≠ 0 ∧ r.2._M_data_offset = k % 2 ^ 32 ∧
        ∀ j, i ≤ j → j < k → mem (bitmap_addr bp j) = 0) ∧
    (r.1 = false → ∀ k, i ≤ k → k < n → mem (bitmap_addr bp k) = 0) := by
  induction m generalizing i f with
  | zero =>
    simp only [_Ffit_finder.scan] at hr
    subst hr
    refine ⟨fun h => Bool.noConfusion h, fun _ k h1 h2 => by omega⟩
  | succ m ih =>
    simp only [_Ffit_finder.scan] at hr
    by_cases hw : mem (bitmap_addr bp i) ≠ 0
    · rw [if_pos hw] at hr
      subst hr
      refine ⟨fun _ => ⟨i, le_refl _, by omega, rfl, hw, rfl, fun j h1 h2 => by omega⟩,
        fun h => Bool.noConfusion h⟩
    · rw [if_neg hw] at hr
      have hnext : bitmap_addr bp i - word_size = bitmap_addr bp (i + 1) := by
        unfold bitmap_addr word_size; omega
      rw [hnext] at hr
      obtain ⟨ih1, ih2⟩ := ih (i + 1) _ (by omega) hr
      have hw0 : mem (bitmap_addr bp i) = 0 := by
        by_contra h; exact hw h
      constructor
      · intro h
        obtain ⟨k, k1, k2, k3, k4, k5, k6⟩ := ih1 h
        refine ⟨k, by omega, k2, k3, k4, k5, fun j h1 h2 => ?_⟩
        by_cases hji : j = i
        · rw [hji]; exact hw0
        · exact k6 j (by omega) h2
      · intro h k k1 k2
        by_cases hki : k = i
        · rw [hki]; exact hw0
        · exact ih2 h k (by omega) k2

/-- A hit of `_Ffit_finder::operator()` on a well-formed chunk records the first non-zero
bitmap word of the chunk and its index; a miss means the chunk has use-count `N` or no
set bit. -/
theorem ffit_call_spec {S : Nat} (hS : 0 < S) (mem : Memory) {bp : Block_pair}
    (hwf : WfChunk S bp) (f : _Ffit_finder) :
    ((_Ffit_finder.call S mem f bp).1 = true →
      ∃ k, k < __num_bitmaps S bp ∧
        (_Ffit_finder.call S mem f bp).2._M_pbitmap = bitmap_addr bp k ∧
        mem (bitmap_addr bp k) ≠ 0 ∧ (_Ffit_finder.call S mem f bp).2._M_offset = 32 * k ∧
        (∀ j < k, mem (bitmap_addr bp j) = 0) ∧ use_count S mem bp ≠ __num_blocks S bp) ∧
    ((_Ffit_finder.call S mem f bp).1 = false →
      use_count S mem bp = __num_blocks S bp ∨
        ∀ k < __num_bitmaps S bp, mem (bitmap_addr bp k) = 0) := by
  obtain ⟨n, h1, h2, h3, h4, h5, h6, h7, h8⟩ := wf_facts hS hwf
  unfold _Ffit_finder.call
  by_cases hfull : mem (bp.1 - word_size * (__num_bitmaps S bp + 1)) = __num_blocks S bp
  · rw [if_pos hfull]
    exact ⟨fun h => Bool.noConfusion h, fun _ => Or.inl hfull⟩
  · rw [if_neg hfull]
    have h0 : bp.1 - word_size = bitmap_addr bp 0 := rfl
    rw [h0, h3]
    obtain ⟨s1, s2⟩ := scan_spec mem bp n h6 n 0 f (by omega) _ rfl
    constructor
    · intro h
      obtain ⟨k, _, k2, k3, k4, k5, k6⟩ := s1 h
      refine ⟨k, k2, k3, k4, ?_, fun j hj => k6 j (by omega) hj, hfull⟩
      unfold _Ffit_finder._M_offset
      rw [k5]
      have : bits_per_block = 32 := rfl
      rw [this]
      omega
    · intro h
      exact Or.inr (fun k hk => s2 h k (by omega) hk)

/-- The result of `__find_if` with the first-fit finder over well-formed chunks. -/
theorem find_if_ffit_spec {S : Nat} (hS : 0 < S) (mem : Memory) (vbp : List Block_pair)
    (hwf : ∀ bp ∈ vbp, WfChunk S bp) (first : Nat) (f : _Ffit_finder) :
    let r := __find_if (_Ffit_finder.call S mem) vbp first f
    first ≤ r.1 ∧ r.1 ≤ first + vbp.length ∧
    (r.1 ≠ first + vbp.length → ∃ bp k, vbp[r.1 - first]? = some bp ∧
      k < __num_bitmaps S bp ∧ r.2._M_pbitmap = bitmap_addr bp k ∧
      mem (bitmap_addr bp k) ≠ 0 ∧ r.2._M_offset = 32 * k ∧
      (∀ j < k, mem (bitmap_addr bp j) = 0) ∧ use_count S mem bp ≠ __num_blocks S bp) ∧
    (∀ j, j < r.1 - first → ∀ bp, vbp[j]? = some bp →
      use_count S mem bp = __num_blocks S bp ∨
        ∀ k < __num_bitmaps S bp, mem (bitmap_addr bp k) = 0) := by
  induction vbp generalizing first f with
  | nil =>
    simp only [__find_if, List.length_nil]
    refine ⟨le_refl _, le_refl _, fun h => absurd rfl h, fun j hj => by omega⟩
  | cons x xs ih =>
    simp only [__find_if, List.length_cons]
    obtain ⟨c1, c2⟩ := ffit_call_spec hS mem (hwf x (List.mem_cons_self _ _)) f
    by_cases hhit : (_Ffit_finder.call S mem f x).1 = true
    · rw [if_pos hhit]
      refine ⟨le_refl _, by omega, fun _ => ?_, fun j hj => by omega⟩
      obtain ⟨k, k1, k2, k3, k4, k5, k6⟩ := c1 hhit
      exact ⟨x, k, by simp, k1, k2, k3, k4, k5, k6⟩
    · rw [if_neg hhit]
      have hmiss : (_Ffit_finder.call S mem f x).1 = false := by
        cases h : (_Ffit_finder.call S mem f x).1
        · rfl
        · exact absurd h hhit
      obtain ⟨i1, i2, i3, i4⟩ := ih (fun bp hbp => hwf bp (List.mem_cons_of_mem _ hbp))
        (first + 1) (_Ffit_finder.call S mem f x).2
      refine ⟨by omega, by omega, fun hne => ?_, fun j hj bp hbp => ?_⟩
      · obtain ⟨bp, k, g1, g2⟩ := i3 (by omega)
        refine ⟨bp, k, ?_, g2⟩
        have : (__find_if (_Ffit_finder.call S mem) xs (first + 1)
            (_Ffit_finder.call S mem f x).2).1 - first
            = ((__find_if (_Ffit_finder.call S mem) xs (first + 1)
              (_Ffit_finder.call S mem f x).2).1 - (first + 1)) + 1 := by omega
        rw [this, List.getElem?_cons_succ]
        exact g1
      · cases j with
        | zero =>
          simp only [List.getElem?_cons_zero, Option.some.injEq] at hbp
          subst hbp
          exact c2 hmiss
        | succ j =>
          rw [List.getElem?_cons_succ] at hbp
          exact i4 j (by omega) bp hbp

theorem request_offset {bp : Block_pair} {n k : Nat} (h6 : 4 * (n + 1) < bp.1) (hk : k < n)
    (hn : n ≤ 2 ^ 26) :
    to_uint ((bits_per_block : Int) *
      (((bp.1 : Int) - ((bitmap_addr bp k : Nat) : Int)) / (word_size : Int) - 1)) = 32 * k := by
  have e1 : (bits_per_block : Int) = 32 := rfl
  have e2 : (word_size : Int) = 4 := rfl
  have e3 : ((bitmap_addr bp k : Nat) : Int) = (bp.1 : Int) - 4 * ((k : Int) + 1) := by
    unfold bitmap_addr word_size; omega
  rw [e1, e2, e3]
  have e4 : ((bp.1 : Int) - ((bp.1 : Int) - 4 * ((k : Int) + 1))) / 4 - 1 = (k : Int) := by
    omega
  rw [e4]
  have e5 : (32 : Int) * (k : Int) = ((32 * k : Nat) : Int) := by push_cast; ring
  rw [e5]
  exact to_uint_of_nat _ (by omega)

/-- The end of `_M_allocate_single_object` with the cursor on a non-zero word `k` of a
registered chunk: a set bit `b` of the word is cleared, the use-count is incremented
and slot `32 * k + b` is returned. -/
theorem allocate_from_request_spec {S : Nat} (hS : 0 < S) {s : State} {bp : Block_pair}
    {k : Nat} (hi : s._S_mem_blocks.elems[s._S_last_request._M_curr_index]? = some bp)
    (hwf : WfChunk S bp) (hidx : s._S_last_request._M_curr_index < 2 ^ 32)
    (hk : k < __num_bitmaps S bp) (hcur : s._S_last_request._M_curr_bmap = bitmap_addr bp k)
    (hw : s.mem (bitmap_addr bp k) ≠ 0) (hlt : s.mem (bitmap_addr bp k) < 2 ^ 32) :
    ∃ b, b < 32 ∧ (s.mem (bitmap_addr bp k)).testBit b = true ∧
      _Bit_scan_forward (s.mem (bitmap_addr bp k)) = some b ∧
      allocate_from_request S s = Outcome.ok
        (claim_state S s bp k b s._S_last_request, slot_addr S bp (32 * k + b)) := by
  obtain ⟨n, h1, h2, h3, h4, h5, h6, h7, h8⟩ := wf_facts hS hwf
  obtain ⟨b, hb1, hb2, hb3⟩ := bit_scan_some hw hlt
  refine ⟨b, hb2, hb3, hb1, ?_⟩
  have hbase : _Bitmap_counter._M_base s._S_mem_blocks.elems s._S_last_request = some bp.1 := by
    unfold _Bitmap_counter._M_base; rw [hi]; rfl
  have hoff : _Bitmap_counter._M_offset s._S_mem_blocks.elems s._S_last_request
      = some (32 * k) := by
    unfold _Bitmap_counter._M_offset
    rw [hbase, hcur]
    exact congrArg some (request_offset (k := k) h6 (by omega) h2)
  have hwhere : s._S_last_request._M_where = s._S_last_request._M_curr_index := by
    unfold _Bitmap_counter._M_where
    exact Nat.mod_eq_of_lt hidx
  unfold allocate_from_request
  rw [hbase, hoff, hwhere, hi, hcur, hb1]
  rfl

theorem Inv.length_le {S : Nat} {s : State} {live : List Nat} (hI : Inv S s live) :
    s._S_mem_blocks.elems.length ≤ 27 := by
  rcases hI.growth with h | h <;> omega

theorem Inv.set_request {S : Nat} {s : State} {live : List Nat} (hI : Inv S s live)
    {c : _Bitmap_counter} (hc : RequestOK S s._S_mem_blocks.elems c) :
    Inv S { s with _S_last_request := c } live :=
  ⟨hI.wf, hI.disj, hI.words, hI.count, hc, hI.hint, hI.growth, hI.live_nodup, hI.live_iff⟩

theorem Inv.set_hint {S : Nat} {s : State} {live : List Nat} (hI : Inv S s live)
    {i : Nat} (hi : i < s._S_mem_blocks.elems.length) :
    Inv S { s with _S_last_dealloc_index := i } live :=
  ⟨hI.wf, hI.disj, hI.words, hI.count, hI.request, Or.inl hi, hI.growth, hI.live_nodup,
    hI.live_iff⟩

/-- The cursor loop at the start of `_M_allocate_single_object` on a state that
satisfies the invariant. -/
theorem advance_request_inv {S : Nat} (hS : 0 < S) {s : State} {live : List Nat}
    (hI : Inv S s live) :
    ∃ c1, advance_request S s.mem s._S_mem_blocks.elems
        (request_fuel S s._S_mem_blocks.elems) s._S_last_request = some c1 ∧
      RequestOK S s._S_mem_blocks.elems c1 ∧
      (c1._M_curr_bmap = 0 ∨ s.mem c1._M_curr_bmap ≠ 0) := by
  apply advance_request_spec hS s.mem hI.wf hI.length_le _ _ hI.request
  rcases hI.request with h0 | ⟨bp, k, hi, hk, hcur, _⟩
  · exact Or.inl h0
  · right
    refine ⟨bp, k, hi, hcur, hk, ?_⟩
    unfold request_fuel
    have := sum_drop_le (s._S_mem_blocks.elems.map (__num_bitmaps S))
      s._S_last_request._M_curr_index
    rw [← List.map_drop] at this
    omega

/-- A chunk with a set bitmap bit is not full. -/
theorem not_full_of_bit {S : Nat} (hS : 0 < S) {s : State} {live : List Nat}
    (hI : Inv S s live) {bp : Block_pair} (hbp : bp ∈ s._S_mem_blocks.elems) {k b : Nat}
    (hk : k < __num_bitmaps S bp) (hb : b < 32)
    (hbit : (s.mem (bitmap_addr bp k)).testBit b = true) :
    use_count S s.mem bp < __num_blocks S bp := by
  obtain ⟨n, h1, h2, h3, h4, h5, h6, h7, h8⟩ := wf_facts hS (hI.wf bp hbp)
  have hcnt := hI.count bp hbp
  have hone := popcount_clear (s.mem (bitmap_addr bp k)) b hb hbit
  have hsum := sum_range_flip (fun i => popcount (s.mem (bitmap_addr bp i)))
    (fun i => if i = k then popcount (s.mem (bitmap_addr bp i)) - 1
      else popcount (s.mem (bitmap_addr bp i))) n k (by omega)
    (fun i _ hne => by simp [hne]) (by simp; omega)
  unfold free_slots at hcnt
  rw [h3] at hcnt
  omega

/-- The branch "Search was successful" on a state that satisfies the invariant. -/
theorem allocate_first_fit_spec {S : Nat} (hS : 0 < S) {s : State} {live : List Nat}
    (hI : Inv S s live) {r : Nat × _Ffit_finder}
    (hr : __find_if (_Ffit_finder.call S s.mem) s._S_mem_blocks.elems 0
        { _M_pbitmap := 0, _M_data_offset := 0 } = r)
    (hhit : r.1 ≠ s._S_mem_blocks.elems.length) :
    ∃ bp k b c, bp ∈ s._S_mem_blocks.elems ∧ k < __num_bitmaps S bp ∧ b < 32 ∧
      (s.mem (bitmap_addr bp k)).testBit b = true ∧
      _Bit_scan_forward (s.mem (bitmap_addr bp k)) = some b ∧
      RequestOK S s._S_mem_blocks.elems c ∧
      allocate_first_fit S s r.1 r.2
        = Outcome.ok (claim_state S s bp k b c, slot_addr S bp (32 * k + b)) := by
  obtain ⟨f1, f2, f3, _⟩ := find_if_ffit_spec hS s.mem s._S_mem_blocks.elems hI.wf 0
    { _M_pbitmap := 0, _M_data_offset := 0 }
  rw [hr] at f1 f2 f3
  obtain ⟨bp, k, g1, g2, g3, g4, g5, _, g7⟩ := f3 (by omega)
  rw [Nat.sub_zero] at g1
  have hbp : bp ∈ s._S_mem_blocks.elems := List.mem_iff_getElem?.2 ⟨_, g1⟩
  have hlen := hI.length_le
  have hw := hI.words bp hbp k g2
  obtain ⟨b, hb1, hb2, hb3⟩ := bit_scan_some g4 hw
  refine ⟨bp, k, b, _, hbp, g2, hb2, hb3, hb1, requestOK_reset hS g1 (hI.wf bp hbp), ?_⟩
  unfold allocate_first_fit
  rw [g3, hb1, g1, reset_valid hS g1 (hI.wf bp hbp) (by omega), g5]
  rfl

/-- A completed `_M_allocate_single_object` that finds the cursor not finished after the
loop, or finds a chunk by first fit. -/
theorem allocate_no_refill {S : Nat} (hS : 0 < S) {s : State} {live : List Nat}
    (hI : Inv S s live) (env : Env) {c1 : _Bitmap_counter}
    (hadv : advance_request S s.mem s._S_mem_blocks.elems
        (request_fuel S s._S_mem_blocks.elems) s._S_last_request = some c1)
    (hc1 : RequestOK S s._S_mem_blocks.elems c1)
    (hstop : c1._M_curr_bmap = 0 ∨ s.mem c1._M_curr_bmap ≠ 0)
    (hcase : c1._M_finished = false ∨
      (__find_if (_Ffit_finder.call S s.mem) s._S_mem_blocks.elems 0
        { _M_pbitmap := 0, _M_data_offset := 0 }).1 ≠ s._S_mem_blocks.elems.length) :
    ∃ bp k b c, bp ∈ s._S_mem_blocks.elems ∧ k < __num_bitmaps S bp ∧ b < 32 ∧
      (s.mem (bitmap_addr bp k)).testBit b = true ∧
      _Bit_scan_forward (s.mem (bitmap_addr bp k)) = some b ∧
      RequestOK S s._S_mem_blocks.elems c ∧
      _M_allocate_single_object S env s
        = Outcome.ok (claim_state S s bp k b c, slot_addr S bp (32 * k + b)) := by
  have hI1 : Inv S { s with _S_last_request := c1 } live := hI.set_request hc1
  have hunf : _M_allocate_single_object S env s
      = allocate_after_loop S env { s with _S_last_request := c1 }
          (__find_if (_Ffit_finder.call S s.mem) s._S_mem_blocks.elems 0
            { _M_pbitmap := 0, _M_data_offset := 0 }) := by
    unfold _M_allocate_single_object
    rw [hadv]
  rw [hunf]
  unfold allocate_after_loop
  by_cases hfin : c1._M_finished = true
  · rw [if_pos hfin]
    have hhit : (__find_if (_Ffit_finder.call S s.mem) s._S_mem_blocks.elems 0
        { _M_pbitmap := 0, _M_data_offset := 0 }).1 ≠ s._S_mem_blocks.elems.length := by
      rcases hcase with h | h
      · rw [hfin] at h; exact Bool.noConfusion h
      · exact h
    rw [if_pos hhit]
    obtain ⟨bp, k, b, c, h1, h2, h3, h4, h5, h6, h7⟩ :=
      allocate_first_fit_spec hS hI1 rfl hhit
    exact ⟨bp, k, b, c, h1, h2, h3, h4, h5, h6, h7⟩
  · rw [if_neg hfin]
    have hnz : c1._M_curr_bmap ≠ 0 := by
      intro h0; apply hfin; simp [_Bitmap_counter._M_finished, h0]
    rcases hc1 with h0 | ⟨bp, k, hi, hk, hcur, hlast⟩
    · exact absurd h0 hnz
    have hw0 : s.mem c1._M_curr_bmap ≠ 0 := by
      rcases hstop with h | h
      · exact absurd h hnz
      · exact h
    have hbp : bp ∈ s._S_mem_blocks.elems := List.mem_iff_getElem?.2 ⟨_, hi⟩
    have hlen := hI.length_le
    obtain ⟨hil, _⟩ := List.getElem?_eq_some.1 hi
    rw [hcur] at hw0
    obtain ⟨b, hb2, hb3, hb1, hres⟩ := allocate_from_request_spec hS
      (s := { s with _S_last_request := c1 }) hi (hI.wf bp hbp)
      (by show c1._M_curr_index < 2 ^ 32; omega) hk hcur hw0 (hI.words bp hbp k hk)
    exact ⟨bp, k, b, c1, hbp, hk, hb2, hb3, hb1, Or.inr ⟨bp, k, hi, hk, hcur, hlast⟩, hres⟩

/-- The state after `_S_refill_pool` satisfies the invariant when the block obtained
overlaps no registered chunk. -/
theorem Inv.refill_state {S : Nat} (hS : 0 < S) {s : State} {live : List Nat}
    (hI : Inv S s live)
    (hG : s._S_block_size = 32 * 2 ^ s._S_mem_blocks.elems.length)
    (hlen : s._S_mem_blocks.elems.length ≤ 26) {b : Nat} (hb : 0 < b)
    (henv : ∀ bp ∈ s._S_mem_blocks.elems,
      b + word_size * (s._S_block_size / bits_per_block + 1) + s._S_block_size * S
          ≤ use_count_addr S bp ∨ chunk_end S bp ≤ b)
    {vbp : __mini_vector Block_pair}
    (hv : vbp.elems = s._S_mem_blocks.elems ++ [refill_pair S s._S_block_size b])
    {c : _Bitmap_counter} (hc : RequestOK S vbp.elems c) (fl : __mini_vector Nat) :
    Inv S (refill_state s b fl vbp c) live := by
  have e1 : s._S_block_size / bits_per_block = 2 ^ s._S_mem_blocks.elems.length := by
    rw [hG]
    show 32 * 2 ^ s._S_mem_blocks.elems.length / 32 = _
    omega
  have e2 : refill_pair S s._S_block_size b
      = (b + 4 + 4 * 2 ^ s._S_mem_blocks.elems.length,
          b + 4 + 4 * 2 ^ s._S_mem_blocks.elems.length
            + 32 * 2 ^ s._S_mem_blocks.elems.length * S - S) := by
    unfold refill_pair
    rw [e1, hG]
    rfl
  rw [e2] at hv
  have := Inv.refill hS hI (n := 2 ^ s._S_mem_blocks.elems.length) (b := b) hG rfl hlen hb
    (by
      intro bp hbp
      have := henv bp hbp
      rw [e1, hG] at this
      unfold word_size at this
      omega) hv hc fl
  unfold BitmapAlloc.refill_state
  rw [e1]
  exact this

theorem reset_some {S : Nat} {vbp : List Block_pair} {c c2 : _Bitmap_counter} {index : Int}
    (h : _Bitmap_counter._M_reset S vbp c index = some c2) (hne : index ≠ -1) :
    ∃ bp, vbp[to_size_t index]? = some bp ∧ c2._M_curr_bmap = bp.1 - word_size := by
  unfold _Bitmap_counter._M_reset at h
  rw [if_neg hne] at h
  cases hv : vbp[to_size_t index]? with
  | none => rw [hv] at h; exact Option.noConfusion h
  | some bp =>
    rw [hv] at h
    injection h with h
    exact ⟨bp, rfl, by rw [← h]⟩

theorem allocate_from_request_fault {S : Nat} {s : State}
    (h : _Bit_scan_forward (s.mem s._S_last_request._M_curr_bmap) = none) :
    allocate_from_request S s = Outcome.fault := by
  unfold allocate_from_request
  rw [h]

theorem bit_scan_ones : _Bit_scan_forward (2 ^ 32 - 1) = some 0 := by decide

/-- Resetting the cursor to a valid index, for any pair stored there. -/
theorem reset_at {S : Nat} {vbp : List Block_pair} {i : Nat} {bp : Block_pair}
    (hi : vbp[i]? = some bp) (hlt : i < 2 ^ 31) (c : _Bitmap_counter) :
    ∃ c2, _Bitmap_counter._M_reset S vbp c (to_int (i : Int)) = some c2 ∧
      c2._M_curr_bmap = bp.1 - word_size := by
  unfold _Bitmap_counter._M_reset
  rw [if_neg (to_int_ne_neg_one i hlt), to_int_of_nat i hlt, to_size_t_of_nat i (by omega), hi]
  exact ⟨_, rfl, rfl⟩

theorem size_sub_one {α : Type} (v : __mini_vector α) (h : 1 ≤ v.elems.length) :
    ((v.size : Nat) : Int) - 1 = ((v.elems.length - 1 : Nat) : Int) := by
  unfold __mini_vector.size
  omega

/-- After a refill with `_S_block_size = 0` the allocation does not complete: the
cursor is put on the use-count word of the new chunk, which is `0`. -/
theorem allocate_in_new_chunk_fault {S : Nat} {s : State} {bp : Block_pair}
    (hlen : 1 ≤ s._S_mem_blocks.elems.length) (hlen2 : s._S_mem_blocks.elems.length ≤ 28)
    (hi : s._S_mem_blocks.elems[s._S_mem_blocks.elems.length - 1]? = some bp)
    (hw : s.mem (bp.1 - word_size) = 0) :
    allocate_in_new_chunk S s = Outcome.fault := by
  unfold allocate_in_new_chunk
  rw [size_sub_one _ hlen]
  obtain ⟨c2, h1, h2⟩ := reset_at (S := S) hi (by omega) s._S_last_request
  rw [h1]
  apply allocate_from_request_fault
  show _Bit_scan_forward (s.mem c2._M_curr_bmap) = none
  rw [h2, hw]
  exact bit_scan_zero

/-- After a refill the allocation takes slot 0 of the new chunk. -/
theorem allocate_in_new_chunk_spec {S : Nat} (hS : 0 < S) {s : State} {bp : Block_pair}
    (hlen : 1 ≤ s._S_mem_blocks.elems.length) (hlen2 : s._S_mem_blocks.elems.length ≤ 28)
    (hi : s._S_mem_blocks.elems[s._S_mem_blocks.elems.length - 1]? = some bp)
    (hwf : WfChunk S bp) (hw : s.mem (bitmap_addr bp 0) = 2 ^ 32 - 1) {i : Nat}
    (hidx : s._S_mem_blocks.elems.length - 1 = i) :
    allocate_in_new_chunk S s = Outcome.ok
      (claim_state S s bp 0 0 (request_at S bp i), slot_addr S bp 0) := by
  obtain ⟨n, h1, h2, h3, h4, h5, h6, h7, h8⟩ := wf_facts hS hwf
  unfold allocate_in_new_chunk
  rw [size_sub_one _ hlen, reset_valid hS hi hwf (by omega)]
  subst hidx
  obtain ⟨b, hb2, hb3, hb1, hres⟩ := allocate_from_request_spec hS
    (s := { s with _S_last_request := request_at S bp (s._S_mem_blocks.elems.length - 1) })
    (k := 0) hi hwf
    (by show s._S_mem_blocks.elems.length - 1 < 2 ^ 32; omega) (by omega) rfl
    (by show s.mem (bitmap_addr bp 0) ≠ 0; rw [hw]; norm_num)
    (by show s.mem (bitmap_addr bp 0) < 2 ^ 32; rw [hw]; norm_num)
  have hb0 : b = 0 := by
    have : _Bit_scan_forward (s.mem (bitmap_addr bp 0)) = some b := hb1
    rw [hw, bit_scan_ones] at this
    injection this with this
    exact this.symm
  subst hb0
  exact hres

/-- The result of `_S_refill_pool` when the block and the registry storage are
obtained. -/
theorem refill_pool_ok {S : Nat} {env : Env} {s : State} {b : Nat} {fl : __mini_vector Nat}
    {vbp : __mini_vector Block_pair}
    (hget : _M_get s.mem s._S_free_list (refill_size S s) env.raw = some (b, fl))
    (hpush : s._S_mem_blocks.push_back (refill_pair S s._S_block_size b) env.grow = some vbp) :
    _S_refill_pool S env s = Outcome.ok (refill_state s b fl vbp s._S_last_request) := by
  unfold _S_refill_pool
  rw [hget]
  simp only [hpush]
  rfl

theorem refill_pool_no_block {S : Nat} {env : Env} {s : State}
    (hget : _M_get s.mem s._S_free_list (refill_size S s) env.raw = none) :
    _S_refill_pool S env s = Outcome.bad_alloc s := by
  unfold _S_refill_pool
  rw [hget]

theorem refill_pool_no_storage {S : Nat} {env : Env} {s : State} {b : Nat}
    {fl : __mini_vector Nat}
    (hget : _M_get s.mem s._S_free_list (refill_size S s) env.raw = some (b, fl))
    (hpush : s._S_mem_blocks.push_back (refill_pair S s._S_block_size b) env.grow = none) :
    _S_refill_pool S env s
      = Outcome.bad_alloc { s with mem := store s.mem b 0, _S_free_list := fl } := by
  unfold _S_refill_pool
  rw [hget]
  simp only [hpush]

theorem all_full_of_miss {S : Nat} (hS : 0 < S) {s : State} {live : List Nat}
    (hI : Inv S s live)
    (hmiss : (__find_if (_Ffit_finder.call S s.mem) s._S_mem_blocks.elems 0
        { _M_pbitmap := 0, _M_data_offset := 0 }).1 = s._S_mem_blocks.elems.length) :
    AllFull S s := by
  obtain ⟨_, _, _, f4⟩ := find_if_ffit_spec hS s.mem s._S_mem_blocks.elems hI.wf 0
    { _M_pbitmap := 0, _M_data_offset := 0 }
  intro bp hbp
  obtain ⟨j, hj⟩ := List.mem_iff_getElem?.1 hbp
  obtain ⟨hjl, _⟩ := List.getElem?_eq_some.1 hj
  rcases f4 j (by rw [hmiss]; omega) bp hj with h | h
  · exact h
  · obtain ⟨n, h1, h2, h3, h4, h5, h6, h7, h8⟩ := wf_facts hS (hI.wf bp hbp)
    have hcnt := hI.count bp hbp
    have hz : free_slots S s.mem bp = 0 := by
      unfold free_slots
      rw [sum_range_const _ 0 _ (fun k hk => by rw [h k hk]; decide)]
      omega
    omega

/-- The pair and the memory of a refill with `_S_block_size = 32 * 2 ^ len`: the new chunk
is well formed and its bitmap word 0 is all ones. -/
theorem refill_pair_facts {S : Nat} (hS : 0 < S) {s : State}
    (hG : s._S_block_size = 32 * 2 ^ s._S_mem_blocks.elems.length)
    (hlen : s._S_mem_blocks.elems.length ≤ 26) {b : Nat} (hb : 0 < b)
    (fl : __mini_vector Nat) (vbp : __mini_vector Block_pair) (c : _Bitmap_counter) :
    WfChunk S (refill_pair S s._S_block_size b) ∧
      (refill_state s b fl vbp c).mem (bitmap_addr (refill_pair S s._S_block_size b) 0)
        = 2 ^ 32 - 1 := by
  have e1 : s._S_block_size / bits_per_block = 2 ^ s._S_mem_blocks.elems.length := by
    rw [hG]
    show 32 * 2 ^ s._S_mem_blocks.elems.length / 32 = _
    omega
  have e2 : refill_pair S s._S_block_size b
      = (b + 4 + 4 * 2 ^ s._S_mem_blocks.elems.length,
          b + 4 + 4 * 2 ^ s._S_mem_blocks.elems.length
            + 32 * 2 ^ s._S_mem_blocks.elems.length * S - S) := by
    unfold refill_pair
    rw [e1, hG]
    rfl
  have h1 : 1 ≤ 2 ^ s._S_mem_blocks.elems.length := Nat.one_le_two_pow
  have h2 : 2 ^ s._S_mem_blocks.elems.length ≤ 2 ^ 26 :=
    Nat.pow_le_pow_right (by omega) hlen
  obtain ⟨hwf, _, _, _, _, _, hwords, _⟩ := refill_chunk hS h1 h2 hb s.mem
  rw [e2]
  refine ⟨hwf, ?_⟩
  show fill_bitmaps (b + word_size) (2 ^ 32 - 1) (s._S_block_size / bits_per_block) 0
    (store s.mem b 0) _ = _
  rw [e1]
  exact hwords 0 (by omega)

/-- The outcomes of `_M_allocate_single_object` on a state that satisfies the
invariant. -/
theorem allocate_cases {S : Nat} (hS : 0 < S) {s : State} {live : List Nat}
    (hI : Inv S s live) {env : Env} (henv : EnvOK S s env) :
    (∃ bp k b c, bp ∈ s._S_mem_blocks.elems ∧ k < __num_bitmaps S bp ∧ b < 32 ∧
      (s.mem (bitmap_addr bp k)).testBit b = true ∧
      _Bit_scan_forward (s.mem (bitmap_addr bp k)) = some b ∧
      RequestOK S s._S_mem_blocks.elems c ∧
      _M_allocate_single_object S env s
        = Outcome.ok (claim_state S s bp k b c, slot_addr S bp (32 * k + b))) ∨
    (AllFull S s ∧ ∃ c1, RequestOK S s._S_mem_blocks.elems c1 ∧
      ((_M_get s.mem s._S_free_list (refill_size S s) env.raw = none ∧
          _M_allocate_single_object S env s
            = Outcome.bad_alloc { s with _S_last_request := c1 }) ∨
       (∃ b fl, _M_get s.mem s._S_free_list (refill_size S s) env.raw = some (b, fl) ∧
          s._S_mem_blocks.push_back (refill_pair S s._S_block_size b) env.grow = none ∧
          _M_allocate_single_object S env s
            = Outcome.bad_alloc
                { s with mem := store s.mem b 0, _S_last_request := c1, _S_free_list := fl }) ∨
       (∃ b fl vbp, _M_get s.mem s._S_free_list (refill_size S s) env.raw = some (b, fl) ∧
          s._S_mem_blocks.push_back (refill_pair S s._S_block_size b) env.grow = some vbp ∧
          s._S_block_size = 0 ∧ _M_allocate_single_object S env s = Outcome.fault) ∨
       (∃ b fl vbp, _M_get s.mem s._S_free_list (refill_size S s) env.raw = some (b, fl) ∧
          s._S_mem_blocks.push_back (refill_pair S s._S_block_size b) env.grow = some vbp ∧
          s._S_block_size = 32 * 2 ^ s._S_mem_blocks.elems.length ∧
          s._S_mem_blocks.elems.length ≤ 26 ∧
          Inv S (refill_state s b fl vbp
            (request_at S (refill_pair S s._S_block_size b) s._S_mem_blocks.elems.length)) live ∧
          _M_allocate_single_object S env s
            = Outcome.ok
                (claim_state S
                  (refill_state s b fl vbp
                    (request_at S (refill_pair S s._S_block_size b)
                      s._S_mem_blocks.elems.length))
                  (refill_pair S s._S_block_size b) 0 0
                  (request_at S (refill_pair S s._S_block_size b)
                    s._S_mem_blocks.elems.length),
                 slot_addr S (refill_pair S s._S_block_size b) 0)))) := by
  obtain ⟨c1, hadv, hc1, hstop⟩ := advance_request_inv hS hI
  by_cases hcase : c1._M_finished = false ∨
      (__find_if (_Ffit_finder.call S s.mem) s._S_mem_blocks.elems 0
        { _M_pbitmap := 0, _M_data_offset := 0 }).1 ≠ s._S_mem_blocks.elems.length
  · exact Or.inl (allocate_no_refill hS hI env hadv hc1 hstop hcase)
  right
  have hfin : c1._M_finished = true := by
    cases h : c1._M_finished
    · exact absurd (Or.inl h) hcase
    · rfl
  have hmiss : (__find_if (_Ffit_finder.call S s.mem) s._S_mem_blocks.elems 0
        { _M_pbitmap := 0, _M_data_offset := 0 }).1 = s._S_mem_blocks.elems.length := by
    by_contra h
    exact hcase (Or.inr h)
  refine ⟨all_full_of_miss hS hI hmiss, c1, hc1, ?_⟩
  have hunf : _M_allocate_single_object S env s
      = allocate_refill S env { s with _S_last_request := c1 } := by
    unfold _M_allocate_single_object
    rw [hadv]
    show allocate_after_loop S env { s with _S_last_request := c1 } _ = _
    unfold allocate_after_loop
    rw [if_pos hfin, if_neg (by simpa using hmiss)]
  rw [hunf]
  unfold allocate_refill
  cases hget : _M_get s.mem s._S_free_list (refill_size S s) env.raw with
  | none =>
    left
    refine ⟨rfl, ?_⟩
    rw [refill_pool_no_block (s := { s with _S_last_request := c1 }) hget]
  | some p =>
    obtain ⟨b, fl⟩ := p
    right
    obtain ⟨hb, hdisj⟩ := henv b fl hget
    cases hpush : s._S_mem_blocks.push_back (refill_pair S s._S_block_size b) env.grow with
    | none =>
      left
      refine ⟨b, fl, rfl, hpush, ?_⟩
      rw [refill_pool_no_storage (s := { s with _S_last_request := c1 }) hget hpush]
    | some vbp =>
      right
      rw [refill_pool_ok (s := { s with _S_last_request := c1 }) hget hpush]
      have hv := push_back_elems hpush
      have hlast : vbp.elems[vbp.elems.length - 1]?
          = some (refill_pair S s._S_block_size b) := by
        rw [hv, List.length_append, List.length_singleton, Nat.add_sub_cancel,
          List.getElem?_append_right (le_refl _), Nat.sub_self]
        rfl
      have hlen1 : vbp.elems.length = s._S_mem_blocks.elems.length + 1 := by
        rw [hv, List.length_append, List.length_singleton]
      have hlen27 := hI.length_le
      rcases hI.growth with ⟨hG, _⟩ | ⟨hG, hl26⟩
      · left
        refine ⟨b, fl, vbp, rfl, hpush, hG, ?_⟩
        show allocate_in_new_chunk S
          (refill_state { s with _S_last_request := c1 } b fl vbp c1) = _
        apply @allocate_in_new_chunk_fault S _ (refill_pair S s._S_block_size b)
        · show 1 ≤ vbp.elems.length
          omega
        · show vbp.elems.length ≤ 28
          omega
        · exact hlast
        · show fill_bitmaps (b + word_size) (2 ^ 32 - 1) (s._S_block_size / bits_per_block) 0
            (store s.mem b 0) ((refill_pair S s._S_block_size b).1 - word_size) = 0
          rw [hG]
          show fill_bitmaps (b + word_size) (2 ^ 32 - 1) 0 0 (store s.mem b 0)
            (b + word_size + word_size * 0 - word_size) = 0
          simp [fill_bitmaps, store, word_size]
      · right
        obtain ⟨hwf, hword⟩ := refill_pair_facts (S := S) hS hG hl26 hb fl vbp c1
        obtain ⟨n, h1, h2, h3, h4, h5, h6, h7, h8⟩ := wf_facts hS hwf
        have hlast2 : vbp.elems[s._S_mem_blocks.elems.length]?
            = some (refill_pair S s._S_block_size b) := by
          have := hlast
          rw [hlen1, Nat.add_sub_cancel] at this
          exact this
        have hc : RequestOK S vbp.elems
            (request_at S (refill_pair S s._S_block_size b) s._S_mem_blocks.elems.length) :=
          Or.inr ⟨_, 0, hlast2, by omega, rfl, rfl⟩
        have hI2 := Inv.refill_state hS hI hG hl26 hb hdisj hv hc fl
        refine ⟨b, fl, vbp, rfl, hpush, hG, hl26, hI2, ?_⟩
        exact allocate_in_new_chunk_spec hS
          (s := refill_state { s with _S_last_request := c1 } b fl vbp c1)
          (by show 1 ≤ vbp.elems.length; omega) (by show vbp.elems.length ≤ 28; omega)
          hlast hwf hword (by show vbp.elems.length - 1 = _; omega)

/-- The invariant depends on the memory only through the headers of the registered
chunks, and not on the free list. -/
theorem Inv.congr {S : Nat} (hS : 0 < S) {s s1 : State} {live : List Nat} (hI : Inv S s live)
    (hv : s1._S_mem_blocks.elems = s._S_mem_blocks.elems)
    (hm : ∀ bp ∈ s._S_mem_blocks.elems, header_agree S s.mem s1.mem bp)
    (hG : s1._S_block_size = s._S_block_size)
    (hc : RequestOK S s._S_mem_blocks.elems s1._S_last_request)
    (hh : s1._S_last_dealloc_index = s._S_last_dealloc_index) : Inv S s1 live := by
  constructor
  · rw [hv]; exact hI.wf
  · rw [hv]; exact hI.disj
  · rw [hv]
    intro bp hbp k hk
    rw [word_agree hS (hI.wf bp hbp) (hm bp hbp) hk]
    exact hI.words bp hbp k hk
  · rw [hv]
    intro bp hbp
    rw [use_count_agree hS (hI.wf bp hbp) (hm bp hbp),
      free_slots_agree hS (hI.wf bp hbp) (hm bp hbp)]
    exact hI.count bp hbp
  · rw [hv]; exact hc
  · rw [hv, hh]; exact hI.hint
  · rw [hv, hG]; exact hI.growth
  · exact hI.live_nodup
  · intro q
    rw [hv, hI.live_iff q]
    constructor
    · rintro ⟨bp, hbp, d, hd, hq, hbit⟩
      refine ⟨bp, hbp, d, hd, hq, ?_⟩
      rw [slot_bit_agree hS (hI.wf bp hbp) (hm bp hbp) hd]; exact hbit
    · rintro ⟨bp, hbp, d, hd, hq, hbit⟩
      refine ⟨bp, hbp, d, hd, hq, ?_⟩
      rw [slot_bit_agree hS (hI.wf bp hbp) (hm bp hbp) hd] at hbit; exact hbit

/-- A completed `allocate(1)` preserves the invariant and adds its result to the
allocated pointers. -/
theorem alloc_inv {S : Nat} (hS : 0 < S) {s s1 : State} {live : List Nat} {env : Env} {p : Nat}
    (hI : Inv S s live) (henv : EnvOK S s env)
    (h : _M_allocate_single_object S env s = Outcome.ok (s1, p)) : Inv S s1 (p :: live) := by
  rcases allocate_cases hS hI henv with
    ⟨bp, k, b, c, h1, h2, h3, h4, _, h6, h7⟩ | ⟨_, c1, _, hcase⟩
  · rw [h7] at h
    injection h with h
    injection h with hs hp
    rw [← hs, ← hp]
    exact hI.claim hS h1 h2 h3 h4 h6
  · rcases hcase with ⟨_, h7⟩ | ⟨_, _, _, _, h7⟩ | ⟨_, _, _, _, _, _, h7⟩ |
      ⟨b, fl, vbp, hget, hpush, hG, hl, hI2, h7⟩
    · rw [h7] at h; exact Outcome.noConfusion h
    · rw [h7] at h; exact Outcome.noConfusion h
    · rw [h7] at h; exact Outcome.noConfusion h
    · rw [h7] at h
      injection h with h
      injection h with hs hp
      rw [← hs, ← hp]
      obtain ⟨hwf, hword⟩ := refill_pair_facts (S := S) hS hG hl (henv b fl hget).1 fl vbp
        (request_at S (refill_pair S s._S_block_size b) s._S_mem_blocks.elems.length)
      obtain ⟨n, g1, g2, g3, g4, g5, g6, g7, g8⟩ := wf_facts hS hwf
      have hmem : refill_pair S s._S_block_size b ∈ vbp.elems := by
        rw [push_back_elems hpush]; simp
      have := hI2.claim hS hmem (k := 0) (b := 0)
        (by omega) (by omega) (by rw [hword]; decide) hI2.request
      exact this

/-- A failed `allocate(1)` preserves the invariant. -/
theorem alloc_failed_inv {S : Nat} (hS : 0 < S) {s s1 : State} {live : List Nat} {env : Env}
    (hI : Inv S s live) (henv : EnvOK S s env)
    (h : _M_allocate_single_object S env s = Outcome.bad_alloc s1) : Inv S s1 live := by
  rcases allocate_cases hS hI henv with
    ⟨bp, k, b, c, h1, h2, h3, h4, _, h6, h7⟩ | ⟨_, c1, hc1, hcase⟩
  · rw [h7] at h; exact Outcome.noConfusion h
  · rcases hcase with ⟨_, h7⟩ | ⟨b, fl, hget, _, h7⟩ | ⟨_, _, _, _, _, _, h7⟩ |
      ⟨b, fl, vbp, hget, hpush, hG, hl, hI2, h7⟩
    · rw [h7] at h
      injection h with h
      rw [← h]
      exact hI.set_request hc1
    · rw [h7] at h
      injection h with h
      rw [← h]
      obtain ⟨hb, hdisj⟩ := henv b fl hget
      refine hI.congr hS rfl ?_ rfl hc1 rfl
      intro bp hbp
      apply header_agree_store
      obtain ⟨n, g1, g2, g3, g4, g5, g6, g7, g8⟩ := wf_facts hS (hI.wf bp hbp)
      have := hdisj bp hbp
      unfold word_size at this
      have h0 := Nat.zero_le (s._S_block_size / bits_per_block)
      omega
    · rw [h7] at h; exact Outcome.noConfusion h
    · rw [h7] at h; exact Outcome.noConfusion h

/-- The search `__find_if(begin, end, _Inclusive_between(p))`: the first pair that
contains `p`. -/
theorem find_if_between_spec (p : Nat) (vbp : List Block_pair) (first : Nat) :
    let j := (__find_if (fun (u : Unit) bp => (_Inclusive_between p bp, u)) vbp first ()).1
    first ≤ j ∧ j ≤ first + vbp.length ∧
      (j < first + vbp.length → ∃ bp, vbp[j - first]? = some bp ∧
        _Inclusive_between p bp = true) ∧
      (j = first + vbp.length → ∀ bp ∈ vbp, _Inclusive_between p bp = false) := by
  induction vbp generalizing first with
  | nil =>
    simp only [__find_if, List.length_nil]
    exact ⟨le_refl _, le_refl _, fun h => by omega, fun _ bp hbp => by simp at hbp⟩
  | cons x xs ih =>
    simp only [__find_if, List.length_cons]
    by_cases hx : _Inclusive_between p x = true
    · rw [if_pos hx]
      refine ⟨le_refl _, by omega, fun _ => ⟨x, by simp, hx⟩, fun h => by omega⟩
    · rw [if_neg hx]
      obtain ⟨i1, i2, i3, i4⟩ := ih (first + 1)
      refine ⟨by omega, by omega, fun h => ?_, fun h bp hbp => ?_⟩
      · obtain ⟨bp, g1, g2⟩ := i3 (by omega)
        refine ⟨bp, ?_, g2⟩
        have : (__find_if (fun (u : Unit) bp => (_Inclusive_between p bp, u)) xs
            (first + 1) ()).1 - first
            = ((__find_if (fun (u : Unit) bp => (_Inclusive_between p bp, u)) xs
              (first + 1) ()).1 - (first + 1)) + 1 := by omega
        rw [this, List.getElem?_cons_succ]
        exact g1
      · rcases List.mem_cons.1 hbp with e | e
        · rw [e]
          cases h' : _Inclusive_between p x
          · rfl
          · exact absurd h' hx
        · exact i4 (by omega) bp e

theorem inclusive_iff (p : Nat) (bp : Block_pair) :
    _Inclusive_between p bp = true ↔ bp.1 ≤ p ∧ p ≤ bp.2 := by
  unfold _Inclusive_between
  by_cases h : p ≤ bp.2 ∧ p ≥ bp.1
  · rw [if_pos h]; simp; omega
  · rw [if_neg h]; simp; omega

/-- The bit and the use-count that `_M_deallocate_single_object` updates for slot `d` of
a well-formed chunk. -/
theorem release_mem_eq {S : Nat} (hS : 0 < S) {bp : Block_pair} (hwf : WfChunk S bp) {d : Nat}
    (hd : d < __num_blocks S bp) (mem : Memory) :
    release_mem S mem bp (d : Int)
      = decr_use_count S (__bit_free mem (bitmap_addr bp (d / 32)) (d % 32)) bp := by
  obtain ⟨n, h1, h2, h3, h4, h5, h6, h7, h8⟩ := wf_facts hS hwf
  unfold release_mem
  have e1 : (bits_per_block : Int) = 32 := rfl
  have e2 : (word_size : Int) = 4 := rfl
  have htm : to_uint ((d : Int).tmod (bits_per_block : Int)) = d % 32 := by
    rw [e1, Int.tmod_eq_emod (by omega) (by omega)]
    have : (d : Int) % 32 = ((d % 32 : Nat) : Int) := by omega
    rw [this]
    exact to_uint_of_nat _ (by omega)
  have htd : ((((bp.1 - word_size : Nat) : Int)
        - (word_size : Int) * (d : Int).tdiv (bits_per_block : Int)).toNat)
      = bitmap_addr bp (d / 32) := by
    rw [e1, e2, Int.tdiv_eq_ediv (by omega) (by omega)]
    unfold bitmap_addr word_size
    omega
  rw [htm, htd]

theorem to_int_neg_one : to_int (-1) = -1 := by decide

theorem erase_getElem_lt {α : Type} (v : __mini_vector α) {i j : Nat}
    (hi : i < v.elems.length) (hj : j < i) : (v.erase i).elems[j]? = v.elems[j]? := by
  rw [erase_elems v i hi, List.getElem?_eraseIdx, if_pos hj]

theorem erase_length {α : Type} (v : __mini_vector α) {i : Nat} (hi : i < v.elems.length) :
    (v.erase i).elems.length = v.elems.length - 1 := by
  rw [erase_elems v i hi, List.length_eraseIdx, if_pos hi]

/-- The branch `*__puse_count == 0` of `_M_deallocate_single_object` on a state that
satisfies the invariant, for a registered chunk with use-count `0` at the index held by
`_S_last_dealloc_index`. -/
theorem reclaim_chunk_spec {S : Nat} (hS : 0 < S) {s : State} {live : List Nat}
    (hI : Inv S s live) {diff : Nat} {bp : Block_pair}
    (hi : s._S_mem_blocks.elems[diff]? = some bp) (huse : use_count S s.mem bp = 0)
    (hldi : s._S_last_dealloc_index = diff) (grow : Bool) :
    (_M_insert s.mem s._S_free_list (use_count_addr S bp) grow = none ∧
      reclaim_chunk S grow s diff bp = Outcome.fault) ∨
    ∃ r c ldi, _M_insert s.mem s._S_free_list (use_count_addr S bp) grow = some r ∧
      reclaim_chunk S grow s diff bp = Outcome.ok
        { mem := s.mem
          _S_mem_blocks := s._S_mem_blocks.erase diff
          _S_block_size := s._S_block_size / 2
          _S_last_request := c
          _S_last_dealloc_index := ldi
          _S_free_list := r.1
          released := r.2 ++ s.released } ∧
      Inv S
        { mem := s.mem
          _S_mem_blocks := s._S_mem_blocks.erase diff
          _S_block_size := s._S_block_size / 2
          _S_last_request := c
          _S_last_dealloc_index := ldi
          _S_free_list := r.1
          released := r.2 ++ s.released } live := by
  obtain ⟨hil, hib⟩ := List.getElem?_eq_some.1 hi
  have hlen := hI.length_le
  have hel := erase_length s._S_mem_blocks hil
  unfold reclaim_chunk
  cases hins : _M_insert s.mem s._S_free_list (use_count_addr S bp) grow with
  | none => exact Or.inl ⟨rfl, rfl⟩
  | some r =>
    right
    -- the cursor
    have hreq : ∃ c, (if (s._S_last_request._M_where : Int) ≥ (diff : Int) then
          s._S_last_request._M_reset S (s._S_mem_blocks.erase diff).elems
            (to_int ((diff : Int) - 1))
        else some s._S_last_request) = some c ∧
        RequestOK S (s._S_mem_blocks.erase diff).elems c := by
      by_cases hw : (s._S_last_request._M_where : Int) ≥ (diff : Int)
      · rw [if_pos hw]
        by_cases hd0 : diff = 0
        · subst hd0
          have : ((0 : Nat) : Int) - 1 = -1 := by omega
          rw [this, to_int_neg_one, reset_finished]
          exact ⟨_, rfl, Or.inl rfl⟩
        · have : (diff : Int) - 1 = ((diff - 1 : Nat) : Int) := by omega
          rw [this]
          have hj : (s._S_mem_blocks.erase diff).elems[diff - 1]?
              = some s._S_mem_blocks.elems[diff - 1] := by
            rw [erase_getElem_lt _ hil (by omega)]
            exact List.getElem?_eq_getElem (by omega)
          have hwf := hI.wf _ (List.getElem_mem (l := s._S_mem_blocks.elems)
            (n := diff - 1) (by omega))
          rw [reset_valid hS hj hwf (by omega)]
          exact ⟨_, rfl, requestOK_reset hS hj hwf⟩
      · rw [if_neg hw]
        refine ⟨_, rfl, ?_⟩
        rcases hI.request with h0 | ⟨bp', k, hi', hk, hcur, hlast⟩
        · exact Or.inl h0
        · right
          obtain ⟨hil', _⟩ := List.getElem?_eq_some.1 hi'
          have hwh : s._S_last_request._M_where = s._S_last_request._M_curr_index := by
            unfold _Bitmap_counter._M_where
            exact Nat.mod_eq_of_lt (by omega)
          rw [hwh] at hw
          refine ⟨bp', k, ?_, hk, hcur, hlast⟩
          rw [erase_getElem_lt _ hil (by omega)]
          exact hi'
    obtain ⟨c, hreq1, hreq2⟩ := hreq
    rw [hreq1]
    -- the hint
    have hh : (if s._S_last_dealloc_index ≥ (s._S_mem_blocks.erase diff).size then
          (if (diff : Int) - 1 ≠ -1 then to_size_t ((diff : Int) - 1) else 0)
        else s._S_last_dealloc_index) < s._S_mem_blocks.elems.length - 1 ∨
        (s._S_mem_blocks.elems.length - 1 = 0 ∧
          (if s._S_last_dealloc_index ≥ (s._S_mem_blocks.erase diff).size then
            (if (diff : Int) - 1 ≠ -1 then to_size_t ((diff : Int) - 1) else 0)
          else s._S_last_dealloc_index) = 0) := by
      have hsz : (s._S_mem_blocks.erase diff).size = s._S_mem_blocks.elems.length - 1 := hel
      rw [hsz, hldi]
      by_cases hge : diff ≥ s._S_mem_blocks.elems.length - 1
      · rw [if_pos hge]
        by_cases hd0 : diff = 0
        · subst hd0
          right
          refine ⟨by omega, ?_⟩
          rw [if_neg (by omega)]
        · left
          rw [if_pos (by omega)]
          have : (diff : Int) - 1 = ((diff - 1 : Nat) : Int) := by omega
          rw [this, to_size_t_of_nat _ (by omega)]
          omega
      · rw [if_neg hge]
        left; omega
    exact ⟨r, c, _, rfl, rfl, hI.reclaim hS hi huse hreq2 hh⟩

/-- The part of `_M_deallocate_single_object` after the search, for slot `d` of the
registered chunk at index `i`. -/
theorem deallocate_at_eq {S : Nat} (hS : 0 < S) {s : State} {i : Nat} {bp : Block_pair}
    (hi : s._S_mem_blocks.elems[i]? = some bp) (hwf : WfChunk S bp) {d : Nat}
    (hd : d < __num_blocks S bp) (grow : Bool) :
    deallocate_at S grow s i (d : Int) =
      if use_count S (release_state S s bp d).mem bp = 0 then
        reclaim_chunk S grow (release_state S s bp d) i bp
      else Outcome.ok (release_state S s bp d) := by
  unfold deallocate_at
  simp only [hi]
  rw [release_mem_eq hS hwf hd]
  rfl

/-- The search of `_M_deallocate_single_object` for an allocated pointer finds the chunk
of the pointer. -/
theorem deallocate_locate {S : Nat} (hS : 0 < S) {s : State} {live : List Nat}
    (hI : Inv S s live) {p : Nat} (hp : p ∈ live) (grow : Bool) :
    ∃ bp d i, s._S_mem_blocks.elems[i]? = some bp ∧ d < __num_blocks S bp ∧
      p = slot_addr S bp d ∧ slot_bit s.mem bp d = false ∧
      _M_deallocate_single_object S grow s p
        = deallocate_at S grow { s with _S_last_dealloc_index := i } i (d : Int) := by
  obtain ⟨bp, hbp, d, hd, hpd, hbit⟩ := (hI.live_iff p).1 hp
  obtain ⟨n, h1, h2, h3, h4, h5, h6, h7, h8⟩ := wf_facts hS (hI.wf bp hbp)
  have hin := slot_in_chunk hS (hI.wf bp hbp) hd
  rw [← hpd] at hin
  have hlen : 0 < s._S_mem_blocks.elems.length := List.length_pos_of_mem hbp
  have hldi : s._S_last_dealloc_index < s._S_mem_blocks.elems.length := by
    rcases hI.hint with h | h <;> omega
  have hdisp : ∀ bp', bp' = bp →
      to_int (((p : Int) - (bp'.1 : Int)) / (S : Int)) = (d : Int) := by
    intro bp' e
    rw [e, hpd]
    unfold slot_addr
    rw [slot_diff hS, to_int_of_nat _ (by omega)]
  unfold _M_deallocate_single_object
  rw [List.getElem?_eq_getElem hldi]
  by_cases hib : _Inclusive_between p s._S_mem_blocks.elems[s._S_last_dealloc_index] = true
  · have hmem : s._S_mem_blocks.elems[s._S_last_dealloc_index] ∈ s._S_mem_blocks.elems :=
      List.getElem_mem _
    have heq : s._S_mem_blocks.elems[s._S_last_dealloc_index] = bp := by
      have := (inclusive_iff p _).1 hib
      rw [hpd] at this
      exact (slot_chunk_unique hS hI.wf hI.disj hbp hmem hd this).symm
    refine ⟨bp, d, s._S_last_dealloc_index, ?_, hd, hpd, hbit, ?_⟩
    · rw [List.getElem?_eq_getElem hldi, heq]
    · simp only [hib, if_true]
      rw [hdisp _ heq]
  · obtain ⟨f1, f2, f3, f4⟩ := find_if_between_spec p s._S_mem_blocks.elems 0
    have hj : (__find_if (fun (u : Unit) bp => (_Inclusive_between p bp, u))
        s._S_mem_blocks.elems 0 ()).1 < 0 + s._S_mem_blocks.elems.length := by
      by_contra hge
      have := f4 (by omega) bp hbp
      rw [(inclusive_iff p bp).2 hin] at this
      exact Bool.noConfusion this
    obtain ⟨bp', g1, g2⟩ := f3 hj
    rw [Nat.sub_zero] at g1
    have heq : bp' = bp := by
      have := (inclusive_iff p _).1 g2
      rw [hpd] at this
      exact (slot_chunk_unique hS hI.wf hI.disj hbp
        (List.mem_iff_getElem?.2 ⟨_, g1⟩) hd this).symm
    refine ⟨bp, d, (__find_if (fun (u : Unit) bp => (_Inclusive_between p bp, u))
        s._S_mem_blocks.elems 0 ()).1, ?_, hd, hpd, hbit, ?_⟩
    · rw [g1, heq]
    · simp only [hib, g1]
      rw [hdisp _ heq]
      rfl

/-- The outcomes of `deallocate(p, 1)` for an allocated pointer `p` on a state that
satisfies the invariant: the bit of the slot is set and the use-count decremented; when
the use-count was `1` the chunk is erased from the registry and donated to the cache. -/
theorem deallocate_cases {S : Nat} (hS : 0 < S) {s : State} {live : List Nat}
    (hI : Inv S s live) {p : Nat} (hp : p ∈ live) (grow : Bool) :
    ∃ bp d i, s._S_mem_blocks.elems[i]? = some bp ∧ d < __num_blocks S bp ∧
      p = slot_addr S bp d ∧ slot_bit s.mem bp d = false ∧
      1 ≤ use_count S s.mem bp ∧
      use_count S (release_state S s bp d).mem bp + 1 = use_count S s.mem bp ∧
      Inv S (release_state S { s with _S_last_dealloc_index := i } bp d) (live.erase p) ∧
      ((use_count S s.mem bp ≠ 1 ∧
          _M_deallocate_single_object S grow s p
            = Outcome.ok (release_state S { s with _S_last_dealloc_index := i } bp d)) ∨
       (use_count S s.mem bp = 1 ∧
          ((_M_insert (release_state S s bp d).mem s._S_free_list (use_count_addr S bp) grow
              = none ∧ _M_deallocate_single_object S grow s p = Outcome.fault) ∨
           ∃ r c ldi,
            _M_insert (release_state S s bp d).mem s._S_free_list (use_count_addr S bp) grow
              = some r ∧
            _M_deallocate_single_object S grow s p = Outcome.ok
              { mem := (release_state S s bp d).mem
                _S_mem_blocks := s._S_mem_blocks.erase i
                _S_block_size := s._S_block_size / 2
                _S_last_request := c
                _S_last_dealloc_index := ldi
                _S_free_list := r.1
                released := r.2 ++ s.released } ∧
            Inv S
              { mem := (release_state S s bp d).mem
                _S_mem_blocks := s._S_mem_blocks.erase i
                _S_block_size := s._S_block_size / 2
                _S_last_request := c
                _S_last_dealloc_index := ldi
                _S_free_list := r.1
                released := r.2 ++ s.released } (live.erase p)))) := by
  obtain ⟨bp, d, i, hi, hd, hpd, hbit, hres⟩ := deallocate_locate hS hI hp grow
  obtain ⟨hil, _⟩ := List.getElem?_eq_some.1 hi
  have hbp : bp ∈ s._S_mem_blocks.elems := List.mem_iff_getElem?.2 ⟨_, hi⟩
  have hI1 : Inv S { s with _S_last_dealloc_index := i } live := hI.set_hint hil
  obtain ⟨hpos, hdec, hI2⟩ := hI1.release hS hbp hd hbit
  rw [← hpd] at hI2
  refine ⟨bp, d, i, hi, hd, hpd, hbit, hpos, hdec, hI2, ?_⟩
  rw [hres, deallocate_at_eq hS (s := { s with _S_last_dealloc_index := i }) hi
    (hI.wf bp hbp) hd grow]
  have hdec' : use_count S (release_state S { s with _S_last_dealloc_index := i } bp d).mem bp
      + 1 = use_count S s.mem bp := hdec
  by_cases h1 : use_count S s.mem bp = 1
  · right
    refine ⟨h1, ?_⟩
    have h0 : use_count S (release_state S { s with _S_last_dealloc_index := i } bp d).mem bp
        = 0 := by omega
    rw [if_pos h0]
    rcases reclaim_chunk_spec hS hI2 hi h0 rfl grow with
      ⟨g1, g2⟩ | ⟨r, c, ldi, g1, g2, g3⟩
    · exact Or.inl ⟨g1, g2⟩
    · exact Or.inr ⟨r, c, ldi, g1, g2, g3⟩
  · left
    refine ⟨h1, ?_⟩
    rw [if_neg (by omega)]

/-- A completed `deallocate(p, 1)` of an allocated pointer preserves the invariant and
removes the pointer from the allocated pointers. -/
theorem dealloc_inv {S : Nat} (hS : 0 < S) {s s1 : State} {live : List Nat} {p : Nat}
    {grow : Bool} (hI : Inv S s live) (hp : p ∈ live)
    (h : _M_deallocate_single_object S grow s p = Outcome.ok s1) :
    Inv S s1 (live.erase p) := by
  obtain ⟨bp, d, i, _, _, _, _, _, _, hI2, hcase⟩ := deallocate_cases hS hI hp grow
  rcases hcase with ⟨_, g⟩ | ⟨_, ⟨_, g⟩ | ⟨r, c, ldi, _, g, hI3⟩⟩
  · rw [g] at h
    injection h with h
    rw [← h]; exact hI2
  · rw [g] at h; exact Outcome.noConfusion h
  · rw [g] at h
    injection h with h
    rw [← h]; exact hI3

theorem Inv.fresh (S : Nat) (m : Memory) : Inv S (State.fresh m) [] := by
  constructor
  · intro bp hbp; exact absurd hbp (List.not_mem_nil _)
  · exact List.Pairwise.nil
  · intro bp hbp; exact absurd hbp (List.not_mem_nil _)
  · intro bp hbp; exact absurd hbp (List.not_mem_nil _)
  · exact Or.inl rfl
  · exact Or.inr ⟨rfl, rfl⟩
  · exact Or.inr ⟨rfl, by show (0 : Nat) ≤ 26; omega⟩
  · exact List.nodup_nil
  · intro p
    constructor
    · intro h; exact absurd h (List.not_mem_nil _)
    · rintro ⟨bp, hbp, _⟩; exact absurd hbp (List.not_mem_nil _)

/-- Every reachable state satisfies the invariant. -/
theorem Reach.inv {S : Nat} (hS : 0 < S) {s : State} {live : List Nat} (h : Reach S s live) :
    Inv S s live := by
  induction h with
  | fresh m => exact Inv.fresh S m
  | alloc _ henv hs ih => exact alloc_inv hS ih henv hs
  | alloc_failed _ henv hs ih => exact alloc_failed_inv hS ih henv hs
  | dealloc _ hp hs ih => exact dealloc_inv hS ih hp hs

/-! ### The effect of one claim and of one release on the chunk headers -/

/-- A claim writes only inside the header of its chunk. -/
theorem claim_confined {S : Nat} (hS : 0 < S) (s : State) {bp : Block_pair}
    (hwf : WfChunk S bp) {k : Nat} (hk : k < __num_bitmaps S bp) (b : Nat)
    (c : _Bitmap_counter) (a : Nat) (ha : a < use_count_addr S bp ∨ bp.1 ≤ a) :
    (claim_state S s bp k b c).mem a = s.mem a := by
  obtain ⟨n, h1, h2, h3, h4, h5, h6, h7, h8⟩ := wf_facts hS hwf
  have hA : bitmap_addr bp k = bp.1 - 4 * (k + 1) := rfl
  show store (store s.mem (bitmap_addr bp k) _) (use_count_addr S bp) _ a = s.mem a
  unfold store
  rw [if_neg (by omega), if_neg (by omega)]

/-- A claim increments the use-count of its chunk. -/
theorem claim_use {S : Nat} (hS : 0 < S) (s : State) {bp : Block_pair}
    (hwf : WfChunk S bp) {k : Nat} (hk : k < __num_bitmaps S bp) (b : Nat)
    (c : _Bitmap_counter) :
    use_count S (claim_state S s bp k b c).mem bp = (use_count S s.mem bp + 1) % 2 ^ 32 := by
  obtain ⟨n, h1, h2, h3, h4, h5, h6, h7, h8⟩ := wf_facts hS hwf
  have hA : bitmap_addr bp k = bp.1 - 4 * (k + 1) := rfl
  have hne : use_count_addr S bp ≠ bitmap_addr bp k := by omega
  show store (store s.mem (bitmap_addr bp k) _) (use_count_addr S bp) _ (use_count_addr S bp)
    = _
  unfold store use_count
  rw [if_pos rfl]
  unfold __bit_allocate store
  rw [if_neg hne]

/-- A claim clears one bit of one bitmap word of its chunk. -/
theorem claim_word {S : Nat} (hS : 0 < S) (s : State) {bp : Block_pair}
    (hwf : WfChunk S bp) {k : Nat} (hk : k < __num_bitmaps S bp) (b : Nat)
    (c : _Bitmap_counter) {j : Nat} (hj : j < __num_bitmaps S bp) :
    (claim_state S s bp k b c).mem (bitmap_addr bp j)
      = if j = k then s.mem (bitmap_addr bp k) &&& (((1 <<< b) % 2 ^ 32) ^^^ (2 ^ 32 - 1))
        else s.mem (bitmap_addr bp j) := by
  obtain ⟨n, h1, h2, h3, h4, h5, h6, h7, h8⟩ := wf_facts hS hwf
  have hA : bitmap_addr bp k = bp.1 - 4 * (k + 1) := rfl
  have hB : bitmap_addr bp j = bp.1 - 4 * (j + 1) := rfl
  show store (store s.mem (bitmap_addr bp k) _) (use_count_addr S bp) _ (bitmap_addr bp j) = _
  unfold store
  rw [if_neg (by omega)]
  by_cases e : j = k
  · subst e
    rw [if_pos rfl, if_pos rfl]
  · rw [if_neg (by omega), if_neg e]

/-- A claim leaves the headers of the other registered chunks as they are. -/
theorem claim_agree {S : Nat} (hS : 0 < S) {s : State} {live : List Nat} (hI : Inv S s live)
    {bp : Block_pair} (hbp : bp ∈ s._S_mem_blocks.elems) {k : Nat}
    (hk : k < __num_bitmaps S bp) (b : Nat) (c : _Bitmap_counter) {bp1 : Block_pair}
    (hbp1 : bp1 ∈ s._S_mem_blocks.elems) (hne : bp1 ≠ bp) :
    header_agree S s.mem (claim_state S s bp k b c).mem bp1 :=
  header_agree_of_confined hS (hI.wf bp hbp) (hI.wf bp1 hbp1)
    (disjoint_of_ne hI.disj hbp hbp1 (fun e => hne e.symm))
    (claim_confined hS s (hI.wf bp hbp) hk b c)

/-- A release writes only inside the header of its chunk. -/
theorem release_confined {S : Nat} (hS : 0 < S) (s : State) {bp : Block_pair}
    (hwf : WfChunk S bp) {d : Nat} (hd : d < __num_blocks S bp) (a : Nat)
    (ha : a < use_count_addr S bp ∨ bp.1 ≤ a) :
    (release_state S s bp d).mem a = s.mem a := by
  obtain ⟨n, h1, h2, h3, h4, h5, h6, h7, h8⟩ := wf_facts hS hwf
  have hA : bitmap_addr bp (d / 32) = bp.1 - 4 * (d / 32 + 1) := rfl
  show store (store s.mem (bitmap_addr bp (d / 32)) _) (use_count_addr S bp) _ a = s.mem a
  unfold store
  rw [if_neg (by omega), if_neg (by omega)]

/-- A release sets one bit of one bitmap word of its chunk. -/
theorem release_word {S : Nat} (hS : 0 < S) (s : State) {bp : Block_pair}
    (hwf : WfChunk S bp) {d : Nat} (hd : d < __num_blocks S bp) {j : Nat}
    (hj : j < __num_bitmaps S bp) :
    (release_state S s bp d).mem (bitmap_addr bp j)
      = if j = d / 32 then s.mem (bitmap_addr bp (d / 32)) ||| ((1 <<< (d % 32)) % 2 ^ 32)
        else s.mem (bitmap_addr bp j) := by
  obtain ⟨n, h1, h2, h3, h4, h5, h6, h7, h8⟩ := wf_facts hS hwf
  have hA : bitmap_addr bp (d / 32) = bp.1 - 4 * (d / 32 + 1) := rfl
  have hB : bitmap_addr bp j = bp.1 - 4 * (j + 1) := rfl
  show store (store s.mem (bitmap_addr bp (d / 32)) _) (use_count_addr S bp) _
    (bitmap_addr bp j) = _
  unfold store
  rw [if_neg (by omega)]
  by_cases e : j = d / 32
  · subst e
    rw [if_pos rfl, if_pos rfl]
  · rw [if_neg (by omega), if_neg e]

/-- A release leaves the headers of the other registered chunks as they are. -/
theorem release_agree {S : Nat} (hS : 0 < S) {s : State} {live : List Nat} (hI : Inv S s live)
    {bp : Block_pair} (hbp : bp ∈ s._S_mem_blocks.elems) {d : Nat}
    (hd : d < __num_blocks S bp) {bp1 : Block_pair}
    (hbp1 : bp1 ∈ s._S_mem_blocks.elems) (hne : bp1 ≠ bp) :
    header_agree S s.mem (release_state S s bp d).mem bp1 :=
  header_agree_of_confined hS (hI.wf bp hbp) (hI.wf bp1 hbp1)
    (disjoint_of_ne hI.disj hbp hbp1 (fun e => hne e.symm))
    (release_confined hS s (hI.wf bp hbp) hd)

/-- The use-count of a registered chunk is below `2 ^ 31 + 1`. -/
theorem Inv.use_le {S : Nat} (hS : 0 < S) {s : State} {live : List Nat} (hI : Inv S s live)
    {bp : Block_pair} (hbp : bp ∈ s._S_mem_blocks.elems) :
    use_count S s.mem bp ≤ 2 ^ 31 := by
  obtain ⟨n, h1, h2, h3, h4, h5, h6, h7, h8⟩ := wf_facts hS (hI.wf bp hbp)
  have := hI.count bp hbp
  omega

/-- The chunk that a refill creates and what the refill leaves as it is. -/
theorem refill_effects {S : Nat} (hS : 0 < S) {s : State}
    (hwfs : ∀ bp ∈ s._S_mem_blocks.elems, WfChunk S bp)
    (hG : s._S_block_size = 32 * 2 ^ s._S_mem_blocks.elems.length)
    (hlen : s._S_mem_blocks.elems.length ≤ 26) {b : Nat} (hb : 0 < b)
    (henv : ∀ bp ∈ s._S_mem_blocks.elems,
      b + word_size * (s._S_block_size / bits_per_block + 1) + s._S_block_size * S
          ≤ use_count_addr S bp ∨ chunk_end S bp ≤ b)
    (fl : __mini_vector Nat) (vbp : __mini_vector Block_pair) (c : _Bitmap_counter) :
    WfChunk S (refill_pair S s._S_block_size b) ∧
      __num_blocks S (refill_pair S s._S_block_size b) = s._S_block_size ∧
      __num_bitmaps S (refill_pair S s._S_block_size b) = 2 ^ s._S_mem_blocks.elems.length ∧
      use_count_addr S (refill_pair S s._S_block_size b) = b ∧
      use_count S (refill_state s b fl vbp c).mem (refill_pair S s._S_block_size b) = 0 ∧
      (∀ k < 2 ^ s._S_mem_blocks.elems.length,
        (refill_state s b fl vbp c).mem (bitmap_addr (refill_pair S s._S_block_size b) k)
          = 2 ^ 32 - 1) ∧
      (∀ bp ∈ s._S_mem_blocks.elems, header_agree S s.mem (refill_state s b fl vbp c).mem bp) ∧
      refill_pair S s._S_block_size b ∉ s._S_mem_blocks.elems := by
  have e1 : s._S_block_size / bits_per_block = 2 ^ s._S_mem_blocks.elems.length := by
    rw [hG]
    show 32 * 2 ^ s._S_mem_blocks.elems.length / 32 = _
    omega
  have e2 : refill_pair S s._S_block_size b
      = (b + 4 + 4 * 2 ^ s._S_mem_blocks.elems.length,
          b + 4 + 4 * 2 ^ s._S_mem_blocks.elems.length
            + 32 * 2 ^ s._S_mem_blocks.elems.length * S - S) := by
    unfold refill_pair
    rw [e1, hG]
    rfl
  have e3 : (refill_state s b fl vbp c).mem
      = fill_bitmaps (b + 4) (2 ^ 32 - 1) (2 ^ s._S_mem_blocks.elems.length) 0
          (store s.mem b 0) := by
    show fill_bitmaps (b + word_size) (2 ^ 32 - 1) (s._S_block_size / bits_per_block) 0
      (store s.mem b 0) = _
    rw [e1]
    rfl
  have h1 : 1 ≤ 2 ^ s._S_mem_blocks.elems.length := Nat.one_le_two_pow
  have h2 : 2 ^ s._S_mem_blocks.elems.length ≤ 2 ^ 26 :=
    Nat.pow_le_pow_right (by omega) hlen
  obtain ⟨hwf, g1, g2, g3, g4, g5, g6, g7⟩ := refill_chunk hS h1 h2 hb s.mem
  rw [e2, e3]
  have henv' : ∀ bp ∈ s._S_mem_blocks.elems,
      b + 4 + 4 * 2 ^ s._S_mem_blocks.elems.length + 32 * 2 ^ s._S_mem_blocks.elems.length * S
        ≤ use_count_addr S bp ∨ chunk_end S bp ≤ b := by
    intro bp hbp
    have := henv bp hbp
    rw [e1, hG] at this
    unfold word_size at this
    omega
  refine ⟨hwf, by rw [g2, hG], g1, g3, ?_, g6, ?_, ?_⟩
  · unfold use_count
    rw [g3]
    exact g5
  · intro bp hbp a ha1 ha2
    apply g7
    obtain ⟨n, _, _, _, _, h5, h6, _, h8⟩ := wf_facts hS (hwfs bp hbp)
    have := henv' bp hbp
    omega
  · intro hmem
    have := henv' _ hmem
    rw [g3, g4] at this
    omega

/-- A completed `allocate(1)` keeps every registered chunk in use. -/
theorem alloc_used {S : Nat} (hS : 0 < S) {s s1 : State} {live : List Nat} {env : Env}
    {p : Nat} (hI : Inv S s live) (hU : AllUsed S s) (henv : EnvOK S s env)
    (h : _M_allocate_single_object S env s = Outcome.ok (s1, p)) : AllUsed S s1 := by
  rcases allocate_cases hS hI henv with
    ⟨bp, k, b, c, h1, h2, h3, h4, _, h6, h7⟩ | ⟨_, c1, _, hcase⟩
  · rw [h7] at h
    injection h with h
    injection h with hs hp
    rw [← hs]
    intro bp1 hbp1
    by_cases e : bp1 = bp
    · rw [e, claim_use hS s (hI.wf bp h1) h2]
      have := hI.use_le hS h1
      omega
    · rw [use_count_agree hS (hI.wf bp1 hbp1) (claim_agree hS hI h1 h2 b c hbp1 e)]
      exact hU bp1 hbp1
  · rcases hcase with ⟨_, h7⟩ | ⟨_, _, _, _, h7⟩ | ⟨_, _, _, _, _, _, h7⟩ |
      ⟨b, fl, vbp, hget, hpush, hG, hl, hI2, h7⟩
    · rw [h7] at h; exact Outcome.noConfusion h
    · rw [h7] at h; exact Outcome.noConfusion h
    · rw [h7] at h; exact Outcome.noConfusion h
    · rw [h7] at h
      injection h with h
      injection h with hs hp
      rw [← hs]
      obtain ⟨hb, hdisj⟩ := henv b fl hget
      obtain ⟨hwf, g1, g2, g3, g4, g5, g6, g7⟩ := refill_effects hS hI.wf hG hl hb hdisj fl vbp
        (request_at S (refill_pair S s._S_block_size b) s._S_mem_blocks.elems.length)
      have hel := push_back_elems hpush
      have hmem : refill_pair S s._S_block_size b ∈ vbp.elems := by rw [hel]; simp
      have hk0 : 0 < __num_bitmaps S (refill_pair S s._S_block_size b) := by
        rw [g2]; exact Nat.one_le_two_pow
      intro bp1 hbp1
      by_cases e : bp1 = refill_pair S s._S_block_size b
      · rw [e, claim_use hS _ hwf hk0, g4]
        decide
      · have hold : bp1 ∈ s._S_mem_blocks.elems := by
          have : bp1 ∈ vbp.elems := hbp1
          rw [hel] at this
          rcases List.mem_append.1 this with h | h
          · exact h
          · exact absurd (List.mem_singleton.1 h) e
        rw [use_count_agree hS (hI.wf bp1 hold)
          (header_agree_trans (g6 bp1 hold) (claim_agree hS hI2 hmem hk0 0 _ hbp1 e))]
        exact hU bp1 hold

/-- A failed `allocate(1)` keeps every registered chunk in use. -/
theorem alloc_failed_used {S : Nat} (hS : 0 < S) {s s1 : State} {live : List Nat} {env : Env}
    (hI : Inv S s live) (hU : AllUsed S s) (henv : EnvOK S s env)
    (h : _M_allocate_single_object S env s = Outcome.bad_alloc s1) : AllUsed S s1 := by
  rcases allocate_cases hS hI henv with
    ⟨bp, k, b, c, h1, h2, h3, h4, _, h6, h7⟩ | ⟨_, c1, hc1, hcase⟩
  · rw [h7] at h; exact Outcome.noConfusion h
  · rcases hcase with ⟨_, h7⟩ | ⟨b, fl, hget, _, h7⟩ | ⟨_, _, _, _, _, _, h7⟩ |
      ⟨b, fl, vbp, hget, hpush, hG, hl, hI2, h7⟩
    · rw [h7] at h
      injection h with h
      rw [← h]
      exact hU
    · rw [h7] at h
      injection h with h
      rw [← h]
      obtain ⟨hb, hdisj⟩ := henv b fl hget
      intro bp hbp
      have hag : header_agree S s.mem (store s.mem b 0) bp := by
        apply header_agree_store
        obtain ⟨n, g1, g2, g3, g4, g5, g6, g7, g8⟩ := wf_facts hS (hI.wf bp hbp)
        have := hdisj bp hbp
        unfold word_size at this
        have h0 := Nat.zero_le (s._S_block_size / bits_per_block)
        omega
      show 1 ≤ use_count S (store s.mem b 0) bp
      rw [use_count_agree hS (hI.wf bp hbp) hag]
      exact hU bp hbp
    · rw [h7] at h; exact Outcome.noConfusion h
    · rw [h7] at h; exact Outcome.noConfusion h

theorem not_self_disjoint {S : Nat} (hS : 0 < S) {bp : Block_pair} (hwf : WfChunk S bp) :
    ¬ chunks_disjoint S bp bp := by
  obtain ⟨n, _, _, _, _, h5, h6, _, h8⟩ := wf_facts hS hwf
  unfold chunks_disjoint
  omega

/-- A pair is registered at one position only. -/
theorem registry_index_unique {S : Nat} (hS : 0 < S) {vbp : List Block_pair}
    (hwf : ∀ bp ∈ vbp, WfChunk S bp) (hd : vbp.Pairwise (chunks_disjoint S))
    {i j : Nat} {bp : Block_pair} (hi : vbp[i]? = some bp) (hj : vbp[j]? = some bp) :
    i = j := by
  obtain ⟨hil, hie⟩ := List.getElem?_eq_some.1 hi
  obtain ⟨hjl, hje⟩ := List.getElem?_eq_some.1 hj
  have hbp : bp ∈ vbp := List.mem_iff_getElem?.2 ⟨_, hi⟩
  rw [List.pairwise_iff_getElem] at hd
  rcases Nat.lt_trichotomy i j with h | h | h
  · have := hd i j hil hjl h
    rw [hie, hje] at this
    exact absurd this (not_self_disjoint hS (hwf bp hbp))
  · exact h
  · have := hd j i hjl hil h
    rw [hie, hje] at this
    exact absurd this (not_self_disjoint hS (hwf bp hbp))

/-- The pairs that remain when the pair at position `i` is erased. -/
theorem mem_erase_registry {S : Nat} (hS : 0 < S) {vbp : __mini_vector Block_pair}
    (hwf : ∀ bp ∈ vbp.elems, WfChunk S bp) (hd : vbp.elems.Pairwise (chunks_disjoint S))
    {i : Nat} {bp : Block_pair} (hi : vbp.elems[i]? = some bp) (x : Block_pair) :
    x ∈ (vbp.erase i).elems ↔ x ∈ vbp.elems ∧ x ≠ bp := by
  obtain ⟨hil, hie⟩ := List.getElem?_eq_some.1 hi
  rw [erase_elems vbp i hil, List.mem_eraseIdx_iff_getElem]
  constructor
  · rintro ⟨j, hj, hne, hx⟩
    refine ⟨List.mem_iff_getElem.2 ⟨j, hj, hx⟩, ?_⟩
    intro e
    apply hne
    apply @registry_index_unique S hS _ hwf hd _ _ bp _ hi
    rw [List.getElem?_eq_getElem hj, hx, e]
  · rintro ⟨hx, hne⟩
    obtain ⟨j, hj, hjx⟩ := List.mem_iff_getElem.1 hx
    refine ⟨j, hj, ?_, hjx⟩
    intro e
    subst e
    exact hne (hjx.symm.trans hie)

/-- A completed `deallocate(p, 1)` keeps every registered chunk in use. -/
theorem dealloc_used {S : Nat} (hS : 0 < S) {s s1 : State} {live : List Nat} {p : Nat}
    {grow : Bool} (hI : Inv S s live) (hU : AllUsed S s) (hp : p ∈ live)
    (h : _M_deallocate_single_object S grow s p = Outcome.ok s1) : AllUsed S s1 := by
  obtain ⟨bp, d, i, hi, hd, _, _, hpos, hdec, hI2, hcase⟩ := deallocate_cases hS hI hp grow
  have hbp : bp ∈ s._S_mem_blocks.elems := List.mem_iff_getElem?.2 ⟨_, hi⟩
  rcases hcase with ⟨hne1, g⟩ | ⟨_, ⟨_, g⟩ | ⟨r, c, ldi, _, g, hI3⟩⟩
  · rw [g] at h
    injection h with h
    rw [← h]
    intro bp1 hbp1
    by_cases e : bp1 = bp
    · rw [e]
      show 1 ≤ use_count S (release_state S s bp d).mem bp
      omega
    · show 1 ≤ use_count S (release_state S s bp d).mem bp1
      rw [use_count_agree hS (hI.wf bp1 hbp1) (release_agree hS hI hbp hd hbp1 e)]
      exact hU bp1 hbp1
  · rw [g] at h; exact Outcome.noConfusion h
  · rw [g] at h
    injection h with h
    rw [← h]
    intro bp1 hbp1
    obtain ⟨hold, e⟩ := (mem_erase_registry hS hI.wf hI.disj hi bp1).1 hbp1
    show 1 ≤ use_count S (release_state S s bp d).mem bp1
    rw [use_count_agree hS (hI.wf bp1 hold) (release_agree hS hI hbp hd hold e)]
    exact hU bp1 hold

/-- Every registered chunk of a reachable state holds at least one allocated slot. -/
theorem Reach.used {S : Nat} (hS : 0 < S) {s : State} {live : List Nat} (h : Reach S s live) :
    AllUsed S s := by
  induction h with
  | fresh m => intro bp hbp; exact absurd hbp (List.not_mem_nil _)
  | alloc hr henv hs ih => exact alloc_used hS (hr.inv hS) ih henv hs
  | alloc_failed hr henv hs ih => exact alloc_failed_used hS (hr.inv hS) ih henv hs
  | dealloc hr hp hs ih => exact dealloc_used hS (hr.inv hS) ih hp hs

/-! ### Runs -/

theorem Outcome.eq_ok {α : Type} (d : α) {o : Outcome α} (h : o.completed = true) :
    o = Outcome.ok (o.result d) := by
  cases o with
  | ok a => rfl
  | bad_alloc s => exact Bool.noConfusion h
  | fault => exact Bool.noConfusion h

theorem env_ok_sound {S : Nat} {s : State} {env : Env} (h : env_ok S s env = true) :
    EnvOK S s env := by
  intro b fl hget
  unfold env_ok at h
  rw [hget] at h
  simp only [Bool.and_eq_true, decide_eq_true_eq, List.all_eq_true, Bool.or_eq_true] at h
  exact h

theorem run_call_reach {S : Nat} {st : State × List Nat} (h : Reach S st.1 st.2)
    (c : Call) : Reach S (run_call S st c).1 (run_call S st c).2 := by
  cases c with
  | allocate env =>
    simp only [run_call]
    by_cases he : env_ok S st.1 env = true
    · rw [if_pos he]
      cases ho : _M_allocate_single_object S env st.1 with
      | ok r => exact Reach.alloc h (env_ok_sound he) ho
      | bad_alloc s1 => exact Reach.alloc_failed h (env_ok_sound he) ho
      | fault => exact h
    · rw [if_neg he]; exact h
  | deallocate p grow =>
    simp only [run_call]
    by_cases hp : p ∈ st.2
    · rw [if_pos hp]
      cases ho : _M_deallocate_single_object S grow st.1 p with
      | ok s1 => exact Reach.dealloc h hp ho
      | bad_alloc s1 => exact h
      | fault => exact h
    · rw [if_neg hp]; exact h

theorem foldl_run_reach {S : Nat} (calls : List Call) {st : State × List Nat}
    (h : Reach S st.1 st.2) :
    Reach S (calls.foldl (run_call S) st).1 (calls.foldl (run_call S) st).2 := by
  induction calls generalizing st with
  | nil => exact h
  | cons c cs ih => exact ih (run_call_reach h c)

/-- The state after a run of calls on a fresh allocator is reachable. -/
theorem run_calls_reach (S : Nat) (m : Memory) (calls : List Call) :
    Reach S (run_calls S m calls).1 (run_calls S m calls).2 :=
  foldl_run_reach calls (Reach.fresh m)

/-! ### Claims on the reachable states -/

/-- On the runs `Reach`, in which every block handed to a refill holds the whole chunk
laid out in it and overlaps no registered chunk: in every state reachable from a fresh
allocator by `allocate(1)` calls and by `deallocate(p, 1)` calls on allocated pointers,
every registered chunk satisfies
`use_count + popcount(bitmap) = N`, where `N = last - first + 1` (in slots) is what
`__num_blocks` returns for the pair. -/
theorem reach_count_plus_free_bits {S : Nat} (hS : 0 < S) {s : State} {live : List Nat}
    (h : Reach S s live) {bp : Block_pair} (hbp : bp ∈ s._S_mem_blocks.elems) :
    use_count S s.mem bp + free_slots S s.mem bp = __num_blocks S bp ∧
      __num_blocks S bp = (bp.2 - bp.1) / S + 1 := by
  have hI := h.inv hS
  refine ⟨hI.count bp hbp, ?_⟩
  obtain ⟨n, h1, _, _, h4, _, _, h7, _⟩ := wf_facts hS (hI.wf bp hbp)
  rw [h4, h7, Nat.add_sub_cancel_left, Nat.mul_div_cancel _ hS]
  omega

/-- The instance of `reach_count_plus_free_bits` at the chunk that the first `allocate(1)` on a fresh allocator
creates, for slots of 8 bytes and a first block at address 1000. -/
theorem reach_count_plus_free_bits_witness :
    (1008, 1256) ∈ one_alloc.1._S_mem_blocks.elems ∧
    (use_count 8 one_alloc.1.mem (1008, 1256)
        + free_slots 8 one_alloc.1.mem (1008, 1256)
      = __num_blocks 8 (1008, 1256) ∧
      __num_blocks 8 (1008, 1256) = (1256 - 1008) / 8 + 1) :=
  ⟨by decide,
    reach_count_plus_free_bits (by decide)
      (run_calls_reach 8 zero_mem [Call.allocate (env_at 1000)]) (by decide)⟩

/-- On the runs `Reach`, in which every block handed to a refill holds the whole chunk
laid out in it: in every reachable state the bitmap bit of a slot of a registered chunk is 0
exactly when the slot is allocated (returned by an `allocate(1)` and not deallocated
since) and 1 otherwise; consequently a completed `allocate(1)` never returns a pointer
that is currently allocated. -/
theorem reach_bit_clear_iff_allocated {S : Nat} (hS : 0 < S) {s : State} {live : List Nat}
    (h : Reach S s live) :
    (∀ bp ∈ s._S_mem_blocks.elems, ∀ d < __num_blocks S bp,
      (slot_bit s.mem bp d = false ↔ slot_addr S bp d ∈ live) ∧
      (slot_bit s.mem bp d = true ↔ slot_addr S bp d ∉ live)) ∧
    (∀ env s1 p, EnvOK S s env → _M_allocate_single_object S env s = Outcome.ok (s1, p) →
      p ∉ live) := by
  have hI := h.inv hS
  have key : ∀ bp ∈ s._S_mem_blocks.elems, ∀ d < __num_blocks S bp,
      (slot_bit s.mem bp d = false ↔ slot_addr S bp d ∈ live) := by
    intro bp hbp d hd
    constructor
    · intro hbit
      exact (hI.live_iff _).2 ⟨bp, hbp, d, hd, rfl, hbit⟩
    · intro hmem
      obtain ⟨bp1, hbp1, d1, hd1, heq, hbit⟩ := (hI.live_iff _).1 hmem
      obtain ⟨e1, e2⟩ := slot_unique hS hI.wf hI.disj hbp hbp1 hd hd1 heq
      rw [e1, e2]
      exact hbit
  refine ⟨fun bp hbp d hd => ⟨key bp hbp d hd, ?_⟩, ?_⟩
  · rw [← key bp hbp d hd]
    cases slot_bit s.mem bp d <;> simp
  · intro env s1 p henv ha
    exact (List.nodup_cons.1 (alloc_inv hS hI henv ha).live_nodup).1

/-- The instance of `reach_bit_clear_iff_allocated` after one `allocate(1)`: the bit of slot 0 of the chunk is 0 and
slot 0 is allocated, and the second `allocate(1)` returns another pointer. -/
theorem reach_bit_clear_iff_allocated_witness :
    ((slot_bit one_alloc.1.mem (1008, 1256) 0 = false ↔
        slot_addr 8 (1008, 1256) 0 ∈ one_alloc.2) ∧
      (slot_bit one_alloc.1.mem (1008, 1256) 0 = true ↔
        slot_addr 8 (1008, 1256) 0 ∉ one_alloc.2)) ∧
    ((_M_allocate_single_object 8 (env_at 5000) one_alloc.1).result
        (State.fresh zero_mem, 0)).2 ∉ one_alloc.2 :=
  ⟨(reach_bit_clear_iff_allocated (by decide)
      (run_calls_reach 8 zero_mem [Call.allocate (env_at 1000)])).1 (1008, 1256) (by decide) 0
      (by decide),
    (reach_bit_clear_iff_allocated (by decide)
      (run_calls_reach 8 zero_mem [Call.allocate (env_at 1000)])).2 (env_at 5000) _ _
      (env_ok_sound (by decide)) (Outcome.eq_ok (State.fresh zero_mem, 0) (by decide))⟩

/-- For a state of the runs `Reach` and an environment whose block holds the whole chunk
laid out in it and overlaps no registered chunk, the pointer `p` that `allocate(1)` returns satisfies `_Inclusive_between(p)` for
exactly one position of the registry as it stands after the call, and `p` is
`first + d` (in slots) for a slot index `d < N` of the pair at that position. -/
theorem reach_result_in_one_chunk {S : Nat} (hS : 0 < S) {s s1 : State} {live : List Nat}
    (env : Env) {p : Nat} (h : Reach S s live) (henv : EnvOK S s env)
    (ha : _M_allocate_single_object S env s = Outcome.ok (s1, p)) :
    ∃ (i : Nat) (bp : Block_pair), s1._S_mem_blocks.elems[i]? = some bp ∧ _Inclusive_between p bp = true ∧
      (∃ d, d < __num_blocks S bp ∧ p = slot_addr S bp d) ∧
      ∀ (j : Nat) (bp1 : Block_pair), s1._S_mem_blocks.elems[j]? = some bp1 → _Inclusive_between p bp1 = true →
        j = i := by
  have hI := alloc_inv hS (h.inv hS) henv ha
  obtain ⟨bp, hbp, d, hd, hpd, _⟩ := (hI.live_iff p).1 (List.mem_cons_self _ _)
  obtain ⟨i, hi⟩ := List.mem_iff_getElem?.1 hbp
  refine ⟨i, bp, hi, ?_, ⟨d, hd, hpd⟩, ?_⟩
  · rw [inclusive_iff, hpd]
    exact slot_in_chunk hS (hI.wf bp hbp) hd
  · intro j bp1 hj hin
    have hbp1 : bp1 ∈ s1._S_mem_blocks.elems := List.mem_iff_getElem?.2 ⟨_, hj⟩
    rw [inclusive_iff, hpd] at hin
    have e := slot_chunk_unique hS hI.wf hI.disj hbp hbp1 hd hin
    rw [← e] at hj
    exact registry_index_unique hS hI.wf hI.disj hj hi

/-- The instance of `reach_result_in_one_chunk` at the second `allocate(1)` of a run. -/
theorem reach_result_in_one_chunk_witness :
    ∃ (i : Nat) (bp : Block_pair), ((_M_allocate_single_object 8 (env_at 5000) one_alloc.1).result
          (State.fresh zero_mem, 0)).1._S_mem_blocks.elems[i]? = some bp ∧
      _Inclusive_between ((_M_allocate_single_object 8 (env_at 5000) one_alloc.1).result
          (State.fresh zero_mem, 0)).2 bp = true ∧
      (∃ d, d < __num_blocks 8 bp ∧
        ((_M_allocate_single_object 8 (env_at 5000) one_alloc.1).result
          (State.fresh zero_mem, 0)).2 = slot_addr 8 bp d) ∧
      ∀ (j : Nat) (bp1 : Block_pair), ((_M_allocate_single_object 8 (env_at 5000) one_alloc.1).result
          (State.fresh zero_mem, 0)).1._S_mem_blocks.elems[j]? = some bp1 →
        _Inclusive_between ((_M_allocate_single_object 8 (env_at 5000) one_alloc.1).result
          (State.fresh zero_mem, 0)).2 bp1 = true → j = i :=
  reach_result_in_one_chunk (by decide) (env_at 5000) (run_calls_reach 8 zero_mem [Call.allocate (env_at 1000)])
    (env_ok_sound (by decide)) (Outcome.eq_ok (State.fresh zero_mem, 0) (by decide))

/-! ### Allocation followed by deallocation -/

/-- Setting a bit that was cleared restores the word. -/
theorem set_clear_word {w b : Nat} (hb : b < 32) (hw : w.testBit b = true)
    (hlt : w < 2 ^ 32) :
    (w &&& (((1 <<< b) % 2 ^ 32) ^^^ (2 ^ 32 - 1))) ||| ((1 <<< b) % 2 ^ 32) = w := by
  have h1 : (1 <<< b) % 2 ^ 32 = 2 ^ b := by
    rw [Nat.one_shiftLeft]
    exact Nat.mod_eq_of_lt (Nat.pow_lt_pow_right (by omega) hb)
  apply Nat.eq_of_testBit_eq
  intro i
  rw [h1, Nat.testBit_or, Nat.testBit_and, Nat.testBit_xor, Nat.testBit_two_pow,
    Nat.testBit_two_pow_sub_one]
  by_cases h : b = i
  · subst h; simp [hw]
  · simp only [h, decide_False, Bool.or_false, Bool.false_bne]
    by_cases hi : i < 32
    · simp [hi]
    · have : w.testBit i = false :=
        Nat.testBit_lt_two_pow (lt_of_lt_of_le hlt (Nat.pow_le_pow_right (by omega) (by omega)))
      simp [this]

theorem insert_grow {α : Type} (v : __mini_vector α) (pos : Nat) (x : α) :
    ∃ w, v.insert pos x true = some w := by
  unfold __mini_vector.insert
  by_cases hs : v._M_space_left ≠ 0
  · rw [if_pos hs]; exact ⟨_, rfl⟩
  · rw [if_neg hs]; exact ⟨_, rfl⟩

/-- The function `_M_validate` completes when the storage of the vector can grow. -/
theorem validate_grow (mem : Memory) (fl : __mini_vector Nat) (addr : Nat) :
    ∃ r, _M_validate mem fl addr true = some r := by
  unfold _M_validate
  by_cases h64 : fl.size ≥ 64
  · rw [if_pos h64]
    cases hb : fl.back with
    | none =>
      unfold __mini_vector.back at hb
      rw [List.getLast?_eq_none_iff] at hb
      unfold __mini_vector.size at h64
      rw [hb] at h64
      exact absurd h64 (by decide)
    | some bk =>
      by_cases hc : mem addr ≥ mem bk
      · exact ⟨(fl, [addr]), by simp only [if_pos hc]⟩
      · obtain ⟨w, hw⟩ := insert_grow fl.pop_back
          (__lower_bound (_LT_pointer_compare mem) fl.pop_back.elems 0 fl.pop_back.size
            (mem addr)) addr
        exact ⟨(w, [bk]), by simp only [if_neg hc, hw, Option.map_some']⟩
  · rw [if_neg h64]
    obtain ⟨w, hw⟩ := insert_grow fl
      (__lower_bound (_LT_pointer_compare mem) fl.elems 0 fl.size (mem addr)) addr
    exact ⟨(w, []), by rw [hw]; rfl⟩

theorem eraseIdx_append_last {α : Type} (l : List α) (x : α) :
    (l ++ [x]).eraseIdx l.length = l := by
  rw [List.eraseIdx_append_of_length_le (le_refl _)]
  simp

/-- A release of the slot that was just claimed restores the header of the chunk. -/
theorem claim_release_agree {S : Nat} (hS : 0 < S) {s : State} {live : List Nat}
    (hI : Inv S s live) {bp : Block_pair} (hbp : bp ∈ s._S_mem_blocks.elems) {k b : Nat}
    (hk : k < __num_bitmaps S bp) (hb : b < 32)
    (hbit : (s.mem (bitmap_addr bp k)).testBit b = true) (c : _Bitmap_counter) :
    header_agree S s.mem (release_state S (claim_state S s bp k b c) bp (32 * k + b)).mem bp := by
  obtain ⟨n, h1, h2, h3, h4, h5, h6, h7, h8⟩ := wf_facts hS (hI.wf bp hbp)
  have hw := hI.words bp hbp k hk
  have hu := hI.use_le hS hbp
  have hA : bitmap_addr bp k = bp.1 - 4 * (k + 1) := rfl
  have hne : use_count_addr S bp ≠ bitmap_addr bp k := by omega
  have e1 : (32 * k + b) / 32 = k := by omega
  have e2 : (32 * k + b) % 32 = b := by omega
  intro a ha1 ha2
  show store (__bit_free (claim_state S s bp k b c).mem (bitmap_addr bp ((32 * k + b) / 32))
      ((32 * k + b) % 32)) (use_count_addr S bp)
      (to_uint ((__bit_free (claim_state S s bp k b c).mem
        (bitmap_addr bp ((32 * k + b) / 32)) ((32 * k + b) % 32) (use_count_addr S bp) : Int)
        - 1)) a = s.mem a
  rw [e1, e2]
  have r1 : (claim_state S s bp k b c).mem (use_count_addr S bp)
      = (s.mem (use_count_addr S bp) + 1) % 2 ^ 32 := claim_use hS s (hI.wf bp hbp) hk b c
  have r2 := claim_word hS s (hI.wf bp hbp) hk b c hk
  rw [if_pos rfl] at r2
  unfold store __bit_free store
  by_cases ea : a = use_count_addr S bp
  · rw [if_pos ea, if_neg hne, r1, ea]
    unfold use_count at hu
    unfold to_uint
    omega
  · rw [if_neg ea]
    by_cases eb : a = bitmap_addr bp k
    · rw [if_pos eb, r2, set_clear_word hb hbit hw, eb]
    · rw [if_neg eb]
      show store (store s.mem (bitmap_addr bp k) _) (use_count_addr S bp) _ a = s.mem a
      unfold store
      rw [if_neg ea, if_neg eb]

/-- The states after `allocate(1)` and `deallocate` of its result: when the allocation
is served from a registered chunk the deallocation does not reclaim it; when it
triggers a refill the deallocation reclaims the new chunk.  In both cases the registry
is the one before and the headers of its chunks are as before. -/
theorem round_trip {S : Nat} (hS : 0 < S) {s s1 : State} {live : List Nat}
    (hI : Inv S s live) (hU : AllUsed S s) {env : Env} (henv : EnvOK S s env) {p : Nat}
    (ha : _M_allocate_single_object S env s = Outcome.ok (s1, p)) (grow : Bool) :
    (grow = true → ∃ s2, _M_deallocate_single_object S grow s1 p = Outcome.ok s2) ∧
    ∀ s2, _M_deallocate_single_object S grow s1 p = Outcome.ok s2 →
      s2._S_mem_blocks.elems = s._S_mem_blocks.elems ∧
      ∀ bp ∈ s._S_mem_blocks.elems, header_agree S s.mem s2.mem bp := by
  have hI1 := alloc_inv hS hI henv ha
  obtain ⟨bp1, d, i, hi, hd, hpd, hbit, hpos, hdec, hI2, hcase⟩ :=
    deallocate_cases hS hI1 (List.mem_cons_self p live) grow
  have hbp1 : bp1 ∈ s1._S_mem_blocks.elems := List.mem_iff_getElem?.2 ⟨_, hi⟩
  rcases allocate_cases hS hI henv with
    ⟨bp, k, b, c, h1, h2, h3, h4, _, h6, h7⟩ | ⟨_, c1, _, hcase2⟩
  · rw [h7] at ha
    injection ha with ha
    injection ha with hs hp
    subst hs
    obtain ⟨n, g1, g2, g3, g4, g5, g6, g7, g8⟩ := wf_facts hS (hI.wf bp h1)
    have hdlt : 32 * k + b < __num_blocks S bp := by omega
    obtain ⟨e1, e2⟩ := slot_unique hS hI.wf hI.disj h1 hbp1 hdlt hd (hp.trans hpd)
    subst e1
    subst e2
    have huse : use_count S (claim_state S s bp k b c).mem bp = use_count S s.mem bp + 1 := by
      rw [claim_use hS s (hI.wf bp h1) h2]
      have := hI.use_le hS h1
      omega
    have hu := hU bp h1
    rcases hcase with ⟨_, g⟩ | ⟨hone, _⟩
    · refine ⟨fun _ => ⟨_, g⟩, ?_⟩
      intro s2 hs2
      rw [g] at hs2
      injection hs2 with hs2
      rw [← hs2]
      refine ⟨rfl, ?_⟩
      intro bp2 hbp2
      by_cases e : bp2 = bp
      · rw [e]
        exact claim_release_agree hS hI h1 h2 h3 h4 c
      · exact header_agree_trans (claim_agree hS hI h1 h2 b c hbp2 e)
          (release_agree hS hI1 hbp1 hd hbp2 e)
    · omega
  · rcases hcase2 with ⟨_, h7⟩ | ⟨_, _, _, _, h7⟩ | ⟨_, _, _, _, _, _, h7⟩ |
      ⟨b, fl, vbp, hget, hpush, hG, hl, hI3, h7⟩
    · rw [h7] at ha; exact Outcome.noConfusion ha
    · rw [h7] at ha; exact Outcome.noConfusion ha
    · rw [h7] at ha; exact Outcome.noConfusion ha
    · rw [h7] at ha
      injection ha with ha
      injection ha with hs hp
      subst hs
      obtain ⟨hb, hdisj⟩ := henv b fl hget
      obtain ⟨hwf, g1, g2, g3, g4, g5, g6, g7⟩ := refill_effects hS hI.wf hG hl hb hdisj fl vbp
        (request_at S (refill_pair S s._S_block_size b) s._S_mem_blocks.elems.length)
      have hel : vbp.elems = s._S_mem_blocks.elems ++ [refill_pair S s._S_block_size b] :=
        push_back_elems hpush
      have hmem : refill_pair S s._S_block_size b ∈ vbp.elems := by rw [hel]; simp
      have hk0 : 0 < __num_bitmaps S (refill_pair S s._S_block_size b) := by
        rw [g2]; exact Nat.one_le_two_pow
      have hd0 : 0 < __num_blocks S (refill_pair S s._S_block_size b) := by
        rw [g1, hG]
        have : 1 ≤ 2 ^ s._S_mem_blocks.elems.length := Nat.one_le_two_pow
        omega
      obtain ⟨e1, e2⟩ := slot_unique hS hI1.wf hI1.disj (a := refill_pair S s._S_block_size b)
        hmem hbp1 hd0 hd (hp.trans hpd)
      subst e1
      subst e2
      have huse : use_count S (claim_state S (refill_state s b fl vbp
          (request_at S (refill_pair S s._S_block_size b) s._S_mem_blocks.elems.length))
          (refill_pair S s._S_block_size b) 0 0
          (request_at S (refill_pair S s._S_block_size b) s._S_mem_blocks.elems.length)).mem
          (refill_pair S s._S_block_size b) = 1 := by
        rw [claim_use hS _ hwf hk0, g4]
        decide
      have hidx : i = s._S_mem_blocks.elems.length := by
        apply registry_index_unique hS hI1.wf hI1.disj hi
        show vbp.elems[s._S_mem_blocks.elems.length]? = _
        rw [hel]
        simp
      have hagree : ∀ bp2 ∈ s._S_mem_blocks.elems, header_agree S s.mem
          (release_state S (claim_state S (refill_state s b fl vbp
            (request_at S (refill_pair S s._S_block_size b) s._S_mem_blocks.elems.length))
            (refill_pair S s._S_block_size b) 0 0
            (request_at S (refill_pair S s._S_block_size b) s._S_mem_blocks.elems.length))
            (refill_pair S s._S_block_size b) 0).mem bp2 := by
        intro bp2 hbp2
        have e : bp2 ≠ refill_pair S s._S_block_size b := fun e => g7 (e ▸ hbp2)
        have hbp2v : bp2 ∈ vbp.elems := by rw [hel]; exact List.mem_append_left _ hbp2
        exact header_agree_trans (g6 bp2 hbp2)
          (header_agree_trans (claim_agree hS hI3 hmem hk0 0 _ hbp2v e)
            (release_agree hS hI1 hbp1 hd hbp2v e))
      have herase : (vbp.erase i).elems = s._S_mem_blocks.elems := by
        rw [erase_elems vbp i (by rw [hidx, hel]; simp), hidx, hel, eraseIdx_append_last]
      rcases hcase with ⟨hne, _⟩ | ⟨_, ⟨hnone, g⟩ | ⟨r, c, ldi, _, g, _⟩⟩
      · exact absurd huse hne
      · refine ⟨?_, ?_⟩
        · intro hg
          subst hg
          obtain ⟨r, hr⟩ := validate_grow
            (release_state S (claim_state S (refill_state s b fl vbp
              (request_at S (refill_pair S s._S_block_size b) s._S_mem_blocks.elems.length))
              (refill_pair S s._S_block_size b) 0 0
              (request_at S (refill_pair S s._S_block_size b) s._S_mem_blocks.elems.length))
              (refill_pair S s._S_block_size b) 0).mem
            fl (use_count_addr S (refill_pair S s._S_block_size b) - word_size)
          have hnone' : _M_validate _ fl
              (use_count_addr S (refill_pair S s._S_block_size b) - word_size) true = none :=
            hnone
          rw [hr] at hnone'
          exact Option.noConfusion hnone'
        · intro s2 hs2
          rw [g] at hs2
          exact Outcome.noConfusion hs2
      · refine ⟨fun _ => ⟨_, g⟩, ?_⟩
        intro s2 hs2
        rw [g] at hs2
        injection hs2 with hs2
        rw [← hs2]
        exact ⟨herase, hagree⟩

/-- On the runs `Reach` and for an environment whose block holds the whole chunk laid out
in it: for every reachable state `s`, `p = allocate(1)` followed by `deallocate(p, 1)`
completes (when the vector of the cache can grow) and yields a state whose registry is
the sequence of pairs of `s` and in which every registered chunk has the use-count and
the bitmap words it has in `s`, whether the allocation is served from a registered
chunk or triggers a refill. -/
theorem reach_allocate_then_deallocate {S : Nat} (hS : 0 < S) {s s1 : State} {live : List Nat}
    (h : Reach S s live) (env : Env) (henv : EnvOK S s env) {p : Nat}
    (ha : _M_allocate_single_object S env s = Outcome.ok (s1, p)) :
    (∃ s2, _M_deallocate_single_object S true s1 p = Outcome.ok s2) ∧
    ∀ grow s2, _M_deallocate_single_object S grow s1 p = Outcome.ok s2 →
      s2._S_mem_blocks.elems = s._S_mem_blocks.elems ∧
      ∀ bp ∈ s._S_mem_blocks.elems,
        use_count S s2.mem bp = use_count S s.mem bp ∧
        ∀ k < __num_bitmaps S bp, s2.mem (bitmap_addr bp k) = s.mem (bitmap_addr bp k) := by
  have hI := h.inv hS
  refine ⟨(round_trip hS hI (h.used hS) henv ha true).1 rfl, ?_⟩
  intro grow s2 hs2
  obtain ⟨h1, h2⟩ := (round_trip hS hI (h.used hS) henv ha grow).2 s2 hs2
  refine ⟨h1, fun bp hbp => ⟨use_count_agree hS (hI.wf bp hbp) (h2 bp hbp), ?_⟩⟩
  intro k hk
  exact word_agree hS (hI.wf bp hbp) (h2 bp hbp) hk

/-- The instance of `reach_allocate_then_deallocate` at the second `allocate(1)` of a run,
which is served from the
chunk of the first: after the deallocation the registry, the use-count and the bitmap
word of the chunk are as before. -/
theorem reach_allocate_then_deallocate_witness :
    second_alloc_undone._S_mem_blocks.elems = one_alloc.1._S_mem_blocks.elems ∧
      use_count 8 second_alloc_undone.mem (1008, 1256)
        = use_count 8 one_alloc.1.mem (1008, 1256) ∧
      second_alloc_undone.mem (bitmap_addr (1008, 1256) 0)
        = one_alloc.1.mem (bitmap_addr (1008, 1256) 0) :=
  ⟨((reach_allocate_then_deallocate (by decide)
        (run_calls_reach 8 zero_mem [Call.allocate (env_at 1000)]) (env_at 5000)
        (env_ok_sound (by decide)) (Outcome.eq_ok (State.fresh zero_mem, 0) (by decide))).2
      true second_alloc_undone (Outcome.eq_ok (State.fresh zero_mem) (by decide))).1,
    (((reach_allocate_then_deallocate (by decide)
        (run_calls_reach 8 zero_mem [Call.allocate (env_at 1000)]) (env_at 5000)
        (env_ok_sound (by decide)) (Outcome.eq_ok (State.fresh zero_mem, 0) (by decide))).2
      true second_alloc_undone (Outcome.eq_ok (State.fresh zero_mem) (by decide))).2
      (1008, 1256) (by decide)).1,
    (((reach_allocate_then_deallocate (by decide)
        (run_calls_reach 8 zero_mem [Call.allocate (env_at 1000)]) (env_at 5000)
        (env_ok_sound (by decide)) (Outcome.eq_ok (State.fresh zero_mem, 0) (by decide))).2
      true second_alloc_undone (Outcome.eq_ok (State.fresh zero_mem) (by decide))).2
      (1008, 1256) (by decide)).2 0 (by decide)⟩

/-! ### Runs of refills -/

theorem refill_pool_inv {S : Nat} {env : Env} {s s1 : State}
    (h : _S_refill_pool S env s = Outcome.ok s1) :
    ∃ b fl vbp, _M_get s.mem s._S_free_list (refill_size S s) env.raw = some (b, fl) ∧
      s._S_mem_blocks.push_back (refill_pair S s._S_block_size b) env.grow = some vbp ∧
      s1 = refill_state s b fl vbp s._S_last_request := by
  cases hget : _M_get s.mem s._S_free_list (refill_size S s) env.raw with
  | none =>
    rw [refill_pool_no_block hget] at h
    exact Outcome.noConfusion h
  | some r =>
    obtain ⟨b, fl⟩ := r
    cases hpush : s._S_mem_blocks.push_back (refill_pair S s._S_block_size b) env.grow with
    | none =>
      rw [refill_pool_no_storage hget hpush] at h
      exact Outcome.noConfusion h
    | some vbp =>
      rw [refill_pool_ok hget hpush] at h
      injection h with h
      exact ⟨b, fl, vbp, rfl, hpush, h.symm⟩

/-- The number of slots of the pair that a refill builds when `_S_block_size` is
`32 * n`. -/
theorem refill_pair_blocks {S : Nat} (hS : 0 < S) {n : Nat} (h1 : 1 ≤ n) (h2 : n ≤ 2 ^ 26)
    (b : Nat) : __num_blocks S (refill_pair S (32 * n) b) = 32 * n := by
  apply num_blocks_eq hS h1 h2
  show b + word_size + word_size * (32 * n / bits_per_block) + 32 * n * S - S
    = b + word_size + word_size * (32 * n / bits_per_block) + (32 * n - 1) * S
  have hle : 1 * S ≤ 32 * n * S := Nat.mul_le_mul_right S (by omega)
  rw [Nat.sub_mul]
  omega

/-- After `k` refills with no reclamation the registry holds `k` pairs, `_S_block_size`
is `32 * 2 ^ k` reduced modulo `2 ^ 32`, and for `k ≤ 27` the last pair has
`32 * 2 ^ (k - 1)` slots. -/
theorem RefillRun.facts {S : Nat} (hS : 0 < S) {k : Nat} {s : State} (h : RefillRun S k s) :
    s._S_mem_blocks.elems.length = k ∧ s._S_block_size = (32 * 2 ^ k) % 2 ^ 32 ∧
      (1 ≤ k → k ≤ 27 → ∃ bp, s._S_mem_blocks.elems.getLast? = some bp ∧
        __num_blocks S bp = 32 * 2 ^ (k - 1)) := by
  induction h with
  | fresh m => exact ⟨rfl, rfl, fun h _ => absurd h (by decide)⟩
  | @refill k s s1 env _ hr ih =>
    obtain ⟨b, fl, vbp, _, hpush, hs1⟩ := refill_pool_inv hr
    obtain ⟨ih1, ih2, _⟩ := ih
    have hel := push_back_elems hpush
    rw [hs1]
    refine ⟨?_, ?_, ?_⟩
    · show vbp.elems.length = k + 1
      rw [hel, List.length_append, ih1]
      rfl
    · show (s._S_block_size * 2) % 2 ^ 32 = (32 * 2 ^ (k + 1)) % 2 ^ 32
      have e : 32 * 2 ^ (k + 1) = 32 * 2 ^ k * 2 := by rw [Nat.pow_succ, Nat.mul_assoc]
      rw [ih2, e, Nat.mod_mul_mod]
    · intro _ hk
      refine ⟨refill_pair S s._S_block_size b, ?_, ?_⟩
      · show vbp.elems.getLast? = _
        rw [hel]
        simp
      · have hp : 2 ^ k ≤ 2 ^ 26 := Nat.pow_le_pow_right (by omega) (by omega)
        have hG : s._S_block_size = 32 * 2 ^ k := by
          rw [ih2]
          apply Nat.mod_eq_of_lt
          omega
        rw [hG]
        exact refill_pair_blocks hS Nat.one_le_two_pow hp b
  | other _ hv hG ih =>
    rw [hv, hG]
    exact ih

theorem refill_run_sound {S : Nat} (envs : List Env) {k : Nat} {s s1 : State}
    (h : RefillRun S k s) (hr : refill_run S envs s = some s1) :
    RefillRun S (k + envs.length) s1 := by
  induction envs generalizing k s with
  | nil =>
    injection hr with hr
    rw [← hr]
    exact h
  | cons env envs ih =>
    unfold refill_run at hr
    cases ho : _S_refill_pool S env s with
    | ok s2 =>
      rw [ho] at hr
      have := ih (RefillRun.refill h ho) hr
      rw [List.length_cons]
      rw [Nat.add_assoc, Nat.add_comm 1] at this
      exact this
    | bad_alloc s2 => rw [ho] at hr; exact Option.noConfusion hr
    | fault => rw [ho] at hr; exact Option.noConfusion hr

theorem option_eq_some {α : Type} (d : α) {o : Option α} (h : o.isSome = true) :
    o = some (o.getD d) := by
  cases o with
  | none => exact Bool.noConfusion h
  | some a => rfl

/-- The state `after_refills k` is the state after `k` refills with no reclamation,
when these refills complete. -/
theorem after_refills_run (k : Nat)
    (h : (refill_run 8 (far_envs k) (State.fresh zero_mem)).isSome = true) :
    RefillRun 8 k (after_refills k) := by
  have := refill_run_sound (far_envs k) (RefillRun.fresh zero_mem)
    (option_eq_some (State.fresh zero_mem) h)
  rw [Nat.zero_add] at this
  unfold far_envs at this
  rw [List.length_map, List.length_range] at this
  exact this

/-- C5, amended: starting from a fresh allocator (`_S_block_size = 32`), for every `k`
with `1 ≤ k ≤ 26`, after `k` refills with no chunk reclamation in between the chunk
created by the `k`-th refill (the last pair of the registry) has `32 * 2 ^ (k - 1)`
slots and `_S_block_size` is `32 * 2 ^ k`. -/
theorem C5_refill_sizes {S : Nat} (hS : 0 < S) {k : Nat} {s : State} (h : RefillRun S k s)
    (h1 : 1 ≤ k) (h2 : k ≤ 26) :
    (∃ bp, s._S_mem_blocks.elems.getLast? = some bp ∧ __num_blocks S bp = 32 * 2 ^ (k - 1)) ∧
      s._S_block_size = 32 * 2 ^ k := by
  obtain ⟨_, g2, g3⟩ := h.facts hS
  refine ⟨g3 h1 (by omega), ?_⟩
  rw [g2]
  apply Nat.mod_eq_of_lt
  have : 2 ^ k ≤ 2 ^ 26 := Nat.pow_le_pow_right (by omega) h2
  omega

/-- The instance of C5 (amended) at three refills. -/
theorem C5_refill_sizes_witness :
    (∃ bp, (after_refills 3)._S_mem_blocks.elems.getLast? = some bp ∧
        __num_blocks 8 bp = 32 * 2 ^ (3 - 1)) ∧
      (after_refills 3)._S_block_size = 32 * 2 ^ 3 :=
  C5_refill_sizes (by decide) (after_refills_run 3 (by decide)) (by decide) (by decide)

/-- C5 as stated fails at `k = 27`: 27 refills on a fresh allocator complete with no
reclamation in between, the 27th creates a chunk of `32 * 2 ^ 26` slots, and
`_S_block_size`, an `unsigned int`, is then `0` and not `32 * 2 ^ 27`. -/
theorem C5_counterexample_wrap :
    RefillRun 8 27 (after_refills 27) ∧
      (∃ bp, (after_refills 27)._S_mem_blocks.elems.getLast? = some bp ∧
        __num_blocks 8 bp = 32 * 2 ^ 26) ∧
      (after_refills 27)._S_block_size = 0 ∧
      (after_refills 27)._S_block_size ≠ 32 * 2 ^ 27 := by
  have hr := after_refills_run 27 (by decide)
  obtain ⟨_, g2, g3⟩ := hr.facts (by decide)
  have h0 : (after_refills 27)._S_block_size = 0 := by rw [g2]; decide
  refine ⟨hr, g3 (by decide) (by decide), h0, ?_⟩
  rw [h0]
  decide

/-! ### Growth of the registry -/

/-- With an empty cache `_M_get` asks the raw allocator. -/
theorem get_empty (mem : Memory) {fl : __mini_vector Nat} (h : fl.elems = []) (sz : Nat)
    (raw : Nat → Option Nat) : _M_get mem fl sz raw = (raw sz).map fun p => (p, fl) := by
  unfold _M_get
  rw [h]
  rfl

theorem chunk_end_lt_past (S : Nat) {vbp : List Block_pair} {bp : Block_pair}
    (h : bp ∈ vbp) : chunk_end S bp < past_chunks S vbp := by
  unfold past_chunks
  have : chunk_end S bp ≤ (vbp.map (chunk_end S)).sum :=
    List.single_le_sum (fun _ _ => Nat.zero_le _) _ (List.mem_map_of_mem _ h)
  omega

/-- The environment that answers with a block past every registered chunk satisfies the
assumption on the environment when the cache is empty. -/
theorem envOK_past (S : Nat) {s : State} (h : s._S_free_list.elems = []) :
    EnvOK S s (env_at (past_chunks S s._S_mem_blocks.elems)) := by
  intro b fl hget
  rw [get_empty s.mem h] at hget
  injection hget with hget
  injection hget with hb hfl
  rw [← hb]
  refine ⟨Nat.succ_pos _, fun bp hbp => Or.inr ?_⟩
  exact le_of_lt (chunk_end_lt_past S hbp)

theorem registry_nodup {S : Nat} (hS : 0 < S) {vbp : List Block_pair}
    (hwf : ∀ bp ∈ vbp, WfChunk S bp) (hd : vbp.Pairwise (chunks_disjoint S)) : vbp.Nodup := by
  rw [List.nodup_iff_getElem?_ne_getElem?]
  intro i j hij hj heq
  have hi : i < vbp.length := by omega
  have h1 : vbp[i]? = some vbp[i] := List.getElem?_eq_getElem hi
  have h2 : vbp[j]? = some vbp[i] := by rw [← heq, h1]
  have := registry_index_unique hS hwf hd h1 h2
  omega

theorem sum_map_flip {α : Type} {l : List α} (hl : l.Nodup) {a : α} (ha : a ∈ l)
    {f g : α → Nat} (hfg : ∀ x ∈ l, x ≠ a → f x = g x) (h : f a = g a + 1) :
    (l.map f).sum = (l.map g).sum + 1 := by
  induction l with
  | nil => simp at ha
  | cons x t ih =>
    rw [List.nodup_cons] at hl
    simp only [List.map_cons, List.sum_cons]
    by_cases hxa : x = a
    · subst hxa
      have ht : t.map f = t.map g := by
        apply List.map_congr_left
        intro y hy
        exact hfg y (List.mem_cons_of_mem _ hy) (fun e => hl.1 (e ▸ hy))
      rw [ht, h]
      omega
    · have hat : a ∈ t := by
        rcases List.mem_cons.1 ha with e | e
        · exact absurd e.symm hxa
        · exact e
      rw [ih hl.2 hat (fun y hy hne => hfg y (List.mem_cons_of_mem _ hy) hne),
        hfg x (List.mem_cons_self _ _) hxa]
      omega

/-- A claim takes one free slot. -/
theorem free_total_claim {S : Nat} (hS : 0 < S) {s : State} {live : List Nat}
    (hI : Inv S s live) {bp : Block_pair} (hbp : bp ∈ s._S_mem_blocks.elems) {k b : Nat}
    (hk : k < __num_bitmaps S bp) (hb : b < 32)
    (hbit : (s.mem (bitmap_addr bp k)).testBit b = true) {c : _Bitmap_counter}
    (hc : RequestOK S s._S_mem_blocks.elems c) :
    free_total S s = free_total S (claim_state S s bp k b c) + 1 := by
  have hI1 := hI.claim hS hbp hk hb hbit hc
  unfold free_total
  show _ = ((s._S_mem_blocks.elems.map (free_slots S (claim_state S s bp k b c).mem)).sum) + 1
  apply sum_map_flip (registry_nodup hS hI.wf hI.disj) hbp
  · intro x hx hne
    exact (free_slots_agree hS (hI.wf x hx) (claim_agree hS hI hbp hk b c hx hne)).symm
  · have h1 := hI.count bp hbp
    have h2 := hI1.count bp hbp
    have h3 : use_count S (claim_state S s bp k b c).mem bp = use_count S s.mem bp + 1 := by
      rw [claim_use hS s (hI.wf bp hbp) hk]
      have := hI.use_le hS hbp
      omega
    omega

/-- From a reachable state with an empty cache and `_S_block_size ≠ 0`, `allocate(1)`
calls on blocks past the registered chunks reach a state with one more chunk and
`_S_block_size` doubled modulo `2 ^ 32`: each call either takes a free slot or
refills. -/
theorem grow_step {S : Nat} (hS : 0 < S) (n : Nat) :
    ∀ (s : State) (live : List Nat), Reach S s live → free_total S s = n →
      s._S_free_list.elems = [] → s._S_block_size ≠ 0 →
      ∃ s1 live1, Reach S s1 live1 ∧ s1._S_free_list.elems = [] ∧
        s1._S_mem_blocks.elems.length = s._S_mem_blocks.elems.length + 1 ∧
        s1._S_block_size = (s._S_block_size * 2) % 2 ^ 32 := by
  induction n with
  | zero =>
    intro s live hr hn hfl hG
    have hI := hr.inv hS
    have henv := envOK_past S hfl
    rcases allocate_cases hS hI henv with
      ⟨bp, k, b, c, h1, h2, h3, h4, _, h6, h7⟩ | ⟨_, c1, _, hcase⟩
    · have := free_total_claim hS hI h1 h2 h3 h4 h6
      omega
    · have hget := get_empty s.mem hfl (refill_size S s)
        (env_at (past_chunks S s._S_mem_blocks.elems)).raw
      rcases hcase with ⟨g, _⟩ | ⟨b, fl, _, g, _⟩ | ⟨_, _, _, _, _, g, _⟩ |
        ⟨b, fl, vbp, g1, hpush, _, _, _, h7⟩
      · rw [hget] at g; exact Option.noConfusion g
      · obtain ⟨w, hw⟩ := push_back_grow s._S_mem_blocks (refill_pair S s._S_block_size b)
        have g' : s._S_mem_blocks.push_back (refill_pair S s._S_block_size b) true = none := g
        rw [hw] at g'
        exact Option.noConfusion g'
      · exact absurd g hG
      · rw [hget] at g1
        injection g1 with g1
        injection g1 with _ hfl2
        refine ⟨_, _, Reach.alloc hr henv h7, ?_, ?_, rfl⟩
        · show fl.elems = []
          rw [← hfl2]; exact hfl
        · show vbp.elems.length = _
          rw [push_back_elems hpush, List.length_append]
          rfl
  | succ n ih =>
    intro s live hr hn hfl hG
    have hI := hr.inv hS
    have henv := envOK_past S hfl
    rcases allocate_cases hS hI henv with
      ⟨bp, k, b, c, h1, h2, h3, h4, _, h6, h7⟩ | ⟨_, c1, _, hcase⟩
    · have hft := free_total_claim hS hI h1 h2 h3 h4 h6
      exact ih (claim_state S s bp k b c) _ (Reach.alloc hr henv h7) (by omega) hfl hG
    · have hget := get_empty s.mem hfl (refill_size S s)
        (env_at (past_chunks S s._S_mem_blocks.elems)).raw
      rcases hcase with ⟨g, _⟩ | ⟨b, fl, _, g, _⟩ | ⟨_, _, _, _, _, g, _⟩ |
        ⟨b, fl, vbp, g1, hpush, _, _, _, h7⟩
      · rw [hget] at g; exact Option.noConfusion g
      · obtain ⟨w, hw⟩ := push_back_grow s._S_mem_blocks (refill_pair S s._S_block_size b)
        have g' : s._S_mem_blocks.push_back (refill_pair S s._S_block_size b) true = none := g
        rw [hw] at g'
        exact Option.noConfusion g'
      · exact absurd g hG
      · rw [hget] at g1
        injection g1 with g1
        injection g1 with _ hfl2
        refine ⟨_, _, Reach.alloc hr henv h7, ?_, ?_, rfl⟩
        · show fl.elems = []
          rw [← hfl2]; exact hfl
        · show vbp.elems.length = _
          rw [push_back_elems hpush, List.length_append]
          rfl

/-- For every `k ≤ 27` a state with `k` registered chunks is reachable by `allocate(1)`
calls alone, and its `_S_block_size` is `32 * 2 ^ k` modulo `2 ^ 32`. -/
theorem reach_chunks {S : Nat} (hS : 0 < S) (k : Nat) (hk : k ≤ 27) :
    ∃ s live, Reach S s live ∧ s._S_free_list.elems = [] ∧
      s._S_mem_blocks.elems.length = k ∧ s._S_block_size = (32 * 2 ^ k) % 2 ^ 32 := by
  induction k with
  | zero => exact ⟨State.fresh (fun _ => 0), [], Reach.fresh _, rfl, rfl, rfl⟩
  | succ k ih =>
    obtain ⟨s, live, hr, hfl, hlen, hG⟩ := ih (by omega)
    have hp : 2 ^ k ≤ 2 ^ 26 := Nat.pow_le_pow_right (by omega) (by omega)
    have hG' : s._S_block_size = 32 * 2 ^ k := by
      rw [hG]
      apply Nat.mod_eq_of_lt
      omega
    have hne : s._S_block_size ≠ 0 := by
      have : 1 ≤ 2 ^ k := Nat.one_le_two_pow
      omega
    obtain ⟨s1, live1, hr1, hfl1, hlen1, hG1⟩ := grow_step hS _ s live hr rfl hfl hne
    refine ⟨s1, live1, hr1, hfl1, by omega, ?_⟩
    have e : 32 * 2 ^ (k + 1) = 32 * 2 ^ k * 2 := by rw [Nat.pow_succ, Nat.mul_assoc]
    rw [hG1, hG', e]

/-- C6, amended: in every reachable state `_S_block_size` is `0` or a positive power of
two, namely `2 ^ (5 + n)` for the number `n ≤ 26` of registered chunks. -/
theorem C6_block_size_power_or_zero {S : Nat} (hS : 0 < S) {s : State} {live : List Nat}
    (h : Reach S s live) :
    s._S_block_size = 0 ∨
      (s._S_block_size = 2 ^ (5 + s._S_mem_blocks.elems.length) ∧
        s._S_mem_blocks.elems.length ≤ 26) := by
  rcases (h.inv hS).growth with ⟨h0, _⟩ | ⟨hG, hl⟩
  · exact Or.inl h0
  · refine Or.inr ⟨?_, hl⟩
    rw [hG, Nat.pow_add]

/-- The instance of C6 (amended) after one `allocate(1)`: `_S_block_size` is `2 ^ 6`. -/
theorem C6_block_size_power_or_zero_witness :
    one_alloc.1._S_block_size = 0 ∨
      (one_alloc.1._S_block_size = 2 ^ (5 + one_alloc.1._S_mem_blocks.elems.length) ∧
        one_alloc.1._S_mem_blocks.elems.length ≤ 26) :=
  C6_block_size_power_or_zero (S := 8) (by decide)
    (run_calls_reach 8 zero_mem [Call.allocate (env_at 1000)])

/-- C6 as stated fails: a state with 27 registered chunks is reachable from a fresh
allocator by `allocate(1)` calls, and there `_S_block_size` is `0`, which is no power
of two. -/
theorem C6_counterexample_zero :
    ∃ s live, Reach 8 s live ∧ s._S_mem_blocks.elems.length = 27 ∧ s._S_block_size = 0 ∧
      ¬ ∃ e, s._S_block_size = 2 ^ e := by
  obtain ⟨s, live, hr, _, hlen, hG⟩ := reach_chunks (S := 8) (by decide) 27 (le_refl _)
  have h0 : s._S_block_size = 0 := by rw [hG]; decide
  refine ⟨s, live, hr, hlen, h0, ?_⟩
  rintro ⟨e, he⟩
  rw [h0] at he
  have : 0 < 2 ^ e := Nat.two_pow_pos e
  omega

/-! ### The vector operation `insert` -/

/-- The loop of `insert` moves the `t` elements below `dest` up by one position. -/
theorem insert_shift_spec {α : Type} (t : Nat) :
    ∀ (ys : List α) (dest : Nat), t ≤ dest → dest < ys.length →
      (__mini_vector.insert_shift ys t dest (dest - 1)).length = ys.length ∧
      ∀ i, (__mini_vector.insert_shift ys t dest (dest - 1))[i]?
        = if dest - t < i ∧ i ≤ dest then ys[i - 1]? else ys[i]? := by
  induction t with
  | zero =>
    intro ys dest _ _
    refine ⟨rfl, fun i => ?_⟩
    rw [if_neg (by omega)]
    rfl
  | succ t ih =>
    intro ys dest ht hd
    have hsrc : dest - 1 < ys.length := by omega
    have hy : ys[dest - 1]? = some ys[dest - 1] := List.getElem?_eq_getElem hsrc
    unfold __mini_vector.insert_shift
    simp only [hy]
    obtain ⟨h1, h2⟩ := ih (ys.set dest ys[dest - 1]) (dest - 1) (by omega)
      (by rw [List.length_set]; omega)
    rw [List.length_set] at h1
    refine ⟨h1, fun i => ?_⟩
    rw [h2 i]
    by_cases hi : dest - 1 - t < i ∧ i ≤ dest - 1
    · rw [if_pos hi, if_pos (by omega), List.getElem?_set_ne (by omega)]
    · rw [if_neg hi]
      by_cases hid : i = dest
      · rw [if_pos (by omega), hid, List.getElem?_set_self hd, hy]
      · rw [if_neg (by omega), List.getElem?_set_ne (fun e => hid e.symm)]

/-- The member `insert` puts `x` at position `pos` and keeps the other elements in
their order. -/
theorem insert_elems {α : Type} {v w : __mini_vector α} {pos : Nat} {x : α} {grow : Bool}
    (hpos : pos ≤ v.elems.length) (h : v.insert pos x grow = some w) :
    w.elems = v.elems.take pos ++ x :: v.elems.drop pos := by
  unfold __mini_vector.insert at h
  by_cases hs : v._M_space_left ≠ 0
  · rw [if_pos hs] at h
    injection h with h
    rw [← h]
    show ((__mini_vector.insert_shift (v.elems ++ [x]) (v.elems.length - pos) v.elems.length
      (v.elems.length - 1)).set pos x) = _
    obtain ⟨h1, h2⟩ := insert_shift_spec (v.elems.length - pos) (v.elems ++ [x])
      v.elems.length (by omega) (by rw [List.length_append]; simp)
    apply List.ext_getElem?
    intro i
    rw [List.getElem?_append, List.length_take, Nat.min_eq_left hpos]
    by_cases hip : i = pos
    · rw [hip, List.getElem?_set_self (by rw [h1, List.length_append]; simp; omega),
        if_neg (by omega), Nat.sub_self, List.getElem?_cons_zero]
    · rw [List.getElem?_set_ne (fun e => hip e.symm), h2 i]
      by_cases hlt : i < pos
      · rw [if_neg (by omega), if_pos hlt, List.getElem?_take, if_pos hlt,
          List.getElem?_append_left (by omega)]
      · rw [if_neg hlt]
        have hi1 : i - pos = (i - pos - 1) + 1 := by omega
        rw [hi1, List.getElem?_cons_succ, List.getElem?_drop]
        have hidx : pos + (i - pos - 1) = i - 1 := by omega
        rw [hidx]
        by_cases hle : i ≤ v.elems.length
        · rw [if_pos (by omega), List.getElem?_append_left (by omega)]
        · rw [if_neg (by omega), List.getElem?_eq_none (by rw [List.length_append]; simp; omega),
            List.getElem?_eq_none (by omega)]
  · rw [if_neg hs] at h
    by_cases hg : grow = true
    · simp only [hg, if_true] at h
      injection h with h
      rw [← h]
    · simp [hg] at h

theorem insert_length {α : Type} {v w : __mini_vector α} {pos : Nat} {x : α} {grow : Bool}
    (hpos : pos ≤ v.elems.length) (h : v.insert pos x grow = some w) :
    w.elems.length = v.elems.length + 1 := by
  rw [insert_elems hpos h, List.length_append, List.length_cons, List.length_take,
    List.length_drop]
  omega

/-! ### The binary search `__lower_bound` -/

/-- The result of the loop lies in the range searched. -/
theorem lower_bound_loop_range {α β : Type} (comp : α → β → Bool) (xs : List α) (val : β)
    (fuel : Nat) : ∀ first len, first ≤ __lower_bound_loop comp xs val fuel first len ∧
      __lower_bound_loop comp xs val fuel first len ≤ first + len := by
  induction fuel with
  | zero => intro first len; exact ⟨le_refl _, Nat.le_add_right _ _⟩
  | succ fuel ih =>
    intro first len
    unfold __lower_bound_loop
    by_cases hl : 0 < len
    · rw [if_pos hl]
      cases hm : xs[first + len / 2]? with
      | none => exact ⟨le_refl _, Nat.le_add_right _ _⟩
      | some m =>
        by_cases hc : comp m val = true
        · simp only [hc, if_true]
          have := ih (first + len / 2 + 1) (len - len / 2 - 1)
          omega
        · simp only [hc]
          have := ih first (len / 2)
          simp only [Bool.false_eq_true, if_false]
          omega
    · rw [if_neg hl]; exact ⟨le_refl _, Nat.le_add_right _ _⟩

theorem lower_bound_le {α β : Type} (comp : α → β → Bool) (xs : List α) (val : β) :
    __lower_bound comp xs 0 xs.length val ≤ xs.length := by
  unfold __lower_bound
  have := (lower_bound_loop_range comp xs val (xs.length - 0) 0 (xs.length - 0)).2
  omega

/-- On a range where the elements that compare less than `val` precede the others, the
loop returns the position of the first element that does not compare less. -/
theorem lower_bound_loop_spec {α β : Type} (comp : α → β → Bool) (xs : List α) (val : β)
    (hmono : ∀ i j (hi : i < xs.length) (hj : j < xs.length), i ≤ j →
      comp xs[j] val = true → comp xs[i] val = true)
    (fuel : Nat) : ∀ first len, len ≤ fuel → first + len ≤ xs.length →
      (∀ i (hi : i < xs.length), i < first → comp xs[i] val = true) →
      (∀ i (hi : i < xs.length), first + len ≤ i → comp xs[i] val = false) →
      (∀ i (hi : i < xs.length), i < __lower_bound_loop comp xs val fuel first len →
        comp xs[i] val = true) ∧
      (∀ i (hi : i < xs.length), __lower_bound_loop comp xs val fuel first len ≤ i →
        comp xs[i] val = false) := by
  induction fuel with
  | zero =>
    intro first len hf _ h1 h2
    have : len = 0 := by omega
    subst this
    exact ⟨h1, h2⟩
  | succ fuel ih =>
    intro first len hf hlen h1 h2
    unfold __lower_bound_loop
    by_cases hl : 0 < len
    · rw [if_pos hl]
      have hmid : first + len / 2 < xs.length := by omega
      rw [List.getElem?_eq_getElem hmid]
      by_cases hc : comp xs[first + len / 2] val = true
      · simp only [hc, if_true]
        apply ih _ _ (by omega) (by omega)
        · intro i hi hlt
          exact hmono i (first + len / 2) hi hmid (by omega) hc
        · intro i hi hle
          exact h2 i hi (by omega)
      · simp only [hc, Bool.false_eq_true, if_false]
        apply ih _ _ (by omega) (by omega) h1
        intro i hi hle
        cases hci : comp xs[i] val with
        | false => rfl
        | true => exact absurd (hmono (first + len / 2) i hmid hi hle hci) hc
    · rw [if_neg hl]
      exact ⟨h1, fun i hi hle => h2 i hi (by omega)⟩

/-- The cache is sorted by its keys, not strictly. -/
theorem lower_bound_sorted (mem : Memory) {xs : List Nat}
    (hs : xs.Pairwise (fun a b => mem a ≤ mem b)) (val : Nat) :
    (∀ a ∈ xs.take (__lower_bound (_LT_pointer_compare mem) xs 0 xs.length val), mem a < val) ∧
    (∀ a ∈ xs.drop (__lower_bound (_LT_pointer_compare mem) xs 0 xs.length val), val ≤ mem a) := by
  have hmono : ∀ i j (hi : i < xs.length) (hj : j < xs.length), i ≤ j →
      _LT_pointer_compare mem xs[j] val = true → _LT_pointer_compare mem xs[i] val = true := by
    intro i j hi hj hij hc
    unfold _LT_pointer_compare at *
    rw [decide_eq_true_eq] at *
    rcases Nat.eq_or_lt_of_le hij with e | hlt
    · subst e; exact hc
    · have := (List.pairwise_iff_getElem.1 hs) i j hi hj hlt
      omega
  obtain ⟨g1, g2⟩ := lower_bound_loop_spec (_LT_pointer_compare mem) xs val hmono
    (xs.length - 0) 0 (xs.length - 0) (le_refl _) (by omega)
    (fun i _ h => absurd h (Nat.not_lt_zero i))
    (fun i hi h => absurd hi (by omega))
  constructor
  · intro a ha
    obtain ⟨i, hi, hia⟩ := List.mem_iff_getElem.1 ha
    rw [List.getElem_take] at hia
    rw [List.length_take] at hi
    have hlt : i < __lower_bound (_LT_pointer_compare mem) xs 0 xs.length val := by omega
    have := g1 i (by omega) hlt
    rw [hia] at this
    unfold _LT_pointer_compare at this
    exact of_decide_eq_true this
  · intro a ha
    obtain ⟨i, hi, hia⟩ := List.mem_iff_getElem.1 ha
    rw [List.getElem_drop] at hia
    rw [List.length_drop] at hi
    have := g2 (__lower_bound (_LT_pointer_compare mem) xs 0 xs.length val + i) (by omega)
      (Nat.le_add_right _ _)
    rw [hia] at this
    unfold _LT_pointer_compare at this
    have := of_decide_eq_false this
    omega

/-! ### The cache of empty chunks -/

theorem map_eq_some_pair {α β : Type} {o : Option α} {f : α → β} {r : β}
    (h : o.map f = some r) : ∃ w, o = some w ∧ r = f w := by
  cases o with
  | none => exact Option.noConfusion h
  | some w =>
    injection h with h
    exact ⟨w, rfl, h.symm⟩

/-- The size of the cache after `_M_validate`: one more below 64 entries, 64 at 64. -/
theorem validate_size {mem : Memory} {fl : __mini_vector Nat} {addr : Nat} {grow : Bool}
    {r : __mini_vector Nat × List Nat} (h : _M_validate mem fl addr grow = some r) :
    (fl.size < 64 → r.1.size = fl.size + 1) ∧ (64 ≤ fl.size → r.1.size = fl.size) := by
  unfold _M_validate at h
  by_cases h64 : fl.size ≥ 64
  · rw [if_pos h64] at h
    refine ⟨fun hlt => absurd h64 (by omega), fun _ => ?_⟩
    cases hb : fl.back with
    | none => rw [hb] at h; exact Option.noConfusion h
    | some bk =>
      rw [hb] at h
      by_cases hc : mem addr ≥ mem bk
      · simp only [if_pos hc] at h
        injection h with h
        rw [← h]
      · simp only [if_neg hc] at h
        obtain ⟨w, hw, hr⟩ := map_eq_some_pair h
        rw [hr]
        show w.elems.length = fl.elems.length
        rw [insert_length (lower_bound_le _ _ _) hw]
        show fl.elems.dropLast.length + 1 = _
        rw [List.length_dropLast]
        unfold __mini_vector.size at h64
        omega
  · rw [if_neg h64] at h
    refine ⟨fun _ => ?_, fun hge => absurd hge h64⟩
    obtain ⟨w, hw, hr⟩ := map_eq_some_pair h
    rw [hr]
    exact insert_length (lower_bound_le _ _ _) hw

theorem validate_run_size (steps : List (Memory × Nat × Bool)) :
    ∀ (fl fl1 : __mini_vector Nat), fl.size ≤ 64 → validate_run steps fl = some fl1 →
      fl1.size ≤ 64 := by
  induction steps with
  | nil =>
    intro fl fl1 h hr
    injection hr with hr
    rw [← hr]; exact h
  | cons step rest ih =>
    intro fl fl1 h hr
    unfold validate_run at hr
    cases hv : _M_validate step.1 fl step.2.1 step.2.2 with
    | none => rw [hv] at hr; exact Option.noConfusion hr
    | some r =>
      rw [hv] at hr
      obtain ⟨g1, g2⟩ := validate_size hv
      apply ih r.1 fl1 _ hr
      by_cases h64 : fl.size < 64
      · rw [g1 h64]; omega
      · rw [g2 (by omega)]; exact h

/-- Inserting at the position that `__lower_bound` finds keeps a list sorted. -/
theorem sorted_insert (mem : Memory) {xs : List Nat}
    (hs : xs.Pairwise (fun a b => mem a ≤ mem b)) (x : Nat) :
    (xs.take (__lower_bound (_LT_pointer_compare mem) xs 0 xs.length (mem x)) ++
      x :: xs.drop (__lower_bound (_LT_pointer_compare mem) xs 0 xs.length (mem x))).Pairwise
      (fun a b => mem a ≤ mem b) := by
  obtain ⟨g1, g2⟩ := lower_bound_sorted mem hs (mem x)
  rw [List.pairwise_append]
  refine ⟨hs.sublist (List.take_sublist _ _), ?_, ?_⟩
  · rw [List.pairwise_cons]
    exact ⟨g2, hs.sublist (List.drop_sublist _ _)⟩
  · intro a ha b hb
    rcases List.mem_cons.1 hb with e | hb
    · rw [e]; exact le_of_lt (g1 a ha)
    · have := g1 a ha
      have := g2 b hb
      omega

/-- The function `_M_validate` keeps the cache sorted by the keys, not strictly. -/
theorem validate_sorted {mem : Memory} {fl : __mini_vector Nat} {addr : Nat} {grow : Bool}
    {r : __mini_vector Nat × List Nat} (hs : fl.elems.Pairwise (fun a b => mem a ≤ mem b))
    (h : _M_validate mem fl addr grow = some r) :
    r.1.elems.Pairwise (fun a b => mem a ≤ mem b) := by
  unfold _M_validate at h
  by_cases h64 : fl.size ≥ 64
  · rw [if_pos h64] at h
    cases hb : fl.back with
    | none => rw [hb] at h; exact Option.noConfusion h
    | some bk =>
      rw [hb] at h
      by_cases hc : mem addr ≥ mem bk
      · simp only [if_pos hc] at h
        injection h with h
        rw [← h]; exact hs
      · simp only [if_neg hc] at h
        obtain ⟨w, hw, hr⟩ := map_eq_some_pair h
        rw [hr]
        show w.elems.Pairwise _
        rw [insert_elems (lower_bound_le _ _ _) hw]
        exact sorted_insert mem (hs.sublist (List.dropLast_sublist _)) addr
  · rw [if_neg h64] at h
    obtain ⟨w, hw, hr⟩ := map_eq_some_pair h
    rw [hr]
    show w.elems.Pairwise _
    rw [insert_elems (lower_bound_le _ _ _) hw]
    exact sorted_insert mem hs addr

theorem validate_run_sorted (mem : Memory) (steps : List (Memory × Nat × Bool))
    (hm : ∀ step ∈ steps, step.1 = mem) :
    ∀ (fl fl1 : __mini_vector Nat), fl.elems.Pairwise (fun a b => mem a ≤ mem b) →
      validate_run steps fl = some fl1 → fl1.elems.Pairwise (fun a b => mem a ≤ mem b) := by
  induction steps with
  | nil =>
    intro fl fl1 h hr
    injection hr with hr
    rw [← hr]; exact h
  | cons step rest ih =>
    intro fl fl1 h hr
    unfold validate_run at hr
    cases hv : _M_validate step.1 fl step.2.1 step.2.2 with
    | none => rw [hv] at hr; exact Option.noConfusion hr
    | some r =>
      rw [hv] at hr
      rw [hm step (List.mem_cons_self _ _)] at hv
      exact ih (fun st hst => hm st (List.mem_cons_of_mem _ hst)) r.1 fl1
        (validate_sorted h hv) hr

/-- C7: for every cache with at most 64 entries and every donated address,
`free_list::_M_validate` leaves a cache with at most 64 entries (one more entry below
64, still 64 at 64), and it completes when the storage of the vector can grow; hence
after any sequence of `_M_validate` calls on the empty cache the size is at most 64. -/
theorem C7_cache_at_most_64 :
    (∀ (mem : Memory) (fl : __mini_vector Nat) (addr : Nat),
      ∃ r, _M_validate mem fl addr true = some r) ∧
    (∀ (mem : Memory) (fl : __mini_vector Nat) (addr : Nat) (grow : Bool)
      (r : __mini_vector Nat × List Nat), fl.size ≤ 64 →
      _M_validate mem fl addr grow = some r →
      r.1.size ≤ 64 ∧ (fl.size < 64 → r.1.size = fl.size + 1)) ∧
    (∀ (steps : List (Memory × Nat × Bool)) (fl : __mini_vector Nat),
      validate_run steps __mini_vector.empty = some fl → fl.size ≤ 64) := by
  refine ⟨validate_grow, ?_, ?_⟩
  · intro mem fl addr grow r h hv
    obtain ⟨g1, g2⟩ := validate_size hv
    refine ⟨?_, g1⟩
    by_cases h64 : fl.size < 64
    · rw [g1 h64]; omega
    · rw [g2 (by omega)]; exact h
  · intro steps fl hr
    exact validate_run_size steps __mini_vector.empty fl (by decide) hr

/-- The instance of C7 at a cache of 64 entries, and at 65 donations to the empty
cache. -/
theorem C7_cache_at_most_64_witness :
    (cache_after 64).size = 64 ∧
    (((_M_validate zero_mem (cache_after 64) 5000 true).getD (__mini_vector.empty, [])).1.size
        ≤ 64 ∧
      ((cache_after 64).size < 64 →
        ((_M_validate zero_mem (cache_after 64) 5000 true).getD (__mini_vector.empty, [])).1.size
          = (cache_after 64).size + 1)) ∧
    (cache_after 65).size ≤ 64 :=
  ⟨by decide,
    C7_cache_at_most_64.2.1 zero_mem (cache_after 64) 5000 true _ (by decide)
      (option_eq_some (__mini_vector.empty, []) (by decide)),
    C7_cache_at_most_64.2.2 (donations 65) (cache_after 65)
      (option_eq_some __mini_vector.empty (by decide))⟩

/-- C8, amended: after every sequence of `_M_validate` calls on the empty cache, made
in a memory `mem` that does not change between the calls, the entries are sorted by the
key `*entry`, not strictly: for all positions `i < j`, `*cache[i] ≤ *cache[j]`. -/
theorem C8_cache_sorted (mem : Memory) (calls : List (Nat × Bool)) {fl : __mini_vector Nat}
    (hr : validate_run (donate_all mem calls) __mini_vector.empty = some fl) :
    ∀ (i j : Nat) (hi : i < fl.elems.length) (hj : j < fl.elems.length), i < j →
      mem fl.elems[i] ≤ mem fl.elems[j] := by
  have hm : ∀ step ∈ donate_all mem calls, step.1 = mem := by
    intro step hstep
    unfold donate_all at hstep
    obtain ⟨c, _, hc⟩ := List.mem_map.1 hstep
    rw [← hc]
  have := validate_run_sorted mem _ hm __mini_vector.empty fl List.Pairwise.nil hr
  exact List.pairwise_iff_getElem.1 this

/-- The instance of C8 (amended) at the donations of 300, 100 and 200 in a memory that
holds the keys 8, 5 and 7: the cache is `[100, 200, 300]` and the key of its first entry
is at most the key of its third. -/
theorem C8_cache_sorted_witness :
    sorted_cache.elems = [100, 200, 300] ∧
    keys_mem (sorted_cache.elems.get ⟨0, by decide⟩)
      ≤ keys_mem (sorted_cache.elems.get ⟨2, by decide⟩) :=
  ⟨by decide,
    C8_cache_sorted keys_mem [(300, true), (100, true), (200, true)]
      (option_eq_some __mini_vector.empty (by decide)) 0 2 (by decide) (by decide) (by decide)⟩

/-- C8 as stated fails.  Two donations whose keys are equal (both `0`, as for chunks that
are empty) leave the cache `[200, 100]`, which is not strictly sorted; and when a key
is overwritten between two calls (the key of 100 from `5` to `9`), the cache
`[100, 200, 300]` after the next call is not sorted at all. -/
theorem C8_counterexample_equal_keys :
    ((validate_run [(zero_mem, 100, true), (zero_mem, 200, true)] __mini_vector.empty).map
        fun fl => fl.elems) = some [200, 100] ∧
      ¬ (zero_mem 200 < zero_mem 100) ∧
    ((validate_run [(keys_mem, 100, true), (keys_mem, 200, true), (keys_changed, 300, true)]
        __mini_vector.empty).map fun fl => fl.elems) = some [100, 200, 300] ∧
      ¬ (keys_changed 100 ≤ keys_changed 200) := by
  decide

/-! ### Reclamation -/

/-- A chunk with exactly one clear bit has use-count 1. -/
theorem use_one_of_only {S : Nat} (hS : 0 < S) {s : State} {live : List Nat}
    (hI : Inv S s live) {bp : Block_pair} (hbp : bp ∈ s._S_mem_blocks.elems) {d : Nat}
    (hd : d < __num_blocks S bp) (hbit : slot_bit s.mem bp d = false)
    (hothers : ∀ e < __num_blocks S bp, e ≠ d → slot_bit s.mem bp e = true) :
    use_count S s.mem bp = 1 := by
  obtain ⟨n, h1, h2, h3, h4, h5, h6, h7, h8⟩ := wf_facts hS (hI.wf bp hbp)
  have hcnt := hI.count bp hbp
  have hbits : ∀ k < n, ∀ i < 32, 32 * k + i ≠ d →
      (s.mem (bitmap_addr bp k)).testBit i = true := by
    intro k hk i hi hne
    have := hothers (32 * k + i) (by omega) hne
    unfold slot_bit at this
    have e1 : (32 * k + i) / 32 = k := by omega
    have e2 : (32 * k + i) % 32 = i := by omega
    rw [e1, e2] at this
    exact this
  have hfull : ∀ k < n, k ≠ d / 32 → 32 = popcount (s.mem (bitmap_addr bp k)) := by
    intro k hk hne
    unfold popcount
    have : (List.range 32).countP (fun i => (s.mem (bitmap_addr bp k)).testBit i)
        = (List.range 32).length := by
      rw [List.countP_eq_length]
      intro i hi
      have hi32 := List.mem_range.1 hi
      exact hbits k hk i hi32 (by omega)
    rw [this, List.length_range]
  have hone : 32 = popcount (s.mem (bitmap_addr bp (d / 32))) + 1 := by
    unfold popcount
    have hc := countP_flip (List.nodup_range 32) (List.mem_range.2 (Nat.mod_lt d (by decide)))
      (p := fun _ => true) (q := fun i => (s.mem (bitmap_addr bp (d / 32))).testBit i)
      (fun i hi hne => (hbits (d / 32) (by omega) i (List.mem_range.1 hi)
        (by have := List.mem_range.1 hi; omega)).symm)
      rfl hbit
    rw [← hc]
    simp
  have hsum := sum_range_flip (fun _ => 32) (fun k => popcount (s.mem (bitmap_addr bp k))) n
    (d / 32) (by omega) hfull hone
  rw [sum_range_const n 32 (fun _ => 32) (fun _ _ => rfl)] at hsum
  unfold free_slots at hcnt
  rw [h3] at hcnt
  omega

/-- The size of the cache after `_M_insert`. -/
theorem insert_size {mem : Memory} {fl : __mini_vector Nat} {addr : Nat} {grow : Bool}
    {r : __mini_vector Nat × List Nat} (h : _M_insert mem fl addr grow = some r) :
    (fl.size < 64 → r.1.size = fl.size + 1) ∧ (64 ≤ fl.size → r.1.size = fl.size) :=
  validate_size h

/-- The deallocation of the only allocated slot of a chunk: the pair is erased from the
registry and the chunk is donated to the cache. -/
theorem reclaim_only {S : Nat} (hS : 0 < S) {s : State} {live : List Nat}
    (hI : Inv S s live) {p : Nat} (hp : p ∈ live) {i : Nat} {bp : Block_pair}
    (hi : s._S_mem_blocks.elems[i]? = some bp) (hin : _Inclusive_between p bp = true)
    (honly : ∀ q ∈ live, _Inclusive_between q bp = true → q = p) (grow : Bool) :
    (grow = true → ∃ s1, _M_deallocate_single_object S grow s p = Outcome.ok s1) ∧
    ∀ s1, _M_deallocate_single_object S grow s p = Outcome.ok s1 →
      s1._S_mem_blocks.elems = s._S_mem_blocks.elems.eraseIdx i ∧
      ∃ d r, d < __num_blocks S bp ∧ p = slot_addr S bp d ∧
        _M_insert (release_state S s bp d).mem s._S_free_list (use_count_addr S bp) grow
          = some r ∧
        s1._S_free_list = r.1 ∧ s1.released = r.2 ++ s.released := by
  obtain ⟨bp1, d, i1, hi1, hd, hpd, hbit, _, _, _, hcase⟩ := deallocate_cases hS hI hp grow
  have hbp : bp ∈ s._S_mem_blocks.elems := List.mem_iff_getElem?.2 ⟨_, hi⟩
  have hbp1 : bp1 ∈ s._S_mem_blocks.elems := List.mem_iff_getElem?.2 ⟨_, hi1⟩
  have hin' := (inclusive_iff p bp).1 hin
  rw [hpd] at hin'
  have e := slot_chunk_unique hS hI.wf hI.disj hbp1 hbp hd hin'
  subst e
  have ei := registry_index_unique hS hI.wf hI.disj hi1 hi
  subst ei
  have huse : use_count S s.mem bp1 = 1 := by
    apply use_one_of_only hS hI hbp hd hbit
    intro e he hne
    cases hb : slot_bit s.mem bp1 e with
    | true => rfl
    | false =>
      have hlive : slot_addr S bp1 e ∈ live := (hI.live_iff _).2 ⟨bp1, hbp, e, he, rfl, hb⟩
      have hq := honly _ hlive
        ((inclusive_iff _ _).2 (slot_in_chunk hS (hI.wf bp1 hbp) he))
      rw [hpd] at hq
      exact absurd (slot_addr_inj hS hq) hne
  obtain ⟨hil, _⟩ := List.getElem?_eq_some.1 hi
  rcases hcase with ⟨hne, _⟩ | ⟨_, ⟨hnone, g⟩ | ⟨r, c, ldi, hr, g, _⟩⟩
  · exact absurd huse hne
  · refine ⟨?_, ?_⟩
    · intro hg
      subst hg
      obtain ⟨r, hr⟩ := validate_grow (release_state S s bp1 d).mem s._S_free_list
        (use_count_addr S bp1 - word_size)
      have hnone' : _M_validate (release_state S s bp1 d).mem s._S_free_list
          (use_count_addr S bp1 - word_size) true = none := hnone
      rw [hr] at hnone'
      exact Option.noConfusion hnone'
    · intro s1 hs1
      rw [g] at hs1
      exact Outcome.noConfusion hs1
  · refine ⟨fun _ => ⟨_, g⟩, ?_⟩
    intro s1 hs1
    rw [g] at hs1
    injection hs1 with hs1
    rw [← hs1]
    exact ⟨erase_elems _ _ hil, d, r, hd, hpd, hr, rfl, rfl⟩

/-- With an empty cache a completed `allocate(1)` leaves the cache as it is. -/
theorem alloc_cache_empty {S : Nat} (hS : 0 < S) {s s1 : State} {live : List Nat}
    (hI : Inv S s live) {env : Env} (henv : EnvOK S s env)
    (hfl : s._S_free_list.elems = []) {p : Nat}
    (ha : _M_allocate_single_object S env s = Outcome.ok (s1, p)) :
    s1._S_free_list = s._S_free_list := by
  rcases allocate_cases hS hI henv with
    ⟨bp, k, b, c, h1, h2, h3, h4, _, h6, h7⟩ | ⟨_, c1, _, hcase⟩
  · rw [h7] at ha
    injection ha with ha
    injection ha with hs hp
    rw [← hs]
    rfl
  · rcases hcase with ⟨_, h7⟩ | ⟨_, _, _, _, h7⟩ | ⟨_, _, _, _, _, _, h7⟩ |
      ⟨b, fl, vbp, hget, hpush, hG, hl, hI3, h7⟩
    · rw [h7] at ha; exact Outcome.noConfusion ha
    · rw [h7] at ha; exact Outcome.noConfusion ha
    · rw [h7] at ha; exact Outcome.noConfusion ha
    · rw [h7] at ha
      injection ha with ha
      injection ha with hs hp
      rw [← hs]
      show fl = s._S_free_list
      rw [get_empty s.mem hfl] at hget
      cases hraw : env.raw (refill_size S s) with
      | none => rw [hraw] at hget; exact Option.noConfusion hget
      | some x =>
        rw [hraw] at hget
        injection hget with hget
        injection hget with _ hfl2
        exact hfl2.symm

/-- On the runs `Reach`, in which every block handed to a refill holds the whole chunk
laid out in it: for every reachable state and every allocated pointer `p` that is the only
allocated slot of its chunk (the pair at position `i`), `deallocate(p, 1)` completes
(when the vector of the cache can grow), erases exactly position `i` from the registry,
which keeps the other pairs in their order, and donates the chunk with `_M_insert`, so
that a cache of fewer than 64 entries grows by one.  In particular `allocate(1)` on a
fresh allocator followed by `deallocate` of the result leaves an empty registry and a
cache of size 1. -/
theorem reach_only_slot_reclaims_chunk {S : Nat} (hS : 0 < S) :
    (∀ (s : State) (live : List Nat) (p i : Nat) (bp : Block_pair), Reach S s live →
      p ∈ live → s._S_mem_blocks.elems[i]? = some bp → _Inclusive_between p bp = true →
      (∀ q ∈ live, _Inclusive_between q bp = true → q = p) →
      (∃ s1, _M_deallocate_single_object S true s p = Outcome.ok s1) ∧
      ∀ grow s1, _M_deallocate_single_object S grow s p = Outcome.ok s1 →
        s1._S_mem_blocks.elems = s._S_mem_blocks.elems.eraseIdx i ∧
        (s._S_free_list.size < 64 → s1._S_free_list.size = s._S_free_list.size + 1) ∧
        ∃ d r, d < __num_blocks S bp ∧ p = slot_addr S bp d ∧
          _M_insert (release_state S s bp d).mem s._S_free_list (use_count_addr S bp) grow
            = some r ∧
          s1._S_free_list = r.1 ∧ s1.released = r.2 ++ s.released) ∧
    (∀ (m : Memory) (env : Env) (s1 : State) (p : Nat), EnvOK S (State.fresh m) env →
      _M_allocate_single_object S env (State.fresh m) = Outcome.ok (s1, p) →
      (∃ s2, _M_deallocate_single_object S true s1 p = Outcome.ok s2) ∧
      ∀ grow s2, _M_deallocate_single_object S grow s1 p = Outcome.ok s2 →
        s2._S_mem_blocks.elems = [] ∧ s2._S_free_list.size = 1) := by
  have part1 : ∀ (s : State) (live : List Nat) (p i : Nat) (bp : Block_pair), Inv S s live →
      p ∈ live → s._S_mem_blocks.elems[i]? = some bp → _Inclusive_between p bp = true →
      (∀ q ∈ live, _Inclusive_between q bp = true → q = p) →
      (∃ s1, _M_deallocate_single_object S true s p = Outcome.ok s1) ∧
      ∀ grow s1, _M_deallocate_single_object S grow s p = Outcome.ok s1 →
        s1._S_mem_blocks.elems = s._S_mem_blocks.elems.eraseIdx i ∧
        (s._S_free_list.size < 64 → s1._S_free_list.size = s._S_free_list.size + 1) ∧
        ∃ d r, d < __num_blocks S bp ∧ p = slot_addr S bp d ∧
          _M_insert (release_state S s bp d).mem s._S_free_list (use_count_addr S bp) grow
            = some r ∧
          s1._S_free_list = r.1 ∧ s1.released = r.2 ++ s.released := by
    intro s live p i bp hI hp hi hin honly
    refine ⟨(reclaim_only hS hI hp hi hin honly true).1 rfl, ?_⟩
    intro grow s1 hs1
    obtain ⟨g1, d, r, g2, g3, g4, g5, g6⟩ := (reclaim_only hS hI hp hi hin honly grow).2 s1 hs1
    refine ⟨g1, ?_, d, r, g2, g3, g4, g5, g6⟩
    intro hlt
    rw [g5]
    exact (insert_size g4).1 hlt
  refine ⟨fun s live p i bp h => part1 s live p i bp (h.inv hS), ?_⟩
  intro m env s1 p henv ha
  have hI0 := Inv.fresh S m
  have hI1 := alloc_inv hS hI0 henv ha
  have hfl : s1._S_free_list = (State.fresh m)._S_free_list :=
    alloc_cache_empty hS hI0 henv rfl ha
  obtain ⟨bp, hbp, d, hd, hpd, _⟩ := (hI1.live_iff p).1 (List.mem_cons_self _ _)
  obtain ⟨i, hi⟩ := List.mem_iff_getElem?.1 hbp
  have hin : _Inclusive_between p bp = true := by
    rw [inclusive_iff, hpd]
    exact slot_in_chunk hS (hI1.wf bp hbp) hd
  obtain ⟨g1, g2⟩ := part1 s1 [p] p i bp hI1 (List.mem_cons_self _ _) hi hin
    (fun q hq _ => List.mem_singleton.1 hq)
  refine ⟨g1, ?_⟩
  intro grow s2 hs2
  obtain ⟨_, g3, _⟩ := g2 grow s2 hs2
  refine ⟨((round_trip hS hI0 (fun bp hbp => absurd hbp (List.not_mem_nil _)) henv ha grow).2
    s2 hs2).1, ?_⟩
  have h0 : (State.fresh m)._S_free_list.size = 0 := rfl
  rw [g3 (by rw [hfl, h0]; decide), hfl, h0]

/-- The instance of `reach_only_slot_reclaims_chunk` after one `allocate(1)`: the
deallocation of its result erases the
pair at position 0 and the cache grows from 0 to 1 entry; and the instance of the second
part at a fresh allocator whose memory is `zero_mem`. -/
theorem reach_only_slot_reclaims_chunk_witness :
    (one_alloc_undone._S_mem_blocks.elems = one_alloc.1._S_mem_blocks.elems.eraseIdx 0 ∧
      one_alloc_undone._S_free_list.size = one_alloc.1._S_free_list.size + 1) ∧
    (first_alloc_undone._S_mem_blocks.elems = [] ∧ first_alloc_undone._S_free_list.size = 1) :=
  ⟨⟨(((reach_only_slot_reclaims_chunk (S := 8) (by decide)).1 one_alloc.1 one_alloc.2 1008 0
        (1008, 1256) (run_calls_reach 8 zero_mem [Call.allocate (env_at 1000)]) (by decide)
        (by decide) (by decide) (by decide)).2 true one_alloc_undone
        (Outcome.eq_ok (State.fresh zero_mem) (by decide))).1,
      (((reach_only_slot_reclaims_chunk (S := 8) (by decide)).1 one_alloc.1 one_alloc.2 1008 0
        (1008, 1256) (run_calls_reach 8 zero_mem [Call.allocate (env_at 1000)]) (by decide)
        (by decide) (by decide) (by decide)).2 true one_alloc_undone
        (Outcome.eq_ok (State.fresh zero_mem) (by decide))).2.1 (by decide)⟩,
    ((reach_only_slot_reclaims_chunk (S := 8) (by decide)).2 zero_mem (env_at 1000) first_alloc.1
      first_alloc.2 (env_ok_sound (by decide))
      (Outcome.eq_ok (State.fresh zero_mem, 0) (by decide))).2 true first_alloc_undone
      (Outcome.eq_ok (State.fresh zero_mem) (by decide))⟩

/-! ### The first chunk -/

theorem alloc_all_sound {S : Nat} {s0 : State} (envs : List Env) :
    ∀ (n : Nat) (s s1 : State), AllocRun S s0 n s → alloc_all S envs s = some s1 →
      AllocRun S s0 (n + envs.length) s1 := by
  induction envs with
  | nil =>
    intro n s s1 h hr
    injection hr with hr
    rw [← hr]
    exact h
  | cons env envs ih =>
    intro n s s1 h hr
    unfold alloc_all at hr
    by_cases he : env_ok S s env = true
    · rw [if_pos he] at hr
      cases ho : _M_allocate_single_object S env s with
      | ok r =>
        rw [ho] at hr
        have := ih (n + 1) r.1 s1 (AllocRun.succ h (env_ok_sound he) ho) hr
        rw [List.length_cons]
        rw [Nat.add_assoc, Nat.add_comm 1] at this
        exact this
      | bad_alloc s2 => rw [ho] at hr; exact Option.noConfusion hr
      | fault => rw [ho] at hr; exact Option.noConfusion hr
    · rw [if_neg he] at hr
      exact Option.noConfusion hr

/-- The state of an allocator whose only chunk has 32 slots, `j` of them allocated. -/
theorem first_chunk_step {S : Nat} (hS : 0 < S) {s s1 : State} {live : List Nat}
    {bp : Block_pair} {j : Nat} (hr : Reach S s live) (hv : s._S_mem_blocks.elems = [bp])
    (hN : __num_blocks S bp = 32) (hu : use_count S s.mem bp = j) (hj : j < 32)
    {env : Env} (henv : EnvOK S s env) {p : Nat}
    (ha : _M_allocate_single_object S env s = Outcome.ok (s1, p)) :
    s1._S_mem_blocks.elems = [bp] ∧ use_count S s1.mem bp = j + 1 ∧
      s1._S_block_size = s._S_block_size ∧ s1._S_free_list = s._S_free_list := by
  have hI := hr.inv hS
  rcases allocate_cases hS hI henv with
    ⟨bp1, k, b, c, h1, h2, h3, h4, _, h6, h7⟩ | ⟨hfull, _⟩
  · rw [h7] at ha
    injection ha with ha
    injection ha with hs hp
    rw [← hs]
    have e : bp1 = bp := by
      rw [hv] at h1
      exact List.mem_singleton.1 h1
    subst e
    refine ⟨hv, ?_, rfl, rfl⟩
    rw [claim_use hS s (hI.wf bp1 h1) h2, hu]
    omega
  · have := hfull bp (by rw [hv]; exact List.mem_singleton_self _)
    omega

/-- The first `allocate(1)` on a fresh allocator creates a chunk of 32 slots with one
slot allocated and doubles `_S_block_size` to 64. -/
theorem first_alloc_spec {S : Nat} (hS : 0 < S) {m : Memory} {env : Env} {s1 : State}
    {p : Nat} (henv : EnvOK S (State.fresh m) env)
    (ha : _M_allocate_single_object S env (State.fresh m) = Outcome.ok (s1, p)) :
    ∃ bp, s1._S_mem_blocks.elems = [bp] ∧ __num_blocks S bp = 32 ∧
      use_count S s1.mem bp = 1 ∧ s1._S_block_size = 64 ∧ s1._S_free_list.elems = [] := by
  have hI := Inv.fresh S m
  have hfl := alloc_cache_empty hS hI henv rfl ha
  rcases allocate_cases hS hI henv with
    ⟨bp1, k, b, c, h1, h2, h3, h4, _, h6, h7⟩ | ⟨_, c1, _, hcase⟩
  · exact absurd h1 (List.not_mem_nil _)
  · rcases hcase with ⟨_, h7⟩ | ⟨_, _, _, _, h7⟩ | ⟨_, _, _, _, _, _, h7⟩ |
      ⟨b, fl, vbp, hget, hpush, hG, hl, hI3, h7⟩
    · rw [h7] at ha; exact Outcome.noConfusion ha
    · rw [h7] at ha; exact Outcome.noConfusion ha
    · rw [h7] at ha; exact Outcome.noConfusion ha
    · rw [h7] at ha
      injection ha with ha
      injection ha with hs hp
      obtain ⟨hb, hdisj⟩ := henv b fl hget
      obtain ⟨hwf, g1, g2, g3, g4, g5, g6, g7⟩ := refill_effects hS hI.wf hG hl hb hdisj fl vbp
        (request_at S (refill_pair S (State.fresh m)._S_block_size b)
          (State.fresh m)._S_mem_blocks.elems.length)
      have hk0 : 0 < __num_bitmaps S (refill_pair S (State.fresh m)._S_block_size b) := by
        rw [g2]; exact Nat.one_le_two_pow
      refine ⟨refill_pair S (State.fresh m)._S_block_size b, ?_, g1, ?_, ?_, ?_⟩
      · rw [← hs]
        show vbp.elems = _
        rw [push_back_elems hpush]
        rfl
      · rw [← hs, claim_use hS _ hwf hk0, g4]
        decide
      · rw [← hs]
        rfl
      · rw [hfl]
        rfl

/-- After `n ≤ 32` completed `allocate(1)` calls on a fresh allocator the registry holds
one chunk of 32 slots with use-count `n`, and `_S_block_size` is 64. -/
theorem alloc_run_first_chunk {S : Nat} (hS : 0 < S) {m : Memory} {n : Nat} {s : State}
    (h : AllocRun S (State.fresh m) n s) :
    (n = 0 ∧ s = State.fresh m) ∨ 32 < n ∨
      (1 ≤ n ∧ n ≤ 32 ∧ ∃ live bp, Reach S s live ∧ s._S_mem_blocks.elems = [bp] ∧
        __num_blocks S bp = 32 ∧ use_count S s.mem bp = n ∧ s._S_block_size = 64 ∧
        s._S_free_list.elems = []) := by
  induction h with
  | zero => exact Or.inl ⟨rfl, rfl⟩
  | @succ n s s1 env p _ henv ha ih =>
    rcases ih with ⟨h0, hs⟩ | hgt | ⟨h1, h32, live, bp, hr, hv, hN, hu, hG, hfl⟩
    · subst hs
      subst h0
      obtain ⟨bp, g1, g2, g3, g4, g5⟩ := first_alloc_spec hS henv ha
      exact Or.inr (Or.inr ⟨le_refl _, by decide, [p], bp,
        Reach.alloc (Reach.fresh m) henv ha, g1, g2, g3, g4, g5⟩)
    · exact Or.inr (Or.inl (by omega))
    · by_cases hn : n = 32
      · exact Or.inr (Or.inl (by omega))
      · obtain ⟨g1, g2, g3, g4⟩ := first_chunk_step hS hr hv hN hu (by omega) henv ha
        exact Or.inr (Or.inr ⟨by omega, by omega, p :: live, bp, Reach.alloc hr henv ha, g1, hN,
          g2, by rw [g3, hG], by rw [g4, hfl]⟩)

/-- In a chunk whose use-count equals its number of slots every bitmap bit is 0. -/
theorem full_chunk_bits {S : Nat} (hS : 0 < S) {s : State} {live : List Nat}
    (hI : Inv S s live) {bp : Block_pair} (hbp : bp ∈ s._S_mem_blocks.elems)
    (hu : use_count S s.mem bp = __num_blocks S bp) {d : Nat} (hd : d < __num_blocks S bp) :
    slot_bit s.mem bp d = false := by
  cases hb : slot_bit s.mem bp d with
  | false => rfl
  | true =>
    obtain ⟨n, h1, h2, h3, h4, h5, h6, h7, h8⟩ := wf_facts hS (hI.wf bp hbp)
    have := not_full_of_bit hS hI hbp (k := d / 32) (b := d % 32) (by omega)
      (Nat.mod_lt _ (by decide)) hb
    omega

/-- On an allocator whose only chunk is full, with `_S_block_size = 64` and an empty
cache, `allocate(1)` refills once: it registers a second chunk of 64 slots and doubles
`_S_block_size` to 128. -/
theorem refill_on_full {S : Nat} (hS : 0 < S) {s : State} {live : List Nat} {bp : Block_pair}
    (hr : Reach S s live) (hv : s._S_mem_blocks.elems = [bp])
    (hu : use_count S s.mem bp = __num_blocks S bp) (hG : s._S_block_size = 64)
    (hfl : s._S_free_list.elems = []) {env : Env} (henv : EnvOK S s env) {b : Nat}
    (hraw : env.raw (refill_size S s) = some b) (hgrow : env.grow = true) :
    ∃ s1 p bp1, _M_allocate_single_object S env s = Outcome.ok (s1, p) ∧
      s1._S_mem_blocks.elems = [bp, bp1] ∧ __num_blocks S bp1 = 64 ∧
      s1._S_block_size = 128 ∧ p = slot_addr S bp1 0 := by
  have hI := hr.inv hS
  have hbp : bp ∈ s._S_mem_blocks.elems := by rw [hv]; exact List.mem_singleton_self _
  have hget : _M_get s.mem s._S_free_list (refill_size S s) env.raw = some (b, s._S_free_list) := by
    rw [get_empty s.mem hfl, hraw]
    rfl
  rcases allocate_cases hS hI henv with
    ⟨bp1, k, b1, c, h1, h2, h3, h4, _, h6, h7⟩ | ⟨_, c1, _, hcase⟩
  · have e : bp1 = bp := by
      rw [hv] at h1
      exact List.mem_singleton.1 h1
    subst e
    have := not_full_of_bit hS hI h1 h2 h3 h4
    omega
  · rcases hcase with ⟨g, _⟩ | ⟨b2, fl, _, g, _⟩ | ⟨_, _, _, _, _, g, _⟩ |
      ⟨b2, fl, vbp, g1, hpush, hG2, hl, _, h7⟩
    · rw [hget] at g; exact Option.noConfusion g
    · rw [hgrow] at g
      obtain ⟨w, hw⟩ := push_back_grow s._S_mem_blocks (refill_pair S s._S_block_size b2)
      rw [hw] at g
      exact Option.noConfusion g
    · rw [hG] at g; exact absurd g (by decide)
    · obtain ⟨hb, hdisj⟩ := henv b2 fl g1
      obtain ⟨_, e1, _⟩ := refill_effects hS hI.wf hG2 hl hb hdisj fl vbp
        (request_at S (refill_pair S s._S_block_size b2) s._S_mem_blocks.elems.length)
      refine ⟨_, _, refill_pair S s._S_block_size b2, h7, ?_, by rw [e1, hG], ?_, rfl⟩
      · show vbp.elems = _
        rw [push_back_elems hpush, hv]
        rfl
      · show (s._S_block_size * 2) % 2 ^ 32 = 128
        rw [hG]
        decide

/-- C10: starting from a fresh allocator, after exactly 32 completed `allocate(1)` calls
the registry holds exactly one chunk, of 32 slots, its use-count is 32 and every
bitmap bit is 0; the 33rd `allocate(1)`, when the raw allocator and the registry
storage deliver, completes with exactly one refill: the registry then holds a second
chunk, of 64 slots, and `_S_block_size` is 128. -/
theorem C10_first_chunk_then_refill {S : Nat} (hS : 0 < S) {m : Memory} {s : State}
    (h : AllocRun S (State.fresh m) 32 s) :
    (∃ bp, s._S_mem_blocks.elems = [bp] ∧ __num_blocks S bp = 32 ∧
      use_count S s.mem bp = 32 ∧ ∀ d < 32, slot_bit s.mem bp d = false) ∧
    ∀ (env : Env) (b : Nat), EnvOK S s env → env.raw (refill_size S s) = some b →
      env.grow = true →
      ∃ s1 p bp bp1, _M_allocate_single_object S env s = Outcome.ok (s1, p) ∧
        s1._S_mem_blocks.elems = [bp, bp1] ∧ __num_blocks S bp1 = 64 ∧
        s1._S_block_size = 128 := by
  rcases alloc_run_first_chunk hS h with ⟨h0, _⟩ | hgt | ⟨_, _, live, bp, hr, hv, hN, hu, hG, hfl⟩
  · exact absurd h0 (by decide)
  · exact absurd hgt (by decide)
  · have hI := hr.inv hS
    have hbp : bp ∈ s._S_mem_blocks.elems := by rw [hv]; exact List.mem_singleton_self _
    refine ⟨⟨bp, hv, hN, hu, ?_⟩, ?_⟩
    · intro d hd
      exact full_chunk_bits hS hI hbp (by rw [hu, hN]) (by rw [hN]; exact hd)
    · intro env b henv hraw hgrow
      obtain ⟨s1, p, bp1, g1, g2, g3, g4, _⟩ :=
        refill_on_full hS hr hv (by rw [hu, hN]) hG hfl henv hraw hgrow
      exact ⟨s1, p, bp, bp1, g1, g2, g3, g4⟩

/-- The instance of C10 at the run of 32 `allocate(1)` calls that ends in `full_chunk`,
and at a 33rd call whose block is at address 5000. -/
theorem C10_first_chunk_then_refill_witness :
    (∃ bp, full_chunk._S_mem_blocks.elems = [bp] ∧ __num_blocks 8 bp = 32 ∧
      use_count 8 full_chunk.mem bp = 32 ∧ ∀ d < 32, slot_bit full_chunk.mem bp d = false) ∧
    ∃ s1 p bp bp1, _M_allocate_single_object 8 (env_at 5000) full_chunk = Outcome.ok (s1, p) ∧
      s1._S_mem_blocks.elems = [bp, bp1] ∧ __num_blocks 8 bp1 = 64 ∧
      s1._S_block_size = 128 :=
  ⟨(C10_first_chunk_then_refill (by decide)
      (alloc_all_sound chunk_envs 0 _ _ AllocRun.zero
        (option_eq_some (State.fresh zero_mem) (by decide)))).1,
    (C10_first_chunk_then_refill (by decide)
      (alloc_all_sound chunk_envs 0 _ _ AllocRun.zero
        (option_eq_some (State.fresh zero_mem) (by decide)))).2 (env_at 5000) 5000
      (env_ok_sound (by decide)) rfl rfl⟩

/-! ### The full cache -/

/-- With room in its storage `insert` completes. -/
theorem insert_space {α : Type} (v : __mini_vector α) (pos : Nat) (x : α) (grow : Bool)
    (h : v._M_space_left ≠ 0) : ∃ w, v.insert pos x grow = some w := by
  unfold __mini_vector.insert
  rw [if_pos h]
  exact ⟨_, rfl⟩

/-- C12: for every cache that holds exactly 64 entries and every donated address `addr`
with `*addr ≥ *back()`, `free_list::_M_validate` passes `addr` to `::operator delete`
and leaves the cache as it is. -/
theorem C12_full_cache_releases_donation (mem : Memory) (fl : __mini_vector Nat)
    (addr : Nat) (grow : Bool) (bk : Nat) (h64 : fl.size = 64) (hb : fl.back = some bk)
    (hge : mem addr ≥ mem bk) : _M_validate mem fl addr grow = some (fl, [addr]) := by
  unfold _M_validate
  rw [if_pos (by omega), hb]
  simp only [if_pos hge]

/-- The instance of C12 at the cache with the keys `1, .., 64` and the donation of the
address 1000, whose key is `100`. -/
theorem C12_full_cache_releases_donation_witness :
    seeded_cache.elems = (List.range 64).map (fun i => 8 * i + 8) ∧
    _M_validate seeded_mem seeded_cache 1000 true = some (seeded_cache, [1000]) :=
  ⟨by decide,
    C12_full_cache_releases_donation seeded_mem seeded_cache 1000 true 512 (by decide)
      (by decide) (by decide)⟩

/-- C13: for every cache that holds exactly 64 entries sorted by key and every donated
address `addr` with `*addr < *back()`, `free_list::_M_validate` passes the old `back()`
to `::operator delete`, removes it, and inserts `addr` at the first position whose key
is not less than `*addr` (the front when `*addr` is below every key), so the cache
still has 64 entries.  The call completes when the storage holds 64 entries or can
grow. -/
theorem C13_full_cache_evicts_back (mem : Memory) (fl : __mini_vector Nat) (addr : Nat)
    (grow : Bool) (bk : Nat) (h64 : fl.size = 64)
    (hs : fl.elems.Pairwise (fun a b => mem a ≤ mem b)) (hb : fl.back = some bk)
    (hlt : mem addr < mem bk) :
    (64 ≤ fl.cap ∨ grow = true → ∃ r, _M_validate mem fl addr grow = some r) ∧
    ∀ r, _M_validate mem fl addr grow = some r →
      r.2 = [bk] ∧ r.1.size = 64 ∧
      (∃ pos, pos ≤ 63 ∧
        r.1.elems = fl.elems.dropLast.take pos ++ addr :: fl.elems.dropLast.drop pos ∧
        (∀ a ∈ fl.elems.dropLast.take pos, mem a < mem addr) ∧
        (∀ a ∈ fl.elems.dropLast.drop pos, mem addr ≤ mem a)) ∧
      ((∀ a ∈ fl.elems, mem addr < mem a) → r.1.elems = addr :: fl.elems.dropLast) := by
  have hlen : fl.elems.length = 64 := h64
  have hdl : fl.elems.dropLast.length = 63 := by rw [List.length_dropLast, hlen]
  have hval : _M_validate mem fl addr grow
      = (fl.pop_back.insert
          (__lower_bound (_LT_pointer_compare mem) fl.pop_back.elems 0 fl.pop_back.size
            (mem addr)) addr grow).map fun fl2 => (fl2, [bk]) := by
    unfold _M_validate
    rw [if_pos (by omega), hb]
    simp only [if_neg (by omega : ¬ mem addr ≥ mem bk)]
  have hpos : __lower_bound (_LT_pointer_compare mem) fl.pop_back.elems 0 fl.pop_back.size
      (mem addr) ≤ fl.pop_back.elems.length := lower_bound_le _ _ _
  constructor
  · intro hc
    rw [hval]
    rcases hc with hcap | hg
    · obtain ⟨w, hw⟩ := insert_space fl.pop_back
        (__lower_bound (_LT_pointer_compare mem) fl.pop_back.elems 0 fl.pop_back.size
          (mem addr)) addr grow
        (by show fl.cap - fl.elems.dropLast.length ≠ 0; omega)
      exact ⟨_, by rw [hw]; rfl⟩
    · subst hg
      obtain ⟨w, hw⟩ := insert_grow fl.pop_back
        (__lower_bound (_LT_pointer_compare mem) fl.pop_back.elems 0 fl.pop_back.size
          (mem addr)) addr
      exact ⟨_, by rw [hw]; rfl⟩
  · intro r hr
    rw [hval] at hr
    obtain ⟨w, hw, hrw⟩ := map_eq_some_pair hr
    have hel := insert_elems hpos hw
    have hsd : fl.elems.dropLast.Pairwise (fun a b => mem a ≤ mem b) :=
      hs.sublist (List.dropLast_sublist _)
    obtain ⟨g1, g2⟩ := lower_bound_sorted mem hsd (mem addr)
    rw [hrw]
    refine ⟨rfl, ?_, ⟨_, ?_, hel, g1, g2⟩, ?_⟩
    · show w.elems.length = 64
      rw [insert_length hpos hw]
      show fl.elems.dropLast.length + 1 = 64
      omega
    · have : fl.pop_back.elems.length = 63 := hdl
      omega
    · intro hall
      show w.elems = _
      rw [hel]
      have hnil : fl.elems.dropLast.take
          (__lower_bound (_LT_pointer_compare mem) fl.elems.dropLast 0
            fl.elems.dropLast.length (mem addr)) = [] := by
        rw [List.eq_nil_iff_forall_not_mem]
        intro a ha
        have h1 := g1 a ha
        have h2 := hall a ((List.dropLast_sublist _).subset ((List.take_sublist _ _).subset ha))
        omega
      have hz : __lower_bound (_LT_pointer_compare mem) fl.elems.dropLast 0
          fl.elems.dropLast.length (mem addr) = 0 := by
        have := congrArg List.length hnil
        rw [List.length_take, List.length_nil] at this
        have hle := lower_bound_le (_LT_pointer_compare mem) fl.elems.dropLast (mem addr)
        omega
      show fl.elems.dropLast.take
          (__lower_bound (_LT_pointer_compare mem) fl.elems.dropLast 0
            fl.elems.dropLast.length (mem addr)) ++ addr :: fl.elems.dropLast.drop
          (__lower_bound (_LT_pointer_compare mem) fl.elems.dropLast 0
            fl.elems.dropLast.length (mem addr)) = _
      rw [hz]
      rfl

/-- The instance of C13 at the cache with the keys `1, .., 64` and the donation of the
address 2000, whose key is `0`: the entry 512 (key `64`) is released and 2000 is put at
the front. -/
theorem C13_full_cache_evicts_back_witness :
    ((_M_validate seeded_mem seeded_cache 2000 true).getD (__mini_vector.empty, [])).2 = [512] ∧
    ((_M_validate seeded_mem seeded_cache 2000 true).getD (__mini_vector.empty, [])).1.size
      = 64 ∧
    ((_M_validate seeded_mem seeded_cache 2000 true).getD (__mini_vector.empty, [])).1.elems
      = 2000 :: seeded_cache.elems.dropLast :=
  ⟨((C13_full_cache_evicts_back seeded_mem seeded_cache 2000 true 512 (by decide) (by decide)
      (by decide) (by decide)).2 _ (option_eq_some (__mini_vector.empty, []) (by decide))).1,
    ((C13_full_cache_evicts_back seeded_mem seeded_cache 2000 true 512 (by decide) (by decide)
      (by decide) (by decide)).2 _ (option_eq_some (__mini_vector.empty, []) (by decide))).2.1,
    ((C13_full_cache_evicts_back seeded_mem seeded_cache 2000 true 512 (by decide) (by decide)
      (by decide) (by decide)).2 _
      (option_eq_some (__mini_vector.empty, []) (by decide))).2.2.2 (by decide)⟩

/-! ### The wastage test and the multi-object path -/

/-- When `(block_size - required_size) * 100` fits in 32 bits, `_M_should_i_give` is the
wastage test in exact arithmetic; it is `false` whenever the block is smaller than the
request. -/
theorem should_i_give_exact (bs rs : Nat) (hfit : (bs - rs) * 100 < 2 ^ 32) :
    (rs ≤ bs → (_M_should_i_give bs rs = true ↔ (bs - rs) * 100 / bs < 36)) ∧
    (bs < rs → _M_should_i_give bs rs = false) := by
  unfold _M_should_i_give
  rw [Nat.mod_eq_of_lt hfit]
  constructor
  · intro hle
    by_cases h : (bs - rs) * 100 / bs < 36
    · rw [if_pos ⟨hle, h⟩]; simp [h]
    · rw [if_neg (fun hc => h hc.2)]; simp [h]
  · intro hlt
    rw [if_neg (fun hc => by omega)]

/-- C17 fails on the code: for a cached block of `2 ^ 27` bytes and a request of 1024
bytes, both 32-bit values with `block_size ≥ required_size > 0`, the product
`(block_size - required_size) * 100` wraps in `unsigned int`, and `_M_should_i_give`
returns `true` although the wastage in exact arithmetic is 99 per cent. -/
theorem C17_should_i_give_wraps :
    _M_should_i_give (2 ^ 27) 1024 = true ∧ (2 ^ 27 - 1024) * 100 / 2 ^ 27 = 99 ∧
      ¬ ((2 ^ 27 - 1024) * 100 / 2 ^ 27 < 36) := by
  decide

/-- C14, amended: for every `n ≠ 1` (including `n = 0`) whose product with
`sizeof(value_type)` fits in a `size_t`, and every state, `allocate(n)` passes exactly
`n * sizeof(value_type)` to `::operator new` and returns its result or propagates its
`std::bad_alloc`, with the state as it was; `deallocate(p, n)` with `p ≠ 0` passes `p`
to `::operator delete` and changes nothing else; `deallocate(0, n)` does nothing. -/
theorem C14_multi_object_bypass (szT : Nat) (env : Env) (grow : Bool) (s : State)
    (n p : Nat) (hn : n ≠ 1) (hfit : n * szT < 2 ^ 64) :
    (allocate szT env s n).1 = [n * szT] ∧
    (∀ q, env.raw (n * szT) = some q → (allocate szT env s n).2 = Outcome.ok (s, q)) ∧
    (env.raw (n * szT) = none → (allocate szT env s n).2 = Outcome.bad_alloc s) ∧
    (p ≠ 0 → deallocate szT grow s p n = Outcome.ok { s with released := p :: s.released }) ∧
    deallocate szT grow s 0 n = Outcome.ok s := by
  unfold allocate deallocate
  rw [if_neg hn, Nat.mod_eq_of_lt hfit]
  refine ⟨rfl, ?_, ?_, ?_, ?_⟩
  · intro q hq
    simp only [hq]
  · intro hq
    simp only [hq]
  · intro hp
    rw [if_pos hp, if_neg hn]
  · rw [if_neg (by simp)]

/-- The instance of C14 (amended) at `allocate(4)` and `deallocate(7000, 4)` for objects
of 8 bytes, on the state after one `allocate(1)`. -/
theorem C14_multi_object_bypass_witness :
    (allocate 8 (env_at 7000) one_alloc.1 4).1 = [4 * 8] ∧
    (allocate 8 (env_at 7000) one_alloc.1 4).2 = Outcome.ok (one_alloc.1, 7000) ∧
    deallocate 8 true one_alloc.1 7000 4
      = Outcome.ok { one_alloc.1 with released := 7000 :: one_alloc.1.released } :=
  ⟨(C14_multi_object_bypass 8 (env_at 7000) true one_alloc.1 4 7000 (by decide) (by decide)).1,
    (C14_multi_object_bypass 8 (env_at 7000) true one_alloc.1 4 7000 (by decide)
      (by decide)).2.1 7000 rfl,
    (C14_multi_object_bypass 8 (env_at 7000) true one_alloc.1 4 7000 (by decide)
      (by decide)).2.2.2.1 (by decide)⟩

/-- C14 as stated fails at both ends.  For `n = 2 ^ 61` objects of 8 bytes the product
wraps in `size_t` and `allocate(n)` asks `::operator new` for 0 bytes; and
`deallocate(0, 4)` returns without passing the null pointer on. -/
theorem C14_counterexample_wrap_and_null :
    (allocate 8 (env_at 7000) (State.fresh zero_mem) (2 ^ 61)).1 = [0] ∧
      2 ^ 61 * 8 ≠ 0 ∧
    ((deallocate 8 true (State.fresh zero_mem) 0 4).result (State.fresh zero_mem)).released
      = [] := by
  decide

/-! ### Failure of a refill -/

theorem Outcome.eq_bad_alloc {α : Type} (d : State) {o : Outcome α} (h : o.failed = true) :
    o = Outcome.bad_alloc (o.thrown d) := by
  cases o with
  | ok a => exact Bool.noConfusion h
  | bad_alloc s => rfl
  | fault => exact Bool.noConfusion h

/-- C15: for every reachable state, an `allocate(1)` that ends with `std::bad_alloc`
leaves the registry, the use-count and the bitmap words of every registered chunk and
`_S_block_size` as they were; and when every registered chunk is full and the raw
allocator fails (in `_M_get`, or for the storage of the registry vector), `allocate(1)`
ends with `std::bad_alloc`. -/
theorem C15_refill_failure_keeps_state {S : Nat} (hS : 0 < S) {s : State} {live : List Nat}
    (h : Reach S s live) (env : Env) (henv : EnvOK S s env) :
    (∀ s1, _M_allocate_single_object S env s = Outcome.bad_alloc s1 →
      s1._S_mem_blocks.elems = s._S_mem_blocks.elems ∧ s1._S_block_size = s._S_block_size ∧
      ∀ bp ∈ s._S_mem_blocks.elems, use_count S s1.mem bp = use_count S s.mem bp ∧
        ∀ k < __num_bitmaps S bp, s1.mem (bitmap_addr bp k) = s.mem (bitmap_addr bp k)) ∧
    ((∀ bp ∈ s._S_mem_blocks.elems, use_count S s.mem bp = __num_blocks S bp) →
      (_M_get s.mem s._S_free_list (refill_size S s) env.raw = none ∨
        ∃ b fl, _M_get s.mem s._S_free_list (refill_size S s) env.raw = some (b, fl) ∧
          s._S_mem_blocks.push_back (refill_pair S s._S_block_size b) env.grow = none) →
      ∃ s1, _M_allocate_single_object S env s = Outcome.bad_alloc s1) := by
  have hI := h.inv hS
  constructor
  · intro s1 hs1
    have key : s1._S_mem_blocks.elems = s._S_mem_blocks.elems ∧
        s1._S_block_size = s._S_block_size ∧
        ∀ bp ∈ s._S_mem_blocks.elems, header_agree S s.mem s1.mem bp := by
      rcases allocate_cases hS hI henv with
        ⟨bp, k, b, c, h1, h2, h3, h4, _, h6, h7⟩ | ⟨_, c1, hc1, hcase⟩
      · rw [h7] at hs1; exact Outcome.noConfusion hs1
      · rcases hcase with ⟨_, h7⟩ | ⟨b, fl, hget, _, h7⟩ | ⟨_, _, _, _, _, _, h7⟩ |
          ⟨b, fl, vbp, hget, hpush, hG, hl, hI2, h7⟩
        · rw [h7] at hs1
          injection hs1 with hs1
          rw [← hs1]
          exact ⟨rfl, rfl, fun bp _ => header_agree_refl _ bp⟩
        · rw [h7] at hs1
          injection hs1 with hs1
          rw [← hs1]
          refine ⟨rfl, rfl, ?_⟩
          obtain ⟨hb, hdisj⟩ := henv b fl hget
          intro bp hbp
          apply header_agree_store
          obtain ⟨n, g1, g2, g3, g4, g5, g6, g7, g8⟩ := wf_facts hS (hI.wf bp hbp)
          have := hdisj bp hbp
          unfold word_size at this
          have h0 := Nat.zero_le (s._S_block_size / bits_per_block)
          omega
        · rw [h7] at hs1; exact Outcome.noConfusion hs1
        · rw [h7] at hs1; exact Outcome.noConfusion hs1
    obtain ⟨k1, k2, k3⟩ := key
    refine ⟨k1, k2, fun bp hbp => ⟨use_count_agree hS (hI.wf bp hbp) (k3 bp hbp), ?_⟩⟩
    intro k hk
    exact word_agree hS (hI.wf bp hbp) (k3 bp hbp) hk
  · intro hfull hfail
    rcases allocate_cases hS hI henv with
      ⟨bp, k, b, c, h1, h2, h3, h4, _, h6, h7⟩ | ⟨_, c1, hc1, hcase⟩
    · have := not_full_of_bit hS hI h1 h2 h3 h4
      have := hfull bp h1
      omega
    · rcases hcase with ⟨_, h7⟩ | ⟨b, fl, hget, _, h7⟩ | ⟨b, fl, vbp, hget, hpush, _, _⟩ |
        ⟨b, fl, vbp, hget, hpush, _, _, _, _⟩
      · exact ⟨_, h7⟩
      · exact ⟨_, h7⟩
      · rcases hfail with hn | ⟨b2, fl2, hget2, hpush2⟩
        · rw [hget] at hn; exact Option.noConfusion hn
        · rw [hget] at hget2
          injection hget2 with hget2
          injection hget2 with e1 e2
          rw [← e1, hpush] at hpush2
          exact Option.noConfusion hpush2
      · rcases hfail with hn | ⟨b2, fl2, hget2, hpush2⟩
        · rw [hget] at hn; exact Option.noConfusion hn
        · rw [hget] at hget2
          injection hget2 with hget2
          injection hget2 with e1 e2
          rw [← e1, hpush] at hpush2
          exact Option.noConfusion hpush2

set_option maxRecDepth 100000 in
/-- The instance of C15 at the state after 32 `allocate(1)` calls, whose chunk is full,
and a raw allocator that fails: the 33rd call ends with `std::bad_alloc` and the
registry, `_S_block_size`, the use-count and the bitmap word are as before. -/
theorem C15_refill_failure_keeps_state_witness :
    (((_M_allocate_single_object 8 env_none full_run.1).thrown
          (State.fresh zero_mem))._S_mem_blocks.elems = full_run.1._S_mem_blocks.elems ∧
      ((_M_allocate_single_object 8 env_none full_run.1).thrown
          (State.fresh zero_mem))._S_block_size = full_run.1._S_block_size ∧
      use_count 8 ((_M_allocate_single_object 8 env_none full_run.1).thrown
          (State.fresh zero_mem)).mem (1008, 1256) = use_count 8 full_run.1.mem (1008, 1256)) ∧
    ∃ s1, _M_allocate_single_object 8 env_none full_run.1 = Outcome.bad_alloc s1 :=
  ⟨⟨((C15_refill_failure_keeps_state (by decide)
        (run_calls_reach 8 zero_mem (chunk_envs.map Call.allocate)) env_none
        (env_ok_sound (by decide))).1 _
        (Outcome.eq_bad_alloc (State.fresh zero_mem) (by decide))).1,
      ((C15_refill_failure_keeps_state (by decide)
        (run_calls_reach 8 zero_mem (chunk_envs.map Call.allocate)) env_none
        (env_ok_sound (by decide))).1 _
        (Outcome.eq_bad_alloc (State.fresh zero_mem) (by decide))).2.1,
      (((C15_refill_failure_keeps_state (by decide)
        (run_calls_reach 8 zero_mem (chunk_envs.map Call.allocate)) env_none
        (env_ok_sound (by decide))).1 _
        (Outcome.eq_bad_alloc (State.fresh zero_mem) (by decide))).2.2 (1008, 1256)
        (by decide)).1⟩,
    (C15_refill_failure_keeps_state (by decide)
      (run_calls_reach 8 zero_mem (chunk_envs.map Call.allocate)) env_none
      (env_ok_sound (by decide))).2 (by decide) (Or.inl rfl)⟩

/-! ### The pointer donated to the cache -/

/-- Below 64 entries `_M_validate` releases nothing and inserts the address at the
position that `__lower_bound` finds for the key read through it. -/
theorem validate_below_64 {mem : Memory} {fl : __mini_vector Nat} {addr : Nat} {grow : Bool}
    {r : __mini_vector Nat × List Nat} (hlt : fl.size < 64)
    (h : _M_validate mem fl addr grow = some r) :
    r.2 = [] ∧
    r.1.elems
      = fl.elems.take (__lower_bound (_LT_pointer_compare mem) fl.elems 0 fl.size (mem addr))
        ++ addr ::
          fl.elems.drop (__lower_bound (_LT_pointer_compare mem) fl.elems 0 fl.size (mem addr)) := by
  unfold _M_validate at h
  rw [if_neg (by omega)] at h
  obtain ⟨w, hw, hr⟩ := map_eq_some_pair h
  rw [hr]
  exact ⟨rfl, insert_elems (lower_bound_le _ _ _) hw⟩

/-- The deallocation of the last allocated slot of a chunk calls `_M_validate` with the
address one word below the use-count word of the chunk. -/
theorem reclaim_validates {S : Nat} (hS : 0 < S) {s s1 : State} {live : List Nat}
    (hI : Inv S s live) {p : Nat} (hp : p ∈ live) {i : Nat} {bp : Block_pair}
    (hi : s._S_mem_blocks.elems[i]? = some bp) (hin : _Inclusive_between p bp = true)
    (huse : use_count S s.mem bp = 1) {grow : Bool}
    (hd : _M_deallocate_single_object S grow s p = Outcome.ok s1) :
    ∃ d r, d < __num_blocks S bp ∧ p = slot_addr S bp d ∧
      _M_validate (release_state S s bp d).mem s._S_free_list
        (use_count_addr S bp - word_size) grow = some r ∧
      s1._S_free_list = r.1 ∧ s1.released = r.2 ++ s.released ∧
      s1.mem = (release_state S s bp d).mem := by
  obtain ⟨bp1, d, i1, hi1, hd1, hpd, hbit, _, _, _, hcase⟩ := deallocate_cases hS hI hp grow
  have hbp : bp ∈ s._S_mem_blocks.elems := List.mem_iff_getElem?.2 ⟨_, hi⟩
  have hbp1 : bp1 ∈ s._S_mem_blocks.elems := List.mem_iff_getElem?.2 ⟨_, hi1⟩
  have hin' := (inclusive_iff p bp).1 hin
  rw [hpd] at hin'
  have e := slot_chunk_unique hS hI.wf hI.disj hbp1 hbp hd1 hin'
  subst e
  rcases hcase with ⟨hne, _⟩ | ⟨_, ⟨_, g⟩ | ⟨r, c, ldi, hr, g, _⟩⟩
  · exact absurd huse hne
  · rw [g] at hd; exact Outcome.noConfusion hd
  · rw [g] at hd
    injection hd with hd
    rw [← hd]
    exact ⟨d, r, hd1, hpd, hr, rfl, rfl, rfl⟩

/-- C16, amended: whenever `_M_deallocate_single_object` reclaims a chunk (its use-count
was 1), the pointer that `_M_validate` receives, and stores in a cache of fewer than 64
entries, is the address one `unsigned int` below the use-count word of the chunk, and
the key by which it is placed is the word at that address, in the memory after the
decrement. -/
theorem C16_donated_pointer_below_use_count {S : Nat} (hS : 0 < S) {s s1 : State}
    {live : List Nat} (h : Reach S s live) (p i : Nat) (bp : Block_pair) (hp : p ∈ live)
    (hi : s._S_mem_blocks.elems[i]? = some bp)
    (hin : _Inclusive_between p bp = true) (huse : use_count S s.mem bp = 1) (grow : Bool)
    (hd : _M_deallocate_single_object S grow s p = Outcome.ok s1) :
    ∃ r, _M_validate s1.mem s._S_free_list (use_count_addr S bp - word_size) grow = some r ∧
      s1._S_free_list = r.1 ∧ s1.released = r.2 ++ s.released ∧
      (s._S_free_list.size < 64 →
        s1._S_free_list.elems
          = s._S_free_list.elems.take
              (__lower_bound (_LT_pointer_compare s1.mem) s._S_free_list.elems 0
                s._S_free_list.size (s1.mem (use_count_addr S bp - word_size)))
            ++ (use_count_addr S bp - word_size) ::
              s._S_free_list.elems.drop
                (__lower_bound (_LT_pointer_compare s1.mem) s._S_free_list.elems 0
                  s._S_free_list.size (s1.mem (use_count_addr S bp - word_size)))) := by
  obtain ⟨d, r, _, _, hr, g1, g2, g3⟩ := reclaim_validates hS (h.inv hS) hp hi hin huse hd
  rw [← g3] at hr
  refine ⟨r, hr, g1, g2, ?_⟩
  intro hlt
  rw [g1]
  exact (validate_below_64 hlt hr).2

/-- The instance of C16 (amended) at the deallocation of the only pointer of
`tagged_alloc`: the use-count word of the chunk is at 1000 and the cache receives 996. -/
theorem C16_donated_pointer_below_use_count_witness :
    use_count_addr 8 (1008, 1256) = 1000 ∧
    ∃ r, _M_validate tagged_undone.mem tagged_alloc.1._S_free_list
        (use_count_addr 8 (1008, 1256) - word_size) true = some r ∧
      tagged_undone._S_free_list = r.1 ∧
      tagged_undone.released = r.2 ++ tagged_alloc.1.released ∧
      (tagged_alloc.1._S_free_list.size < 64 →
        tagged_undone._S_free_list.elems
          = tagged_alloc.1._S_free_list.elems.take
              (__lower_bound (_LT_pointer_compare tagged_undone.mem)
                tagged_alloc.1._S_free_list.elems 0 tagged_alloc.1._S_free_list.size
                (tagged_undone.mem (use_count_addr 8 (1008, 1256) - word_size)))
            ++ (use_count_addr 8 (1008, 1256) - word_size) ::
              tagged_alloc.1._S_free_list.elems.drop
                (__lower_bound (_LT_pointer_compare tagged_undone.mem)
                  tagged_alloc.1._S_free_list.elems 0 tagged_alloc.1._S_free_list.size
                  (tagged_undone.mem (use_count_addr 8 (1008, 1256) - word_size)))) :=
  ⟨by decide,
    C16_donated_pointer_below_use_count (by decide)
      (run_calls_reach 8 tag_mem [Call.allocate (env_at 1000)]) 1008 0 (1008, 1256)
      (by decide) (by decide) (by decide) (by decide) true (Outcome.eq_ok (State.fresh tag_mem) (by decide))⟩

/-- C16 as stated fails: after `allocate(1)` and `deallocate` of its result, the chunk
whose use-count word is at address 1000 is in the cache as the pointer 996, and the
word there, the key, is `7` and not `0`.  With an entry of key `5` in the cache,
`_M_insert(1000)` puts 996 behind it, where a key `0` would go in front. -/
theorem C16_counterexample_pointer :
    use_count_addr 8 (1008, 1256) = 1000 ∧ tagged_undone._S_free_list.elems = [996] ∧
      tagged_undone.mem 996 = 7 ∧ tagged_undone.mem 1000 = 0 ∧
    ((_M_insert tag_mem { elems := [200], cap := 1 } 1000 true).map fun r => r.1.elems)
      = some [200, 996] := by
  decide

/-! ### The bit of a slot -/

/-- A release sets the bit of its slot and no other bit of the chunk. -/
theorem release_bit {S : Nat} (hS : 0 < S) (s : State) {bp : Block_pair}
    (hwf : WfChunk S bp) {d : Nat} (hd : d < __num_blocks S bp) {e : Nat}
    (he : e < __num_blocks S bp) :
    slot_bit (release_state S s bp d).mem bp e = (slot_bit s.mem bp e || decide (e = d)) := by
  obtain ⟨n, h1, h2, h3, h4, h5, h6, h7, h8⟩ := wf_facts hS hwf
  unfold slot_bit
  rw [release_word hS s hwf hd (by omega : e / 32 < __num_bitmaps S bp)]
  by_cases hk : e / 32 = d / 32
  · rw [if_pos hk, set_testBit _ _ _ (Nat.mod_lt d (by decide)), hk]
    by_cases hb : e % 32 = d % 32
    · have : e = d := by omega
      simp [hb, this]
    · have : e ≠ d := fun h => hb (by rw [h])
      simp [hb, this]
  · rw [if_neg hk]
    have : e ≠ d := fun h => hk (by rw [h])
    simp [this]

/-- The memory after a completed `deallocate(p, 1)` of an allocated pointer: the bit of
the slot is set and the use-count of its chunk decremented. -/
theorem dealloc_mem {S : Nat} (hS : 0 < S) {s s1 : State} {live : List Nat}
    (hI : Inv S s live) {bp : Block_pair} (hbp : bp ∈ s._S_mem_blocks.elems) {d : Nat}
    (hd : d < __num_blocks S bp) (hp : slot_addr S bp d ∈ live) {grow : Bool}
    (h : _M_deallocate_single_object S grow s (slot_addr S bp d) = Outcome.ok s1) :
    s1.mem = (release_state S s bp d).mem := by
  obtain ⟨bp1, d1, i1, hi1, hd1, hpd, _, _, _, _, hcase⟩ := deallocate_cases hS hI hp grow
  have hbp1 : bp1 ∈ s._S_mem_blocks.elems := List.mem_iff_getElem?.2 ⟨_, hi1⟩
  obtain ⟨e1, e2⟩ := slot_unique hS hI.wf hI.disj hbp hbp1 hd hd1 hpd
  subst e1
  subst e2
  rcases hcase with ⟨_, g⟩ | ⟨_, ⟨_, g⟩ | ⟨r, c, ldi, _, g, _⟩⟩
  · rw [g] at h
    injection h with h
    rw [← h]
    rfl
  · rw [g] at h; exact Outcome.noConfusion h
  · rw [g] at h
    injection h with h
    rw [← h]

/-- On the runs `Reach`, in which every block handed to a refill holds the whole chunk
laid out in it: in a reachable state, for every registered chunk and every slot index `d < N`
of an allocated slot, `deallocate` of the pointer `first + d` sets bit `d mod 32` of
bitmap word `d / 32` (counted backwards from the slot base) and changes no other bitmap
bit of a registered chunk; and when `allocate(1)` clears bit `b` of word `k` of a chunk
it returns `first + (k * 32 + b)`, which decodes back to `(k, b)`. -/
theorem reach_bit_of_slot {S : Nat} (hS : 0 < S) {s : State} {live : List Nat}
    (h : Reach S s live) :
    (∀ bp ∈ s._S_mem_blocks.elems, ∀ d < __num_blocks S bp, slot_addr S bp d ∈ live →
      ∀ grow s1, _M_deallocate_single_object S grow s (slot_addr S bp d) = Outcome.ok s1 →
        s1.mem (bitmap_addr bp (d / 32))
          = s.mem (bitmap_addr bp (d / 32)) ||| ((1 <<< (d % 32)) % 2 ^ 32) ∧
        (∀ e < __num_blocks S bp,
          slot_bit s1.mem bp e = (slot_bit s.mem bp e || decide (e = d))) ∧
        ∀ bp1 ∈ s._S_mem_blocks.elems, bp1 ≠ bp → ∀ e < __num_blocks S bp1,
          slot_bit s1.mem bp1 e = slot_bit s.mem bp1 e) ∧
    (∀ env s1 p, EnvOK S s env → _M_allocate_single_object S env s = Outcome.ok (s1, p) →
      ∃ bp k b m0, bp ∈ s1._S_mem_blocks.elems ∧ k < __num_bitmaps S bp ∧ b < 32 ∧
        s1.mem = incr_use_count S (__bit_allocate m0 (bitmap_addr bp k) b) bp ∧
        p = slot_addr S bp (k * 32 + b) ∧ (k * 32 + b) / 32 = k ∧ (k * 32 + b) % 32 = b) := by
  have hI := h.inv hS
  constructor
  · intro bp hbp d hd hp grow s1 hs1
    obtain ⟨n, h1, h2, h3, h4, h5, h6, h7, h8⟩ := wf_facts hS (hI.wf bp hbp)
    rw [dealloc_mem hS hI hbp hd hp hs1]
    refine ⟨?_, fun e he => release_bit hS s (hI.wf bp hbp) hd he, ?_⟩
    · rw [release_word hS s (hI.wf bp hbp) hd (by omega : d / 32 < __num_bitmaps S bp),
        if_pos rfl]
    · intro bp1 hbp1 hne e he
      exact slot_bit_agree hS (hI.wf bp1 hbp1) (release_agree hS hI hbp hd hbp1 hne) he
  · intro env s1 p henv ha
    rcases allocate_cases hS hI henv with
      ⟨bp, k, b, c, h1, h2, h3, h4, _, h6, h7⟩ | ⟨_, c1, _, hcase⟩
    · rw [h7] at ha
      injection ha with ha
      injection ha with hs hp
      rw [← hs, ← hp]
      exact ⟨bp, k, b, s.mem, h1, h2, h3, rfl, by rw [Nat.mul_comm], by omega, by omega⟩
    · rcases hcase with ⟨_, h7⟩ | ⟨_, _, _, _, h7⟩ | ⟨_, _, _, _, _, _, h7⟩ |
        ⟨b, fl, vbp, hget, hpush, hG, hl, hI3, h7⟩
      · rw [h7] at ha; exact Outcome.noConfusion ha
      · rw [h7] at ha; exact Outcome.noConfusion ha
      · rw [h7] at ha; exact Outcome.noConfusion ha
      · rw [h7] at ha
        injection ha with ha
        injection ha with hs hp
        rw [← hs, ← hp]
        obtain ⟨hb, hdisj⟩ := henv b fl hget
        obtain ⟨_, _, g2, _⟩ := refill_effects hS hI.wf hG hl hb hdisj fl vbp
          (request_at S (refill_pair S s._S_block_size b) s._S_mem_blocks.elems.length)
        refine ⟨refill_pair S s._S_block_size b, 0, 0, _, ?_, ?_, by decide, rfl, rfl,
          by decide, by decide⟩
        · show _ ∈ vbp.elems
          rw [push_back_elems hpush]; simp
        · rw [g2]; exact Nat.one_le_two_pow

/-- The instance of `reach_bit_of_slot` after two `allocate(1)` calls: `deallocate` of 1016,
slot 1 of the chunk, sets bit 1 of word 0; and the pointer returned by a third
`allocate(1)` decodes to the word and the bit that the call cleared. -/
theorem reach_bit_of_slot_witness :
    (((_M_deallocate_single_object 8 true two_allocs.1 (slot_addr 8 (1008, 1256) 1)).result
          (State.fresh zero_mem)).mem (bitmap_addr (1008, 1256) (1 / 32))
        = two_allocs.1.mem (bitmap_addr (1008, 1256) (1 / 32)) ||| ((1 <<< (1 % 32)) % 2 ^ 32)) ∧
    (∃ bp k b m0, bp ∈ ((_M_allocate_single_object 8 (env_at 5000) two_allocs.1).result
          (State.fresh zero_mem, 0)).1._S_mem_blocks.elems ∧ k < __num_bitmaps 8 bp ∧ b < 32 ∧
        ((_M_allocate_single_object 8 (env_at 5000) two_allocs.1).result
          (State.fresh zero_mem, 0)).1.mem
          = incr_use_count 8 (__bit_allocate m0 (bitmap_addr bp k) b) bp ∧
        ((_M_allocate_single_object 8 (env_at 5000) two_allocs.1).result
          (State.fresh zero_mem, 0)).2 = slot_addr 8 bp (k * 32 + b) ∧
        (k * 32 + b) / 32 = k ∧ (k * 32 + b) % 32 = b) :=
  ⟨((reach_bit_of_slot (S := 8) (by decide)
        (run_calls_reach 8 zero_mem [Call.allocate (env_at 1000), Call.allocate (env_at 5000)])).1
      (1008, 1256) (by decide) 1 (by decide) (by decide) true _
      (Outcome.eq_ok (State.fresh zero_mem) (by decide))).1,
    (reach_bit_of_slot (S := 8) (by decide)
        (run_calls_reach 8 zero_mem [Call.allocate (env_at 1000), Call.allocate (env_at 5000)])).2
      (env_at 5000) _ _ (env_ok_sound (by decide))
      (Outcome.eq_ok (State.fresh zero_mem, 0) (by decide))⟩

/-! ### The first-fit search -/

theorem sum_range_zero (f : Nat → Nat) (n : Nat) (h : ((List.range n).map f).sum = 0) :
    ∀ k < n, f k = 0 := by
  induction n with
  | zero => intro k hk; omega
  | succ n ih =>
    rw [List.range_succ, List.map_append, List.sum_append] at h
    simp only [List.map_cons, List.map_nil, List.sum_cons, List.sum_nil] at h
    intro k hk
    by_cases e : k = n
    · rw [e]; omega
    · exact ih (by omega) k (by omega)

theorem popcount_zero {w : Nat} (h : popcount w = 0) (i : Nat) (hi : i < 32) :
    w.testBit i = false := by
  unfold popcount at h
  rw [List.countP_eq_zero] at h
  have := h i (List.mem_range.2 hi)
  simpa using this

/-- A full chunk that satisfies `use_count + popcount = N` has no set bit. -/
theorem no_free_bit_of_full {S : Nat} {mem : Memory} {bp : Block_pair}
    (hcount : use_count S mem bp + free_slots S mem bp = __num_blocks S bp)
    (hfull : use_count S mem bp = __num_blocks S bp) : ¬ has_free_bit S mem bp := by
  rintro ⟨k, hk, i, hi, hbit⟩
  have h0 : free_slots S mem bp = 0 := by omega
  unfold free_slots at h0
  have := popcount_zero (sum_range_zero _ _ h0 k hk) i hi
  rw [this] at hbit
  exact Bool.noConfusion hbit

theorem no_free_bit_of_zero {S : Nat} {mem : Memory} {bp : Block_pair}
    (hz : ∀ k < __num_bitmaps S bp, mem (bitmap_addr bp k) = 0) : ¬ has_free_bit S mem bp := by
  rintro ⟨k, hk, i, hi, hbit⟩
  rw [hz k hk, Nat.zero_testBit] at hbit
  exact Bool.noConfusion hbit

theorem free_bit_of_word {S : Nat} {mem : Memory} {bp : Block_pair} {k : Nat}
    (hk : k < __num_bitmaps S bp) (hw : mem (bitmap_addr bp k) ≠ 0)
    (hlt : mem (bitmap_addr bp k) < 2 ^ 32) : has_free_bit S mem bp := by
  obtain ⟨b, _, hb, hbit⟩ := bit_scan_some hw hlt
  exact ⟨k, hk, b, hb, hbit⟩

/-- C20: for every registry of well-formed chunks in which each chunk satisfies
`use_count + popcount(bitmap) = N` (the bitmap words being 32-bit values), `__find_if`
with a `_Ffit_finder` returns the least registry index whose chunk has a set bitmap bit
(the end position when no chunk has one); on a hit the finder records the
lowest-numbered non-zero bitmap word `k` of that chunk (word 0 being next to the slot
base) and `_M_offset()` is `k * 32`; and a chunk whose use-count equals `N` is reported
as a miss, with the finder as it was. -/
theorem C20_first_fit_search {S : Nat} (hS : 0 < S) (mem : Memory) (vbp : List Block_pair)
    (hwf : ∀ bp ∈ vbp, WfChunk S bp)
    (hcount : ∀ bp ∈ vbp, use_count S mem bp + free_slots S mem bp = __num_blocks S bp)
    (hwords : ∀ bp ∈ vbp, ∀ k < __num_bitmaps S bp, mem (bitmap_addr bp k) < 2 ^ 32)
    (f : _Ffit_finder) :
    (__find_if (_Ffit_finder.call S mem) vbp 0 f).1 ≤ vbp.length ∧
    (∀ j < (__find_if (_Ffit_finder.call S mem) vbp 0 f).1, ∀ bp, vbp[j]? = some bp →
      ¬ has_free_bit S mem bp) ∧
    ((__find_if (_Ffit_finder.call S mem) vbp 0 f).1 < vbp.length →
      ∃ bp k, vbp[(__find_if (_Ffit_finder.call S mem) vbp 0 f).1]? = some bp ∧
        has_free_bit S mem bp ∧ k < __num_bitmaps S bp ∧
        (__find_if (_Ffit_finder.call S mem) vbp 0 f).2._M_pbitmap = bitmap_addr bp k ∧
        mem (bitmap_addr bp k) ≠ 0 ∧ (∀ j < k, mem (bitmap_addr bp j) = 0) ∧
        (__find_if (_Ffit_finder.call S mem) vbp 0 f).2._M_offset = k * 32) ∧
    ((∀ bp ∈ vbp, ¬ has_free_bit S mem bp) →
      (__find_if (_Ffit_finder.call S mem) vbp 0 f).1 = vbp.length) ∧
    (∀ bp g, use_count S mem bp = __num_blocks S bp →
      _Ffit_finder.call S mem g bp = (false, g)) := by
  obtain ⟨_, g2, g3, g4⟩ := find_if_ffit_spec hS mem vbp hwf 0 f
  rw [Nat.zero_add] at g2 g3
  have hit : (__find_if (_Ffit_finder.call S mem) vbp 0 f).1 < vbp.length →
      ∃ bp k, vbp[(__find_if (_Ffit_finder.call S mem) vbp 0 f).1]? = some bp ∧
        has_free_bit S mem bp ∧ k < __num_bitmaps S bp ∧
        (__find_if (_Ffit_finder.call S mem) vbp 0 f).2._M_pbitmap = bitmap_addr bp k ∧
        mem (bitmap_addr bp k) ≠ 0 ∧ (∀ j < k, mem (bitmap_addr bp j) = 0) ∧
        (__find_if (_Ffit_finder.call S mem) vbp 0 f).2._M_offset = k * 32 := by
    intro hlt
    obtain ⟨bp, k, h1, h2, h3, h4, h5, h6, _⟩ := g3 (by omega)
    rw [Nat.sub_zero] at h1
    have hbp : bp ∈ vbp := List.mem_iff_getElem?.2 ⟨_, h1⟩
    exact ⟨bp, k, h1, free_bit_of_word h2 h4 (hwords bp hbp k h2), h2, h3, h4, h6,
      by rw [h5, Nat.mul_comm]⟩
  refine ⟨g2, ?_, hit, ?_, ?_⟩
  · intro j hj bp hjb
    have hbp : bp ∈ vbp := List.mem_iff_getElem?.2 ⟨_, hjb⟩
    rcases g4 j (by omega) bp hjb with hfull | hz
    · exact no_free_bit_of_full (hcount bp hbp) hfull
    · exact no_free_bit_of_zero hz
  · intro hnone
    by_contra hne
    obtain ⟨bp, k, h1, h2, _⟩ := hit (by omega)
    exact hnone bp (List.mem_iff_getElem?.2 ⟨_, h1⟩) h2
  · intro bp g hfull
    unfold _Ffit_finder.call
    have hfull2 : mem (bp.1 - word_size * (__num_bitmaps S bp + 1)) = __num_blocks S bp := hfull
    rw [if_pos hfull2]

/-- The chunks of `two_chunks` are well formed for slots of 8 bytes. -/
theorem two_chunks_wf : ∀ bp ∈ two_chunks, WfChunk 8 bp := by
  intro bp hbp
  unfold two_chunks at hbp
  rcases List.mem_cons.1 hbp with e | hbp
  · rw [e]; exact ⟨1, by decide, by decide, by decide, by decide⟩
  · rw [List.mem_singleton.1 hbp]; exact ⟨2, by decide, by decide, by decide, by decide⟩

/-- The instance of C20 at the registry `two_chunks` in the memory `two_chunks_mem`: the
search passes the full first chunk and stops at index 1, on bitmap word 1 of the second
chunk, with `_M_offset() = 32`. -/
theorem C20_first_fit_search_witness :
    (__find_if (_Ffit_finder.call 8 two_chunks_mem) two_chunks 0
        { _M_pbitmap := 0, _M_data_offset := 0 }).1 = 1 ∧
    (__find_if (_Ffit_finder.call 8 two_chunks_mem) two_chunks 0
        { _M_pbitmap := 0, _M_data_offset := 0 }).2._M_pbitmap = bitmap_addr (5012, 5516) 1 ∧
    (¬ has_free_bit 8 two_chunks_mem (1008, 1256)) ∧
    ∃ bp k, two_chunks[(__find_if (_Ffit_finder.call 8 two_chunks_mem) two_chunks 0
          { _M_pbitmap := 0, _M_data_offset := 0 }).1]? = some bp ∧
      has_free_bit 8 two_chunks_mem bp ∧ k < __num_bitmaps 8 bp ∧
      (__find_if (_Ffit_finder.call 8 two_chunks_mem) two_chunks 0
          { _M_pbitmap := 0, _M_data_offset := 0 }).2._M_pbitmap = bitmap_addr bp k ∧
      two_chunks_mem (bitmap_addr bp k) ≠ 0 ∧
      (∀ j < k, two_chunks_mem (bitmap_addr bp j) = 0) ∧
      (__find_if (_Ffit_finder.call 8 two_chunks_mem) two_chunks 0
          { _M_pbitmap := 0, _M_data_offset := 0 }).2._M_offset = k * 32 :=
  ⟨by decide, by decide,
    (C20_first_fit_search (by decide) two_chunks_mem two_chunks two_chunks_wf (by decide)
      (by decide) { _M_pbitmap := 0, _M_data_offset := 0 }).2.1 0 (by decide) (1008, 1256)
      (by decide),
    (C20_first_fit_search (by decide) two_chunks_mem two_chunks two_chunks_wf (by decide)
      (by decide) { _M_pbitmap := 0, _M_data_offset := 0 }).2.2.1 (by decide)⟩

/-! ### Freeing slots of the first chunk -/

theorem alloc_each_sound {S : Nat} {s0 : State} (envs : List Env) :
    ∀ (st st1 : State × List Nat), AllocPtrs S s0 st.2 st.1 → alloc_each S envs st = some st1 →
      AllocPtrs S s0 st1.2 st1.1 := by
  induction envs with
  | nil =>
    intro st st1 h hr
    injection hr with hr
    rw [← hr]
    exact h
  | cons env envs ih =>
    intro st st1 h hr
    unfold alloc_each at hr
    by_cases he : env_ok S st.1 env = true
    · rw [if_pos he] at hr
      cases ho : _M_allocate_single_object S env st.1 with
      | ok r =>
        rw [ho] at hr
        exact ih (r.1, r.2 :: st.2) st1 (AllocPtrs.cons h (env_ok_sound he) ho) hr
      | bad_alloc s2 => rw [ho] at hr; exact Option.noConfusion hr
      | fault => rw [ho] at hr; exact Option.noConfusion hr
    · rw [if_neg he] at hr
      exact Option.noConfusion hr

/-- A run of completed `allocate(1)` calls on a fresh allocator ends in a reachable
state whose allocated pointers are the pointers returned. -/
theorem AllocPtrs.reach {S : Nat} {m : Memory} {ps : List Nat} {s : State}
    (h : AllocPtrs S (State.fresh m) ps s) :
    Reach S s ps ∧ AllocRun S (State.fresh m) ps.length s := by
  induction h with
  | nil => exact ⟨Reach.fresh m, AllocRun.zero⟩
  | cons _ henv ha ih => exact ⟨Reach.alloc ih.1 henv ha, AllocRun.succ ih.2 henv ha⟩

/-- The function `_Bit_scan_forward` returns the lowest set bit. -/
theorem bit_scan_least {w b : Nat} (h : _Bit_scan_forward w = some b) :
    ∀ i < b, w.testBit i = false := by
  unfold _Bit_scan_forward at h
  have key : ∀ n, ∀ b, (List.range n).find? (fun i => w.testBit i) = some b →
      ∀ i < b, w.testBit i = false := by
    intro n
    induction n with
    | zero => intro b hb; simp at hb
    | succ n ih =>
      intro b hb i hi
      rw [List.range_succ, List.find?_append] at hb
      cases hf : (List.range n).find? (fun i => w.testBit i) with
      | some c =>
        rw [hf] at hb
        have hb' : c = b := by simpa using hb
        rw [← hb'] at hi
        exact ih c hf i hi
      | none =>
        rw [hf] at hb
        have hb' : List.find? (fun i => w.testBit i) [n] = some b := by simpa using hb
        have hbn : b = n := List.mem_singleton.1 (List.mem_of_find?_eq_some hb')
        rw [List.find?_eq_none] at hf
        have := hf i (List.mem_range.2 (by omega))
        simpa using this
  exact key 32 b h

/-- Deallocating distinct allocated pointers of the only registered chunk, fewer than
its use-count, completes without a reclamation: the use-count drops by their number
and exactly their bits are set in addition. -/
theorem dealloc_all_spec {S : Nat} (hS : 0 < S) {bp : Block_pair} (grow : Bool)
    (order : List Nat) :
    ∀ (s : State) (live : List Nat), Reach S s live → s._S_mem_blocks.elems = [bp] →
      order.Nodup → (∀ q ∈ order, q ∈ live) → order.length < use_count S s.mem bp →
      ∃ s1 live1, dealloc_all S grow order s = some s1 ∧ Reach S s1 live1 ∧
        s1._S_mem_blocks.elems = [bp] ∧
        use_count S s1.mem bp + order.length = use_count S s.mem bp ∧
        ∀ e < __num_blocks S bp,
          slot_bit s1.mem bp e = (slot_bit s.mem bp e || decide (slot_addr S bp e ∈ order)) := by
  induction order with
  | nil =>
    intro s live hr hv _ _ _
    exact ⟨s, live, rfl, hr, hv, rfl, fun e _ => by simp⟩
  | cons p rest ih =>
    intro s live hr hv hnd hsub hlen
    have hI := hr.inv hS
    have hp : p ∈ live := hsub p (List.mem_cons_self _ _)
    obtain ⟨bp1, d, i1, hi1, hd, hpd, hbit, _, hdec, _, hcase⟩ :=
      deallocate_cases hS hI hp grow
    have hbp1 : bp1 ∈ s._S_mem_blocks.elems := List.mem_iff_getElem?.2 ⟨_, hi1⟩
    have e1 : bp1 = bp := by
      rw [hv] at hbp1
      exact List.mem_singleton.1 hbp1
    subst e1
    rw [List.length_cons] at hlen
    rw [List.nodup_cons] at hnd
    rcases hcase with ⟨_, g⟩ | ⟨hone, _⟩
    · have hr1 := Reach.dealloc hr hp g
      obtain ⟨s1, live1, k1, k2, k3, k4, k5⟩ :=
        ih (release_state S { s with _S_last_dealloc_index := i1 } bp1 d) (live.erase p) hr1 hv
          hnd.2
          (fun q hq => (List.mem_erase_of_ne (fun e => hnd.1 (by rw [← e]; exact hq))).2
            (hsub q (List.mem_cons_of_mem _ hq)))
          (by
            show rest.length < use_count S (release_state S s bp1 d).mem bp1
            omega)
      refine ⟨s1, live1, ?_, k2, k3, ?_, ?_⟩
      · show (match _M_deallocate_single_object S grow s p with
          | Outcome.ok s1 => dealloc_all S grow rest s1
          | _ => none) = some s1
        rw [g]
        exact k1
      · have k4' : use_count S s1.mem bp1 + rest.length
            = use_count S (release_state S s bp1 d).mem bp1 := k4
        rw [List.length_cons]
        omega
      · intro e he
        rw [k5 e he]
        have hrb : slot_bit (release_state S { s with _S_last_dealloc_index := i1 } bp1 d).mem
            bp1 e = (slot_bit s.mem bp1 e || decide (e = d)) :=
          release_bit hS s (hI.wf bp1 hbp1) hd he
        rw [hrb]
        by_cases hed : e = d
        · subst hed
          have hm : slot_addr S bp1 e ∈ p :: rest := by
            rw [← hpd]; exact List.mem_cons_self _ _
          rw [decide_eq_true hm, decide_eq_true rfl]
          simp
        · have hne : slot_addr S bp1 e ≠ p := by
            rw [hpd]
            exact fun h => hed (slot_addr_inj hS h)
          simp [hed, List.mem_cons, hne]
    · omega

/-- C11: on a fresh allocator on which exactly 32 completed `allocate(1)` calls filled
the first chunk, for every non-empty proper subset of the 32 returned pointers, listed
in any order `order`, deallocating its members in that order completes and leaves the
chunk with use-count `32 - |order|` and exactly the bits of the members set; the next
`allocate(1)` returns the lowest address of the subset. -/
theorem C11_freed_subset_then_lowest {S : Nat} (hS : 0 < S) {m : Memory} {ps : List Nat}
    {s : State} (h : AllocPtrs S (State.fresh m) ps s) (hlen : ps.length = 32)
    (order : List Nat) (hnd : order.Nodup) (hsub : ∀ q ∈ order, q ∈ ps) (hne : order ≠ [])
    (hprop : order.length < 32) (grow : Bool) :
    ∃ bp s1, s._S_mem_blocks.elems = [bp] ∧
      (∀ q, q ∈ ps ↔ ∃ d, d < 32 ∧ q = slot_addr S bp d) ∧
      dealloc_all S grow order s = some s1 ∧ s1._S_mem_blocks.elems = [bp] ∧
      use_count S s1.mem bp = 32 - order.length ∧
      (∀ d < 32, (slot_bit s1.mem bp d = true ↔ slot_addr S bp d ∈ order)) ∧
      ∀ env, EnvOK S s1 env →
        ∃ s2 p, _M_allocate_single_object S env s1 = Outcome.ok (s2, p) ∧ p ∈ order ∧
          ∀ q ∈ order, p ≤ q := by
  obtain ⟨hr, hrun⟩ := h.reach
  rw [hlen] at hrun
  have hI := hr.inv hS
  rcases alloc_run_first_chunk hS hrun with ⟨h0, _⟩ | hgt | ⟨_, _, _, bp, _, hv, hN, hu, _, _⟩
  · exact absurd h0 (by decide)
  · exact absurd hgt (by decide)
  have hbp : bp ∈ s._S_mem_blocks.elems := by rw [hv]; exact List.mem_singleton_self _
  obtain ⟨n, w1, w2, w3, w4, w5, w6, w7, w8⟩ := wf_facts hS (hI.wf bp hbp)
  have hfullbits : ∀ d < 32, slot_bit s.mem bp d = false := fun d hd =>
    full_chunk_bits hS hI hbp (by rw [hu, hN]) (by rw [hN]; exact hd)
  have hps : ∀ q, q ∈ ps ↔ ∃ d, d < 32 ∧ q = slot_addr S bp d := by
    intro q
    rw [hI.live_iff q]
    constructor
    · rintro ⟨bp1, hbp1, d, hd, hq, _⟩
      have e : bp1 = bp := by
        rw [hv] at hbp1
        exact List.mem_singleton.1 hbp1
      subst e
      exact ⟨d, by omega, hq⟩
    · rintro ⟨d, hd, hq⟩
      exact ⟨bp, hbp, d, by omega, hq, hfullbits d hd⟩
  obtain ⟨s1, live1, k1, k2, k3, k4, k5⟩ :=
    dealloc_all_spec hS grow order s ps hr hv hnd hsub (by omega)
  have hbits : ∀ d < 32, (slot_bit s1.mem bp d = true ↔ slot_addr S bp d ∈ order) := by
    intro d hd
    rw [k5 d (by omega), hfullbits d hd]
    simp
  refine ⟨bp, s1, hv, hps, k1, k3, by omega, hbits, ?_⟩
  intro env henv
  have hI1 := k2.inv hS
  have hbp1 : bp ∈ s1._S_mem_blocks.elems := by rw [k3]; exact List.mem_singleton_self _
  have hpos : 0 < order.length := List.length_pos.2 hne
  rcases allocate_cases hS hI1 henv with
    ⟨bp2, k, b, c, h1, h2, h3, h4, h5, _, h7⟩ | ⟨hfull, _⟩
  · have e : bp2 = bp := by
      rw [k3] at h1
      exact List.mem_singleton.1 h1
    subst e
    have hk0 : k = 0 := by omega
    subst hk0
    have hbitb : slot_bit s1.mem bp2 b = true := by
      unfold slot_bit
      have e1 : b / 32 = 0 := by omega
      have e2 : b % 32 = b := by omega
      rw [e1, e2]
      exact h4
    refine ⟨_, _, h7, ?_, ?_⟩
    · rw [Nat.mul_zero, Nat.zero_add]
      exact (hbits b h3).1 hbitb
    · intro q hq
      obtain ⟨d, hd, hqd⟩ := (hps q).1 (hsub q hq)
      have hset : slot_bit s1.mem bp2 d = true := (hbits d hd).2 (hqd ▸ hq)
      unfold slot_bit at hset
      have e1 : d / 32 = 0 := by omega
      have e2 : d % 32 = d := by omega
      rw [e1, e2] at hset
      have hle : b ≤ d := by
        by_contra hlt
        have := bit_scan_least h5 d (by omega)
        rw [this] at hset
        exact Bool.noConfusion hset
      rw [hqd, Nat.mul_zero, Nat.zero_add]
      unfold slot_addr
      exact Nat.add_le_add_left (Nat.mul_le_mul_right S hle) _
  · have := hfull bp hbp1
    omega

set_option maxRecDepth 100000 in
/-- The instance of C11 at the run `filled` and the 17th, 31st and 1st pointer returned,
deallocated in this order: the use-count is 29 and the next `allocate(1)` returns 1008,
the pointer of the 1st allocation. -/
theorem C11_freed_subset_then_lowest_witness :
    (filled.2.reverse.get? 0 = some 1008 ∧ filled.2.reverse.get? 16 = some 1136 ∧
      filled.2.reverse.get? 30 = some 1248) ∧
    (use_count 8 three_freed.mem (1008, 1256) = 29 ∧
      ((_M_allocate_single_object 8 (env_at 5000) three_freed).result
        (State.fresh zero_mem, 0)).2 = 1008) ∧
    ∃ bp s1, filled.1._S_mem_blocks.elems = [bp] ∧
      (∀ q, q ∈ filled.2 ↔ ∃ d, d < 32 ∧ q = slot_addr 8 bp d) ∧
      dealloc_all 8 true [1136, 1248, 1008] filled.1 = some s1 ∧
      s1._S_mem_blocks.elems = [bp] ∧
      use_count 8 s1.mem bp = 32 - [1136, 1248, 1008].length ∧
      (∀ d < 32, (slot_bit s1.mem bp d = true ↔ slot_addr 8 bp d ∈ [1136, 1248, 1008])) ∧
      ∀ env, EnvOK 8 s1 env →
        ∃ s2 p, _M_allocate_single_object 8 env s1 = Outcome.ok (s2, p) ∧
          p ∈ [1136, 1248, 1008] ∧ ∀ q ∈ [1136, 1248, 1008], p ≤ q :=
  ⟨by decide, by decide,
    C11_freed_subset_then_lowest (by decide)
      (alloc_each_sound chunk_envs (State.fresh zero_mem, []) filled AllocPtrs.nil
        (option_eq_some (State.fresh zero_mem, []) (by decide)))
      (by decide) [1136, 1248, 1008] (by decide) (by decide) (by decide) (by decide) true⟩

/-! ### No registered chunk is unused -/

/-- On the runs `Reach`, in which every block handed to a refill holds the whole chunk
laid out in it: in every reachable state every registered chunk has `use_count ≥ 1`, and this
is so after every completed `allocate(1)` call and after every completed
`deallocate(p, 1)` call on an allocated pointer; when such a `deallocate` finds the
use-count of the chunk of `p` at 1, that chunk is no longer registered afterwards. -/
theorem reach_registered_chunks_in_use {S : Nat} (hS : 0 < S) {s : State} {live : List Nat}
    (h : Reach S s live) :
    (∀ bp ∈ s._S_mem_blocks.elems, 1 ≤ use_count S s.mem bp) ∧
    (∀ env s1 p, EnvOK S s env → _M_allocate_single_object S env s = Outcome.ok (s1, p) →
      ∀ bp ∈ s1._S_mem_blocks.elems, 1 ≤ use_count S s1.mem bp) ∧
    (∀ p ∈ live, ∀ grow s1, _M_deallocate_single_object S grow s p = Outcome.ok s1 →
      (∀ bp ∈ s1._S_mem_blocks.elems, 1 ≤ use_count S s1.mem bp) ∧
      ∀ (i : Nat) (bp : Block_pair), s._S_mem_blocks.elems[i]? = some bp → _Inclusive_between p bp = true →
        use_count S s.mem bp = 1 → bp ∉ s1._S_mem_blocks.elems) := by
  refine ⟨Reach.used hS h, ?_, ?_⟩
  · intro env s1 p henv ha
    exact Reach.used hS (Reach.alloc h henv ha)
  · intro p hp grow s1 hd
    refine ⟨Reach.used hS (Reach.dealloc h hp hd), ?_⟩
    intro i bp hi hin huse hmem
    have hI := h.inv hS
    obtain ⟨bp1, d, i1, hi1, hd1, hpd, _, _, _, _, hcase⟩ := deallocate_cases hS hI hp grow
    have hbp : bp ∈ s._S_mem_blocks.elems := List.mem_iff_getElem?.2 ⟨_, hi⟩
    have hbp1 : bp1 ∈ s._S_mem_blocks.elems := List.mem_iff_getElem?.2 ⟨_, hi1⟩
    have hin' := (inclusive_iff p bp).1 hin
    rw [hpd] at hin'
    have e := slot_chunk_unique hS hI.wf hI.disj hbp1 hbp hd1 hin'
    subst e
    rcases hcase with ⟨hne, _⟩ | ⟨_, ⟨_, g⟩ | ⟨r, c, ldi, _, g, _⟩⟩
    · exact hne huse
    · rw [g] at hd; exact Outcome.noConfusion hd
    · rw [g] at hd
      injection hd with hd
      rw [← hd] at hmem
      have hmem2 : bp1 ∈ (s._S_mem_blocks.erase i1).elems := hmem
      exact ((mem_erase_registry hS hI.wf hI.disj hi1 bp1).1 hmem2).2 rfl

/-- The instance of `reach_registered_chunks_in_use` at the run `one_alloc`: its only chunk
has use-count 1, and after
`deallocate` of 1008 the registry is empty. -/
theorem reach_registered_chunks_in_use_witness :
    (one_alloc.1._S_mem_blocks.elems = [(1008, 1256)] ∧ one_alloc.2 = [1008] ∧
      use_count 8 one_alloc.1.mem (1008, 1256) = 1 ∧
      one_alloc_undone._S_mem_blocks.elems = []) ∧
    (∀ bp ∈ one_alloc.1._S_mem_blocks.elems, 1 ≤ use_count 8 one_alloc.1.mem bp) ∧
    (∀ env s1 p, EnvOK 8 one_alloc.1 env →
      _M_allocate_single_object 8 env one_alloc.1 = Outcome.ok (s1, p) →
      ∀ bp ∈ s1._S_mem_blocks.elems, 1 ≤ use_count 8 s1.mem bp) ∧
    (∀ p ∈ one_alloc.2, ∀ grow s1,
      _M_deallocate_single_object 8 grow one_alloc.1 p = Outcome.ok s1 →
      (∀ bp ∈ s1._S_mem_blocks.elems, 1 ≤ use_count 8 s1.mem bp) ∧
      ∀ (i : Nat) (bp : Block_pair), one_alloc.1._S_mem_blocks.elems[i]? = some bp →
        _Inclusive_between p bp = true →
        use_count 8 one_alloc.1.mem bp = 1 → bp ∉ s1._S_mem_blocks.elems) :=
  ⟨by decide,
    reach_registered_chunks_in_use (by decide)
      (run_calls_reach 8 zero_mem [Call.allocate (env_at 1000)])⟩

/-! ### The search cursor -/

/-- The member `operator++` on a cursor that stands on bitmap word `k` of the chunk at
index `i`: the next word of the chunk, word 0 of the next chunk, or the finished
cursor. -/
theorem incr_on_word {S : Nat} (hS : 0 < S) {vbp : List Block_pair}
    (hwf : ∀ bp ∈ vbp, WfChunk S bp) (hlen : vbp.length ≤ 2 ^ 31) {i k : Nat}
    {bp : Block_pair} (hi : vbp[i]? = some bp) (hk : k < __num_bitmaps S bp)
    (c : _Bitmap_counter) (hcur : c._M_curr_bmap = bitmap_addr bp k)
    (hlast : c._M_last_bmap_in_block = bitmap_addr bp (__num_bitmaps S bp - 1))
    (hidx : c._M_curr_index = i) :
    c._M_finished = false ∧
    (k + 1 < __num_bitmaps S bp →
      c.incr S vbp = some { c with _M_curr_bmap := bitmap_addr bp (k + 1) }) ∧
    (k + 1 = __num_bitmaps S bp → ∀ bq, vbp[i + 1]? = some bq →
      c.incr S vbp = some (request_at S bq (i + 1))) ∧
    (k + 1 = __num_bitmaps S bp → i + 1 = vbp.length →
      c.incr S vbp = some { c with _M_curr_bmap := 0, _M_curr_index := i + 1 }) := by
  obtain ⟨hil, hib⟩ := List.getElem?_eq_some.1 hi
  obtain ⟨n, h1, h2, h3, h4, h5, h6, h7, h8⟩ :=
    wf_facts hS (hwf bp (List.mem_iff_getElem?.2 ⟨_, hi⟩))
  have hmod : (c._M_curr_index + 1) % 2 ^ 64 = i + 1 := by
    rw [hidx]; exact Nat.mod_eq_of_lt (by omega)
  have hne : c._M_curr_bmap ≠ 0 := by
    rw [hcur]; unfold bitmap_addr word_size; omega
  refine ⟨by simp [_Bitmap_counter._M_finished, hne], ?_, ?_, ?_⟩
  · intro hk1
    have hneq : c._M_curr_bmap ≠ c._M_last_bmap_in_block := by
      rw [hcur, hlast]; unfold bitmap_addr word_size; omega
    unfold _Bitmap_counter.incr
    rw [if_neg hneq, hcur]
    have e : bitmap_addr bp k - word_size = bitmap_addr bp (k + 1) := by
      unfold bitmap_addr word_size; omega
    rw [e]
  · intro hk1 bq hq
    obtain ⟨hql, _⟩ := List.getElem?_eq_some.1 hq
    have heq : c._M_curr_bmap = c._M_last_bmap_in_block := by
      rw [hcur, hlast]
      have e : __num_bitmaps S bp - 1 = k := by omega
      rw [e]
    unfold _Bitmap_counter.incr
    rw [if_pos heq, hmod, if_neg (by omega)]
    exact reset_valid hS hq (hwf bq (List.mem_iff_getElem?.2 ⟨_, hq⟩)) (by omega) _
  · intro hk1 hend
    have heq : c._M_curr_bmap = c._M_last_bmap_in_block := by
      rw [hcur, hlast]
      have e : __num_bitmaps S bp - 1 = k := by omega
      rw [e]
    unfold _Bitmap_counter.incr
    rw [if_pos heq, hmod, if_pos hend]

/-- C22: for every registry of well-formed chunks with at most `2 ^ 31` entries and
every cursor that stands on bitmap word `k` of the chunk `bp` at index `i` (with
`_M_last_bmap_in_block` on the last word of `bp`), the cursor is not finished and
`operator++` moves it to word `k + 1` of the same chunk when `k < N/W - 1`; when
`k = N/W - 1` it moves it to word 0 of the chunk at `i + 1`, the word just below that
chunk's slot base, with the last word `N'/W - 1` words lower, if `i + 1` is an index of
the registry, and to the finished cursor (null current pointer) if `i + 1` is the size
of the registry. -/
theorem C22_cursor_increment {S : Nat} (hS : 0 < S) (vbp : List Block_pair)
    (hwf : ∀ bp ∈ vbp, WfChunk S bp) (hlen : vbp.length ≤ 2 ^ 31) (i k : Nat)
    (bp : Block_pair) (hi : vbp[i]? = some bp) (hk : k < __num_bitmaps S bp)
    (c : _Bitmap_counter) (hcur : c._M_curr_bmap = bitmap_addr bp k)
    (hlast : c._M_last_bmap_in_block = bitmap_addr bp (__num_bitmaps S bp - 1))
    (hidx : c._M_curr_index = i) :
    c._M_finished = false ∧
    (k < __num_bitmaps S bp - 1 →
      ∃ c1, c.incr S vbp = some c1 ∧ c1._M_curr_bmap = bitmap_addr bp (k + 1) ∧
        c1._M_curr_bmap = c._M_curr_bmap - word_size ∧
        c1._M_last_bmap_in_block = c._M_last_bmap_in_block ∧ c1._M_curr_index = i ∧
        c1._M_finished = false) ∧
    (k = __num_bitmaps S bp - 1 → ∀ bq, vbp[i + 1]? = some bq →
      ∃ c1, c.incr S vbp = some c1 ∧ c1._M_curr_index = i + 1 ∧
        c1._M_curr_bmap = bitmap_addr bq 0 ∧ c1._M_curr_bmap = bq.1 - word_size ∧
        c1._M_last_bmap_in_block = bitmap_addr bq (__num_bitmaps S bq - 1) ∧
        c1._M_last_bmap_in_block
          = bq.1 - word_size - word_size * (__num_bitmaps S bq - 1) ∧
        c1._M_finished = false) ∧
    (k = __num_bitmaps S bp - 1 → i + 1 = vbp.length →
      ∃ c1, c.incr S vbp = some c1 ∧ c1._M_finished = true ∧ c1._M_curr_bmap = 0 ∧
        c1._M_curr_index = vbp.length) := by
  obtain ⟨g0, g1, g2, g3⟩ := incr_on_word hS hwf hlen hi hk c hcur hlast hidx
  obtain ⟨n, h1, h2, h3, h4, h5, h6, h7, h8⟩ :=
    wf_facts hS (hwf bp (List.mem_iff_getElem?.2 ⟨_, hi⟩))
  refine ⟨g0, ?_, ?_, ?_⟩
  · intro hk1
    refine ⟨_, g1 (by omega), rfl, ?_, rfl, hidx, ?_⟩
    · show bitmap_addr bp (k + 1) = c._M_curr_bmap - word_size
      rw [hcur]; unfold bitmap_addr word_size; omega
    · show (bitmap_addr bp (k + 1) == 0) = false
      have : bitmap_addr bp (k + 1) ≠ 0 := by unfold bitmap_addr word_size; omega
      simpa using this
  · intro hk1 bq hq
    obtain ⟨m, q1, q2, q3, q4, q5, q6, q7, q8⟩ :=
      wf_facts hS (hwf bq (List.mem_iff_getElem?.2 ⟨_, hq⟩))
    refine ⟨_, g2 (by omega) bq hq, rfl, rfl, ?_, rfl, ?_, ?_⟩
    · show bitmap_addr bq 0 = bq.1 - word_size
      rfl
    · show bitmap_addr bq (__num_bitmaps S bq - 1)
        = bq.1 - word_size - word_size * (__num_bitmaps S bq - 1)
      rw [q3]; unfold bitmap_addr word_size; omega
    · show (bitmap_addr bq 0 == 0) = false
      have : bitmap_addr bq 0 ≠ 0 := by unfold bitmap_addr word_size; omega
      simpa using this
  · intro hk1 hend
    exact ⟨_, g3 (by omega) hend, rfl, rfl, hend⟩

/-- The instance of C22 at the registry `two_chunks` (one bitmap word and two bitmap
words) and the cursor on word 0 of the chunk at index 0: `operator++` moves it to the
word at 5008 of the chunk at index 1, with the last word at 5004; from there it moves to
5004, and from 5004 to the finished cursor. -/
theorem C22_cursor_increment_witness :
    (((request_at 8 (1008, 1256) 0).incr 8 two_chunks).map
        (fun c => (c._M_curr_bmap, c._M_last_bmap_in_block, c._M_curr_index))
        = some (5008, 5004, 1) ∧
      ((request_at 8 (5012, 5516) 1).incr 8 two_chunks).map
        (fun c => (c._M_curr_bmap, c._M_last_bmap_in_block, c._M_curr_index))
        = some (5004, 5004, 1) ∧
      (_Bitmap_counter.incr 8 two_chunks
        { _M_curr_bmap := 5004, _M_last_bmap_in_block := 5004, _M_curr_index := 1 }).map
        (fun c => (c._M_curr_bmap, c._M_last_bmap_in_block, c._M_curr_index))
        = some (0, 5004, 2)) ∧
    (request_at 8 (1008, 1256) 0)._M_finished = false ∧
    (0 < __num_bitmaps 8 (1008, 1256) - 1 →
      ∃ c1, (request_at 8 (1008, 1256) 0).incr 8 two_chunks = some c1 ∧
        c1._M_curr_bmap = bitmap_addr (1008, 1256) (0 + 1) ∧
        c1._M_curr_bmap = (request_at 8 (1008, 1256) 0)._M_curr_bmap - word_size ∧
        c1._M_last_bmap_in_block = (request_at 8 (1008, 1256) 0)._M_last_bmap_in_block ∧
        c1._M_curr_index = 0 ∧ c1._M_finished = false) ∧
    (0 = __num_bitmaps 8 (1008, 1256) - 1 → ∀ bq, two_chunks[0 + 1]? = some bq →
      ∃ c1, (request_at 8 (1008, 1256) 0).incr 8 two_chunks = some c1 ∧
        c1._M_curr_index = 0 + 1 ∧
        c1._M_curr_bmap = bitmap_addr bq 0 ∧ c1._M_curr_bmap = bq.1 - word_size ∧
        c1._M_last_bmap_in_block = bitmap_addr bq (__num_bitmaps 8 bq - 1) ∧
        c1._M_last_bmap_in_block
          = bq.1 - word_size - word_size * (__num_bitmaps 8 bq - 1) ∧
        c1._M_finished = false) ∧
    (0 = __num_bitmaps 8 (1008, 1256) - 1 → 0 + 1 = two_chunks.length →
      ∃ c1, (request_at 8 (1008, 1256) 0).incr 8 two_chunks = some c1 ∧
        c1._M_finished = true ∧ c1._M_curr_bmap = 0 ∧
        c1._M_curr_index = two_chunks.length) :=
  ⟨by decide,
    C22_cursor_increment (by decide) two_chunks two_chunks_wf (by decide) 0 0 (1008, 1256)
      (by decide) (by decide) (request_at 8 (1008, 1256) 0) rfl rfl rfl⟩

/-! ### Sortedness of the cache -/

/-- C28: for every cache whose entries are in non-decreasing order of the key `*entry`,
a completed `free_list::_M_validate(addr)` leaves it in non-decreasing order.  Either
the cache is full and `addr` is released, the entries being as they were; or, with
`kept` the old entries (without the last one when the cache was full), the new entries
are `kept` with `addr` inserted at the position that `__lower_bound` returns, which is
the first position whose key is not less than `*addr`: every entry before it has a key
below `*addr`, every entry from it on a key that is at least `*addr`, and the entries of
`kept` keep their order.  The call completes when the storage has room or can grow. -/
theorem C28_validate_keeps_sorted (mem : Memory) (fl : __mini_vector Nat) (addr : Nat)
    (grow : Bool) (hs : fl.elems.Pairwise (fun a b => mem a ≤ mem b)) :
    (grow = true ∨ fl.size < fl.cap → ∃ r, _M_validate mem fl addr grow = some r) ∧
    ∀ r, _M_validate mem fl addr grow = some r →
      r.1.elems.Pairwise (fun a b => mem a ≤ mem b) ∧
      ((64 ≤ fl.size ∧ r.2 = [addr] ∧ r.1.elems = fl.elems) ∨
        ∃ kept pos,
          ((fl.size < 64 ∧ kept = fl.elems ∧ r.2 = []) ∨
            (64 ≤ fl.size ∧ kept = fl.elems.dropLast ∧ r.2 = fl.elems.getLast?.toList)) ∧
          pos = __lower_bound (_LT_pointer_compare mem) kept 0 kept.length (mem addr) ∧
          pos ≤ kept.length ∧
          (∀ a ∈ kept.take pos, mem a < mem addr) ∧
          (∀ a ∈ kept.drop pos, mem addr ≤ mem a) ∧
          r.1.elems = kept.take pos ++ addr :: kept.drop pos ∧
          r.1.elems.get? pos = some addr ∧
          kept.Sublist r.1.elems) := by
  have key : ∀ (kept : List Nat) (w : __mini_vector Nat) (v : __mini_vector Nat),
      v.elems = kept → kept.Pairwise (fun a b => mem a ≤ mem b) →
      v.insert (__lower_bound (_LT_pointer_compare mem) v.elems 0 v.size (mem addr)) addr grow
        = some w →
      __lower_bound (_LT_pointer_compare mem) kept 0 kept.length (mem addr) ≤ kept.length ∧
      (∀ a ∈ kept.take (__lower_bound (_LT_pointer_compare mem) kept 0 kept.length (mem addr)),
        mem a < mem addr) ∧
      (∀ a ∈ kept.drop (__lower_bound (_LT_pointer_compare mem) kept 0 kept.length (mem addr)),
        mem addr ≤ mem a) ∧
      w.elems = kept.take (__lower_bound (_LT_pointer_compare mem) kept 0 kept.length (mem addr))
        ++ addr ::
          kept.drop (__lower_bound (_LT_pointer_compare mem) kept 0 kept.length (mem addr)) ∧
      w.elems.get? (__lower_bound (_LT_pointer_compare mem) kept 0 kept.length (mem addr))
        = some addr ∧
      kept.Sublist w.elems := by
    intro kept w v hv hsk hw
    subst hv
    have hle := lower_bound_le (_LT_pointer_compare mem) v.elems (mem addr)
    obtain ⟨l1, l2⟩ := lower_bound_sorted mem hsk (mem addr)
    have hel := insert_elems hle hw
    refine ⟨hle, l1, l2, hel, ?_, ?_⟩
    · rw [hel, List.get?_eq_getElem?, List.getElem?_append_right (by simp [hle])]
      simp [hle]
    · rw [hel]
      conv_lhs => rw [← List.take_append_drop
        (__lower_bound (_LT_pointer_compare mem) v.elems 0 v.elems.length (mem addr)) v.elems]
      exact List.Sublist.append (List.Sublist.refl _) (List.sublist_cons_self _ _)
  constructor
  · intro hc
    unfold _M_validate
    by_cases h64 : fl.size ≥ 64
    · rw [if_pos h64]
      have hne : fl.elems ≠ [] := by
        intro e
        have : fl.size = 0 := by unfold __mini_vector.size; rw [e]; rfl
        omega
      obtain ⟨bk, hbk⟩ : ∃ bk, fl.back = some bk :=
        ⟨fl.elems.getLast hne, List.getLast?_eq_getLast _ hne⟩
      rw [hbk]
      by_cases hge : mem addr ≥ mem bk
      · exact ⟨(fl, [addr]), by simp only [if_pos hge]⟩
      · simp only [if_neg hge]
        rcases hc with hg | hcap
        · subst hg
          obtain ⟨w, hw⟩ := insert_grow fl.pop_back
            (__lower_bound (_LT_pointer_compare mem) fl.pop_back.elems 0 fl.pop_back.size
              (mem addr)) addr
          exact ⟨_, by rw [hw]; rfl⟩
        · obtain ⟨w, hw⟩ := insert_space fl.pop_back
            (__lower_bound (_LT_pointer_compare mem) fl.pop_back.elems 0 fl.pop_back.size
              (mem addr)) addr grow
            (by
              show fl.cap - fl.elems.dropLast.length ≠ 0
              rw [List.length_dropLast]
              have : fl.size = fl.elems.length := rfl
              omega)
          exact ⟨_, by rw [hw]; rfl⟩
    · rw [if_neg h64]
      rcases hc with hg | hcap
      · subst hg
        obtain ⟨w, hw⟩ := insert_grow fl
          (__lower_bound (_LT_pointer_compare mem) fl.elems 0 fl.size (mem addr)) addr
        exact ⟨_, by rw [hw]; rfl⟩
      · obtain ⟨w, hw⟩ := insert_space fl
          (__lower_bound (_LT_pointer_compare mem) fl.elems 0 fl.size (mem addr)) addr grow
          (by
            show fl.cap - fl.elems.length ≠ 0
            have : fl.size = fl.elems.length := rfl
            omega)
        exact ⟨_, by rw [hw]; rfl⟩
  · intro r hr
    refine ⟨validate_sorted hs hr, ?_⟩
    unfold _M_validate at hr
    by_cases h64 : fl.size ≥ 64
    · rw [if_pos h64] at hr
      cases hb : fl.back with
      | none => rw [hb] at hr; exact Option.noConfusion hr
      | some bk =>
        rw [hb] at hr
        by_cases hge : mem addr ≥ mem bk
        · simp only [if_pos hge] at hr
          injection hr with hr
          rw [← hr]
          exact Or.inl ⟨h64, rfl, rfl⟩
        · simp only [if_neg hge] at hr
          obtain ⟨w, hw, hrw⟩ := map_eq_some_pair hr
          have hb2 : fl.elems.getLast? = some bk := hb
          right
          refine ⟨fl.elems.dropLast, _, Or.inr ⟨h64, rfl, ?_⟩, rfl, ?_⟩
          · rw [hrw, hb2]; rfl
          · rw [hrw]
            exact key fl.elems.dropLast w fl.pop_back rfl
              (hs.sublist (List.dropLast_sublist _)) hw
    · rw [if_neg h64] at hr
      obtain ⟨w, hw, hrw⟩ := map_eq_some_pair hr
      right
      refine ⟨fl.elems, _, Or.inl ⟨by omega, rfl, ?_⟩, rfl, ?_⟩
      · rw [hrw]
      · rw [hrw]
        exact key fl.elems w fl rfl hs hw

/-- The instance of C28 at the cache `ties_cache` (keys 5, 7, 8 in `ties_mem`) and the
address 400, whose key 7 equals the key of the entry 200: the new entry goes to
position 1, before the entry 200. -/
theorem C28_validate_keeps_sorted_witness :
    ((_M_validate ties_mem ties_cache 400 false).map (fun r => (r.1.elems, r.2))
        = some ([100, 400, 200, 300], []) ∧
      __lower_bound (_LT_pointer_compare ties_mem) ties_cache.elems 0 ties_cache.size
        (ties_mem 400) = 1) ∧
    (false = true ∨ ties_cache.size < ties_cache.cap →
      ∃ r, _M_validate ties_mem ties_cache 400 false = some r) ∧
    ∀ r, _M_validate ties_mem ties_cache 400 false = some r →
      r.1.elems.Pairwise (fun a b => ties_mem a ≤ ties_mem b) ∧
      ((64 ≤ ties_cache.size ∧ r.2 = [400] ∧ r.1.elems = ties_cache.elems) ∨
        ∃ kept pos,
          ((ties_cache.size < 64 ∧ kept = ties_cache.elems ∧ r.2 = []) ∨
            (64 ≤ ties_cache.size ∧ kept = ties_cache.elems.dropLast ∧
              r.2 = ties_cache.elems.getLast?.toList)) ∧
          pos = __lower_bound (_LT_pointer_compare ties_mem) kept 0 kept.length
            (ties_mem 400) ∧
          pos ≤ kept.length ∧
          (∀ a ∈ kept.take pos, ties_mem a < ties_mem 400) ∧
          (∀ a ∈ kept.drop pos, ties_mem 400 ≤ ties_mem a) ∧
          r.1.elems = kept.take pos ++ 400 :: kept.drop pos ∧
          r.1.elems.get? pos = some 400 ∧
          kept.Sublist r.1.elems) :=
  ⟨by decide, C28_validate_keeps_sorted ties_mem ties_cache 400 false (by decide)⟩

/-! ### The state after a reclamation -/

/-- The fields of the state after a completed reclamation branch. -/
theorem reclaim_chunk_fields {S : Nat} {grow : Bool} {s s1 : State} {diff : Nat}
    {bp : Block_pair} (h : reclaim_chunk S grow s diff bp = Outcome.ok s1) :
    s1._S_mem_blocks = s._S_mem_blocks.erase diff ∧
    s1._S_block_size = s._S_block_size / 2 ∧ s1.mem = s.mem ∧
    (if (s._S_last_request._M_where : Int) ≥ (diff : Int) then
        s._S_last_request._M_reset S (s._S_mem_blocks.erase diff).elems
          (to_int ((diff : Int) - 1))
      else some s._S_last_request) = some s1._S_last_request ∧
    s1._S_last_dealloc_index =
      (if s._S_last_dealloc_index ≥ (s._S_mem_blocks.erase diff).size then
        (if (diff : Int) - 1 ≠ -1 then to_size_t ((diff : Int) - 1) else 0)
      else s._S_last_dealloc_index) := by
  unfold reclaim_chunk at h
  cases hins : _M_insert s.mem s._S_free_list (use_count_addr S bp) grow with
  | none => rw [hins] at h; exact Outcome.noConfusion h
  | some r =>
    cases hc : (if (s._S_last_request._M_where : Int) ≥ (diff : Int) then
        s._S_last_request._M_reset S (s._S_mem_blocks.erase diff).elems
          (to_int ((diff : Int) - 1))
      else some s._S_last_request) with
    | none => rw [hins, hc] at h; exact Outcome.noConfusion h
    | some c =>
      rw [hins, hc] at h
      injection h with h
      rw [← h]
      exact ⟨rfl, rfl, rfl, rfl, rfl⟩

/-- A completed `deallocate_at` either reclaims a chunk, and then halves
`_S_block_size`, or leaves the registry and `_S_block_size` as they are. -/
theorem deallocate_at_growth {S : Nat} {grow : Bool} {s s1 : State} {diff : Nat}
    {disp : Int} (h : deallocate_at S grow s diff disp = Outcome.ok s1) :
    (s1._S_mem_blocks.elems.length + 1 = s._S_mem_blocks.elems.length ∧
      s1._S_block_size = s._S_block_size / 2) ∨
    (s1._S_mem_blocks = s._S_mem_blocks ∧ s1._S_block_size = s._S_block_size) := by
  unfold deallocate_at at h
  cases hb : s._S_mem_blocks.elems[diff]? with
  | none => rw [hb] at h; exact Outcome.noConfusion h
  | some bp =>
    rw [hb] at h
    obtain ⟨hil, _⟩ := List.getElem?_eq_some.1 hb
    by_cases h0 : release_mem S s.mem bp disp (use_count_addr S bp) = 0
    · have h2 : reclaim_chunk S grow { s with mem := release_mem S s.mem bp disp } diff bp
          = Outcome.ok s1 := by
        rw [← h]; exact (if_pos h0).symm
      obtain ⟨g1, g2, _⟩ := reclaim_chunk_fields h2
      left
      refine ⟨?_, g2⟩
      rw [g1]
      have := erase_length s._S_mem_blocks hil
      show (s._S_mem_blocks.erase diff).elems.length + 1 = _
      omega
    · have h2 : Outcome.ok { s with mem := release_mem S s.mem bp disp } = Outcome.ok s1 := by
        rw [← h]; exact (if_neg h0).symm
      injection h2 with h2
      rw [← h2]
      exact Or.inr ⟨rfl, rfl⟩

/-- A completed `_M_deallocate_single_object` either reclaims a chunk, and then halves
`_S_block_size`, or leaves the registry and `_S_block_size` as they are. -/
theorem dealloc_growth {S : Nat} {grow : Bool} {s s1 : State} {p : Nat}
    (h : _M_deallocate_single_object S grow s p = Outcome.ok s1) :
    (s1._S_mem_blocks.elems.length + 1 = s._S_mem_blocks.elems.length ∧
      s1._S_block_size = s._S_block_size / 2) ∨
    (s1._S_mem_blocks = s._S_mem_blocks ∧ s1._S_block_size = s._S_block_size) := by
  unfold _M_deallocate_single_object at h
  cases hb0 : s._S_mem_blocks.elems[s._S_last_dealloc_index]? with
  | none => rw [hb0] at h; exact Outcome.noConfusion h
  | some bp0 =>
    rw [hb0] at h
    by_cases hin : _Inclusive_between p bp0 = true
    · have h2 : deallocate_at S grow s s._S_last_dealloc_index
          (to_int (((p : Int) - (bp0.1 : Int)) / (S : Int))) = Outcome.ok s1 := by
        rw [← h]; exact (if_pos hin).symm
      exact deallocate_at_growth h2
    · cases hb : s._S_mem_blocks.elems[(__find_if
          (fun (u : Unit) bp => (_Inclusive_between p bp, u)) s._S_mem_blocks.elems 0 ()).1]? with
      | none =>
        exfalso
        have h2 : (Outcome.fault : Outcome State) = Outcome.ok s1 := by
          rw [← h]
          refine Eq.trans ?_ (if_neg hin).symm
          rw [hb]
        exact Outcome.noConfusion h2
      | some bp =>
        have h2 : deallocate_at S grow
            { s with _S_last_dealloc_index :=
                (__find_if (fun (u : Unit) bp => (_Inclusive_between p bp, u))
                  s._S_mem_blocks.elems 0 ()).1 }
            (__find_if (fun (u : Unit) bp => (_Inclusive_between p bp, u))
              s._S_mem_blocks.elems 0 ()).1
            (to_int (((p : Int) - (bp.1 : Int)) / (S : Int))) = Outcome.ok s1 := by
          rw [← h]
          refine Eq.trans ?_ (if_neg hin).symm
          rw [hb]
        exact deallocate_at_growth (s := { s with _S_last_dealloc_index :=
          (__find_if (fun (u : Unit) bp => (_Inclusive_between p bp, u))
            s._S_mem_blocks.elems 0 ()).1 }) h2

/-! ### Reachable refills -/

/-- From a reachable state with an empty cache and `_S_block_size ≠ 0`, `allocate(1)`
calls on blocks past the registered chunks reach a state with the same registry and the
same `_S_block_size` in which every chunk is full and the next `allocate(1)` refills. -/
theorem refill_reachable {S : Nat} (hS : 0 < S) (n : Nat) :
    ∀ (s : State) (live : List Nat), Reach S s live → free_total S s = n →
      s._S_free_list.elems = [] → s._S_block_size ≠ 0 →
      ∃ s0 live0 b fl vbp, Reach S s0 live0 ∧ s0._S_free_list.elems = [] ∧
        s0._S_mem_blocks = s._S_mem_blocks ∧ s0._S_block_size = s._S_block_size ∧
        AllFull S s0 ∧ EnvOK S s0 (env_at (past_chunks S s0._S_mem_blocks.elems)) ∧
        0 < b ∧ fl.elems = [] ∧
        _M_get s0.mem s0._S_free_list (refill_size S s0)
          (env_at (past_chunks S s0._S_mem_blocks.elems)).raw = some (b, fl) ∧
        s0._S_mem_blocks.push_back (refill_pair S s0._S_block_size b) true = some vbp ∧
        s0._S_block_size = 32 * 2 ^ s0._S_mem_blocks.elems.length ∧
        s0._S_mem_blocks.elems.length ≤ 26 ∧
        _M_allocate_single_object S (env_at (past_chunks S s0._S_mem_blocks.elems)) s0
          = Outcome.ok
              (claim_state S
                (refill_state s0 b fl vbp
                  (request_at S (refill_pair S s0._S_block_size b)
                    s0._S_mem_blocks.elems.length))
                (refill_pair S s0._S_block_size b) 0 0
                (request_at S (refill_pair S s0._S_block_size b)
                  s0._S_mem_blocks.elems.length),
               slot_addr S (refill_pair S s0._S_block_size b) 0) := by
  induction n with
  | zero =>
    intro s live hr hn hfl hG
    have hI := hr.inv hS
    have henv := envOK_past S hfl
    rcases allocate_cases hS hI henv with
      ⟨bp, k, b, c, h1, h2, h3, h4, _, h6, h7⟩ | ⟨hfull, c1, _, hcase⟩
    · have := free_total_claim hS hI h1 h2 h3 h4 h6
      omega
    · have hget := get_empty s.mem hfl (refill_size S s)
        (env_at (past_chunks S s._S_mem_blocks.elems)).raw
      rcases hcase with ⟨g, _⟩ | ⟨b, fl, _, g, _⟩ | ⟨_, _, _, _, _, g, _⟩ |
        ⟨b, fl, vbp, g1, hpush, hG2, hl2, _, h7⟩
      · rw [hget] at g; exact Option.noConfusion g
      · obtain ⟨w, hw⟩ := push_back_grow s._S_mem_blocks (refill_pair S s._S_block_size b)
        have g' : s._S_mem_blocks.push_back (refill_pair S s._S_block_size b) true = none := g
        rw [hw] at g'
        exact Option.noConfusion g'
      · exact absurd g hG
      · have g2 := g1
        rw [hget] at g2
        injection g2 with g2
        injection g2 with hb2 hfl2
        refine ⟨s, live, b, fl, vbp, hr, hfl, rfl, rfl, hfull, henv, (henv b fl g1).1, ?_, g1,
          hpush, hG2, hl2, h7⟩
        rw [← hfl2]; exact hfl
  | succ n ih =>
    intro s live hr hn hfl hG
    have hI := hr.inv hS
    have henv := envOK_past S hfl
    rcases allocate_cases hS hI henv with
      ⟨bp, k, b, c, h1, h2, h3, h4, _, h6, h7⟩ | ⟨hfull, c1, _, hcase⟩
    · have hft := free_total_claim hS hI h1 h2 h3 h4 h6
      exact ih (claim_state S s bp k b c) _ (Reach.alloc hr henv h7) (by omega) hfl hG
    · have hget := get_empty s.mem hfl (refill_size S s)
        (env_at (past_chunks S s._S_mem_blocks.elems)).raw
      rcases hcase with ⟨g, _⟩ | ⟨b, fl, _, g, _⟩ | ⟨_, _, _, _, _, g, _⟩ |
        ⟨b, fl, vbp, g1, hpush, hG2, hl2, _, h7⟩
      · rw [hget] at g; exact Option.noConfusion g
      · obtain ⟨w, hw⟩ := push_back_grow s._S_mem_blocks (refill_pair S s._S_block_size b)
        have g' : s._S_mem_blocks.push_back (refill_pair S s._S_block_size b) true = none := g
        rw [hw] at g'
        exact Option.noConfusion g'
      · exact absurd g hG
      · have g2 := g1
        rw [hget] at g2
        injection g2 with g2
        injection g2 with hb2 hfl2
        refine ⟨s, live, b, fl, vbp, hr, hfl, rfl, rfl, hfull, henv, (henv b fl g1).1, ?_, g1,
          hpush, hG2, hl2, h7⟩
        rw [← hfl2]; exact hfl

/-- For every `k ≤ 26` a state with `k` registered chunks, all of them full, is
reachable by `allocate(1)` calls alone; its `_S_block_size` is `32 * 2 ^ k` and its next
`allocate(1)` refills. -/
theorem reach_full {S : Nat} (hS : 0 < S) (k : Nat) (hk : k ≤ 26) :
    ∃ s0 live0 b fl vbp, Reach S s0 live0 ∧ s0._S_free_list.elems = [] ∧
      s0._S_mem_blocks.elems.length = k ∧ s0._S_block_size = 32 * 2 ^ k ∧
      AllFull S s0 ∧ EnvOK S s0 (env_at (past_chunks S s0._S_mem_blocks.elems)) ∧
      0 < b ∧ fl.elems = [] ∧
      _M_get s0.mem s0._S_free_list (refill_size S s0)
        (env_at (past_chunks S s0._S_mem_blocks.elems)).raw = some (b, fl) ∧
      s0._S_mem_blocks.push_back (refill_pair S s0._S_block_size b) true = some vbp ∧
      _M_allocate_single_object S (env_at (past_chunks S s0._S_mem_blocks.elems)) s0
        = Outcome.ok
            (claim_state S
              (refill_state s0 b fl vbp
                (request_at S (refill_pair S s0._S_block_size b)
                  s0._S_mem_blocks.elems.length))
              (refill_pair S s0._S_block_size b) 0 0
              (request_at S (refill_pair S s0._S_block_size b)
                s0._S_mem_blocks.elems.length),
             slot_addr S (refill_pair S s0._S_block_size b) 0) := by
  obtain ⟨s, live, hr, hfl, hlen, hG⟩ := reach_chunks hS k (by omega)
  have hp : 2 ^ k ≤ 2 ^ 26 := Nat.pow_le_pow_right (by omega) hk
  have hG' : s._S_block_size = 32 * 2 ^ k := by
    rw [hG]
    apply Nat.mod_eq_of_lt
    omega
  have hne : s._S_block_size ≠ 0 := by
    have : 1 ≤ 2 ^ k := Nat.one_le_two_pow
    omega
  obtain ⟨s0, live0, b, fl, vbp, g1, g2, g3, g4, g5, g6, g7, g8, g9, g10, _, _, g13⟩ :=
    refill_reachable hS _ s live hr rfl hfl hne
  refine ⟨s0, live0, b, fl, vbp, g1, g2, ?_, ?_, g5, g6, g7, g8, g9, g10, g13⟩
  · rw [g3]; exact hlen
  · rw [g4]; exact hG'

/-- A state in which `_S_block_size` is `0` and a `deallocate` reclaims a chunk is
reachable: after the refill that registers the 27th chunk, the pointer just returned is
the only one of that chunk. -/
theorem reclaim_at_zero {S : Nat} (hS : 0 < S) :
    ∃ s live p s1, Reach S s live ∧ p ∈ live ∧ s._S_block_size = 0 ∧
      s._S_mem_blocks.elems.length = 27 ∧
      _M_deallocate_single_object S true s p = Outcome.ok s1 ∧
      s1._S_mem_blocks.elems.length = 26 ∧ s1._S_block_size = 0 := by
  obtain ⟨s0, live0, b, fl, vbp, hr, hfl, hlen, hG, _, henv, hb, _, hget, hpush, ha⟩ :=
    reach_full hS 26 (le_refl _)
  have hI0 := hr.inv hS
  have hr1 := Reach.alloc hr henv ha
  have hI1 := hr1.inv hS
  have hG0 : s0._S_block_size = 32 * 2 ^ s0._S_mem_blocks.elems.length := by
    rw [hlen]; exact hG
  obtain ⟨e1, e2, e3, e4, e5, e6, e7, e8⟩ := refill_effects hS hI0.wf hG0 (by omega) hb
    (henv b fl hget).2 fl vbp
    (request_at S (refill_pair S s0._S_block_size b) s0._S_mem_blocks.elems.length)
  have hvl : vbp.elems.length = 27 := by
    rw [push_back_elems hpush, List.length_append, hlen]; rfl
  have hmem : refill_pair S s0._S_block_size b ∈ vbp.elems := by
    rw [push_back_elems hpush]; simp
  have huse : use_count S
      (claim_state S
        (refill_state s0 b fl vbp
          (request_at S (refill_pair S s0._S_block_size b) s0._S_mem_blocks.elems.length))
        (refill_pair S s0._S_block_size b) 0 0
        (request_at S (refill_pair S s0._S_block_size b)
          s0._S_mem_blocks.elems.length)).mem (refill_pair S s0._S_block_size b) = 1 := by
    rw [claim_use hS _ e1 (by rw [e3]; exact Nat.two_pow_pos _), e5]
    rfl
  have hsG : (s0._S_block_size * 2) % 2 ^ 32 = 0 := by rw [hG]; decide
  obtain ⟨bp1, d, i, hi, hd, hpd, _, _, _, _, hcase⟩ :=
    deallocate_cases hS hI1 (List.mem_cons_self _ _) true
  have hbp1 : bp1 ∈ vbp.elems := List.mem_iff_getElem?.2 ⟨_, hi⟩
  have hnb : 0 < __num_blocks S (refill_pair S s0._S_block_size b) := by
    rw [e2, hG]; exact Nat.mul_pos (by omega) (Nat.two_pow_pos _)
  obtain ⟨m, w1, w2, w3, w4, w5, w6, w7, w8⟩ := wf_facts hS (hI1.wf bp1 hbp1)
  have hin : bp1.1 ≤ slot_addr S (refill_pair S s0._S_block_size b) 0 ∧
      slot_addr S (refill_pair S s0._S_block_size b) 0 ≤ bp1.2 := by
    rw [hpd, w7]
    unfold slot_addr
    have : d * S ≤ (32 * m - 1) * S := Nat.mul_le_mul_right S (by omega)
    omega
  have hsame := slot_chunk_unique hS hI1.wf hI1.disj hmem hbp1 hnb hin
  obtain ⟨hil, _⟩ := List.getElem?_eq_some.1 hi
  rcases hcase with ⟨hne, _⟩ | ⟨_, ⟨g1, _⟩ | ⟨r, c, ldi, _, g, _⟩⟩
  · rw [← hsame] at hne
    exact absurd huse hne
  · obtain ⟨w, hw⟩ := validate_grow
      (release_state S
        (claim_state S
          (refill_state s0 b fl vbp
            (request_at S (refill_pair S s0._S_block_size b) s0._S_mem_blocks.elems.length))
          (refill_pair S s0._S_block_size b) 0 0
          (request_at S (refill_pair S s0._S_block_size b)
            s0._S_mem_blocks.elems.length)) bp1 d).mem fl (use_count_addr S bp1 - word_size)
    have g1' : _M_validate _ fl (use_count_addr S bp1 - word_size) true = none := g1
    rw [hw] at g1'
    exact Option.noConfusion g1'
  · refine ⟨_, _, _, _, hr1, List.mem_cons_self _ _, hsG, hvl, g, ?_, ?_⟩
    · show (vbp.erase i).elems.length = 26
      rw [erase_length vbp hil, hvl]
    · show (s0._S_block_size * 2) % 2 ^ 32 / 2 = 0
      rw [hsG]

/-! ### Halving of the growth generation -/

/-- C25, amended: for every state, hence for every value `G` of `_S_block_size`, when a
completed `_M_deallocate_single_object` reclaims a chunk (the registry has one entry
less afterwards), the new `_S_block_size` is `G / 2`, rounded down.  There is no floor
at 1: the value is `max 1 (G / 2)` when `G ≥ 2`, and it is `0` when `G` is `1` or
`0`. -/
theorem C25_reclaim_halves_growth (S : Nat) (grow : Bool) (s s1 : State) (p : Nat)
    (hd : _M_deallocate_single_object S grow s p = Outcome.ok s1)
    (hre : s1._S_mem_blocks.elems.length < s._S_mem_blocks.elems.length) :
    s1._S_mem_blocks.elems.length + 1 = s._S_mem_blocks.elems.length ∧
    s1._S_block_size = s._S_block_size / 2 ∧
    (2 ≤ s._S_block_size → s1._S_block_size = max 1 (s._S_block_size / 2)) ∧
    (s._S_block_size < 2 → s1._S_block_size = 0) := by
  rcases dealloc_growth hd with ⟨g1, g2⟩ | ⟨g1, _⟩
  · refine ⟨g1, g2, ?_, ?_⟩
    · intro h2
      rw [g2]
      have : 1 ≤ s._S_block_size / 2 := by omega
      omega
    · intro h2
      rw [g2]
      omega
  · rw [g1] at hre
    omega

/-- The instance of C25 (amended) at the run `one_alloc` and its pointer 1008: the only
chunk is reclaimed and `_S_block_size` goes from 64 to 32. -/
theorem C25_reclaim_halves_growth_witness :
    (one_alloc.1._S_block_size = 64 ∧ one_alloc_undone._S_block_size = 32 ∧
      one_alloc.1._S_mem_blocks.elems.length = 1 ∧
      one_alloc_undone._S_mem_blocks.elems.length = 0) ∧
    one_alloc_undone._S_mem_blocks.elems.length + 1 = one_alloc.1._S_mem_blocks.elems.length ∧
    one_alloc_undone._S_block_size = one_alloc.1._S_block_size / 2 ∧
    (2 ≤ one_alloc.1._S_block_size →
      one_alloc_undone._S_block_size = max 1 (one_alloc.1._S_block_size / 2)) ∧
    (one_alloc.1._S_block_size < 2 → one_alloc_undone._S_block_size = 0) :=
  ⟨by decide,
    C25_reclaim_halves_growth 8 true one_alloc.1 one_alloc_undone 1008
      (Outcome.eq_ok (State.fresh zero_mem) (by decide)) (by decide)⟩

/-- C25 as stated fails: in the state `low_growth`, where `_S_block_size` is `1`, the
`deallocate` of 1008 reclaims the only chunk and leaves `_S_block_size` at `0`, not at
`max 1 (1 / 2) = 1`.  And a state with `_S_block_size = 0` in which a `deallocate`
reclaims a chunk is reachable from a fresh allocator (after the 27th chunk is
registered); `_S_block_size` stays `0` there, below 1. -/
theorem C25_counterexample_no_floor :
    (low_growth._S_block_size = 1 ∧ low_growth._S_mem_blocks.elems = [(1008, 1256)] ∧
      (_M_deallocate_single_object 8 true low_growth 1008).completed = true ∧
      low_growth_undone._S_mem_blocks.elems = [] ∧
      low_growth_undone._S_block_size = 0 ∧
      low_growth_undone._S_block_size ≠ max 1 (low_growth._S_block_size / 2)) ∧
    ∃ s live p s1, Reach 8 s live ∧ p ∈ live ∧ s._S_block_size = 0 ∧
      _M_deallocate_single_object 8 true s p = Outcome.ok s1 ∧
      s1._S_mem_blocks.elems.length + 1 = s._S_mem_blocks.elems.length ∧
      s1._S_block_size = 0 ∧ s1._S_block_size ≠ max 1 (s._S_block_size / 2) := by
  refine ⟨by decide, ?_⟩
  obtain ⟨s, live, p, s1, h1, h2, h3, h4, h5, h6, h7⟩ := reclaim_at_zero (S := 8) (by decide)
  refine ⟨s, live, p, s1, h1, h2, h3, h5, by omega, h7, ?_⟩
  rw [h7, h3]
  decide

/-! ### The cursor and the hint after a reclamation -/

/-- The call reaches the reclamation branch when the use-count of the chunk of `p` is
1. -/
theorem dealloc_reclaims {S : Nat} (hS : 0 < S) {s s1 : State} {live : List Nat}
    (hI : Inv S s live) {p : Nat} (hp : p ∈ live) {f : Nat} {bp : Block_pair}
    (hf : s._S_mem_blocks.elems[f]? = some bp) (hin : _Inclusive_between p bp = true)
    (huse : use_count S s.mem bp = 1) {grow : Bool}
    (hd : _M_deallocate_single_object S grow s p = Outcome.ok s1) :
    ∃ d, d < __num_blocks S bp ∧ p = slot_addr S bp d ∧
      reclaim_chunk S grow (release_state S { s with _S_last_dealloc_index := f } bp d) f bp
        = Outcome.ok s1 := by
  obtain ⟨bp1, d, i, hi, hd1, hpd, hbit, hres⟩ := deallocate_locate hS hI hp grow
  have hbp : bp ∈ s._S_mem_blocks.elems := List.mem_iff_getElem?.2 ⟨_, hf⟩
  have hbp1 : bp1 ∈ s._S_mem_blocks.elems := List.mem_iff_getElem?.2 ⟨_, hi⟩
  have hin' := (inclusive_iff p bp).1 hin
  rw [hpd] at hin'
  have e := slot_chunk_unique hS hI.wf hI.disj hbp1 hbp hd1 hin'
  subst e
  have e2 := registry_index_unique hS hI.wf hI.disj hi hf
  subst e2
  obtain ⟨hil, _⟩ := List.getElem?_eq_some.1 hi
  have hI1 : Inv S { s with _S_last_dealloc_index := i } live := hI.set_hint hil
  obtain ⟨_, hdec, _⟩ := hI1.release hS hbp hd1 hbit
  have hdec' : use_count S (release_state S { s with _S_last_dealloc_index := i } bp1 d).mem bp1
      + 1 = use_count S s.mem bp1 := hdec
  have h0 : use_count S (release_state S { s with _S_last_dealloc_index := i } bp1 d).mem bp1
      = 0 := by omega
  rw [hres, deallocate_at_eq hS (s := { s with _S_last_dealloc_index := i }) hi
    (hI.wf bp1 hbp) hd1 grow, if_pos h0] at hd
  exact ⟨d, hd1, hpd, hd⟩

/-- The cursor that the reclamation branch leaves: reset to the chunk before the
reclaimed one, or to the finished cursor, when `_M_where()` is at least the index of the
reclaimed chunk, and the old cursor otherwise. -/
theorem reclaim_cursor {S : Nat} (hS : 0 < S) {s s1 : State}
    (hwf : ∀ bp ∈ s._S_mem_blocks.elems, WfChunk S bp)
    (hlen : s._S_mem_blocks.elems.length ≤ 27) {diff : Nat} {bp : Block_pair}
    (hi : s._S_mem_blocks.elems[diff]? = some bp) {grow : Bool}
    (h : reclaim_chunk S grow s diff bp = Outcome.ok s1) :
    (diff ≤ s._S_last_request._M_where → diff = 0 →
      s1._S_last_request = { s._S_last_request with
        _M_curr_bmap := 0, _M_curr_index := to_size_t (-1) }) ∧
    (diff ≤ s._S_last_request._M_where → 1 ≤ diff →
      ∃ bq, s._S_mem_blocks.elems[diff - 1]? = some bq ∧
        s1._S_mem_blocks.elems[diff - 1]? = some bq ∧
        s1._S_last_request = request_at S bq (diff - 1)) ∧
    (s._S_last_request._M_where < diff → s1._S_last_request = s._S_last_request) := by
  obtain ⟨hil, _⟩ := List.getElem?_eq_some.1 hi
  obtain ⟨g1, _, _, g4, _⟩ := reclaim_chunk_fields h
  refine ⟨?_, ?_, ?_⟩
  · intro hw hd0
    have hw' : (s._S_last_request._M_where : Int) ≥ (diff : Int) := by omega
    have : (diff : Int) - 1 = -1 := by omega
    have e1 : s._S_last_request._M_reset S (s._S_mem_blocks.erase diff).elems
        (to_int ((diff : Int) - 1))
        = some { s._S_last_request with
            _M_curr_bmap := 0, _M_curr_index := to_size_t (-1) } := by
      rw [this, to_int_neg_one, reset_finished]
    rw [if_pos hw', e1] at g4
    exact (Option.some.inj g4).symm
  · intro hw hd1
    have hw' : (s._S_last_request._M_where : Int) ≥ (diff : Int) := by omega
    have : (diff : Int) - 1 = ((diff - 1 : Nat) : Int) := by omega
    obtain ⟨bq, hbq⟩ : ∃ bq, s._S_mem_blocks.elems[diff - 1]? = some bq :=
      ⟨_, List.getElem?_eq_getElem (by omega)⟩
    have hj : (s._S_mem_blocks.erase diff).elems[diff - 1]? = some bq := by
      rw [erase_getElem_lt _ hil (by omega)]
      exact hbq
    have hwf1 := hwf bq (List.mem_iff_getElem?.2 ⟨_, hbq⟩)
    have e1 : s._S_last_request._M_reset S (s._S_mem_blocks.erase diff).elems
        (to_int ((diff : Int) - 1)) = some (request_at S bq (diff - 1)) := by
      rw [this, reset_valid hS hj hwf1 (by omega)]
      rfl
    rw [if_pos hw', e1] at g4
    refine ⟨bq, hbq, ?_, (Option.some.inj g4).symm⟩
    rw [g1]; exact hj
  · intro hw
    have hw' : ¬ (s._S_last_request._M_where : Int) ≥ (diff : Int) := by omega
    rw [if_neg hw'] at g4
    exact (Option.some.inj g4).symm

/-- C24: in every reachable state, for every `deallocate(p, 1)` of an allocated pointer
whose chunk, at registry index `f`, has use-count 1 (so that the call reclaims it): the
chunk is erased from the registry; if the cursor's chunk index, as `_M_where()` returns
it, is at least `f`, the cursor is reset to the chunk at `f - 1` of the registry (word 0
of that chunk), and to the finished cursor when `f = 0`; otherwise the cursor is as it
was; and afterwards `_S_last_dealloc_index` is an index of the shrunken registry when
that is not empty, and `0` when it is empty.  For a cursor that is not finished
`_M_where()` is the stored chunk index.  The call completes when the storage of the
cache can grow. -/
theorem C24_reclaim_resets_cursor {S : Nat} (hS : 0 < S) {s : State} {live : List Nat}
    (h : Reach S s live) (p f : Nat) (bp : Block_pair) (hp : p ∈ live)
    (hf : s._S_mem_blocks.elems[f]? = some bp) (hin : _Inclusive_between p bp = true)
    (huse : use_count S s.mem bp = 1) (grow : Bool) :
    (grow = true → ∃ s1, _M_deallocate_single_object S grow s p = Outcome.ok s1) ∧
    (s._S_last_request._M_finished = false →
      s._S_last_request._M_where = s._S_last_request._M_curr_index) ∧
    ∀ s1, _M_deallocate_single_object S grow s p = Outcome.ok s1 →
      s1._S_mem_blocks.elems = s._S_mem_blocks.elems.eraseIdx f ∧
      (f ≤ s._S_last_request._M_where → f = 0 →
        s1._S_last_request._M_finished = true ∧
        s1._S_last_request = { s._S_last_request with
          _M_curr_bmap := 0, _M_curr_index := to_size_t (-1) }) ∧
      (f ≤ s._S_last_request._M_where → 1 ≤ f →
        ∃ bq, s._S_mem_blocks.elems[f - 1]? = some bq ∧
          s1._S_mem_blocks.elems[f - 1]? = some bq ∧
          s1._S_last_request = request_at S bq (f - 1) ∧
          s1._S_last_request._M_finished = false) ∧
      (s._S_last_request._M_where < f → s1._S_last_request = s._S_last_request) ∧
      (s1._S_mem_blocks.elems ≠ [] →
        s1._S_last_dealloc_index < s1._S_mem_blocks.elems.length) ∧
      (s1._S_mem_blocks.elems = [] → s1._S_last_dealloc_index = 0) := by
  have hI := h.inv hS
  obtain ⟨hfl, _⟩ := List.getElem?_eq_some.1 hf
  refine ⟨?_, ?_, ?_⟩
  · intro hg
    subst hg
    obtain ⟨bp1, d, i, _, _, _, _, _, _, _, hcase⟩ := deallocate_cases hS hI hp true
    rcases hcase with ⟨_, g⟩ | ⟨_, ⟨g1, _⟩ | ⟨r, c, ldi, _, g, _⟩⟩
    · exact ⟨_, g⟩
    · obtain ⟨w, hw⟩ := validate_grow (release_state S s bp1 d).mem s._S_free_list
        (use_count_addr S bp1 - word_size)
      have g1' : _M_validate (release_state S s bp1 d).mem s._S_free_list
          (use_count_addr S bp1 - word_size) true = none := g1
      rw [hw] at g1'
      exact Option.noConfusion g1'
    · exact ⟨_, g⟩
  · intro hnf
    rcases hI.request with h0 | ⟨bq, k, hi, _⟩
    · simp [_Bitmap_counter._M_finished, h0] at hnf
    · obtain ⟨hil, _⟩ := List.getElem?_eq_some.1 hi
      have hlen := hI.length_le
      unfold _Bitmap_counter._M_where
      exact Nat.mod_eq_of_lt (by omega)
  · intro s1 hd
    obtain ⟨d, _, _, hrc⟩ := dealloc_reclaims hS hI hp hf hin huse hd
    obtain ⟨g1, _⟩ := reclaim_chunk_fields hrc
    obtain ⟨c1, c2, c3⟩ := reclaim_cursor hS
      (s := release_state S { s with _S_last_dealloc_index := f } bp d) hI.wf hI.length_le
      hf hrc
    have hI1 := (Reach.dealloc h hp hd).inv hS
    refine ⟨?_, ?_, ?_, c3, ?_, ?_⟩
    · rw [g1]
      exact erase_elems s._S_mem_blocks f hfl
    · intro hw h0
      have e := c1 hw h0
      refine ⟨?_, e⟩
      rw [e]; rfl
    · intro hw h1
      obtain ⟨bq, q1, q2, q3⟩ := c2 hw h1
      refine ⟨bq, q1, q2, q3, ?_⟩
      obtain ⟨n, w1, w2, w3, w4, w5, w6, w7, w8⟩ :=
        wf_facts hS (hI.wf bq (List.mem_iff_getElem?.2 ⟨_, q1⟩))
      rw [q3]
      show (bitmap_addr bq 0 == 0) = false
      have : bitmap_addr bq 0 ≠ 0 := by unfold bitmap_addr word_size; omega
      simpa using this
    · intro hne
      rcases hI1.hint with hh | ⟨hh, _⟩
      · exact hh
      · exact absurd (List.length_eq_zero.1 hh) hne
    · intro he
      rcases hI1.hint with hh | ⟨_, hh⟩
      · rw [he] at hh; exact absurd hh (Nat.not_lt_zero _)
      · exact hh

set_option maxRecDepth 100000 in
/-- The instance of C24 at the run `spilled` and its last pointer 5012, the only one of
the chunk at index 1: the cursor, on chunk 1, is reset to word 0 of chunk 0 (the word at
1004), and `_S_last_dealloc_index` is 0. -/
theorem C24_reclaim_resets_cursor_witness :
    (spilled.1._S_mem_blocks.elems = [(1008, 1256), (5012, 5516)] ∧
      spilled.1._S_last_request._M_where = 1 ∧
      spilled_undone._S_mem_blocks.elems = [(1008, 1256)] ∧
      spilled_undone._S_last_request._M_curr_index = 0 ∧
      spilled_undone._S_last_request._M_curr_bmap = 1004 ∧
      spilled_undone._S_last_request._M_last_bmap_in_block = 1004 ∧
      spilled_undone._S_last_dealloc_index = 0) ∧
    (true = true → ∃ s1, _M_deallocate_single_object 8 true spilled.1 5012 = Outcome.ok s1) ∧
    (spilled.1._S_last_request._M_finished = false →
      spilled.1._S_last_request._M_where = spilled.1._S_last_request._M_curr_index) ∧
    ∀ s1, _M_deallocate_single_object 8 true spilled.1 5012 = Outcome.ok s1 →
      s1._S_mem_blocks.elems = spilled.1._S_mem_blocks.elems.eraseIdx 1 ∧
      (1 ≤ spilled.1._S_last_request._M_where → 1 = 0 →
        s1._S_last_request._M_finished = true ∧
        s1._S_last_request = { spilled.1._S_last_request with
          _M_curr_bmap := 0, _M_curr_index := to_size_t (-1) }) ∧
      (1 ≤ spilled.1._S_last_request._M_where → 1 ≤ 1 →
        ∃ bq, spilled.1._S_mem_blocks.elems[1 - 1]? = some bq ∧
          s1._S_mem_blocks.elems[1 - 1]? = some bq ∧
          s1._S_last_request = request_at 8 bq (1 - 1) ∧
          s1._S_last_request._M_finished = false) ∧
      (spilled.1._S_last_request._M_where < 1 →
        s1._S_last_request = spilled.1._S_last_request) ∧
      (s1._S_mem_blocks.elems ≠ [] →
        s1._S_last_dealloc_index < s1._S_mem_blocks.elems.length) ∧
      (s1._S_mem_blocks.elems = [] → s1._S_last_dealloc_index = 0) :=
  ⟨by decide,
    C24_reclaim_resets_cursor (by decide)
      (run_calls_reach 8 zero_mem ((chunk_envs ++ [env_at 5000]).map Call.allocate))
      5012 1 (5012, 5516) (by decide) (by decide) (by decide) (by decide) true⟩

/-! ### The growth generation and the size of the registry -/

theorem reach_of_below {S n : Nat} {s : State} {live : List Nat}
    (h : ReachBelow S n s live) : Reach S s live := by
  induction h with
  | fresh m => exact Reach.fresh m
  | alloc _ henv ha _ ih => exact Reach.alloc ih henv ha
  | alloc_failed _ henv ha _ ih => exact Reach.alloc_failed ih henv ha
  | dealloc _ hp hd _ ih => exact Reach.dealloc ih hp hd

/-- The registry and `_S_block_size` after a completed or failed `allocate(1)`: both as
they were, or one chunk more and `_S_block_size` doubled modulo `2 ^ 32`. -/
theorem alloc_growth {S : Nat} (hS : 0 < S) {s : State} {live : List Nat}
    (hI : Inv S s live) {env : Env} (henv : EnvOK S s env) :
    (∀ s1 p, _M_allocate_single_object S env s = Outcome.ok (s1, p) →
      (s1._S_mem_blocks = s._S_mem_blocks ∧ s1._S_block_size = s._S_block_size) ∨
      (s1._S_mem_blocks.elems.length = s._S_mem_blocks.elems.length + 1 ∧
        s1._S_block_size = (s._S_block_size * 2) % 2 ^ 32)) ∧
    (∀ s1, _M_allocate_single_object S env s = Outcome.bad_alloc s1 →
      s1._S_mem_blocks = s._S_mem_blocks ∧ s1._S_block_size = s._S_block_size) := by
  rcases allocate_cases hS hI henv with
    ⟨bp, k, b, c, _, _, _, _, _, _, h7⟩ | ⟨_, c1, _, hcase⟩
  · constructor
    · intro s1 p ha
      rw [h7] at ha
      injection ha with ha
      injection ha with hs _
      rw [← hs]
      exact Or.inl ⟨rfl, rfl⟩
    · intro s1 ha
      rw [h7] at ha
      exact Outcome.noConfusion ha
  · rcases hcase with ⟨_, h7⟩ | ⟨_, _, _, _, h7⟩ | ⟨_, _, _, _, _, _, h7⟩ |
      ⟨b, fl, vbp, _, hpush, _, _, _, h7⟩
    · constructor
      · intro s1 p ha
        rw [h7] at ha; exact Outcome.noConfusion ha
      · intro s1 ha
        rw [h7] at ha
        injection ha with ha
        rw [← ha]
        exact ⟨rfl, rfl⟩
    · constructor
      · intro s1 p ha
        rw [h7] at ha; exact Outcome.noConfusion ha
      · intro s1 ha
        rw [h7] at ha
        injection ha with ha
        rw [← ha]
        exact ⟨rfl, rfl⟩
    · constructor
      · intro s1 p ha
        rw [h7] at ha; exact Outcome.noConfusion ha
      · intro s1 ha
        rw [h7] at ha; exact Outcome.noConfusion ha
    · constructor
      · intro s1 p ha
        rw [h7] at ha
        injection ha with ha
        injection ha with hs _
        rw [← hs]
        right
        refine ⟨?_, rfl⟩
        show vbp.elems.length = _
        rw [push_back_elems hpush, List.length_append]
        rfl
      · intro s1 ha
        rw [h7] at ha; exact Outcome.noConfusion ha

theorem growth_double {k : Nat} (hk : k + 1 < 27) :
    (32 * 2 ^ k * 2) % 2 ^ 32 = 32 * 2 ^ (k + 1) := by
  have hp : 2 ^ (k + 1) ≤ 2 ^ 26 := Nat.pow_le_pow_right (by omega) (by omega)
  have e : 32 * 2 ^ (k + 1) = 32 * 2 ^ k * 2 := by rw [Nat.pow_succ, Nat.mul_assoc]
  rw [← e]
  apply Nat.mod_eq_of_lt
  omega

theorem growth_halve {k j : Nat} (h : j + 1 = k) : 32 * 2 ^ k / 2 = 32 * 2 ^ j := by
  subst h
  have e : 32 * 2 ^ (j + 1) = 32 * 2 ^ j * 2 := by rw [Nat.pow_succ, Nat.mul_assoc]
  rw [e, Nat.mul_div_cancel _ (by omega : 0 < 2)]

/-- In the runs that keep the registry below 27 chunks `_S_block_size` is
`32 * 2 ^ (number of registered chunks)`. -/
theorem growth_below {S : Nat} (hS : 0 < S) {s : State} {live : List Nat}
    (h : ReachBelow S 27 s live) :
    s._S_block_size = 32 * 2 ^ s._S_mem_blocks.elems.length := by
  induction h with
  | fresh m => rfl
  | @alloc s s1 live env p hr henv ha hlt ih =>
    rcases (alloc_growth hS ((reach_of_below hr).inv hS) henv).1 s1 p ha with ⟨g1, g2⟩ | ⟨g1, g2⟩
    · rw [g1, g2]; exact ih
    · rw [g1, g2, ih]
      exact growth_double (by omega)
  | @alloc_failed s s1 live env hr henv ha hlt ih =>
    obtain ⟨g1, g2⟩ := (alloc_growth hS ((reach_of_below hr).inv hS) henv).2 s1 ha
    rw [g1, g2]; exact ih
  | @dealloc s s1 live grow p hr hp hd hlt ih =>
    rcases dealloc_growth hd with ⟨g1, g2⟩ | ⟨g1, g2⟩
    · rw [g2, ih]
      exact growth_halve g1
    · rw [g1, g2]; exact ih

/-- C26: in every state reachable from a fresh allocator by `allocate(1)` calls and
`deallocate(p, 1)` calls on allocated pointers, with fewer than 27 registered chunks
after every call, `_S_block_size` is `32 * 2 ^ n` for the number `n` of registered
chunks; so it is at least `bits_per_block = 32`, the number `_S_block_size / 32` of
bitmap words of the chunk that a refill creates is at least 1, and the pair that
`_S_refill_pool` would build has `2 ^ n` bitmap words. -/
theorem C26_growth_tracks_registry {S : Nat} (hS : 0 < S) {s : State} {live : List Nat}
    (h : ReachBelow S 27 s live) :
    Reach S s live ∧
    s._S_block_size = bits_per_block * 2 ^ s._S_mem_blocks.size ∧
    bits_per_block ≤ s._S_block_size ∧
    1 ≤ s._S_block_size / bits_per_block ∧
    ∀ b, __num_bitmaps S (refill_pair S s._S_block_size b) = 2 ^ s._S_mem_blocks.size ∧
      1 ≤ __num_bitmaps S (refill_pair S s._S_block_size b) := by
  have hG := growth_below hS h
  have hlen := ((reach_of_below h).inv hS).length_le
  have hl26 : s._S_mem_blocks.elems.length ≤ 26 := by
    rcases ((reach_of_below h).inv hS).growth with ⟨h0, _⟩ | ⟨_, hl⟩
    · rw [hG] at h0
      have : 0 < 2 ^ s._S_mem_blocks.elems.length := Nat.two_pow_pos _
      omega
    · exact hl
  have hpos : 1 ≤ 2 ^ s._S_mem_blocks.elems.length := Nat.one_le_two_pow
  have hp : 2 ^ s._S_mem_blocks.elems.length ≤ 2 ^ 26 :=
    Nat.pow_le_pow_right (by omega) hl26
  have hdiv : s._S_block_size / bits_per_block = 2 ^ s._S_mem_blocks.elems.length := by
    rw [hG]
    exact Nat.mul_div_cancel_left _ (by decide : 0 < bits_per_block)
  refine ⟨reach_of_below h, hG, ?_, ?_, ?_⟩
  · rw [hG]
    show 32 ≤ 32 * 2 ^ s._S_mem_blocks.elems.length
    omega
  · rw [hdiv]; exact hpos
  · intro b
    have hb : __num_bitmaps S (refill_pair S s._S_block_size b)
        = 2 ^ s._S_mem_blocks.elems.length := by
      unfold __num_bitmaps
      rw [hG, refill_pair_blocks hS hpos hp b]
      exact Nat.mul_div_cancel_left _ (by decide : 0 < bits_per_block)
    exact ⟨hb, by rw [hb]; exact hpos⟩

/-- The instance of C26 after the first `allocate(1)` on a fresh allocator: one chunk is
registered and `_S_block_size` is 64. -/
theorem C26_growth_tracks_registry_witness :
    (first_alloc.1._S_mem_blocks.size = 1 ∧ first_alloc.1._S_block_size = 64) ∧
    Reach 8 first_alloc.1 [first_alloc.2] ∧
    first_alloc.1._S_block_size = bits_per_block * 2 ^ first_alloc.1._S_mem_blocks.size ∧
    bits_per_block ≤ first_alloc.1._S_block_size ∧
    1 ≤ first_alloc.1._S_block_size / bits_per_block ∧
    ∀ b, __num_bitmaps 8 (refill_pair 8 first_alloc.1._S_block_size b)
        = 2 ^ first_alloc.1._S_mem_blocks.size ∧
      1 ≤ __num_bitmaps 8 (refill_pair 8 first_alloc.1._S_block_size b) :=
  ⟨by decide,
    C26_growth_tracks_registry (by decide)
      (ReachBelow.alloc (ReachBelow.fresh zero_mem)
        (env_ok_sound (by decide : env_ok 8 (State.fresh zero_mem) (env_at 1000) = true))
        (Outcome.eq_ok (State.fresh zero_mem, 0) (by decide)) (by decide))⟩

/-! ### The size requested by a refill -/

/-- The size that `_S_refill_pool` requests is the sum of the sizes of the use-count
word, of the slots and of the bitmap words when that sum is below `2 ^ 32`. -/
theorem refill_size_exact (S : Nat) (s : State)
    (h : word_size + s._S_block_size * S + s._S_block_size / bits_per_block * word_size
      < 2 ^ 32) :
    refill_size S s
      = word_size + s._S_block_size * S + s._S_block_size / bits_per_block * word_size := by
  unfold refill_size
  exact Nat.mod_eq_of_lt h

/-- C23 fails on the code at `_S_block_size = 2 ^ 29` and slots of 8 bytes: the state
`after_refills 24` has this `_S_block_size`; `_S_refill_pool` requests 67108868 bytes
there, while `sizeof(word) + G * S + (G / W) * sizeof(word)` is 4362076164; the call
completes and appends the pair of a chunk of `2 ^ 29` slots that ends 4362076164 bytes
after the start of the block.  Such a state is reachable by `allocate(1)` calls from a
fresh allocator: 24 full chunks, and the next `allocate(1)` refills with this request. -/
theorem C23_refill_size_wraps :
    (RefillRun 8 24 (after_refills 24) ∧ (after_refills 24)._S_block_size = 2 ^ 29 ∧
      refill_size 8 (after_refills 24) = 67108868 ∧
      word_size + 2 ^ 29 * 8 + 2 ^ 29 / bits_per_block * word_size = 4362076164 ∧
      (_S_refill_pool 8 (env_at (2 ^ 40 * 25)) (after_refills 24)).completed = true ∧
      ((_S_refill_pool 8 (env_at (2 ^ 40 * 25)) (after_refills 24)).result
          (State.fresh zero_mem))._S_mem_blocks.elems.getLast?
        = some (refill_pair 8 (2 ^ 29) (2 ^ 40 * 25)) ∧
      __num_blocks 8 (refill_pair 8 (2 ^ 29) (2 ^ 40 * 25)) = 2 ^ 29 ∧
      chunk_end 8 (refill_pair 8 (2 ^ 29) (2 ^ 40 * 25)) = 2 ^ 40 * 25 + 4362076164) ∧
    ∃ s0 live0 env b fl s1 p, Reach 8 s0 live0 ∧ EnvOK 8 s0 env ∧
      s0._S_mem_blocks.elems.length = 24 ∧ s0._S_block_size = 2 ^ 29 ∧
      _M_get s0.mem s0._S_free_list (refill_size 8 s0) env.raw = some (b, fl) ∧
      refill_size 8 s0 = 67108868 ∧
      _M_allocate_single_object 8 env s0 = Outcome.ok (s1, p) ∧
      s1._S_mem_blocks.elems = s0._S_mem_blocks.elems ++ [refill_pair 8 (2 ^ 29) b] ∧
      __num_blocks 8 (refill_pair 8 (2 ^ 29) b) = 2 ^ 29 := by
  have hr := after_refills_run 24 (by decide)
  obtain ⟨_, g2, _⟩ := hr.facts (by decide)
  have hG : (after_refills 24)._S_block_size = 2 ^ 29 := by rw [g2]; decide
  have hsz : ∀ s : State, s._S_block_size = 2 ^ 29 → refill_size 8 s = 67108868 := by
    intro s hs
    unfold refill_size
    rw [hs]
    decide
  refine ⟨⟨hr, hG, hsz _ hG, by decide, by decide, by decide, by decide, by decide⟩, ?_⟩
  obtain ⟨s0, live0, b, fl, vbp, h1, _, h3, h4, _, h6, _, _, h9, h10, h11⟩ :=
    reach_full (S := 8) (by decide) 24 (by decide)
  have hG0 : s0._S_block_size = 2 ^ 29 := by rw [h4]; decide
  refine ⟨s0, live0, _, b, fl, _, _, h1, h6, h3, hG0, h9, hsz s0 hG0, h11, ?_, ?_⟩
  · show vbp.elems = _
    rw [push_back_elems h10, hG0]
  · have := refill_pair_blocks (S := 8) (by decide) (n := 2 ^ 24) (by decide) (by decide) b
    have e : 32 * 2 ^ 24 = 2 ^ 29 := by decide
    rw [e] at this
    exact this

/-! ### The cursor on every run -/

/-- The fields that the end of `_M_allocate_single_object` leaves as they are. -/
theorem allocate_from_request_fields {S : Nat} {s s1 : State} {p : Nat}
    (h : allocate_from_request S s = Outcome.ok (s1, p)) :
    s1._S_mem_blocks = s._S_mem_blocks ∧ s1._S_block_size = s._S_block_size ∧
    s1._S_last_request = s._S_last_request ∧
    s1._S_last_dealloc_index = s._S_last_dealloc_index := by
  unfold allocate_from_request at h
  split at h
  · injection h with h
    injection h with h1 _
    rw [← h1]
    exact ⟨rfl, rfl, rfl, rfl⟩
  · exact Outcome.noConfusion h

/-- The fields after the branch "Search was successful". -/
theorem allocate_first_fit_fields {S : Nat} {s s1 : State} {bpi p : Nat}
    {fff : _Ffit_finder} (h : allocate_first_fit S s bpi fff = Outcome.ok (s1, p)) :
    s1._S_mem_blocks = s._S_mem_blocks ∧ s1._S_block_size = s._S_block_size ∧
    s1._S_last_dealloc_index = s._S_last_dealloc_index ∧
    (∃ bp, s._S_mem_blocks.elems[bpi]? = some bp) ∧
    s._S_last_request._M_reset S s._S_mem_blocks.elems (to_int (bpi : Int))
      = some s1._S_last_request := by
  unfold allocate_first_fit at h
  split at h
  · rename_i nz bp c h1 h2 h3
    injection h with h
    injection h with h1' _
    rw [← h1']
    exact ⟨rfl, rfl, rfl, ⟨bp, h2⟩, h3⟩
  · exact Outcome.noConfusion h

/-- The fields after `_S_refill_pool`. -/
theorem refill_pool_fields {S : Nat} {env : Env} {s : State} :
    (∀ s2, _S_refill_pool S env s = Outcome.ok s2 →
      ∃ b fl vbp, _M_get s.mem s._S_free_list (refill_size S s) env.raw = some (b, fl) ∧
        s._S_mem_blocks.push_back (refill_pair S s._S_block_size b) env.grow = some vbp ∧
        s2 = refill_state s b fl vbp s._S_last_request) ∧
    (∀ s2, _S_refill_pool S env s = Outcome.bad_alloc s2 →
      s2._S_mem_blocks = s._S_mem_blocks ∧ s2._S_block_size = s._S_block_size ∧
      s2._S_last_request = s._S_last_request ∧
      s2._S_last_dealloc_index = s._S_last_dealloc_index) := by
  cases hget : _M_get s.mem s._S_free_list (refill_size S s) env.raw with
  | none =>
    rw [refill_pool_no_block hget]
    constructor
    · intro s2 h; exact Outcome.noConfusion h
    · intro s2 h
      injection h with h
      rw [← h]
      exact ⟨rfl, rfl, rfl, rfl⟩
  | some r =>
    obtain ⟨b, fl⟩ := r
    cases hpush : s._S_mem_blocks.push_back (refill_pair S s._S_block_size b) env.grow with
    | none =>
      rw [refill_pool_no_storage hget hpush]
      constructor
      · intro s2 h; exact Outcome.noConfusion h
      · intro s2 h
        injection h with h
        rw [← h]
        exact ⟨rfl, rfl, rfl, rfl⟩
    | some vbp =>
      rw [refill_pool_ok hget hpush]
      constructor
      · intro s2 h
        injection h with h
        exact ⟨b, fl, vbp, rfl, hpush, h.symm⟩
      · intro s2 h; exact Outcome.noConfusion h

/-- The fields after the statements that follow a completed `_S_refill_pool`. -/
theorem allocate_in_new_chunk_fields {S : Nat} {s s1 : State} {p : Nat}
    (h : allocate_in_new_chunk S s = Outcome.ok (s1, p)) :
    s1._S_mem_blocks = s._S_mem_blocks ∧ s1._S_block_size = s._S_block_size ∧
    s1._S_last_dealloc_index = s._S_last_dealloc_index ∧
    s._S_last_request._M_reset S s._S_mem_blocks.elems
      (to_int ((s._S_mem_blocks.size : Int) - 1)) = some s1._S_last_request ∧
    _Bit_scan_forward (s.mem s1._S_last_request._M_curr_bmap) ≠ none := by
  unfold allocate_in_new_chunk at h
  cases hc : s._S_last_request._M_reset S s._S_mem_blocks.elems
      (to_int ((s._S_mem_blocks.size : Int) - 1)) with
  | none => rw [hc] at h; exact Outcome.noConfusion h
  | some c =>
    rw [hc] at h
    have h2 : allocate_from_request S { s with _S_last_request := c } = Outcome.ok (s1, p) := h
    obtain ⟨g1, g2, g3, g4⟩ := allocate_from_request_fields h2
    refine ⟨g1, g2, g4, ?_, ?_⟩
    · rw [g3]
    · rw [g3]
      intro hn
      rw [allocate_from_request_fault (s := { s with _S_last_request := c }) hn] at h2
      exact Outcome.noConfusion h2

theorem allocate_from_request_not_bad {S : Nat} {s s1 : State}
    (h : allocate_from_request S s = Outcome.bad_alloc s1) : False := by
  unfold allocate_from_request at h
  split at h
  · exact Outcome.noConfusion h
  · exact Outcome.noConfusion h

theorem allocate_first_fit_not_bad {S : Nat} {s s1 : State} {bpi : Nat} {fff : _Ffit_finder}
    (h : allocate_first_fit S s bpi fff = Outcome.bad_alloc s1) : False := by
  unfold allocate_first_fit at h
  split at h
  · exact Outcome.noConfusion h
  · exact Outcome.noConfusion h

theorem allocate_in_new_chunk_not_bad {S : Nat} {s s1 : State}
    (h : allocate_in_new_chunk S s = Outcome.bad_alloc s1) : False := by
  unfold allocate_in_new_chunk at h
  cases hc : s._S_last_request._M_reset S s._S_mem_blocks.elems
      (to_int ((s._S_mem_blocks.size : Int) - 1)) with
  | none => rw [hc] at h; exact Outcome.noConfusion h
  | some c =>
    rw [hc] at h
    exact allocate_from_request_not_bad (s := { s with _S_last_request := c }) h

theorem CursorInv.registry_le {S : Nat} {s : State} (hI : CursorInv S s) :
    s._S_mem_blocks.elems.length ≤ 27 := by
  rcases hI.growth with h | h <;> omega

/-- The loop at the start of `_M_allocate_single_object` ends, whatever the memory
holds, with the cursor finished or on a non-zero bitmap word of a registered chunk. -/
theorem advance_request_any {S : Nat} (hS : 0 < S) {s : State} (hI : CursorInv S s) :
    ∃ c1, advance_request S s.mem s._S_mem_blocks.elems
        (request_fuel S s._S_mem_blocks.elems) s._S_last_request = some c1 ∧
      RequestOK S s._S_mem_blocks.elems c1 ∧
      (c1._M_curr_bmap = 0 ∨ s.mem c1._M_curr_bmap ≠ 0) := by
  apply advance_request_spec hS s.mem hI.wf hI.registry_le _ _ hI.request
  rcases hI.request with h0 | ⟨bp, k, hi, hk, hcur, _⟩
  · exact Or.inl h0
  · right
    refine ⟨bp, k, hi, hcur, hk, ?_⟩
    unfold request_fuel
    have := sum_drop_le (s._S_mem_blocks.elems.map (__num_bitmaps S))
      s._S_last_request._M_curr_index
    rw [← List.map_drop] at this
    omega

/-- The state after a completed refill and the statements that follow it. -/
theorem refill_cursor_inv {S : Nat} (hS : 0 < S) {s : State} (hI : CursorInv S s)
    {b : Nat} (hb : 0 < b) {fl : __mini_vector Nat} {vbp : __mini_vector Block_pair}
    (hpush : vbp.elems = s._S_mem_blocks.elems ++ [refill_pair S s._S_block_size b])
    {s1 : State} {p : Nat}
    (h : allocate_in_new_chunk S (refill_state s b fl vbp s._S_last_request)
      = Outcome.ok (s1, p)) : CursorInv S s1 := by
  obtain ⟨g1, g2, g3, g4, g5⟩ := allocate_in_new_chunk_fields h
  have hlen1 : vbp.elems.length = s._S_mem_blocks.elems.length + 1 := by
    rw [hpush, List.length_append, List.length_singleton]
  have hlast : vbp.elems[vbp.elems.length - 1]?
      = some (refill_pair S s._S_block_size b) := by
    rw [hpush, List.length_append, List.length_singleton, Nat.add_sub_cancel,
      List.getElem?_append_right (le_refl _), Nat.sub_self]
    rfl
  have hlen27 := hI.registry_le
  have g4' : s._S_last_request._M_reset S vbp.elems
      (to_int (((vbp.elems.length - 1 : Nat) : Int))) = some s1._S_last_request := by
    have e := size_sub_one vbp (by omega)
    rw [← e]
    exact g4
  rcases hI.growth with ⟨hG, _⟩ | ⟨hG, hl26⟩
  · exfalso
    obtain ⟨c2, h1, h2⟩ := reset_at (S := S) hlast (by omega) s._S_last_request
    rw [h1] at g4'
    have e := Option.some.inj g4'
    apply g5
    rw [← e, h2]
    have hz : (refill_state s b fl vbp s._S_last_request).mem
        ((refill_pair S s._S_block_size b).1 - word_size) = 0 := by
      show fill_bitmaps (b + word_size) (2 ^ 32 - 1) (s._S_block_size / bits_per_block) 0
        (BitmapAlloc.store s.mem b 0) ((refill_pair S s._S_block_size b).1 - word_size) = 0
      rw [hG]
      show fill_bitmaps (b + word_size) (2 ^ 32 - 1) 0 0 (BitmapAlloc.store s.mem b 0)
        (b + word_size + word_size * 0 - word_size) = 0
      simp [fill_bitmaps, BitmapAlloc.store, word_size]
    rw [hz]
    exact bit_scan_zero
  · obtain ⟨hwf, _⟩ := refill_pair_facts (S := S) hS hG hl26 hb fl vbp s._S_last_request
    have hs1 : s1._S_mem_blocks.elems = vbp.elems := by rw [g1]; rfl
    rw [reset_valid hS hlast hwf (by omega)] at g4'
    have e := Option.some.inj g4'
    refine ⟨?_, ?_, ?_, ?_⟩
    · intro bp hbp
      rw [hs1, hpush] at hbp
      rcases List.mem_append.1 hbp with hm | hm
      · exact hI.wf bp hm
      · rw [List.mem_singleton.1 hm]; exact hwf
    · rw [hs1, ← e]
      exact requestOK_reset hS hlast hwf
    · left
      rw [hs1, hlen1, g3]
      show s._S_last_dealloc_index < _
      rcases hI.hint with hh | ⟨_, hh⟩
      · omega
      · omega
    · rw [hs1, hlen1, g2]
      show (s._S_block_size * 2 % 2 ^ 32 = 0 ∧ _) ∨ (s._S_block_size * 2 % 2 ^ 32 = _ ∧ _)
      by_cases h26 : s._S_mem_blocks.elems.length = 26
      · left
        refine ⟨?_, by omega⟩
        rw [hG, h26]
        decide
      · right
        refine ⟨?_, by omega⟩
        rw [hG]
        exact growth_double (by omega)

/-- The invariant `CursorInv` after `_M_allocate_single_object`, completed or failed, in
an environment whose block is not null. -/
theorem alloc_cursor_inv {S : Nat} (hS : 0 < S) {s : State} (hI : CursorInv S s)
    {env : Env} (henv : BlockOK S s env) :
    (∀ s1 p, _M_allocate_single_object S env s = Outcome.ok (s1, p) → CursorInv S s1) ∧
    (∀ s1, _M_allocate_single_object S env s = Outcome.bad_alloc s1 → CursorInv S s1) := by
  obtain ⟨c1, hadv, hc1, _⟩ := advance_request_any hS hI
  have hI1 : CursorInv S { s with _S_last_request := c1 } :=
    ⟨hI.wf, hc1, hI.hint, hI.growth⟩
  have hlen := hI.registry_le
  have hunf : _M_allocate_single_object S env s
      = allocate_after_loop S env { s with _S_last_request := c1 }
          (__find_if (_Ffit_finder.call S s.mem) s._S_mem_blocks.elems 0
            { _M_pbitmap := 0, _M_data_offset := 0 }) := by
    unfold _M_allocate_single_object
    rw [hadv]
  rw [hunf]
  unfold allocate_after_loop
  by_cases hfin : c1._M_finished = true
  · rw [if_pos hfin]
    by_cases hhit : (__find_if (_Ffit_finder.call S s.mem) s._S_mem_blocks.elems 0
        { _M_pbitmap := 0, _M_data_offset := 0 }).1 ≠ s._S_mem_blocks.elems.length
    · rw [if_pos hhit]
      constructor
      · intro s1 p h
        obtain ⟨g1, g2, g3, ⟨bp, hbp⟩, g5⟩ :=
          allocate_first_fit_fields (s := { s with _S_last_request := c1 }) h
        have hbp' : s._S_mem_blocks.elems[(__find_if (_Ffit_finder.call S s.mem)
            s._S_mem_blocks.elems 0 { _M_pbitmap := 0, _M_data_offset := 0 }).1]?
            = some bp := hbp
        obtain ⟨hil, _⟩ := List.getElem?_eq_some.1 hbp'
        have hwf := hI.wf bp (List.mem_iff_getElem?.2 ⟨_, hbp'⟩)
        have g5' : c1._M_reset S s._S_mem_blocks.elems
            (to_int (((__find_if (_Ffit_finder.call S s.mem) s._S_mem_blocks.elems 0
              { _M_pbitmap := 0, _M_data_offset := 0 }).1 : Nat) : Int))
            = some s1._S_last_request := g5
        rw [reset_valid hS hbp' hwf (by omega)] at g5'
        have e := Option.some.inj g5'
        have hs1 : s1._S_mem_blocks = s._S_mem_blocks := g1
        refine ⟨?_, ?_, ?_, ?_⟩
        · rw [hs1]; exact hI.wf
        · rw [hs1, ← e]; exact requestOK_reset hS hbp' hwf
        · rw [hs1, g3]; exact hI.hint
        · rw [hs1, g2]; exact hI.growth
      · intro s1 h
        exact (allocate_first_fit_not_bad h).elim
    · rw [if_neg hhit]
      unfold allocate_refill
      cases hr : _S_refill_pool S env { s with _S_last_request := c1 } with
      | fault =>
        constructor
        · intro s1 p h; exact Outcome.noConfusion h
        · intro s1 h; exact Outcome.noConfusion h
      | bad_alloc s2 =>
        obtain ⟨g1, g2, g3, g4⟩ :=
          (refill_pool_fields (s := { s with _S_last_request := c1 })).2 s2 hr
        constructor
        · intro s1 p h; exact Outcome.noConfusion h
        · intro s1 h
          injection h with h
          rw [← h]
          have hs2 : s2._S_mem_blocks = s._S_mem_blocks := g1
          refine ⟨?_, ?_, ?_, ?_⟩
          · rw [hs2]; exact hI.wf
          · rw [hs2, g3]; exact hc1
          · rw [hs2, g4]; exact hI.hint
          · rw [hs2, g2]; exact hI.growth
      | ok s2 =>
        obtain ⟨b, fl, vbp, hget, hpush, hs2⟩ :=
          (refill_pool_fields (s := { s with _S_last_request := c1 })).1 s2 hr
        constructor
        · intro s1 p h
          have h2 : allocate_in_new_chunk S s2 = Outcome.ok (s1, p) := h
          rw [hs2] at h2
          exact refill_cursor_inv hS hI1 (henv b fl hget) (push_back_elems hpush) h2
        · intro s1 h
          exact (allocate_in_new_chunk_not_bad h).elim
  · rw [if_neg hfin]
    constructor
    · intro s1 p h
      obtain ⟨g1, g2, g3, g4⟩ :=
        allocate_from_request_fields (s := { s with _S_last_request := c1 }) h
      have hs1 : s1._S_mem_blocks = s._S_mem_blocks := g1
      refine ⟨?_, ?_, ?_, ?_⟩
      · rw [hs1]; exact hI.wf
      · rw [hs1, g3]; exact hc1
      · rw [hs1, g4]; exact hI.hint
      · rw [hs1, g2]; exact hI.growth
    · intro s1 h
      exact (allocate_from_request_not_bad h).elim

/-- The invariant `CursorInv` after a completed reclamation branch for the chunk at the
index `diff`, which is `_S_last_dealloc_index`. -/
theorem reclaim_cursor_inv {S : Nat} (hS : 0 < S) {s s1 : State} (hI : CursorInv S s)
    {diff : Nat} {bp : Block_pair} (hi : s._S_mem_blocks.elems[diff]? = some bp)
    (hldi : s._S_last_dealloc_index = diff) {grow : Bool}
    (h : reclaim_chunk S grow s diff bp = Outcome.ok s1) : CursorInv S s1 := by
  obtain ⟨hil, _⟩ := List.getElem?_eq_some.1 hi
  have hlen := hI.registry_le
  have hel := erase_length s._S_mem_blocks hil
  obtain ⟨g1, g2, _, _, g5⟩ := reclaim_chunk_fields h
  obtain ⟨c1, c2, c3⟩ := reclaim_cursor hS hI.wf hlen hi h
  have hs1 : s1._S_mem_blocks.elems = (s._S_mem_blocks.erase diff).elems := by rw [g1]
  refine ⟨?_, ?_, ?_, ?_⟩
  · intro x hx
    rw [hs1, erase_elems _ _ hil] at hx
    exact hI.wf x (List.mem_of_mem_eraseIdx hx)
  · by_cases hw : diff ≤ s._S_last_request._M_where
    · by_cases hd0 : diff = 0
      · rw [c1 hw hd0]
        exact Or.inl rfl
      · obtain ⟨bq, q1, q2, q3⟩ := c2 hw (by omega)
        rw [q3]
        exact requestOK_reset hS q2 (hI.wf bq (List.mem_iff_getElem?.2 ⟨_, q1⟩))
    · rw [c3 (by omega)]
      rcases hI.request with h0 | ⟨bq, k, hq, hk, hcur, hlast⟩
      · exact Or.inl h0
      · right
        obtain ⟨hql, _⟩ := List.getElem?_eq_some.1 hq
        have hwh : s._S_last_request._M_where = s._S_last_request._M_curr_index := by
          unfold _Bitmap_counter._M_where
          exact Nat.mod_eq_of_lt (by omega)
        rw [hwh] at hw
        refine ⟨bq, k, ?_, hk, hcur, hlast⟩
        rw [hs1, erase_getElem_lt _ hil (by omega)]
        exact hq
  · rw [hs1, hel, g5]
    have hsz : (s._S_mem_blocks.erase diff).size = s._S_mem_blocks.elems.length - 1 := hel
    rw [hsz, hldi]
    by_cases hge : diff ≥ s._S_mem_blocks.elems.length - 1
    · rw [if_pos hge]
      by_cases hd0 : diff = 0
      · right
        refine ⟨by omega, ?_⟩
        rw [if_neg (by omega)]
      · left
        rw [if_pos (by omega)]
        have : (diff : Int) - 1 = ((diff - 1 : Nat) : Int) := by omega
        rw [this, to_size_t_of_nat _ (by omega)]
        omega
    · rw [if_neg hge]
      left; omega
  · rw [hs1, hel, g2]
    rcases hI.growth with ⟨hG, _⟩ | ⟨hG, hl26⟩
    · left
      rw [hG]
      exact ⟨rfl, by omega⟩
    · right
      refine ⟨?_, by omega⟩
      rw [hG]
      exact growth_halve (by omega)

/-- The invariant `CursorInv` after a completed `deallocate_at` for the index
`_S_last_dealloc_index`. -/
theorem deallocate_at_cursor_inv {S : Nat} (hS : 0 < S) {s s1 : State} (hI : CursorInv S s)
    {diff : Nat} (hldi : s._S_last_dealloc_index = diff) {disp : Int} {grow : Bool}
    (h : deallocate_at S grow s diff disp = Outcome.ok s1) : CursorInv S s1 := by
  unfold deallocate_at at h
  cases hb : s._S_mem_blocks.elems[diff]? with
  | none => rw [hb] at h; exact Outcome.noConfusion h
  | some bp =>
    rw [hb] at h
    by_cases h0 : release_mem S s.mem bp disp (use_count_addr S bp) = 0
    · have h2 : reclaim_chunk S grow { s with mem := release_mem S s.mem bp disp } diff bp
          = Outcome.ok s1 := by
        rw [← h]; exact (if_pos h0).symm
      exact reclaim_cursor_inv hS (s := { s with mem := release_mem S s.mem bp disp })
        ⟨hI.wf, hI.request, hI.hint, hI.growth⟩ hb hldi h2
    · have h2 : Outcome.ok { s with mem := release_mem S s.mem bp disp } = Outcome.ok s1 := by
        rw [← h]; exact (if_neg h0).symm
      injection h2 with h2
      rw [← h2]
      exact ⟨hI.wf, hI.request, hI.hint, hI.growth⟩

/-- The invariant `CursorInv` after a completed `_M_deallocate_single_object`, for any
pointer. -/
theorem dealloc_cursor_inv {S : Nat} (hS : 0 < S) {s s1 : State} (hI : CursorInv S s)
    {grow : Bool} {p : Nat}
    (h : _M_deallocate_single_object S grow s p = Outcome.ok s1) : CursorInv S s1 := by
  unfold _M_deallocate_single_object at h
  cases hb0 : s._S_mem_blocks.elems[s._S_last_dealloc_index]? with
  | none => rw [hb0] at h; exact Outcome.noConfusion h
  | some bp0 =>
    rw [hb0] at h
    by_cases hin : _Inclusive_between p bp0 = true
    · have h2 : deallocate_at S grow s s._S_last_dealloc_index
          (to_int (((p : Int) - (bp0.1 : Int)) / (S : Int))) = Outcome.ok s1 := by
        rw [← h]; exact (if_pos hin).symm
      exact deallocate_at_cursor_inv hS hI rfl h2
    · cases hb : s._S_mem_blocks.elems[(__find_if
          (fun (u : Unit) bp => (_Inclusive_between p bp, u)) s._S_mem_blocks.elems 0 ()).1]? with
      | none =>
        exfalso
        have h2 : (Outcome.fault : Outcome State) = Outcome.ok s1 := by
          rw [← h]
          refine Eq.trans ?_ (if_neg hin).symm
          rw [hb]
        exact Outcome.noConfusion h2
      | some bp =>
        have h2 : deallocate_at S grow
            { s with _S_last_dealloc_index :=
                (__find_if (fun (u : Unit) bp => (_Inclusive_between p bp, u))
                  s._S_mem_blocks.elems 0 ()).1 }
            (__find_if (fun (u : Unit) bp => (_Inclusive_between p bp, u))
              s._S_mem_blocks.elems 0 ()).1
            (to_int (((p : Int) - (bp.1 : Int)) / (S : Int))) = Outcome.ok s1 := by
          rw [← h]
          refine Eq.trans ?_ (if_neg hin).symm
          rw [hb]
        obtain ⟨hil, _⟩ := List.getElem?_eq_some.1 hb
        exact deallocate_at_cursor_inv hS (s := { s with _S_last_dealloc_index :=
          (__find_if (fun (u : Unit) bp => (_Inclusive_between p bp, u))
            s._S_mem_blocks.elems 0 ()).1 })
          ⟨hI.wf, hI.request, Or.inl hil, hI.growth⟩ rfl h2

theorem CursorInv.at_fresh (S : Nat) (m : Memory) : CursorInv S (State.fresh m) :=
  ⟨fun _ h => by simp [State.fresh, __mini_vector.empty] at h, Or.inl rfl, Or.inr ⟨rfl, rfl⟩,
    Or.inr ⟨rfl, by show 0 ≤ 26; omega⟩⟩

/-- Every state of a run satisfies `CursorInv`. -/
theorem Run.cursor_inv {S : Nat} (hS : 0 < S) {s : State} {live : List Nat}
    (h : Run S s live) : CursorInv S s := by
  induction h with
  | fresh m => exact CursorInv.at_fresh S m
  | alloc _ henv ha ih => exact (alloc_cursor_inv hS ih henv).1 _ _ ha
  | alloc_failed _ henv ha ih => exact (alloc_cursor_inv hS ih henv).2 _ ha
  | dealloc _ _ hd ih => exact dealloc_cursor_inv hS ih hd
  | store a v _ _ _ _ ih => exact ⟨ih.wf, ih.request, ih.hint, ih.growth⟩

/-- The runs `Reach` are runs. -/
theorem run_of_reach {S : Nat} {s : State} {live : List Nat} (h : Reach S s live) :
    Run S s live := by
  induction h with
  | fresh m => exact Run.fresh m
  | alloc _ henv ha ih => exact Run.alloc ih (fun b fl hg => (henv b fl hg).1) ha
  | alloc_failed _ henv ha ih => exact Run.alloc_failed ih (fun b fl hg => (henv b fl hg).1) ha
  | dealloc _ hp hd ih => exact Run.dealloc ih hp hd

theorem block_ok_sound {S : Nat} {s : State} {env : Env} (h : block_ok S s env = true) :
    BlockOK S s env := by
  intro b fl hget
  unfold block_ok at h
  rw [hget] at h
  simpa using h

theorem run_step_run {S : Nat} {st : State × List Nat} (h : Run S st.1 st.2) (c : Step) :
    Run S (run_step S st c).1 (run_step S st c).2 := by
  cases c with
  | allocate env =>
    simp only [run_step]
    by_cases he : block_ok S st.1 env = true
    · rw [if_pos he]
      cases ho : _M_allocate_single_object S env st.1 with
      | ok r => exact Run.alloc h (block_ok_sound he) ho
      | bad_alloc s1 => exact Run.alloc_failed h (block_ok_sound he) ho
      | fault => exact h
    · rw [if_neg he]; exact h
  | deallocate p grow =>
    simp only [run_step]
    by_cases hp : p ∈ st.2
    · rw [if_pos hp]
      cases ho : _M_deallocate_single_object S grow st.1 p with
      | ok s1 => exact Run.dealloc h hp ho
      | bad_alloc s1 => exact h
      | fault => exact h
    · rw [if_neg hp]; exact h
  | store p a v =>
    simp only [run_step]
    by_cases hp : p ∈ st.2 ∧ p ≤ a ∧ a < p + S
    · rw [if_pos hp]
      exact Run.store a v h hp.1 hp.2.1 hp.2.2
    · rw [if_neg hp]; exact h

theorem foldl_run_step {S : Nat} (steps : List Step) {st : State × List Nat}
    (h : Run S st.1 st.2) :
    Run S (steps.foldl (run_step S) st).1 (steps.foldl (run_step S) st).2 := by
  induction steps generalizing st with
  | nil => exact h
  | cons c cs ih => exact ih (run_step_run h c)

/-- The state after a sequence of steps on a fresh allocator is the state of a run. -/
theorem run_steps_run (S : Nat) (m : Memory) (steps : List Step) :
    Run S (run_steps S m steps).1 (run_steps S m steps).2 :=
  foldl_run_step steps (Run.fresh m)

/-- The header that a refill writes, the use-count word and `_S_block_size / 32` bitmap
words, fits into the bytes that the refill requests, also when the requested size has
wrapped. -/
theorem refill_header_fits {S : Nat} {s : State} (hI : CursorInv S s) :
    word_size * (s._S_block_size / bits_per_block + 1) ≤ refill_size S s := by
  unfold refill_size
  rcases hI.growth with ⟨hG, _⟩ | ⟨hG, hl⟩
  · rw [hG, Nat.zero_mul]; decide
  · have hp : 2 ^ s._S_mem_blocks.elems.length * 2 ^ (26 - s._S_mem_blocks.elems.length)
        = 2 ^ 26 := by
      rw [← Nat.pow_add]
      congr 1
      omega
    have h1 : 1 ≤ 2 ^ s._S_mem_blocks.elems.length := Nat.one_le_two_pow
    have h26 : 2 ^ s._S_mem_blocks.elems.length ≤ 2 ^ 26 :=
      Nat.pow_le_pow_right (by omega) hl
    have e1 : s._S_block_size / bits_per_block = 2 ^ s._S_mem_blocks.elems.length := by
      rw [hG]
      exact Nat.mul_div_cancel_left _ (by decide : 0 < bits_per_block)
    have e2 : (2 : Nat) ^ 32
        = s._S_block_size * (2 * 2 ^ (26 - s._S_mem_blocks.elems.length)) := by
      rw [hG]
      have : 32 * 2 ^ s._S_mem_blocks.elems.length
          * (2 * 2 ^ (26 - s._S_mem_blocks.elems.length))
          = 64 * (2 ^ s._S_mem_blocks.elems.length
            * 2 ^ (26 - s._S_mem_blocks.elems.length)) := by ring
      rw [this, hp]
      decide
    have e3 : s._S_block_size * S % 2 ^ 32
        = s._S_block_size * (S % (2 * 2 ^ (26 - s._S_mem_blocks.elems.length))) := by
      rw [e2]
      exact Nat.mul_mod_mul_left _ _ _
    have hlt : S % (2 * 2 ^ (26 - s._S_mem_blocks.elems.length)) + 1
        ≤ 2 * 2 ^ (26 - s._S_mem_blocks.elems.length) :=
      Nat.mod_lt _ (by positivity)
    have hmul : s._S_block_size * S % 2 ^ 32 + s._S_block_size ≤ 2 ^ 32 := by
      have := Nat.mul_le_mul_left s._S_block_size hlt
      rw [Nat.mul_add, Nat.mul_one, ← e3, ← e2] at this
      exact this
    have hhdr : word_size + s._S_block_size / bits_per_block * word_size
        = 4 + 4 * 2 ^ s._S_mem_blocks.elems.length := by
      rw [e1]; unfold word_size; omega
    have hsum : word_size + s._S_block_size * S + s._S_block_size / bits_per_block * word_size
        = s._S_block_size * S + (4 + 4 * 2 ^ s._S_mem_blocks.elems.length) := by
      rw [← hhdr]; ring
    have hfit : s._S_block_size * S % 2 ^ 32 + (4 + 4 * 2 ^ s._S_mem_blocks.elems.length)
        < 2 ^ 32 := by
      rw [hG] at hmul ⊢
      omega
    have hres : (s._S_block_size * S + (4 + 4 * 2 ^ s._S_mem_blocks.elems.length)) % 2 ^ 32
        = s._S_block_size * S % 2 ^ 32 + (4 + 4 * 2 ^ s._S_mem_blocks.elems.length) := by
      rw [Nat.add_mod, Nat.mod_eq_of_lt (by omega :
        4 + 4 * 2 ^ s._S_mem_blocks.elems.length < 2 ^ 32), Nat.mod_eq_of_lt hfit]
    rw [hsum, hres, e1]
    unfold word_size
    omega

/-- C21: in every state of a run, that is after `allocate(1)` calls in any environment
whose blocks are not null (nothing is assumed about the size of a block or about where
it lies, so a block may be as small as the wrapped size requested for it and chunks may
overlap), `deallocate(p, 1)` calls on allocated pointers and stores of the program into
allocated slots: a cursor that is not finished has a chunk index below the size of the
registry and stands on a bitmap word of that chunk, between its last and its first
bitmap word (so above the use-count word and below the slot base); `operator++` keeps
every such cursor finished or on a bitmap word of a registered chunk; the loop of
`_M_allocate_single_object` ends with the cursor finished or on a bitmap word of a
registered chunk that is not zero; and the header that a refill writes fits into the
bytes it requests. -/
theorem C21_cursor_in_bounds {S : Nat} (hS : 0 < S) {s : State} {live : List Nat}
    (h : Run S s live) :
    (s._S_last_request._M_finished = false →
      s._S_last_request._M_curr_index < s._S_mem_blocks.size ∧
      ∃ bp k, s._S_mem_blocks.elems[s._S_last_request._M_curr_index]? = some bp ∧
        k < __num_bitmaps S bp ∧ s._S_last_request._M_curr_bmap = bitmap_addr bp k ∧
        bitmap_addr bp (__num_bitmaps S bp - 1) ≤ s._S_last_request._M_curr_bmap ∧
        s._S_last_request._M_curr_bmap ≤ bitmap_addr bp 0 ∧
        use_count_addr S bp < s._S_last_request._M_curr_bmap ∧
        s._S_last_request._M_curr_bmap < bp.1) ∧
    (∀ c, RequestOK S s._S_mem_blocks.elems c → c._M_finished = false →
      ∃ c1, c.incr S s._S_mem_blocks.elems = some c1 ∧
        RequestOK S s._S_mem_blocks.elems c1) ∧
    (∃ c1, advance_request S s.mem s._S_mem_blocks.elems
        (request_fuel S s._S_mem_blocks.elems) s._S_last_request = some c1 ∧
      (c1._M_finished = true ∨
        ∃ bp k, s._S_mem_blocks.elems[c1._M_curr_index]? = some bp ∧
          k < __num_bitmaps S bp ∧ c1._M_curr_bmap = bitmap_addr bp k ∧
          s.mem c1._M_curr_bmap ≠ 0)) ∧
    word_size * (s._S_block_size / bits_per_block + 1) ≤ refill_size S s := by
  have hI := h.cursor_inv hS
  refine ⟨?_, ?_, ?_, refill_header_fits hI⟩
  · intro hnf
    rcases hI.request with h0 | ⟨bp, k, hi, hk, hcur, _⟩
    · simp [_Bitmap_counter._M_finished, h0] at hnf
    · obtain ⟨hil, _⟩ := List.getElem?_eq_some.1 hi
      obtain ⟨n, h1, h2, h3, h4, h5, h6, h7, h8⟩ :=
        wf_facts hS (hI.wf bp (List.mem_iff_getElem?.2 ⟨_, hi⟩))
      refine ⟨hil, bp, k, hi, hk, hcur, ?_, ?_, ?_, ?_⟩
      · rw [hcur, h3]; unfold bitmap_addr word_size; omega
      · rw [hcur]; unfold bitmap_addr word_size; omega
      · rw [hcur, h5]; unfold bitmap_addr word_size; omega
      · rw [hcur]; unfold bitmap_addr word_size; omega
  · intro c hc hnf
    rcases hc with h0 | ⟨bp, k, hi, hk, hcur, hlast⟩
    · simp [_Bitmap_counter._M_finished, h0] at hnf
    · obtain ⟨hil, _⟩ := List.getElem?_eq_some.1 hi
      have hlen := hI.registry_le
      obtain ⟨_, g1, g2, g3⟩ :=
        incr_on_word hS hI.wf (by omega) hi hk c hcur hlast rfl
      by_cases hk1 : k + 1 < __num_bitmaps S bp
      · exact ⟨_, g1 hk1, Or.inr ⟨bp, k + 1, hi, hk1, rfl, hlast⟩⟩
      · by_cases hend : c._M_curr_index + 1 = s._S_mem_blocks.elems.length
        · exact ⟨_, g3 (by omega) hend, Or.inl rfl⟩
        · have hil2 : c._M_curr_index + 1 < s._S_mem_blocks.elems.length := by omega
          have hq := List.getElem?_eq_getElem hil2
          exact ⟨_, g2 (by omega) _ hq,
            requestOK_reset hS hq (hI.wf _ (List.mem_iff_getElem?.2 ⟨_, hq⟩))⟩
  · obtain ⟨c1, hc1, hok, hnz⟩ := advance_request_any hS hI
    refine ⟨c1, hc1, ?_⟩
    rcases hok with h0 | ⟨bp, k, hi, hk, hcur, _⟩
    · left; simp [_Bitmap_counter._M_finished, h0]
    · rcases hnz with h0 | hnz
      · left; simp [_Bitmap_counter._M_finished, h0]
      · exact Or.inr ⟨bp, k, hi, hk, hcur, hnz⟩

set_option maxRecDepth 100000 in
/-- The instance of C21 at the run `overlap_cursor`, with slots of `2 ^ 27` bytes and
overlapping chunks: the program has stored 0 at 1016, inside its object at 1008; this is
bitmap word 0 of the chunk at index 1, on which the cursor stands. -/
theorem C21_cursor_in_bounds_witness :
    (overlap_cursor.1._S_mem_blocks.elems = [(1008, 4160750576), (1020, 8455717884)] ∧
      overlap_cursor.1._S_last_request._M_curr_index = 1 ∧
      overlap_cursor.1._S_last_request._M_curr_bmap = 1016 ∧
      overlap_cursor.1.mem 1016 = 0 ∧ 1008 ∈ overlap_cursor.2 ∧
      refill_size wide overlap_cursor.1 = 20) ∧
    (overlap_cursor.1._S_last_request._M_finished = false →
      overlap_cursor.1._S_last_request._M_curr_index < overlap_cursor.1._S_mem_blocks.size ∧
      ∃ bp k, overlap_cursor.1._S_mem_blocks.elems[
            overlap_cursor.1._S_last_request._M_curr_index]? = some bp ∧
        k < __num_bitmaps wide bp ∧
        overlap_cursor.1._S_last_request._M_curr_bmap = bitmap_addr bp k ∧
        bitmap_addr bp (__num_bitmaps wide bp - 1)
          ≤ overlap_cursor.1._S_last_request._M_curr_bmap ∧
        overlap_cursor.1._S_last_request._M_curr_bmap ≤ bitmap_addr bp 0 ∧
        use_count_addr wide bp < overlap_cursor.1._S_last_request._M_curr_bmap ∧
        overlap_cursor.1._S_last_request._M_curr_bmap < bp.1) ∧
    (∀ c, RequestOK wide overlap_cursor.1._S_mem_blocks.elems c → c._M_finished = false →
      ∃ c1, c.incr wide overlap_cursor.1._S_mem_blocks.elems = some c1 ∧
        RequestOK wide overlap_cursor.1._S_mem_blocks.elems c1) ∧
    (∃ c1, advance_request wide overlap_cursor.1.mem overlap_cursor.1._S_mem_blocks.elems
        (request_fuel wide overlap_cursor.1._S_mem_blocks.elems)
        overlap_cursor.1._S_last_request = some c1 ∧
      (c1._M_finished = true ∨
        ∃ bp k, overlap_cursor.1._S_mem_blocks.elems[c1._M_curr_index]? = some bp ∧
          k < __num_bitmaps wide bp ∧ c1._M_curr_bmap = bitmap_addr bp k ∧
          overlap_cursor.1.mem c1._M_curr_bmap ≠ 0)) ∧
    word_size * (overlap_cursor.1._S_block_size / bits_per_block + 1)
      ≤ refill_size wide overlap_cursor.1 :=
  ⟨by decide,
    C21_cursor_in_bounds (by decide)
      (run_steps_run wide zero_mem (wide_spill ++ [Step.store 1008 1016 0]))⟩

/-! ### Overlapping chunks

For slots of `2 ^ 27` bytes the size that `_S_refill_pool` requests for the first chunk,
`4 + 32 * 2 ^ 27 + 4` stored in an `unsigned int`, is 8.  A raw allocator that answers
the second request with the block right behind these 8 bytes is answered with a chunk
whose header lies in slot 0 of the first chunk and whose slots lie in the slots of the
first chunk. -/

set_option maxRecDepth 100000 in
/-- C1 fails on the code, for slots of `2 ^ 27` bytes: after 32 `allocate(1)` calls (block
at 1000, 8 bytes requested), a 33rd (block at 1008, right behind these 8 bytes; 12 bytes
requested), `deallocate(1020, 1)` and `deallocate(1008, 1)`, both on allocated pointers,
the registered chunk `(1008, 4160750576)` of `N = 32` slots has use-count 30 and one set
bitmap bit: `use_count + popcount(bitmap) = 31`. -/
theorem C1_overlap_breaks_count :
    Run wide overlap_freed_twice.1 overlap_freed_twice.2 ∧
    (wide = 2 ^ 27 ∧ refill_size wide (State.fresh zero_mem) = 8 ∧
      refill_size wide wide_full.1 = 12 ∧ 1000 + 8 ≤ 1008 ∧
      overlap_run.2.length = 33 ∧ 1020 ∈ overlap_run.2 ∧ 1008 ∈ overlap_freed.2 ∧
      overlap_freed.2.length = 32 ∧ overlap_freed_twice.2.length = 31) ∧
    (overlap_freed_twice.1._S_mem_blocks.elems
        = [(1008, 4160750576), (1020, 8455717884)] ∧
      __num_blocks wide (1008, 4160750576) = 32 ∧
      use_count wide overlap_freed_twice.1.mem (1008, 4160750576) = 30 ∧
      free_slots wide overlap_freed_twice.1.mem (1008, 4160750576) = 1 ∧
      use_count wide overlap_freed_twice.1.mem (1008, 4160750576)
        + free_slots wide overlap_freed_twice.1.mem (1008, 4160750576)
        ≠ __num_blocks wide (1008, 4160750576)) :=
  ⟨run_steps_run wide zero_mem
      (wide_spill ++ [Step.deallocate 1020 true, Step.deallocate 1008 true]),
    by decide, by decide⟩

set_option maxRecDepth 100000 in
/-- C2 fails on the code, for slots of `2 ^ 27` bytes: after the steps `wide_spill` and
`deallocate(1020, 1)` the pointer 1008, slot 0 of the chunk `(1008, 4160750576)`, is
allocated and its bitmap bit is 1, and the pointer 1020, slot 0 of the chunk
`(1020, 8455717884)`, is deallocated and its bitmap bit is 0.  After 63 more
`allocate(1)` calls the pointer 1008 is still allocated, and the next `allocate(1)`
returns 1008. -/
theorem C2_overlap_breaks_bitmap :
    (Run wide overlap_freed.1 overlap_freed.2 ∧ Run wide overlap_reused.1 overlap_reused.2) ∧
    (wide = 2 ^ 27 ∧ refill_size wide (State.fresh zero_mem) = 8 ∧
      refill_size wide wide_full.1 = 12 ∧ 1000 + 8 ≤ 1008 ∧
      overlap_run.2.length = 33 ∧ 1020 ∈ overlap_run.2 ∧ overlap_freed.2.length = 32) ∧
    (overlap_freed.1._S_mem_blocks.elems = [(1008, 4160750576), (1020, 8455717884)] ∧
      1008 = slot_addr wide (1008, 4160750576) 0 ∧ 1008 ∈ overlap_freed.2 ∧
      slot_bit overlap_freed.1.mem (1008, 4160750576) 0 = true ∧
      1020 = slot_addr wide (1020, 8455717884) 0 ∧ 1020 ∉ overlap_freed.2 ∧
      slot_bit overlap_freed.1.mem (1020, 8455717884) 0 = false) ∧
    (overlap_refilled.2.length = 95 ∧ 1008 ∈ overlap_refilled.2 ∧
      overlap_reused.2 = 1008 :: overlap_refilled.2) :=
  ⟨⟨run_steps_run wide zero_mem (wide_spill ++ [Step.deallocate 1020 true]),
      run_steps_run wide zero_mem
        (wide_spill ++ [Step.deallocate 1020 true] ++
          List.replicate 64 (Step.allocate env_none))⟩,
    by decide, by decide, by decide⟩

set_option maxRecDepth 100000 in
/-- C3 fails on the code, for slots of `2 ^ 27` bytes: the state `wide_full` is reachable;
the raw allocator has handed out the 8 bytes at 1000 and answers the request of 12 bytes
with the block at 1008, disjoint from them; the `allocate(1)` call returns 1020, and
`_Inclusive_between(1020)` holds for both pairs of the registry as it stands after the
call. -/
theorem C3_overlap_two_chunks :
    (Reach wide wide_full.1 wide_full.2 ∧ Run wide overlap_run.1 overlap_run.2) ∧
    (wide = 2 ^ 27 ∧ refill_size wide (State.fresh zero_mem) = 8 ∧
      refill_size wide wide_full.1 = 12 ∧ 1000 + 8 ≤ 1008 ∧
      wide_full.1._S_mem_blocks.elems = [(1008, 4160750576)]) ∧
    ((_M_allocate_single_object wide (env_at 1008) wide_full.1).completed = true ∧
      ((_M_allocate_single_object wide (env_at 1008) wide_full.1).result
        (State.fresh zero_mem, 0)).2 = 1020 ∧
      ((_M_allocate_single_object wide (env_at 1008) wide_full.1).result
        (State.fresh zero_mem, 0)).1._S_mem_blocks.elems
        = [(1008, 4160750576), (1020, 8455717884)] ∧
      _Inclusive_between 1020 (1008, 4160750576) = true ∧
      _Inclusive_between 1020 (1020, 8455717884) = true) :=
  ⟨⟨run_calls_reach wide zero_mem
        ((env_at 1000 :: List.replicate 31 env_none).map Call.allocate),
      run_steps_run wide zero_mem wide_spill⟩,
    by decide, by decide⟩

set_option maxRecDepth 100000 in
/-- C4 fails on the code, for slots of `2 ^ 27` bytes: in the reachable state `wide_full`
(one pair, use-count 32, bitmap word 0) `allocate(1)` refills with the block at 1008 and
returns 1020; `deallocate(1020, 1)` then leaves two pairs in the registry, and the chunk
`(1008, 4160750576)` has use-count 31 and bitmap word 1. -/
theorem C4_overlap_round_trip :
    Reach wide wide_full.1 wide_full.2 ∧
    (wide = 2 ^ 27 ∧ refill_size wide (State.fresh zero_mem) = 8 ∧
      refill_size wide wide_full.1 = 12 ∧ 1000 + 8 ≤ 1008) ∧
    (wide_full.1._S_mem_blocks.elems = [(1008, 4160750576)] ∧
      use_count wide wide_full.1.mem (1008, 4160750576) = 32 ∧
      wide_full.1.mem (bitmap_addr (1008, 4160750576) 0) = 0) ∧
    ((_M_allocate_single_object wide (env_at 1008) wide_full.1).completed = true ∧
      ((_M_allocate_single_object wide (env_at 1008) wide_full.1).result
        (State.fresh zero_mem, 0)).2 = 1020 ∧
      (_M_deallocate_single_object wide true
        ((_M_allocate_single_object wide (env_at 1008) wide_full.1).result
          (State.fresh zero_mem, 0)).1 1020).completed = true ∧
      ((_M_deallocate_single_object wide true
        ((_M_allocate_single_object wide (env_at 1008) wide_full.1).result
          (State.fresh zero_mem, 0)).1 1020).result
        (State.fresh zero_mem))._S_mem_blocks.elems
        = [(1008, 4160750576), (1020, 8455717884)] ∧
      use_count wide
        ((_M_deallocate_single_object wide true
          ((_M_allocate_single_object wide (env_at 1008) wide_full.1).result
            (State.fresh zero_mem, 0)).1 1020).result (State.fresh zero_mem)).mem
        (1008, 4160750576) = 31 ∧
      ((_M_deallocate_single_object wide true
        ((_M_allocate_single_object wide (env_at 1008) wide_full.1).result
          (State.fresh zero_mem, 0)).1 1020).result (State.fresh zero_mem)).mem
        (bitmap_addr (1008, 4160750576) 0) = 1) :=
  ⟨run_calls_reach wide zero_mem
      ((env_at 1000 :: List.replicate 31 env_none).map Call.allocate),
    by decide, by decide, by decide⟩

set_option maxRecDepth 100000 in
/-- C9 fails on the code, for slots of `2 ^ 27` bytes: in the run `overlap_single` the
pointers 1008 and 1020 are allocated; 1020 is slot 0 of the chunk `(1020, 8455717884)`
at position 1 and the only allocated slot of that chunk, whose use-count is 1.
`deallocate(1020, 1)` erases position 0, the pair `(1008, 4160750576)`, and leaves the
pair of the chunk of 1020 registered. -/
theorem C9_overlap_erases_other :
    (Run wide overlap_single.1 overlap_single.2 ∧
      Run wide overlap_reclaimed.1 overlap_reclaimed.2) ∧
    (wide = 2 ^ 27 ∧ refill_size wide (State.fresh zero_mem) = 8 ∧
      refill_size wide wide_full.1 = 12 ∧ 1000 + 8 ≤ 1008) ∧
    (overlap_single.1._S_mem_blocks.elems = [(1008, 4160750576), (1020, 8455717884)] ∧
      overlap_single.2 = [1020, 1008] ∧
      1020 = slot_addr wide (1020, 8455717884) 0 ∧
      use_count wide overlap_single.1.mem (1020, 8455717884) = 1 ∧
      slot_bit overlap_single.1.mem (1020, 8455717884) 0 = false ∧
      (∀ d < 64, d ≠ 0 → slot_bit overlap_single.1.mem (1020, 8455717884) d = true) ∧
      overlap_single.1._S_free_list.elems = []) ∧
    (overlap_reclaimed.2 = [1008] ∧
      overlap_reclaimed.1._S_mem_blocks.elems = [(1020, 8455717884)] ∧
      overlap_reclaimed.1._S_mem_blocks.elems
        ≠ overlap_single.1._S_mem_blocks.elems.eraseIdx 1 ∧
      overlap_reclaimed.1._S_free_list.elems
        = [use_count_addr wide (1008, 4160750576) - word_size]) :=
  ⟨⟨run_steps_run wide zero_mem (wide_spill ++ wide_rest.map fun p => Step.deallocate p true),
      run_steps_run wide zero_mem
        ((wide_spill ++ wide_rest.map fun p => Step.deallocate p true) ++
          [Step.deallocate 1020 true])⟩,
    by decide, by decide, by decide⟩

set_option maxRecDepth 100000 in
/-- C19 fails on the code, for slots of `2 ^ 27` bytes: in the run `overlap_run` the
pointer 1020 is allocated and is `first + 0` of the registered chunk
`(1020, 8455717884)`, whose bitmap word 0 is at 1016.  `deallocate(1020, 1)` leaves
that word as it is, with bit 0 clear, and sets bit 0 of the bitmap word at 1004 of the
chunk `(1008, 4160750576)`. -/
theorem C19_overlap_sets_other_bit :
    (Run wide overlap_run.1 overlap_run.2 ∧ Run wide overlap_freed.1 overlap_freed.2) ∧
    (wide = 2 ^ 27 ∧ refill_size wide (State.fresh zero_mem) = 8 ∧
      refill_size wide wide_full.1 = 12 ∧ 1000 + 8 ≤ 1008) ∧
    (overlap_run.1._S_mem_blocks.elems = [(1008, 4160750576), (1020, 8455717884)] ∧
      1020 ∈ overlap_run.2 ∧ 1020 = slot_addr wide (1020, 8455717884) 0 ∧
      __num_blocks wide (1020, 8455717884) = 64 ∧
      bitmap_addr (1020, 8455717884) (0 / 32) = 1016 ∧
      bitmap_addr (1008, 4160750576) 0 = 1004 ∧
      overlap_run.1.mem 1016 = 2 ^ 32 - 2 ∧ overlap_run.1.mem 1004 = 0) ∧
    (overlap_freed.2.length = 32 ∧ 1020 ∉ overlap_freed.2 ∧
      overlap_freed.1.mem 1016 = 2 ^ 32 - 2 ∧
      overlap_freed.1.mem 1016
        ≠ overlap_run.1.mem 1016 ||| ((1 <<< (0 % 32)) % 2 ^ 32) ∧
      overlap_freed.1.mem 1004 = 1) :=
  ⟨⟨run_steps_run wide zero_mem wide_spill,
      run_steps_run wide zero_mem (wide_spill ++ [Step.deallocate 1020 true])⟩,
    by decide, by decide, by decide⟩

set_option maxRecDepth 100000 in
/-- C27 fails on the code, for slots of `2 ^ 27` bytes: in the run `overlap_run` the
use-count word of the registered chunk `(1020, 8455717884)` is at 1008, the first word
of the allocated object at 1008.  After the program has stored 0 there,
`deallocate(1008 + 2 ^ 27, 1)`, a call on an allocated pointer, completes and leaves
that chunk registered with use-count 0. -/
theorem C27_overlap_unused_chunk :
    Run wide overlap_stored.1 overlap_stored.2 ∧
    (wide = 2 ^ 27 ∧ refill_size wide (State.fresh zero_mem) = 8 ∧
      refill_size wide wide_full.1 = 12 ∧ 1000 + 8 ≤ 1008) ∧
    (overlap_run.1._S_mem_blocks.elems = [(1008, 4160750576), (1020, 8455717884)] ∧
      use_count_addr wide (1020, 8455717884) = 1008 ∧ 1008 ∈ overlap_run.2 ∧
      1008 + wide ∈ overlap_run.2 ∧ overlap_run.2.length = 33 ∧
      use_count wide overlap_run.1.mem (1020, 8455717884) = 1) ∧
    (overlap_stored.2.length = 32 ∧ 1008 + wide ∉ overlap_stored.2 ∧
      overlap_stored.1._S_mem_blocks.elems = [(1008, 4160750576), (1020, 8455717884)] ∧
      use_count wide overlap_stored.1.mem (1020, 8455717884) = 0 ∧
      use_count wide overlap_stored.1.mem (1008, 4160750576) = 31) :=
  ⟨run_steps_run wide zero_mem
      (wide_spill ++ [Step.store 1008 1008 0, Step.deallocate (1008 + wide) true]),
    by decide, by decide, by decide⟩

end BitmapAlloc
